import Mathlib

/-!
# Buffered piece collection

A shallow embedding of `boost/geometry/extensions/algorithms/buffer/buffered_piece_collection.hpp`.

Conventions of the embedding.

* C++ `int` values are `Int`; no arithmetic in the embedded functions can overflow on inputs
  of realistic size, so no wrap-around is modelled.
* `std::vector` is `List`; a vector position is a `Nat` obtained from the `int` with `Int.toNat`
  after the range has been checked.
* A failed `BOOST_ASSERT` and an access outside a container (undefined behaviour in C++) make a
  function of the embedding return `none`.
* Collaborators that live outside the embedded sources are parameters of the functions that call
  them: `recalculate` (the rescale policy), `std_sort` together with `buffer_operation_less`,
  `point_in_geometry`, `side` (the side strategy) and `covered_by`.
* The working point type `P` and the segment ratio type `F` are type parameters.  Robust points
  are pairs of integers.
-/

namespace buffer

/-! ## Data model -/

/-- Tag of a piece.  The enumeration is declared next to the turn policies; the constructors are
the ones the collection names. -/
inductive piece_type where
  | buffered_segment
  | buffered_join
  | buffered_round_end
  | buffered_flat_end
  deriving DecidableEq, Repr

/-- Classification of a turn: `location_ok`, `inside_buffer` or `inside_original`. -/
inductive intersection_location_type where
  | location_ok
  | inside_buffer
  | inside_original
  deriving DecidableEq, Repr

/-- Geometry tag that selects the specialisation of `check_original`. -/
inductive geometry_tag where
  | polygon_tag
  | linestring_tag
  | point_tag
  deriving DecidableEq, Repr

/-- Identifier of a segment of an offsetted ring. -/
structure segment_identifier where
  source_index : Int
  multi_index : Int
  ring_index : Int
  segment_index : Int
  deriving DecidableEq, Repr

/-- Robust (quantized) point: integer coordinates. -/
structure robust_point_type where
  x : Int
  y : Int
  deriving DecidableEq, Repr

/-- One of the two operations of a turn (`buffer_turn_operation`). -/
structure buffer_turn_operation (F : Type) where
  piece_index : Int
  index_in_robust_ring : Int
  seg_id : segment_identifier
  other_id : segment_identifier
  fraction : F
  deriving DecidableEq, Repr

/-- Turn (`buffer_turn_info`); `operations[0]` and `operations[1]` are `op0` and `op1`. -/
structure buffer_turn_info (P F : Type) where
  point : P
  robust_point : robust_point_type
  mapped_robust_point : robust_point_type
  op0 : buffer_turn_operation F
  op1 : buffer_turn_operation F
  location : intersection_location_type
  count_within : Int
  count_on_offsetted : Int
  count_on_helper : Int
  count_on_occupied : Int
  count_on_multi : Int
  deriving DecidableEq, Repr

/-- Entry of `piece::robust_turns`. -/
structure robust_turn (F : Type) where
  turn_index : Int
  operation_index : Int
  point : robust_point_type
  seg_id : segment_identifier
  fraction : F
  deriving DecidableEq, Repr

/-- Piece of the collection (`struct piece`). -/
structure piece (P F : Type) where
  type : piece_type
  index : Int
  first_seg_id : segment_identifier
  last_segment_index : Int
  offsetted_count : Int
  helper_segments : List P
  robust_turns : List (robust_turn F)
  robust_ring : List robust_point_type
  deriving DecidableEq, Repr

/-- State of a `buffered_piece_collection` as far as the piece generator, the turn finder,
`rescale_pieces`, the classification passes, the occupation pass and the final passes read or
write it: the pieces, the turns, the points of the offsetted rings, the running segment
identifier and the traversed rings.  The two flags of the offsetted rings are kept beside the
points: `has_accepted_intersections` and `has_discarded_intersections` list the indices of the
offsetted rings whose flag of that name is set. -/
structure buffered_piece_collection (P F : Type) where
  m_pieces : List (piece P F)
  m_turns : List (buffer_turn_info P F)
  offsetted_rings : List (List P)
  current_segment_id : segment_identifier
  traversed_rings : List (List P)
  has_accepted_intersections : List Nat
  has_discarded_intersections : List Nat
  deriving DecidableEq, Repr

section definitions

variable {P F : Type}

/-- Accessor `turn.operations[i]` for the two positions `i = 0` and `i = 1` of the array. -/
def buffer_turn_info.operation (t : buffer_turn_info P F) (i : Int) : buffer_turn_operation F :=
  if i = 0 then t.op0 else t.op1

/-! ## Turn classification -/

/-- Function `projection_on_segment(subject, p, q)` on integer coordinates. -/
def projection_on_segment (subject p q : robust_point_type) : Bool :=
  let vx := q.x - p.x
  let vy := q.y - p.y
  let wx := subject.x - p.x
  let wy := subject.y - p.y
  let c1 := wx * vx + wy * vy
  if c1 < 0 then false
  else
    let c2 := vx * vx + vy * vy
    if c2 < c1 then false else true

/-- Function `on_offsetted(point, piece)`: the loop `for (i = 1; i < piece.offsetted_count; i++)` with its
early `return true`.  A position outside the robust ring is skipped. -/
def on_offsetted (side : robust_point_type → robust_point_type → robust_point_type → Int)
    (point : robust_point_type) (pc : piece P F) : Bool :=
  (List.range' 1 (pc.offsetted_count.toNat - 1)).any fun i =>
    match pc.robust_ring[i - 1]?, pc.robust_ring[i]? with
    | some previous, some current =>
        decide (side point previous current = 0) && projection_on_segment point previous current
    | _, _ => false

/-- Function `classify_turn(turn, pc)`. -/
def classify_turn (point_in_geometry : robust_point_type → List robust_point_type → Int)
    (side : robust_point_type → robust_point_type → robust_point_type → Int)
    (turn : buffer_turn_info P F) (pc : piece P F) : buffer_turn_info P F :=
  if pc.type = piece_type.buffered_flat_end then turn
  else if turn.op0.piece_index = pc.index then turn
  else if turn.op1.piece_index = pc.index then turn
  else
    let geometry_code := point_in_geometry turn.robust_point pc.robust_ring
    -- `if (geometry_code == 0) { if (! on_offsetted(...)) { geometry_code = 1; count_on_helper++; } }`
    let on_helper := decide (geometry_code = 0) && ! on_offsetted side turn.robust_point pc
    let geometry_code := if on_helper then 1 else geometry_code
    let turn := if on_helper then { turn with count_on_helper := turn.count_on_helper + 1 } else turn
    -- `switch (geometry_code)`
    if geometry_code = 1 then { turn with count_within := turn.count_within + 1 }
    else if geometry_code = 0 then { turn with count_on_offsetted := turn.count_on_offsetted + 1 }
    else turn

/-- Function `classify_turns()`: every turn is classified against every piece, in piece order. -/
def classify_turns (point_in_geometry : robust_point_type → List robust_point_type → Int)
    (side : robust_point_type → robust_point_type → robust_point_type → Int)
    (c : buffered_piece_collection P F) : buffered_piece_collection P F :=
  { c with m_turns := c.m_turns.map fun t =>
      c.m_pieces.foldl (classify_turn point_in_geometry side) t }

/-- Function `classify_turn_inside(turn)`. -/
def classify_turn_inside (turn : buffer_turn_info P F) : Bool :=
  decide (turn.count_within > 0) || decide (turn.count_on_occupied > 0)

/-- Function `classify_inside()`. -/
def classify_inside (c : buffered_piece_collection P F) : buffered_piece_collection P F :=
  { c with m_turns := c.m_turns.map fun t =>
      if classify_turn_inside t then
        { t with location := intersection_location_type.inside_buffer }
      else t }

/-- Function `check_original<Tag>::apply(point, geometry, distance_strategy)`; `covered_by` is the
point-in-geometry test of the library. -/
def check_original {G : Type} (tag : geometry_tag) (covered_by : P → G → Bool)
    (point : P) (geometry : G) : Int :=
  match tag with
  | geometry_tag.polygon_tag => if covered_by point geometry then 1 else -1
  | geometry_tag.linestring_tag => 0
  | geometry_tag.point_tag => 0

/-- Function `check_remaining_points(input_geometry, distance_strategy)`; `factor` is
`distance_strategy.factor()`. -/
def check_remaining_points {G : Type} (tag : geometry_tag) (covered_by : P → G → Bool)
    (input_geometry : G) (factor : Int) (c : buffered_piece_collection P F) :
    buffered_piece_collection P F :=
  { c with m_turns := c.m_turns.map fun t =>
      if t.location = intersection_location_type.location_ok then
        let code := check_original tag covered_by t.point input_geometry
        if code * factor = 1 then
          { t with location := intersection_location_type.inside_original }
        else t
      else t }

/-- The piece is tested as a container of the turn: it is not a flat end and it is not one of
the two source pieces of the turn. -/
def is_tested_piece (turn : buffer_turn_info P F) (pc : piece P F) : Bool :=
  decide (pc.type ≠ piece_type.buffered_flat_end) && decide (turn.op0.piece_index ≠ pc.index)
    && decide (turn.op1.piece_index ≠ pc.index)

/-- The piece is tested and its robust ring has the turn's robust point strictly inside
(`point_in_geometry` returns `1`). -/
def has_point_strictly_within (point_in_geometry : robust_point_type → List robust_point_type → Int)
    (turn : buffer_turn_info P F) (pc : piece P F) : Bool :=
  is_tested_piece turn pc && decide (point_in_geometry turn.robust_point pc.robust_ring = 1)

/-- The piece is tested and its robust ring has the turn's robust point on its boundary
(`point_in_geometry` returns `0`), on the offsetted part. -/
def has_point_on_offsetted (point_in_geometry : robust_point_type → List robust_point_type → Int)
    (side : robust_point_type → robust_point_type → robust_point_type → Int)
    (turn : buffer_turn_info P F) (pc : piece P F) : Bool :=
  is_tested_piece turn pc && decide (point_in_geometry turn.robust_point pc.robust_ring = 0)
    && on_offsetted side turn.robust_point pc

/-- The piece is tested and its robust ring has the turn's robust point on its boundary
(`point_in_geometry` returns `0`), not on the offsetted part: on a helper segment. -/
def has_point_on_helper (point_in_geometry : robust_point_type → List robust_point_type → Int)
    (side : robust_point_type → robust_point_type → robust_point_type → Int)
    (turn : buffer_turn_info P F) (pc : piece P F) : Bool :=
  is_tested_piece turn pc && decide (point_in_geometry turn.robust_point pc.robust_ring = 0)
    && ! on_offsetted side turn.robust_point pc

/-- The piece is tested and its robust ring has the turn's robust point in its interior or on
its boundary (`point_in_geometry` returns `1` or `0`). -/
def has_point (point_in_geometry : robust_point_type → List robust_point_type → Int)
    (turn : buffer_turn_info P F) (pc : piece P F) : Bool :=
  is_tested_piece turn pc && (decide (point_in_geometry turn.robust_point pc.robust_ring = 1)
    || decide (point_in_geometry turn.robust_point pc.robust_ring = 0))

/-! ## Robust rescaling -/

/-- Call `v.insert(v.begin() + i, x)`; a position outside `[0, size]` is an error. -/
def vector_insert {α : Type} (v : List α) (i : Int) (x : α) : Option (List α) :=
  if 0 ≤ i ∧ i ≤ (v.length : Int) then some (v.take i.toNat ++ x :: v.drop i.toNat) else none

/-- Points at the positions `first, ..., last - 1` of a ring, the range walked by the iterator
pair `begin + first`, `begin + last`; a range that leaves the ring is an error. -/
def ring_slice (ring : List P) (first last : Int) : Option (List P) :=
  if 0 ≤ first ∧ first ≤ last ∧ last ≤ (ring.length : Int) then
    some ((ring.drop first.toNat).take (last - first).toNat)
  else none

/-- Body of the first loop of `rescale_pieces` for one piece: sets `offsetted_count` and pushes
the rescaled offsetted points, then the rescaled helper points, on the robust ring. -/
def rescale_piece (recalculate : P → robust_point_type) (offsetted_rings : List (List P))
    (pc : piece P F) : Option (piece P F) :=
  let offsetted_count := pc.last_segment_index - pc.first_seg_id.segment_index
  if offsetted_count < 0 then none -- BOOST_ASSERT(pc.offsetted_count >= 0)
  else if pc.first_seg_id.multi_index < 0 then none
  else
    match offsetted_rings[pc.first_seg_id.multi_index.toNat]? with
    | none => none
    | some ring =>
      match ring_slice ring pc.first_seg_id.segment_index pc.last_segment_index with
      | none => none
      | some points =>
        some { pc with
          offsetted_count := offsetted_count,
          robust_ring :=
            pc.robust_ring ++ points.map recalculate ++ pc.helper_segments.map recalculate }

/-- First loop of `rescale_pieces`, over all pieces. -/
def rescale_piece_loop (recalculate : P → robust_point_type) (offsetted_rings : List (List P)) :
    List (piece P F) → Option (List (piece P F))
  | [] => some []
  | pc :: rest =>
    match rescale_piece recalculate offsetted_rings pc with
    | none => none
    | some pc1 =>
      match rescale_piece_loop recalculate offsetted_rings rest with
      | none => none
      | some rest1 => some (pc1 :: rest1)

/-- Call `m_pieces[i].robust_turns.push_back(turn)`. -/
def push_robust_turn (pieces : List (piece P F)) (i : Int) (turn : robust_turn F) :
    Option (List (piece P F)) :=
  if 0 ≤ i then
    match pieces[i.toNat]? with
    | none => none
    | some pc => some (pieces.set i.toNat { pc with robust_turns := pc.robust_turns ++ [turn] })
  else none

/-- Second loop of `rescale_pieces`: rescales every turn point and records the turn twice, once
in each of the pieces its operations name.  `index` is the position of the first turn of the
list in `m_turns`. -/
def add_robust_turns_loop (recalculate : P → robust_point_type) :
    List (buffer_turn_info P F) → Int → List (piece P F) →
      Option (List (buffer_turn_info P F) × List (piece P F))
  | [], _, pieces => some ([], pieces)
  | it :: rest, index, pieces =>
    let robust_point := recalculate it.point
    let it1 := { it with robust_point := robust_point, mapped_robust_point := robust_point }
    let turn0 : robust_turn F :=
      { turn_index := index, operation_index := 0, point := robust_point,
        seg_id := it1.op0.seg_id, fraction := it1.op0.fraction }
    let turn1 : robust_turn F :=
      { turn_index := index, operation_index := 1, point := robust_point,
        seg_id := it1.op1.seg_id, fraction := it1.op1.fraction }
    match push_robust_turn pieces it1.op0.piece_index turn0 with
    | none => none
    | some pieces1 =>
      match push_robust_turn pieces1 it1.op1.piece_index turn1 with
      | none => none
      | some pieces2 =>
        match add_robust_turns_loop recalculate rest (index + 1) pieces2 with
        | none => none
        | some (rest1, pieces3) => some (it1 :: rest1, pieces3)

/-- Assignment
`m_turns[turn_index].operations[operation_index].index_in_robust_ring = value`. -/
def set_index_in_robust_ring (turns : List (buffer_turn_info P F))
    (turn_index operation_index value : Int) : Option (List (buffer_turn_info P F)) :=
  if 0 ≤ turn_index then
    match turns[turn_index.toNat]? with
    | none => none
    | some t =>
      if operation_index = 0 then
        some (turns.set turn_index.toNat { t with op0 := { t.op0 with index_in_robust_ring := value } })
      else if operation_index = 1 then
        some (turns.set turn_index.toNat { t with op1 := { t.op1 with index_in_robust_ring := value } })
      else none
  else none

/-- Walk over the sorted robust turns of one piece "in reverse to insert at right index": the
list argument is the reversed vector, `index_offset` the running counter. -/
def insert_robust_turns_loop (piece_segment_index : Int) :
    List (robust_turn F) → Int → piece P F → List (buffer_turn_info P F) →
      Option (piece P F × List (buffer_turn_info P F))
  | [], _, pc, turns => some (pc, turns)
  | rit :: rest, index_offset, pc, turns =>
    let index_in_vector := 1 + rit.seg_id.segment_index - piece_segment_index
    -- BOOST_ASSERT(index_in_vector > 0 && index_in_vector < pc.offsetted_count)
    if index_in_vector > 0 ∧ index_in_vector < pc.offsetted_count then
      match vector_insert pc.robust_ring index_in_vector rit.point with
      | none => none
      | some ring =>
        let pc1 := { pc with robust_ring := ring, offsetted_count := pc.offsetted_count + 1 }
        match set_index_in_robust_ring turns rit.turn_index rit.operation_index
            (index_in_vector + index_offset) with
        | none => none
        | some turns1 =>
          insert_robust_turns_loop piece_segment_index rest (index_offset - 1) pc1 turns1
    else none

/-- Body of the third loop of `rescale_pieces` for one piece: sorts its robust turns and inserts
them into its robust ring. -/
def insert_robust_turns (buffer_operation_less : robust_turn F → robust_turn F → Bool)
    (std_sort : (robust_turn F → robust_turn F → Bool) → List (robust_turn F) → List (robust_turn F))
    (pc : piece P F) (turns : List (buffer_turn_info P F)) :
    Option (piece P F × List (buffer_turn_info P F)) :=
  let piece_segment_index := pc.first_seg_id.segment_index
  if pc.robust_turns.isEmpty then some (pc, turns)
  else
    let sorted :=
      if pc.robust_turns.length > 1 then std_sort buffer_operation_less pc.robust_turns
      else pc.robust_turns
    let pc1 := { pc with robust_turns := sorted }
    insert_robust_turns_loop piece_segment_index sorted.reverse ((sorted.length : Int) - 1) pc1 turns

/-- Third loop of `rescale_pieces`, over all pieces. -/
def insert_robust_turns_pieces (buffer_operation_less : robust_turn F → robust_turn F → Bool)
    (std_sort : (robust_turn F → robust_turn F → Bool) → List (robust_turn F) → List (robust_turn F)) :
    List (piece P F) → List (buffer_turn_info P F) →
      Option (List (piece P F) × List (buffer_turn_info P F))
  | [], turns => some ([], turns)
  | pc :: rest, turns =>
    match insert_robust_turns buffer_operation_less std_sort pc turns with
    | none => none
    | some (pc1, turns1) =>
      match insert_robust_turns_pieces buffer_operation_less std_sort rest turns1 with
      | none => none
      | some (rest1, turns2) => some (pc1 :: rest1, turns2)

/-- Point `m_pieces[piece_index].robust_ring[index_in_robust_ring]`, when both positions
exist. -/
def robust_ring_point (pieces : List (piece P F)) (piece_index index_in_robust_ring : Int) :
    Option robust_point_type :=
  if 0 ≤ piece_index ∧ 0 ≤ index_in_robust_ring then
    match pieces[piece_index.toNat]? with
    | none => none
    | some pc => pc.robust_ring[index_in_robust_ring.toNat]?
  else none

/-- Function `assert_indices_in_robust_rings()`.  A position that does not exist counts as a mismatch. -/
def assert_indices_in_robust_rings (c : buffered_piece_collection P F) : Bool :=
  c.m_turns.all fun it =>
    decide (robust_ring_point c.m_pieces it.op0.piece_index it.op0.index_in_robust_ring
        = some it.robust_point)
    && decide (robust_ring_point c.m_pieces it.op1.piece_index it.op1.index_in_robust_ring
        = some it.robust_point)

/-- Function `rescale_pieces()`. -/
def rescale_pieces (recalculate : P → robust_point_type)
    (buffer_operation_less : robust_turn F → robust_turn F → Bool)
    (std_sort : (robust_turn F → robust_turn F → Bool) → List (robust_turn F) → List (robust_turn F))
    (c : buffered_piece_collection P F) : Option (buffered_piece_collection P F) :=
  match rescale_piece_loop recalculate c.offsetted_rings c.m_pieces with
  | none => none
  | some pieces1 =>
    match add_robust_turns_loop recalculate c.m_turns 0 pieces1 with
    | none => none
    | some (turns2, pieces2) =>
      match insert_robust_turns_pieces buffer_operation_less std_sort pieces2 turns2 with
      | none => none
      | some (pieces3, turns3) =>
        let c3 := { c with m_pieces := pieces3, m_turns := turns3 }
        -- BOOST_ASSERT(assert_indices_in_robust_rings())
        if assert_indices_in_robust_rings c3 then some c3 else none

/-! ## Specification of the robust rings -/

/-- The robust turns of piece `p`: for every turn of the list, in order, one entry for each of
its operations that names piece `p`, carrying the rescaled turn point and the segment and
fraction of the operation.  `index` is the position of the first turn of the list in
`m_turns`. -/
def piece_turns (recalculate : P → robust_point_type) :
    List (buffer_turn_info P F) → Int → Int → List (robust_turn F)
  | [], _, _ => []
  | it :: rest, index, p =>
    (if it.op0.piece_index = p then
        [{ turn_index := index, operation_index := 0, point := recalculate it.point,
           seg_id := it.op0.seg_id, fraction := it.op0.fraction }]
      else []) ++
    (if it.op1.piece_index = p then
        [{ turn_index := index, operation_index := 1, point := recalculate it.point,
           seg_id := it.op1.seg_id, fraction := it.op1.fraction }]
      else []) ++
    piece_turns recalculate rest (index + 1) p

/-- The ring made of the given slice points in their order, each followed by the points of the
turns that lie on the segment starting at it, in the order of the turn list.  `segment_index` is
the segment index of the first slice point. -/
def ring_with_turns (segment_index : Int) :
    List robust_point_type → List (robust_turn F) → List robust_point_type
  | [], _ => []
  | a :: rest, turns =>
    a :: ((turns.filter fun t => decide (t.seg_id.segment_index = segment_index)).map
            robust_turn.point
          ++ ring_with_turns (segment_index + 1) rest turns)

/-- The slice `[first segment index, last_segment_index)` of the piece is a range of positions
of the offsetted ring that the piece names. -/
def slice_in_ring (offsetted_rings : List (List P)) (pc : piece P F) : Prop :=
  0 ≤ pc.first_seg_id.multi_index ∧
  ∃ ring, offsetted_rings[pc.first_seg_id.multi_index.toNat]? = some ring ∧
    0 ≤ pc.first_seg_id.segment_index ∧
    pc.first_seg_id.segment_index ≤ pc.last_segment_index ∧
    pc.last_segment_index ≤ (ring.length : Int)

/-- The operation names an existing piece and its segment index `s` lies inside the slice of
that piece: first segment index `≤ s ≤ last_segment_index - 2`. -/
def operation_in_slice (pieces : List (piece P F)) (op : buffer_turn_operation F) : Prop :=
  0 ≤ op.piece_index ∧
  ∃ pc, pieces[op.piece_index.toNat]? = some pc ∧
    pc.first_seg_id.segment_index ≤ op.seg_id.segment_index ∧
    op.seg_id.segment_index ≤ pc.last_segment_index - 2

/-- State in which `rescale_pieces` is called: no piece has robust points or robust turns yet,
every piece names a slice of an existing offsetted ring, and the two operations of every turn
name existing, distinct pieces with a segment index inside the slice of the piece. -/
def rescale_input (c : buffered_piece_collection P F) : Prop :=
  (∀ pc ∈ c.m_pieces, pc.robust_ring = [] ∧ pc.robust_turns = []) ∧
  (∀ pc ∈ c.m_pieces, slice_in_ring c.offsetted_rings pc) ∧
  (∀ t ∈ c.m_turns, t.op0.piece_index ≠ t.op1.piece_index ∧
    operation_in_slice c.m_pieces t.op0 ∧ operation_in_slice c.m_pieces t.op1)

/-- On the robust turns of each piece, `buffer_operation_less` orders by segment index, then
fraction, and `std_sort` returns them rearranged so that no element is less than an earlier
one. -/
def sorts_piece_turns [LT F] (recalculate : P → robust_point_type)
    (buffer_operation_less : robust_turn F → robust_turn F → Bool)
    (std_sort : (robust_turn F → robust_turn F → Bool) → List (robust_turn F) → List (robust_turn F))
    (c : buffered_piece_collection P F) : Prop :=
  ∀ p : Int,
    (∀ a ∈ piece_turns recalculate c.m_turns 0 p, ∀ b ∈ piece_turns recalculate c.m_turns 0 p,
      (buffer_operation_less a b = true ↔
        (a.seg_id.segment_index < b.seg_id.segment_index ∨
          (a.seg_id.segment_index = b.seg_id.segment_index ∧ a.fraction < b.fraction)))) ∧
    (std_sort buffer_operation_less (piece_turns recalculate c.m_turns 0 p)).Perm
      (piece_turns recalculate c.m_turns 0 p) ∧
    (std_sort buffer_operation_less (piece_turns recalculate c.m_turns 0 p)).Pairwise
      (fun a b => buffer_operation_less b a = false)

/-- The points of the slice of the piece in its offsetted ring. -/
def slice_points (offsetted_rings : List (List P)) (pc : piece P F) : List P :=
  match offsetted_rings[pc.first_seg_id.multi_index.toNat]? with
  | some ring =>
    (ring.drop pc.first_seg_id.segment_index.toNat).take
      (pc.last_segment_index - pc.first_seg_id.segment_index).toNat
  | none => []

/-- The piece after the first loop of `rescale_pieces`. -/
def rescaled_piece (recalculate : P → robust_point_type) (offsetted_rings : List (List P))
    (pc : piece P F) : piece P F :=
  { pc with
    offsetted_count := pc.last_segment_index - pc.first_seg_id.segment_index,
    robust_ring := pc.robust_ring ++ (slice_points offsetted_rings pc).map recalculate
      ++ pc.helper_segments.map recalculate }

/-- The turn after the second loop of `rescale_pieces`. -/
def rescaled_turn (recalculate : P → robust_point_type) (t : buffer_turn_info P F) :
    buffer_turn_info P F :=
  { t with robust_point := recalculate t.point, mapped_robust_point := recalculate t.point }

/-- The piece at position `p` after the second loop of `rescale_pieces`: rescaled, with its
robust turns recorded. -/
def prepared_piece (recalculate : P → robust_point_type) (offsetted_rings : List (List P))
    (turns : List (buffer_turn_info P F)) (p : Nat) (pc : piece P F) : piece P F :=
  { rescaled_piece recalculate offsetted_rings pc with
    robust_turns := (rescaled_piece recalculate offsetted_rings pc).robust_turns
      ++ piece_turns recalculate turns 0 (p : Int) }

/-- Position of the robust turn in the robust ring at the moment of its insertion:
`1 + segment index - piece_segment_index`. -/
def index_in_vector (piece_segment_index : Int) (e : robust_turn F) : Int :=
  1 + e.seg_id.segment_index - piece_segment_index

/-- Robust ring after the insertion of the point of one robust turn. -/
def insert_robust_turn (piece_segment_index : Int) (e : robust_turn F)
    (ring : List robust_point_type) : List robust_point_type :=
  ring.take (index_in_vector piece_segment_index e).toNat
    ++ e.point :: ring.drop (index_in_vector piece_segment_index e).toNat

/-- The robust turns of a piece as the third loop walks them: sorted when there are two or
more. -/
def sorted_robust_turns (buffer_operation_less : robust_turn F → robust_turn F → Bool)
    (std_sort : (robust_turn F → robust_turn F → Bool) → List (robust_turn F) → List (robust_turn F))
    (pc : piece P F) : List (robust_turn F) :=
  if pc.robust_turns.length > 1 then std_sort buffer_operation_less pc.robust_turns
  else pc.robust_turns

/-- The piece after the third loop of `rescale_pieces`: its robust turns are sorted and their
points inserted into its robust ring, from the last to the first. -/
def inserted_piece (buffer_operation_less : robust_turn F → robust_turn F → Bool)
    (std_sort : (robust_turn F → robust_turn F → Bool) → List (robust_turn F) → List (robust_turn F))
    (pc : piece P F) : piece P F :=
  { pc with
    robust_turns := sorted_robust_turns buffer_operation_less std_sort pc,
    robust_ring := (sorted_robust_turns buffer_operation_less std_sort pc).foldr
      (insert_robust_turn pc.first_seg_id.segment_index) pc.robust_ring,
    offsetted_count := pc.offsetted_count
      + ((sorted_robust_turns buffer_operation_less std_sort pc).length : Int) }

/-- The two turns agree except, possibly, in the `index_in_robust_ring` of their operations. -/
def same_except_index (t t1 : buffer_turn_info P F) : Prop :=
  t1 = { t with
    op0 := { t.op0 with index_in_robust_ring := t1.op0.index_in_robust_ring },
    op1 := { t.op1 with index_in_robust_ring := t1.op1.index_in_robust_ring } }

/-- Effect of the walk over the robust turns `entries` of one piece on the turns: every turn
keeps everything but its ring indices, and the ring index of operation `i` of turn `n` is either
untouched, when no entry names `(n, i)`, or `index_in_vector` of an entry that names `(n, i)`
plus `offset j`, `j` being the position of the entry in `entries`. -/
def index_writes (piece_segment_index : Int) (entries : List (robust_turn F))
    (offset : Nat → Int) (turns turns1 : List (buffer_turn_info P F)) : Prop :=
  turns1.length = turns.length ∧
  ∀ (n : Nat) (t : buffer_turn_info P F), turns[n]? = some t →
    ∃ t1, turns1[n]? = some t1 ∧ same_except_index t t1 ∧
      ∀ i : Int, i = 0 ∨ i = 1 →
        ((t1.operation i).index_in_robust_ring = (t.operation i).index_in_robust_ring ∧
          ∀ e ∈ entries, ¬ (e.turn_index = (n : Int) ∧ e.operation_index = i)) ∨
        (∃ (j : Nat) (e : robust_turn F), entries[j]? = some e ∧ e.turn_index = (n : Int) ∧
          e.operation_index = i ∧
          (t1.operation i).index_in_robust_ring
            = index_in_vector piece_segment_index e + offset j)

/-- Piece `q` is ready for the third loop with respect to the rescaled turns `turns`: its robust
turns are exactly the operations that name it, each passes the assertion of the loop, and
sorting rearranges them into an order of non-decreasing segment index. -/
def piece_ready (buffer_operation_less : robust_turn F → robust_turn F → Bool)
    (std_sort : (robust_turn F → robust_turn F → Bool) → List (robust_turn F) → List (robust_turn F))
    (turns : List (buffer_turn_info P F)) (q : Int) (pc : piece P F) : Prop :=
  (∀ e ∈ pc.robust_turns, ∃ (n : Nat) (t : buffer_turn_info P F) (i : Int),
    turns[n]? = some t ∧ (i = 0 ∨ i = 1) ∧ e.turn_index = (n : Int) ∧ e.operation_index = i ∧
    (t.operation i).piece_index = q ∧ e.point = t.robust_point) ∧
  (∀ (n : Nat) (t : buffer_turn_info P F) (i : Int), turns[n]? = some t → (i = 0 ∨ i = 1) →
    (t.operation i).piece_index = q →
    ∃ e ∈ pc.robust_turns, e.turn_index = (n : Int) ∧ e.operation_index = i) ∧
  (∀ e ∈ pc.robust_turns,
    0 < index_in_vector pc.first_seg_id.segment_index e ∧
    index_in_vector pc.first_seg_id.segment_index e < pc.offsetted_count ∧
    index_in_vector pc.first_seg_id.segment_index e ≤ (pc.robust_ring.length : Int)) ∧
  (sorted_robust_turns buffer_operation_less std_sort pc).Perm pc.robust_turns ∧
  (sorted_robust_turns buffer_operation_less std_sort pc).Pairwise
    (fun a b => a.seg_id.segment_index ≤ b.seg_id.segment_index)

/-! ## Piece generator -/

/-- Replaces the last element `a` of a list by `f a`: an assignment through a reference to
`back()`.  The empty list is left as it is. -/
def update_back {α : Type} (f : α → α) (l : List α) : List α :=
  match l.getLast? with
  | some a => l.dropLast ++ [f a]
  | none => l

/-- Function `start_new_ring()`. -/
def start_new_ring (c : buffered_piece_collection P F) : buffered_piece_collection P F :=
  let n : Int := (c.offsetted_rings.length : Int)
  { c with
    current_segment_id :=
      { source_index := 0, multi_index := n, ring_index := -1, segment_index := 0 },
    offsetted_rings := c.offsetted_rings ++ [[]] }

/-- Function `add_point(p)`: the new state and the returned size of the last ring.  Without any
offsetted ring the assertion fails. -/
def add_point (c : buffered_piece_collection P F) (p : P) :
    Option (buffered_piece_collection P F × Int) :=
  match c.offsetted_rings.getLast? with
  | none => none -- BOOST_ASSERT(boost::size(offsetted_rings) > 0)
  | some ring =>
    some ({ c with
        current_segment_id :=
          { c.current_segment_id with
            segment_index := c.current_segment_id.segment_index + 1 },
        offsetted_rings := update_back (fun r => r ++ [p]) c.offsetted_rings },
      ((ring.length + 1 : Nat) : Int))

/-- Function `add_piece(type, decrease_segment_index_by_one)`.  The first segment index is
`n - 1` or `n`, `n` being the size of the last ring; `n - 1` is computed in `std::size_t` and
converted to `int`, which for `n = 0` gives `-1`, as the subtraction of integers does.  The
members `last_segment_index` and `offsetted_count`, which the constructor does not initialise,
are `0` until they are assigned. -/
def add_piece (type : piece_type) (decrease_segment_index_by_one : Bool)
    (c : buffered_piece_collection P F) : Option (buffered_piece_collection P F) :=
  match c.offsetted_rings.getLast? with
  | none => none -- `offsetted_rings.back()` of an empty collection of rings
  | some ring =>
    let n : Int := (ring.length : Int)
    let pc : piece P F :=
      { type := type, index := (c.m_pieces.length : Int),
        first_seg_id :=
          { c.current_segment_id with
            segment_index := if decrease_segment_index_by_one then n - 1 else n },
        last_segment_index := 0, offsetted_count := 0, helper_segments := [],
        robust_turns := [], robust_ring := [] }
    some { c with m_pieces := c.m_pieces ++ [pc] }

/-- The test `last_type_join` of `add_piece(type, p1, p2, b1, b2)`: there is a previous piece,
it belongs to the current ring, and it is a join or a round end. -/
def last_type_join (c : buffered_piece_collection P F) : Bool :=
  match c.m_pieces.getLast? with
  | none => false
  | some back =>
    decide (back.first_seg_id.multi_index = c.current_segment_id.multi_index) &&
      (decide (back.type = piece_type.buffered_join)
        || decide (back.type = piece_type.buffered_round_end))

/-- Function `add_piece(type, p1, p2, b1, b2)`. -/
def add_piece_points (type : piece_type) (p1 p2 b1 b2 : P)
    (c : buffered_piece_collection P F) : Option (buffered_piece_collection P F) :=
  let join := last_type_join c
  match add_piece type join c with
  | none => none
  | some c1 =>
    match (if ! join then (add_point c1 b1).map Prod.fst else some c1) with
    | none => none
    | some c2 =>
      match add_point c2 b2 with
      | none => none
      | some (c3, size) =>
        some { c3 with m_pieces := update_back (fun pc =>
          { pc with last_segment_index := size,
                    helper_segments := pc.helper_segments ++ [b2, p2, p1, b1] }) c3.m_pieces }

/-- Loop of `add_piece(type, range, decrease_segment_index_by_one)` over the points of the
range, with the loop variables `first` and `last`. -/
def add_range_loop : List P → Bool → Int → buffered_piece_collection P F →
    Option (buffered_piece_collection P F × Int)
  | [], _, last, c => some (c, last)
  | it :: rest, first, last, c =>
    match c.offsetted_rings.getLast? with
    | none => none
    | some ring =>
      -- `add = true; if (first) { add = offsetted_rings.back().empty(); first = false; }`
      let add := if first then ring.isEmpty else true
      if add then
        match add_point c it with
        | none => none
        | some (c1, size) => add_range_loop rest false size c1
      else add_range_loop rest false last c

/-- Function `add_piece(type, range, decrease_segment_index_by_one)`. -/
def add_piece_range (type : piece_type) (range : List P) (decrease_segment_index_by_one : Bool)
    (c : buffered_piece_collection P F) : Option (buffered_piece_collection P F) :=
  match add_piece type decrease_segment_index_by_one c with
  | none => none
  | some c1 =>
    match c1.offsetted_rings.getLast? with
    | none => none
    | some ring =>
      -- `int last = offsetted_rings.back().size() + 1`
      match add_range_loop range true ((ring.length : Int) + 1) c1 with
      | none => none
      | some (c2, last) =>
        some { c2 with m_pieces := update_back (fun pc =>
          { pc with last_segment_index := last }) c2.m_pieces }

/-- Function `add_piece(type, p, range)`. -/
def add_piece_point_range (type : piece_type) (p : P) (range : List P)
    (c : buffered_piece_collection P F) : Option (buffered_piece_collection P F) :=
  match add_piece_range type range true c with
  | none => none
  | some c1 =>
    match range.getLast?, range.head? with
    | some back, some front =>
      -- `boost::size(range) > 0`
      some { c1 with m_pieces := update_back (fun pc =>
        { pc with helper_segments := pc.helper_segments ++ [back, p, front] }) c1.m_pieces }
    | _, _ => some c1

/-- Function `add_endcap(strategy, range, end_point)`; `pt` is `strategy.get_piece_type()`. -/
def add_endcap (pt : piece_type) (range : List P) (end_point : P)
    (c : buffered_piece_collection P F) : Option (buffered_piece_collection P F) :=
  if pt = piece_type.buffered_flat_end then add_piece_range pt range true c
  else add_piece_point_range pt end_point range c

/-! ## Turn finder -/

/-- Arguments of one call of `turn_policy::apply` made by `calculate_turns`: the points
`*prev1`, `*it1`, `*next1`, `*prev2`, `*it2`, `*next2` and the turn model. -/
structure turn_policy_arguments (P F : Type) where
  prev1 : P
  it1 : P
  next1 : P
  prev2 : P
  it2 : P
  next2 : P
  the_model : buffer_turn_info P F
  deriving DecidableEq, Repr

/-- Function `is_neighbor(piece1, piece2)`. -/
def is_neighbor (c : buffered_piece_collection P F) (piece1 piece2 : piece P F) : Bool :=
  if piece1.first_seg_id.multi_index ≠ piece2.first_seg_id.multi_index then false
  else if (piece1.index - piece2.index).natAbs = 1 then true
  else
    let last : Int := (c.m_pieces.length : Int) - 1
    (decide (piece1.index = 0) && decide (piece2.index = last))
      || (decide (piece1.index = last) && decide (piece2.index = 0))

/-- Function `skip_neighbor(piece1, piece2)`. -/
def skip_neighbor (c : buffered_piece_collection P F) (piece1 piece2 : piece P F) : Bool :=
  decide (piece1.type ≠ piece2.type) && is_neighbor c piece1 piece2

/-- Function `move_to_next_point(range, next)` on positions: `++next`, and from the end of the
range to position `1`. -/
def move_to_next_point (range : List P) (next : Nat) : Nat :=
  if next + 1 = range.length then 1 else next + 1

/-- The `while` loop of `next_point`: `fuel` bounds the number of tests of its condition; without
fuel, or when a position outside the range is read, there is no result. -/
def next_point_loop (equals : P → P → Bool) (range : List P) (it : Nat) : Nat → Nat → Option Nat
  | 0, _ => none
  | fuel + 1, result =>
    match range[it]?, range[result]? with
    | some a, some b =>
      if equals a b then next_point_loop equals range it fuel (move_to_next_point range result)
      else some result
    | _, _ => none

/-- Function `next_point(range, it)` on positions; `equals` is `geometry::equals`. -/
def next_point (equals : P → P → Bool) (fuel : Nat) (range : List P) (it : Nat) : Option Nat :=
  next_point_loop equals range it fuel (move_to_next_point range it)

/-- Inner loop of `calculate_turns`, over the segments of the second piece: `it2` is the
position of the iterator `it2`, `prev2` being one position before it.  The loop runs while
`it2 != it2_last`; `steps` bounds the number of tests of that condition.  The result is the turn
model, the output of the policy calls made, and whether the loop ran to its end. -/
def calculate_turns_loop2 {S : Type} (equals : P → P → Bool)
    (turn_policy : turn_policy_arguments P F → S → S) (fuel : Nat) (ring2 : List P)
    (it2_last : Int) (prev1 it1 next1 : P) :
    Nat → Nat → buffer_turn_info P F → S → (buffer_turn_info P F × S) × Bool
  | 0, _, the_model, out => ((the_model, out), false)
  | steps + 1, it2, the_model, out =>
    if (it2 : Int) = it2_last then ((the_model, out), true)
    else
      -- the_model.operations[0].other_id = the_model.operations[1].seg_id, and the reverse
      let m1 := { the_model with op0 := { the_model.op0 with other_id := the_model.op1.seg_id } }
      let m2 := { m1 with op1 := { m1.op1 with other_id := m1.op0.seg_id } }
      match next_point equals fuel ring2 it2 with
      | none => ((m2, out), false)
      | some next2 =>
        match ring2[it2 - 1]?, ring2[it2]?, ring2[next2]? with
        | some p2, some i2, some n2 =>
          let out1 := turn_policy
            { prev1 := prev1, it1 := it1, next1 := next1, prev2 := p2, it2 := i2, next2 := n2,
              the_model := m2 } out
          -- prev2 = it2++, the_model.operations[1].seg_id.segment_index++
          calculate_turns_loop2 equals turn_policy fuel ring2 it2_last prev1 it1 next1 steps
            (it2 + 1)
            { m2 with op1 := { m2.op1 with seg_id :=
                { m2.op1.seg_id with segment_index := m2.op1.seg_id.segment_index + 1 } } }
            out1
        | _, _, _ => ((m2, out), false)

/-- Outer loop of `calculate_turns`, over the segments of the first piece. -/
def calculate_turns_loop1 {S : Type} (equals : P → P → Bool)
    (turn_policy : turn_policy_arguments P F → S → S) (fuel : Nat) (ring1 ring2 : List P)
    (it1_last : Int) (it2_first : Nat) (it2_last : Int) (piece2 : piece P F) :
    Nat → Nat → buffer_turn_info P F → S → (buffer_turn_info P F × S) × Bool
  | 0, _, the_model, out => ((the_model, out), false)
  | steps + 1, it1, the_model, out =>
    if (it1 : Int) = it1_last then ((the_model, out), true)
    else
      let m1 := { the_model with op1 :=
        { the_model.op1 with piece_index := piece2.index, seg_id := piece2.first_seg_id } }
      match next_point equals fuel ring1 it1 with
      | none => ((m1, out), false)
      | some next1 =>
        match ring1[it1 - 1]?, ring1[it1]?, ring1[next1]? with
        | some p1, some i1, some n1 =>
          -- iterator it2 = it2_first; prev2 = it2++
          match calculate_turns_loop2 equals turn_policy fuel ring2 it2_last p1 i1 n1 fuel
              (it2_first + 1) m1 out with
          | ((m2, out1), true) =>
            -- prev1 = it1++, the_model.operations[0].seg_id.segment_index++
            calculate_turns_loop1 equals turn_policy fuel ring1 ring2 it1_last it2_first it2_last
              piece2 steps (it1 + 1)
              { m2 with op0 := { m2.op0 with seg_id :=
                  { m2.op0.seg_id with segment_index := m2.op0.seg_id.segment_index + 1 } } }
              out1
          | (r, false) => (r, false)
        | _, _, _ => ((m1, out), false)

/-- Function `calculate_turns(piece1, piece2)`.  `turn_policy` stands for the call
`turn_policy::apply(..., the_model, m_robust_policy, std::back_inserter(m_turns))` acting on the
output `out`; `default_turn` is the default-constructed turn model; `fuel` bounds every loop.
The result is the output and whether the function returned. -/
def calculate_turns {S : Type} (equals : P → P → Bool)
    (turn_policy : turn_policy_arguments P F → S → S) (fuel : Nat)
    (default_turn : buffer_turn_info P F) (c : buffered_piece_collection P F)
    (piece1 piece2 : piece P F) (out : S) : S × Bool :=
  let seg_id1 := piece1.first_seg_id
  let seg_id2 := piece2.first_seg_id
  if seg_id1.segment_index < 0 ∨ seg_id2.segment_index < 0 then (out, true)
  else if seg_id1.multi_index < 0 ∨ seg_id2.multi_index < 0 then (out, false)
  else
    match c.offsetted_rings[seg_id1.multi_index.toNat]?,
        c.offsetted_rings[seg_id2.multi_index.toNat]? with
    | some ring1, some ring2 =>
      let the_model := { default_turn with op0 :=
        { default_turn.op0 with piece_index := piece1.index, seg_id := piece1.first_seg_id } }
      -- iterator it1 = it1_first; prev1 = it1++
      match calculate_turns_loop1 equals turn_policy fuel ring1 ring2 piece1.last_segment_index
          seg_id2.segment_index.toNat piece2.last_segment_index piece2 fuel
          (seg_id1.segment_index.toNat + 1) the_model out with
      | ((_, out1), completed) => (out1, completed)
    | _, _ => (out, false)

/-- Inner loop of the pair loop of `get_turns`: `it2` runs over the pieces after `it1`. -/
def get_turns_loop2 {S : Type} (calculate : piece P F → piece P F → S → S)
    (c : buffered_piece_collection P F) (it1 : piece P F) : List (piece P F) → S → S
  | [], out => out
  | it2 :: rest, out =>
    get_turns_loop2 calculate c it1 rest
      (if ! skip_neighbor c it1 it2 then calculate it1 it2 out else out)

/-- Outer loop of the pair loop of `get_turns`: `it1` runs over the pieces. -/
def get_turns_loop1 {S : Type} (calculate : piece P F → piece P F → S → S)
    (c : buffered_piece_collection P F) : List (piece P F) → S → S
  | [], out => out
  | it1 :: rest, out =>
    get_turns_loop1 calculate c rest (get_turns_loop2 calculate c it1 rest out)

/-- The pair loop with which `get_turns` starts; `calculate` stands for `calculate_turns` acting
on the output `out`. -/
def get_turns_pairs {S : Type} (calculate : piece P F → piece P F → S → S)
    (c : buffered_piece_collection P F) (out : S) : S :=
  get_turns_loop1 calculate c c.m_pieces out

/-- All pairs of an earlier and a later element of a list, in the order of the pair loop. -/
def ordered_pairs {α : Type} : List α → List (α × α)
  | [] => []
  | a :: rest => rest.map (fun b => (a, b)) ++ ordered_pairs rest

/-! ## Occupation resolver -/

/-- Occupation data of one robust point (`occupation_info`), as far as `get_occupation` reads or
writes it: the member `count`, the `turn_index` of each entry of the member `turns`, and in
`angles` everything else the type holds. -/
structure occupation_info (A : Type) where
  count : Int
  turns : List Int
  angles : A
  deriving DecidableEq, Repr

/-- What `get_occupation` uses and this file does not declare: the default-constructed
`occupation_info`, the order `geometry::less` of the keys of the occupation map, the function
`add_incoming_and_outgoing_angles(map_point, turn, pieces, turn_index, operation_index, seg_id,
info)` acting on `info`, the members `has_rounding_issues(point)` and
`get_left_turns(point, turns_to_keep)` of `occupation_info`, the second acting on the info and
giving `turns_to_keep`, and the member `blocked()` of a turn. -/
structure occupation_policy (P F A L : Type) where
  default_info : occupation_info A
  less : robust_point_type → robust_point_type → Bool
  add_incoming_and_outgoing_angles : robust_point_type → buffer_turn_info P F →
    List (piece P F) → Int → Int → segment_identifier → occupation_info A → occupation_info A
  has_rounding_issues : occupation_info A → robust_point_type → Bool
  get_left_turns : occupation_info A → robust_point_type → occupation_info A × List L
  blocked : buffer_turn_info P F → Bool

variable {A L : Type}

/-- Call `map.find(key)` on the occupation map, a list of keys with their occupation data in the
order of the map; two keys are the same key when they are equal points. -/
def occupation_map_find : List (robust_point_type × occupation_info A) → robust_point_type →
    Option (occupation_info A)
  | [], _ => none
  | (k, info) :: rest, key => if k = key then some info else occupation_map_find rest key

/-- Assignment to the occupation data found at `key`. -/
def occupation_map_set (key : robust_point_type) (value : occupation_info A) :
    List (robust_point_type × occupation_info A) → List (robust_point_type × occupation_info A)
  | [] => []
  | (k, info) :: rest =>
    if k = key then (k, value) :: rest else (k, info) :: occupation_map_set key value rest

/-- Insertion of a new key at its place in the order `less` of the map. -/
def occupation_map_insert (less : robust_point_type → robust_point_type → Bool)
    (key : robust_point_type) (value : occupation_info A) :
    List (robust_point_type × occupation_info A) → List (robust_point_type × occupation_info A)
  | [] => [(key, value)]
  | (k, info) :: rest =>
    if less key k then (key, value) :: (k, info) :: rest
    else (k, info) :: occupation_map_insert less key value rest

/-- Statement `occupation_map[key].count++`: the data at `key`, default-constructed when the
key is new, gets its count incremented. -/
def occupation_map_count (policy : occupation_policy P F A L) (key : robust_point_type)
    (map : List (robust_point_type × occupation_info A)) :
    List (robust_point_type × occupation_info A) :=
  match occupation_map_find map key with
  | some info => occupation_map_set key { info with count := info.count + 1 } map
  | none =>
    occupation_map_insert policy.less key
      { policy.default_info with count := policy.default_info.count + 1 } map

/-- The values of the loop variables `x` and `y` of `adapt_mapped_robust_point`, in order:
`-distance, ..., distance`. -/
def adapt_offsets (distance : Int) : List Int :=
  (List.range (2 * distance + 1).toNat).map fun (i : Nat) => -distance + (i : Int)

/-- Inner loop of `adapt_mapped_robust_point`, over `y`: the first point `rp` found in the map. -/
def adapt_loop_y (map : List (robust_point_type × occupation_info A))
    (robust_point : robust_point_type) (x : Int) : List Int → Option robust_point_type
  | [] => none
  | y :: ys =>
    let rp : robust_point_type := { x := robust_point.x + x, y := robust_point.y + y }
    if (occupation_map_find map rp).isSome then some rp
    else adapt_loop_y map robust_point x ys

/-- Outer loop of `adapt_mapped_robust_point`, over `x`. -/
def adapt_loop_x (map : List (robust_point_type × occupation_info A))
    (robust_point : robust_point_type) (ys : List Int) : List Int → Option robust_point_type
  | [] => none
  | x :: xs =>
    match adapt_loop_y map robust_point x ys with
    | some rp => some rp
    | none => adapt_loop_x map robust_point ys xs

/-- Function `adapt_mapped_robust_point(map, turn, distance)`. -/
def adapt_mapped_robust_point (map : List (robust_point_type × occupation_info A))
    (turn : buffer_turn_info P F) (distance : Int) : buffer_turn_info P F :=
  match adapt_loop_x map turn.robust_point (adapt_offsets distance) (adapt_offsets distance) with
  | some rp => { turn with mapped_robust_point := rp }
  | none => turn

/-- Step 1 of `get_occupation`: the turns with `count_on_offsetted >= 1` are counted in the
occupation map at their mapped robust point, which is adapted first when `distance > 0` and the
map is not empty.  The result is the turns and the map. -/
def occupation_add_turns (policy : occupation_policy P F A L) (distance : Int) :
    List (buffer_turn_info P F) → List (robust_point_type × occupation_info A) →
    List (buffer_turn_info P F) × List (robust_point_type × occupation_info A)
  | [], map => ([], map)
  | turn :: rest, map =>
    if 1 ≤ turn.count_on_offsetted then
      let turn1 :=
        if 0 < distance ∧ map.isEmpty = false then adapt_mapped_robust_point map turn distance
        else turn
      let r := occupation_add_turns policy distance rest
        (occupation_map_count policy turn1.mapped_robust_point map)
      (turn1 :: r.1, r.2)
    else
      let r := occupation_add_turns policy distance rest map
      (turn :: r.1, r.2)

/-- Step 2 of `get_occupation`: the points with a count of at most one are erased. -/
def occupation_erase_single (map : List (robust_point_type × occupation_info A)) :
    List (robust_point_type × occupation_info A) :=
  map.filter fun e => ! decide (e.2.count ≤ 1)

/-- Step 3 of `get_occupation`: every turn whose mapped robust point is still in the map has
the angles of its two operations added to the data of that point and its `count_on_multi`
incremented; `index` is the position of the turn.  The local map
`turn_indices_per_segment_pair` is only read by code that is compiled out. -/
def occupation_add_angles (policy : occupation_policy P F A L) (pieces : List (piece P F)) :
    List (buffer_turn_info P F) → Int → List (robust_point_type × occupation_info A) →
    List (buffer_turn_info P F) × List (robust_point_type × occupation_info A)
  | [], _, map => ([], map)
  | turn :: rest, index, map =>
    match occupation_map_find map turn.mapped_robust_point with
    | some info =>
      let info0 := policy.add_incoming_and_outgoing_angles turn.mapped_robust_point turn pieces
        index 0 turn.op0.seg_id info
      let info1 := policy.add_incoming_and_outgoing_angles turn.mapped_robust_point turn pieces
        index 1 turn.op1.seg_id info0
      let r := occupation_add_angles policy pieces rest (index + 1)
        (occupation_map_set turn.mapped_robust_point info1 map)
      ({ turn with count_on_multi := turn.count_on_multi + 1 } :: r.1, r.2)
    | none =>
      let r := occupation_add_angles policy pieces rest (index + 1) map
      (turn :: r.1, r.2)

/-- Loop `for (i ...) if (m_turns[turns[i].turn_index].blocked()) { blocked = true; break; }`;
there is no result when a turn index lies outside `m_turns`. -/
def any_turn_blocked (blocked : buffer_turn_info P F → Bool)
    (m_turns : List (buffer_turn_info P F)) : List Int → Option Bool
  | [] => some false
  | turn_index :: rest =>
    if turn_index < 0 then none
    else
      match m_turns[turn_index.toNat]? with
      | none => none
      | some turn =>
        if blocked turn then some true else any_turn_blocked blocked m_turns rest

/-- Loop `for (i ...) m_turns[turns[i].turn_index].count_on_occupied++`; there is no result when
a turn index lies outside `m_turns`. -/
def block_turns : List Int → List (buffer_turn_info P F) → Option (List (buffer_turn_info P F))
  | [], m_turns => some m_turns
  | turn_index :: rest, m_turns =>
    if turn_index < 0 then none
    else
      match m_turns[turn_index.toNat]? with
      | none => none
      | some turn =>
        block_turns rest
          (m_turns.set turn_index.toNat
            { turn with count_on_occupied := turn.count_on_occupied + 1 })

/-- Loop of `get_occupation` headed "If, in a cluster, one turn is blocked, block them all",
over the points of the map. -/
def propagate_blocked (policy : occupation_policy P F A L) :
    List (robust_point_type × occupation_info A) → List (buffer_turn_info P F) →
    Option (List (buffer_turn_info P F))
  | [], m_turns => some m_turns
  | (_, info) :: rest, m_turns =>
    match any_turn_blocked policy.blocked m_turns info.turns with
    | none => none
    | some true =>
      match block_turns info.turns m_turns with
      | none => none
      | some m_turns1 => propagate_blocked policy rest m_turns1
    | some false => propagate_blocked policy rest m_turns

/-- Step 4 of `get_occupation`: for every point of the map the left turns are computed, and
when there is none every turn recorded at the point gets `count_on_occupied++`. -/
def block_without_left_turns (policy : occupation_policy P F A L) :
    List (robust_point_type × occupation_info A) → List (buffer_turn_info P F) →
    Option (List (buffer_turn_info P F))
  | [], m_turns => some m_turns
  | (key, info) :: rest, m_turns =>
    let r := policy.get_left_turns info key
    if r.2.isEmpty then
      match block_turns r.1.turns m_turns with
      | none => none
      | some m_turns1 => block_without_left_turns policy rest m_turns1
    else block_without_left_turns policy rest m_turns

/-- How a call of `get_occupation` ends: it returns with the collection in the given state, it
reads `m_turns` outside its range, or the fuel of the model is used up. -/
inductive occupation_outcome (P F : Type) where
  | returned (c : buffered_piece_collection P F)
  | out_of_range
  | out_of_fuel
  deriving DecidableEq, Repr

/-- Function `get_occupation(distance)`.  `fuel` bounds the depth of the calls; the result is
how the call ends and the distances of the calls of `get_occupation` made during it. -/
def get_occupation (policy : occupation_policy P F A L) :
    Nat → Int → buffered_piece_collection P F → occupation_outcome P F × List Int
  | 0, _, _ => (occupation_outcome.out_of_fuel, [])
  | fuel + 1, distance, c =>
    -- 1: Add all intersection points to occupation map
    let r1 := occupation_add_turns policy distance c.m_turns []
    -- 2: Remove all points from map which has only one
    let map2 := occupation_erase_single r1.2
    if map2.isEmpty then (occupation_outcome.returned { c with m_turns := r1.1 }, [])
    else
      -- 3: Add vectors for all (co-located) points still present in the map
      let r3 := occupation_add_angles policy c.m_pieces r1.1 0 map2
      -- X: Check rounding issues
      if distance = 0 ∧ (r3.2.any fun e => policy.has_rounding_issues e.2 e.1) = true then
        let r := get_occupation policy fuel (distance + 1) { c with m_turns := r3.1 }
        (r.1, (distance + 1) :: r.2)
      else
        -- If, in a cluster, one turn is blocked, block them all
        match propagate_blocked policy r3.2 r3.1 with
        | none => (occupation_outcome.out_of_range, [])
        | some m_turns5 =>
          -- 4: From these vectors, get the left turns
          match block_without_left_turns policy r3.2 m_turns5 with
          | none => (occupation_outcome.out_of_range, [])
          | some m_turns4 => (occupation_outcome.returned { c with m_turns := m_turns4 }, [])

/-! ## Discarding turns, reversal and selection of rings -/

/-- Predicate `redundant_turn`; `opposite` is the member `opposite()` of a turn. -/
def redundant_turn (opposite : buffer_turn_info P F → Bool) (turn : buffer_turn_info P F) :
    Bool :=
  decide (turn.location ≠ intersection_location_type.location_ok) || opposite turn

/-- Function `discard_turns()`: `std::remove_if` with `redundant_turn`, then `erase`. -/
def discard_turns (opposite : buffer_turn_info P F → Bool)
    (c : buffered_piece_collection P F) : buffered_piece_collection P F :=
  { c with m_turns := c.m_turns.filter fun turn => ! redundant_turn opposite turn }

/-- Call `it->has_intersections()` on the offsetted ring at `index`; `has_intersections` is the
member of `buffered_ring`, taken as a function of the flags `has_accepted_intersections` and
`has_discarded_intersections` of the ring. -/
def ring_has_intersections (has_intersections : Bool → Bool → Bool)
    (c : buffered_piece_collection P F) (index : Nat) : Bool :=
  has_intersections (decide (index ∈ c.has_accepted_intersections))
    (decide (index ∈ c.has_discarded_intersections))

/-- First loop of `reverse`, over the offsetted rings; `index` is the position of the ring. -/
def reverse_offsetted_rings (has_intersections : Bool → Bool → Bool)
    (c : buffered_piece_collection P F) : Nat → List (List P) → List (List P)
  | _, [] => []
  | index, ring :: rest =>
    (if ! ring_has_intersections has_intersections c index then ring.reverse else ring)
      :: reverse_offsetted_rings has_intersections c (index + 1) rest

/-- Function `reverse()`. -/
def reverse (has_intersections : Bool → Bool → Bool) (c : buffered_piece_collection P F) :
    buffered_piece_collection P F :=
  { c with
    offsetted_rings := reverse_offsetted_rings has_intersections c 0 c.offsetted_rings,
    traversed_rings := c.traversed_rings.map List.reverse }

/-- Identifier of a ring (`ring_identifier`). -/
structure ring_identifier where
  source_index : Int
  multi_index : Int
  ring_index : Int
  deriving DecidableEq, Repr

/-- Statement `selected[id] = value` on the map `selected`, a list of identifiers with their
properties holding every identifier once; a new identifier is put at the end. -/
def selected_assign {R : Type} (id : ring_identifier) (value : R) :
    List (ring_identifier × R) → List (ring_identifier × R)
  | [] => [(id, value)]
  | (k, v) :: rest =>
    if k = id then (k, value) :: rest else (k, v) :: selected_assign id value rest

/-- First loop of `assign`, over the offsetted rings; `properties` is the constructor
`properties(ring, true)`. -/
def select_offsetted_rings {R : Type} (has_intersections : Bool → Bool → Bool)
    (properties : List P → R) (c : buffered_piece_collection P F) :
    Nat → List (List P) → List (ring_identifier × R) → List (ring_identifier × R)
  | _, [], selected => selected
  | index, ring :: rest, selected =>
    select_offsetted_rings has_intersections properties c (index + 1) rest
      (if ! ring_has_intersections has_intersections c index then
        selected_assign { source_index := 0, multi_index := index, ring_index := -1 }
          (properties ring) selected
      else selected)

/-- Second loop of `assign`, over the traversed rings. -/
def select_traversed_rings {R : Type} (properties : List P → R) :
    Nat → List (List P) → List (ring_identifier × R) → List (ring_identifier × R)
  | _, [], selected => selected
  | index, ring :: rest, selected =>
    select_traversed_rings properties (index + 1) rest
      (selected_assign { source_index := 2, multi_index := index, ring_index := -1 }
        (properties ring) selected)

/-- The map `selected` of `assign` after its two loops. -/
def assign_selected {R : Type} (has_intersections : Bool → Bool → Bool)
    (properties : List P → R) (c : buffered_piece_collection P F) : List (ring_identifier × R) :=
  select_traversed_rings properties 0 c.traversed_rings
    (select_offsetted_rings has_intersections properties c 0 c.offsetted_rings [])

/-- Function `assign(out)`; `assign_parents` and `add_rings` are the functions of the overlay
that `assign` ends with. -/
def assign {R O : Type} (has_intersections : Bool → Bool → Bool) (properties : List P → R)
    (assign_parents : List (List P) → List (List P) → List (ring_identifier × R) →
      List (ring_identifier × R))
    (add_rings : List (ring_identifier × R) → List (List P) → List (List P) → O → O)
    (c : buffered_piece_collection P F) (out : O) : O :=
  add_rings
    (assign_parents c.offsetted_rings c.traversed_rings
      (assign_selected has_intersections properties c))
    c.offsetted_rings c.traversed_rings out

/-- Recording stand-in for `calculate_turns` in the pair loop: the output is the list of the
pairs of pieces it was run for, in the order of the runs. -/
def record_pair (piece1 piece2 : piece P F) (out : List (piece P F × piece P F)) :
    List (piece P F × piece P F) :=
  out ++ [(piece1, piece2)]

/-- Recording stand-in for `turn_policy::apply`: the output is the list of the arguments of the
calls, in the order of the calls. -/
def record_call (a : turn_policy_arguments P F) (out : List (turn_policy_arguments P F)) :
    List (turn_policy_arguments P F) :=
  out ++ [a]

/-- The two segments of one call of the policy: the segment indices of the two operations of the
turn model, and the end points of the two segments (`none` for a position outside the ring). -/
structure segment_pair (P : Type) where
  segment_index1 : Int
  segment_index2 : Int
  prev1 : Option P
  it1 : Option P
  prev2 : Option P
  it2 : Option P
  deriving DecidableEq, Repr

/-- The two segments the arguments of a call of the policy stand for. -/
def turn_policy_arguments.segments (a : turn_policy_arguments P F) : segment_pair P :=
  { segment_index1 := a.the_model.op0.seg_id.segment_index,
    segment_index2 := a.the_model.op1.seg_id.segment_index,
    prev1 := some a.prev1, it1 := some a.it1, prev2 := some a.prev2, it2 := some a.it2 }

/-- Segment `first1 + i` of `ring1` paired with segment `first2 + j` of `ring2`. -/
def segment_pair_at (ring1 ring2 : List P) (first1 first2 i j : Nat) : segment_pair P :=
  { segment_index1 := (first1 : Int) + i, segment_index2 := (first2 : Int) + j,
    prev1 := ring1[first1 + i]?, it1 := ring1[first1 + i + 1]?,
    prev2 := ring2[first2 + j]?, it2 := ring2[first2 + j + 1]? }

/-- Every pair `(i, j)` with `i < n1` and `j < n2` once, `i` running slowest. -/
def all_segment_pairs (ring1 ring2 : List P) (first1 first2 n1 n2 : Nat) :
    List (segment_pair P) :=
  (List.range n1).flatMap fun i =>
    (List.range n2).map fun j => segment_pair_at ring1 ring2 first1 first2 i j

/-- Some point of the range after its first one differs from the point at position `it`: what
the loop of `next_point` needs to come to an end. -/
def has_next_point (equals : P → P → Bool) (range : List P) (it : Nat) : Bool :=
  match range[it]? with
  | some a => (range.drop 1).any fun b => ! equals a b
  | none => false

/-- What the policy is passed when it is called for segment `i` of `piece1` and segment `j` of
`piece2`: the piece indices and segment identifiers of the two operations, their reciprocal
references, and the end points of the two segments. -/
def call_for_segments (piece1 piece2 : piece P F) (ring1 ring2 : List P) (i j : Nat)
    (a : turn_policy_arguments P F) : Prop :=
  a.the_model.op0.piece_index = piece1.index ∧
  a.the_model.op0.seg_id = { piece1.first_seg_id with
    segment_index := piece1.first_seg_id.segment_index + i } ∧
  a.the_model.op1.piece_index = piece2.index ∧
  a.the_model.op1.seg_id = { piece2.first_seg_id with
    segment_index := piece2.first_seg_id.segment_index + j } ∧
  a.the_model.op0.other_id = a.the_model.op1.seg_id ∧
  a.the_model.op1.other_id = a.the_model.op0.seg_id ∧
  ring1[piece1.first_seg_id.segment_index.toNat + i]? = some a.prev1 ∧
  ring1[piece1.first_seg_id.segment_index.toNat + i + 1]? = some a.it1 ∧
  ring2[piece2.first_seg_id.segment_index.toNat + j]? = some a.prev2 ∧
  ring2[piece2.first_seg_id.segment_index.toNat + j + 1]? = some a.it2

/-! ## Specification of the piece generator -/

/-- The state after the points `points` have been appended to the last ring `ring`, the other
rings being `rings`: the running segment index has grown by their number. -/
def with_points (c : buffered_piece_collection P F) (rings : List (List P)) (ring points : List P) :
    buffered_piece_collection P F :=
  { c with
    current_segment_id :=
      { c.current_segment_id with
        segment_index := c.current_segment_id.segment_index + (points.length : Int) },
    offsetted_rings := rings ++ [ring ++ points] }

/-- The piece recorded by an addition to the state `c`: type, position, slice and helper
points as given, no robust data. -/
def recorded_piece (c : buffered_piece_collection P F) (type : piece_type)
    (first last : Int) (helper_segments : List P) : piece P F :=
  { type := type, index := (c.m_pieces.length : Int),
    first_seg_id := { c.current_segment_id with segment_index := first },
    last_segment_index := last, offsetted_count := 0, helper_segments := helper_segments,
    robust_turns := [], robust_ring := [] }

/-- The points that `add_piece(type, range, decrease)` appends to the last ring `ring`: the
whole range when the ring is empty, the range without its first point otherwise. -/
def range_points (ring range : List P) : List P :=
  if ring.isEmpty then range else range.tail

/-- The value of `last_segment_index` that `add_piece(type, range, decrease)` records: the new
size of the ring when a point was appended, the old size plus one otherwise. -/
def range_last (ring range : List P) : Int :=
  if (range_points ring range).isEmpty then (ring.length : Int) + 1
  else ((ring.length + (range_points ring range).length : Nat) : Int)

/-- The helper points that `add_piece(type, p, range)` stores: `range.back()`, `p`,
`range.front()` for a non-empty range, none for an empty range. -/
def range_helpers (p : P) (range : List P) : List P :=
  match range.getLast?, range.head? with
  | some back, some front => [back, p, front]
  | _, _ => []

/-- One call of the piece generator on the current ring. -/
inductive generator_call (P : Type) where
  | point (p : P)
  | piece_points (type : piece_type) (p1 p2 b1 b2 : P)
  | piece_range (type : piece_type) (range : List P) (decrease_segment_index_by_one : Bool)
  | piece_point_range (type : piece_type) (p : P) (range : List P)
  | endcap (pt : piece_type) (range : List P) (end_point : P)

/-- The state after one call of the piece generator. -/
def apply_call (call : generator_call P) (c : buffered_piece_collection P F) :
    Option (buffered_piece_collection P F) :=
  match call with
  | generator_call.point p => (add_point c p).map Prod.fst
  | generator_call.piece_points type p1 p2 b1 b2 => add_piece_points type p1 p2 b1 b2 c
  | generator_call.piece_range type range decrease => add_piece_range type range decrease c
  | generator_call.piece_point_range type p range => add_piece_point_range type p range c
  | generator_call.endcap pt range end_point => add_endcap pt range end_point c

/-- The state after a sequence of calls of the piece generator, made one after the other. -/
def apply_calls : List (generator_call P) → buffered_piece_collection P F →
    Option (buffered_piece_collection P F)
  | [], c => some c
  | call :: rest, c =>
    match apply_call call c with
    | none => none
    | some c1 => apply_calls rest c1

/-- The call, made when the last ring is `ring`, adds a piece whose slice starts at the last
point of the slice before it (or at the first point of an empty ring): a four-point piece that
is the first of its ring or follows a join or round end of its ring; a range of at least two
points, added with `decrease = false` to an empty ring and with `decrease = true` to a non-empty
ring. -/
def chains (c : buffered_piece_collection P F) (ring : List P) : generator_call P → Bool
  | generator_call.point _ => false
  | generator_call.piece_points _ _ _ _ _ =>
    (ring.isEmpty && ! last_type_join c) || (! ring.isEmpty && last_type_join c)
  | generator_call.piece_range _ range decrease =>
    decide (2 ≤ range.length) && (decrease == ! ring.isEmpty)
  | generator_call.piece_point_range _ _ range => decide (2 ≤ range.length) && ! ring.isEmpty
  | generator_call.endcap _ range _ => decide (2 ≤ range.length) && ! ring.isEmpty

/-- Every call of the sequence, made one after the other from the state `c`, succeeds and
chains. -/
def chained_calls : List (generator_call P) → buffered_piece_collection P F → Bool
  | [], _ => true
  | call :: rest, c =>
    match c.offsetted_rings.getLast?, apply_call call c with
    | some ring, some c1 => chains c ring call && chained_calls rest c1
    | _, _ => false

/-- The ring segment from position `m` to position `m + 1` lies in the slice of the piece. -/
def segment_in_slice (m : Int) (pc : piece P F) : Prop :=
  pc.first_seg_id.segment_index ≤ m ∧ m + 1 < pc.last_segment_index

/-- The slices of the pieces `pieces` partition a ring of `n` points: every slice has at least
two points and lies in the ring, the last slice ends at the end of the ring, every slice starts
at the last point of the slice before it, and every segment of the ring lies in the slice of
exactly one piece. -/
def slices_partition (pieces : List (piece P F)) (n : Int) : Prop :=
  (∀ pc ∈ pieces, 0 ≤ pc.first_seg_id.segment_index ∧
    pc.first_seg_id.segment_index + 2 ≤ pc.last_segment_index ∧ pc.last_segment_index ≤ n) ∧
  ((pieces = [] ∧ n = 0) ∨ ∃ pc, pieces.getLast? = some pc ∧ pc.last_segment_index = n) ∧
  (∀ (k : Nat) (a b : piece P F), pieces[k]? = some a → pieces[k + 1]? = some b →
    b.first_seg_id.segment_index = a.last_segment_index - 1) ∧
  (∀ m : Int, 0 ≤ m → m + 1 < n →
    ∃ (k : Nat) (pc : piece P F), pieces[k]? = some pc ∧ segment_in_slice m pc ∧
      ∀ (j : Nat) (q : piece P F), pieces[j]? = some q → segment_in_slice m q → j = k)

/-! ## Specification of the occupation resolver and of the final passes -/

/-- State of a call of `get_occupation` after its steps 1 to 3: the turns, and the occupation
map with the points that are left, the clusters. -/
def occupation_pass (policy : occupation_policy P F A L) (distance : Int)
    (c : buffered_piece_collection P F) :
    List (buffer_turn_info P F) × List (robust_point_type × occupation_info A) :=
  let r1 := occupation_add_turns policy distance c.m_turns []
  let map2 := occupation_erase_single r1.2
  if map2.isEmpty then (r1.1, []) else occupation_add_angles policy c.m_pieces r1.1 0 map2

/-- Whether a call of `get_occupation` calls itself: the distance is `0` and some cluster
reports rounding issues. -/
def occupation_retries (policy : occupation_policy P F A L) (distance : Int)
    (c : buffered_piece_collection P F) : Bool :=
  decide (distance = 0) &&
    (occupation_pass policy distance c).2.any fun e => policy.has_rounding_issues e.2 e.1

/-- The last two loops of `get_occupation` on the turns and clusters left by steps 1 to 3. -/
def occupation_finish (policy : occupation_policy P F A L)
    (r : List (buffer_turn_info P F) × List (robust_point_type × occupation_info A)) :
    Option (List (buffer_turn_info P F)) :=
  (propagate_blocked policy r.2 r.1).bind (block_without_left_turns policy r.2)

/-- Identifier `(0, i, -1)` of the offsetted ring `i`. -/
def offsetted_ring_id (i : Nat) : ring_identifier :=
  { source_index := 0, multi_index := i, ring_index := -1 }

/-- Identifier `(2, j, -1)` of the traversed ring `j`. -/
def traversed_ring_id (j : Nat) : ring_identifier :=
  { source_index := 2, multi_index := j, ring_index := -1 }

/-- The candidates the claim names: one for every offsetted ring without intersections, with
the identifier `(0, i, -1)`, then one for every traversed ring, with the identifier `(2, j, -1)`,
each with the properties of its ring. -/
def ring_candidates {R : Type} (has_intersections : Bool → Bool → Bool)
    (properties : List P → R) (c : buffered_piece_collection P F) : List (ring_identifier × R) :=
  ((c.offsetted_rings.enum.filter fun e => ! ring_has_intersections has_intersections c e.1).map
      fun e => (offsetted_ring_id e.1, properties e.2))
    ++ c.traversed_rings.enum.map fun e => (traversed_ring_id e.1, properties e.2)

/-- Number of the turns with `count_on_offsetted >= 1` whose mapped robust point is `key`. -/
def occupation_count (turns : List (buffer_turn_info P F)) (key : robust_point_type) : Nat :=
  (turns.filter fun turn =>
    decide (1 ≤ turn.count_on_offsetted) && decide (turn.mapped_robust_point = key)).length

/-- The mapped robust point lies within `distance` of the robust point in each coordinate. -/
def mapped_within (distance : Int) (turn : buffer_turn_info P F) : Prop :=
  |turn.mapped_robust_point.x - turn.robust_point.x| ≤ distance ∧
  |turn.mapped_robust_point.y - turn.robust_point.y| ≤ distance

/-- The points `adapt_mapped_robust_point` looks up, in the order of its two loops. -/
def adapt_candidates (robust_point : robust_point_type) (distance : Int) :
    List robust_point_type :=
  (adapt_offsets distance).flatMap fun x =>
    (adapt_offsets distance).map fun y =>
      ({ x := robust_point.x + x, y := robust_point.y + y } : robust_point_type)

/-- The turn lists have the same length and the turns at every position are related by `R`. -/
def turns_pointwise (R : buffer_turn_info P F → buffer_turn_info P F → Prop)
    (turns turns1 : List (buffer_turn_info P F)) : Prop :=
  turns1.length = turns.length ∧
  ∀ (n : Nat) (turn : buffer_turn_info P F), turns[n]? = some turn →
    ∃ turn1, turns1[n]? = some turn1 ∧ R turn turn1

/-- What step 1 of `get_occupation` does to a turn: nothing, or, for a turn with
`count_on_offsetted >= 1` and a positive distance, the mapped robust point becomes one of the
candidates of `adapt_mapped_robust_point`. -/
def adapted (distance : Int) (turn turn1 : buffer_turn_info P F) : Prop :=
  turn1 = turn ∨
  (1 ≤ turn.count_on_offsetted ∧ 0 < distance ∧
    ∃ rp, rp ∈ adapt_candidates turn.robust_point distance ∧
      turn1 = { turn with mapped_robust_point := rp })

/-- Contract of the functions that record turns in the occupation data: the default-constructed
data records no turn, `add_incoming_and_outgoing_angles` records no other turn than the one it
is given, and `get_left_turns` records no turn. -/
def records_given_index (policy : occupation_policy P F A L) : Prop :=
  policy.default_info.turns = [] ∧
  (∀ (map_point : robust_point_type) (turn : buffer_turn_info P F) (pieces : List (piece P F))
    (turn_index operation_index : Int) (seg_id : segment_identifier) (info : occupation_info A),
    ∀ j ∈ (policy.add_incoming_and_outgoing_angles map_point turn pieces turn_index
        operation_index seg_id info).turns, j ∈ info.turns ∨ j = turn_index) ∧
  (∀ (info : occupation_info A) (key : robust_point_type),
    ∀ j ∈ (policy.get_left_turns info key).1.turns, j ∈ info.turns)

/-- The turn index `j` is the position of a turn whose mapped robust point is `key`. -/
def recorded_at (turns : List (buffer_turn_info P F)) (key : robust_point_type) (j : Int) :
    Prop :=
  0 ≤ j ∧ ∃ turn, turns[j.toNat]? = some turn ∧ turn.mapped_robust_point = key

/-- The turn lists have the same length, and the turn at every position `n` has its
`count_on_occupied` raised by `k n` and is unchanged otherwise. -/
def occupied_by (k : Nat → Nat) (turns turns1 : List (buffer_turn_info P F)) : Prop :=
  turns1.length = turns.length ∧
  ∀ (n : Nat) (turn : buffer_turn_info P F), turns[n]? = some turn →
    turns1[n]? = some { turn with count_on_occupied := turn.count_on_occupied + (k n : Int) }

/-- Some turn of the recorded turn indices `indices` is blocked. -/
def cluster_blocked (policy : occupation_policy P F A L) (turns : List (buffer_turn_info P F))
    (indices : List Int) : Bool :=
  indices.any fun j =>
    decide (0 ≤ j) &&
      match turns[j.toNat]? with
      | some turn => policy.blocked turn
      | none => false

/-- How often the turn at position `n` is recorded in a cluster with a blocked turn. -/
def propagated_count (policy : occupation_policy P F A L) (turns : List (buffer_turn_info P F)) :
    List (robust_point_type × occupation_info A) → Nat → Nat
  | [], _ => 0
  | (_, info) :: rest, n =>
    (if cluster_blocked policy turns info.turns then info.turns.count (n : Int) else 0)
      + propagated_count policy turns rest n

/-- How often the turn at position `n` is recorded in a cluster without left turns. -/
def left_blocked_count (policy : occupation_policy P F A L) :
    List (robust_point_type × occupation_info A) → Nat → Nat
  | [], _ => 0
  | (key, info) :: rest, n =>
    (if (policy.get_left_turns info key).2.isEmpty then
        (policy.get_left_turns info key).1.turns.count (n : Int)
      else 0)
      + left_blocked_count policy rest n

/-- The member `blocked()` of a turn does not read what `get_occupation` writes. -/
def blocked_is_stable (policy : occupation_policy P F A L) : Prop :=
  ∀ (turn : buffer_turn_info P F) (rp : robust_point_type) (m k : Int),
    policy.blocked
      { turn with mapped_robust_point := rp, count_on_multi := m, count_on_occupied := k }
      = policy.blocked turn

/-! ## Ring flags and the turn finder as a whole -/

/-- Statement `offsetted_rings[multi_index].flag = true` on the list `flags` of the indices of
the rings whose flag is set, `count` being the number of offsetted rings; there is no result
when `multi_index` is not the index of an offsetted ring. -/
def set_ring_flag (count : Nat) (multi_index : Int) (flags : List Nat) : Option (List Nat) :=
  if 0 ≤ multi_index ∧ multi_index.toNat < count then
    some (if multi_index.toNat ∈ flags then flags else flags ++ [multi_index.toNat])
  else none

/-- Body of the loop of `discard_rings` for one turn; `both_union` is the call
`it->both(detail::overlay::operation_union)`. -/
def discard_rings_step (both_union : buffer_turn_info P F → Bool)
    (c : buffered_piece_collection P F) (turn : buffer_turn_info P F) :
    Option (buffered_piece_collection P F) :=
  if turn.location ≠ intersection_location_type.location_ok then
    match set_ring_flag c.offsetted_rings.length turn.op0.seg_id.multi_index
        c.has_discarded_intersections with
    | none => none
    | some flags0 =>
      match set_ring_flag c.offsetted_rings.length turn.op1.seg_id.multi_index flags0 with
      | none => none
      | some flags1 => some { c with has_discarded_intersections := flags1 }
  else if ! both_union turn then
    match set_ring_flag c.offsetted_rings.length turn.op0.seg_id.multi_index
        c.has_accepted_intersections with
    | none => none
    | some flags0 =>
      match set_ring_flag c.offsetted_rings.length turn.op1.seg_id.multi_index flags0 with
      | none => none
      | some flags1 => some { c with has_accepted_intersections := flags1 }
  else some c

/-- Loop of `discard_rings` over the turns. -/
def discard_rings_loop (both_union : buffer_turn_info P F → Bool) :
    List (buffer_turn_info P F) → buffered_piece_collection P F →
    Option (buffered_piece_collection P F)
  | [], c => some c
  | turn :: rest, c =>
    match discard_rings_step both_union c turn with
    | none => none
    | some c1 => discard_rings_loop both_union rest c1

/-- Function `discard_rings()`. -/
def discard_rings (both_union : buffer_turn_info P F → Bool)
    (c : buffered_piece_collection P F) : Option (buffered_piece_collection P F) :=
  discard_rings_loop both_union c.m_turns c

/-- What `get_turns` and the functions it calls take from outside the collection: the
comparison `geometry::equals`, the turn policy appending to `m_turns`, the default-constructed
turn, the robust policy, the order and the sort of `rescale_pieces`, the point-in-ring and side
primitives, the functions of the occupation pass, and the tag and containment test of the
input geometry. -/
structure turn_strategies (P F A L G : Type) where
  equals : P → P → Bool
  turn_policy : turn_policy_arguments P F → List (buffer_turn_info P F) →
    List (buffer_turn_info P F)
  default_turn : buffer_turn_info P F
  recalculate : P → robust_point_type
  buffer_operation_less : robust_turn F → robust_turn F → Bool
  std_sort : (robust_turn F → robust_turn F → Bool) → List (robust_turn F) →
    List (robust_turn F)
  point_in_geometry : robust_point_type → List robust_point_type → Int
  side : robust_point_type → robust_point_type → robust_point_type → Int
  occupation : occupation_policy P F A L
  tag : geometry_tag
  covered_by : P → G → Bool

/-- Call `calculate_turns(*it1, *it2)` in the pair loop of `get_turns`, acting on `m_turns`;
there is no result once a call did not return. -/
def get_turns_calculate {G : Type} (k : turn_strategies P F A L G) (fuel : Nat)
    (c : buffered_piece_collection P F) (piece1 piece2 : piece P F)
    (out : Option (List (buffer_turn_info P F))) : Option (List (buffer_turn_info P F)) :=
  match out with
  | none => none
  | some turns =>
    match calculate_turns k.equals k.turn_policy fuel k.default_turn c piece1 piece2 turns with
    | (turns1, true) => some turns1
    | (_, false) => none

/-- Function `get_turns(input_geometry, distance_strategy)`; `factor` is
`distance_strategy.factor()` and `fuel` bounds the loops of `next_point` and the depth of the
calls of `get_occupation`.  There is no result when a loop runs out of fuel, an assertion fails
or a vector is read outside its range. -/
def get_turns {G : Type} (k : turn_strategies P F A L G) (fuel : Nat) (input_geometry : G)
    (factor : Int) (c : buffered_piece_collection P F) :
    Option (buffered_piece_collection P F) :=
  match get_turns_pairs (get_turns_calculate k fuel c) c (some c.m_turns) with
  | none => none
  | some turns1 =>
    match rescale_pieces k.recalculate k.buffer_operation_less k.std_sort
        { c with m_turns := turns1 } with
    | none => none
    | some c2 =>
      match get_occupation k.occupation fuel 0
          (classify_turns k.point_in_geometry k.side c2) with
      | (occupation_outcome.returned c4, _) =>
        some (check_remaining_points k.tag k.covered_by input_geometry factor
          (classify_inside c4))
      | _ => none

/-! ## Functions of the library outside the buffer -/

/-- Loop `for (it = first; it != last; ++it)` of `analyse_each_turn` with `remaining` turns
left from position `it` on; the result is the state and whether the function returned from
inside the loop. -/
def analyse_each_turn_loop {S : Type} (apply : Nat → S → S) (interrupt : S → Bool) :
    Nat → Nat → S → S × Bool
  | 0, _, res => (res, false)
  | remaining + 1, it, res =>
    let res1 := apply it res
    if interrupt res1 then (res1, true)
    else analyse_each_turn_loop apply interrupt remaining (it + 1) res1

/-- Function `linear_areal::analyse_each_turn(res, analyser, first, last, ...)`.  The state
`S` holds the result and the analyser; `first` is position `0` and `last` is position `last`;
`apply it` is the call `analyser.apply(res, first, it, last, geometry, other_geometry,
boundary_checker)` and `interrupt` reads `res.interrupt`. -/
def analyse_each_turn {S : Type} (apply : Nat → S → S) (interrupt : S → Bool) (last : Nat)
    (res : S) : S :=
  if last = 0 then res
  else
    match analyse_each_turn_loop apply interrupt last 0 res with
    | (res1, true) => res1
    | (res1, false) => apply last res1

/-- Modelled from the spec: a geometry type as `make` and `make_zero` see it, through its
default constructor and the coordinate access `get` and `set` of the library, whose headers are
not among the sources.  `dimension` is the number of coordinates the geometry holds. -/
structure coordinate_access (G T : Type) where
  dimension : Nat
  construct : G
  get : Nat → G → T
  set : Nat → T → G → G

/-- Modelled from the spec: what the concept check of a geometry stands for, as far as `make`
needs it: `set` changes the coordinate it names and no other. -/
def coordinate_access.checked {G T : Type} (k : coordinate_access G T) : Prop :=
  ∀ (i j : Nat) (v : T) (g : G), i < k.dimension → j < k.dimension →
    k.get j (k.set i v g) = if j = i then v else k.get j g

/-- Modelled from the spec: `dispatch::assign<point_tag, Geometry, 2>::apply(geometry, c1,
c2)` of `algorithms/assign.hpp`, which is not among the sources: the coordinates `0` and `1`
are set to `c1` and `c2`. -/
def dispatch_assign2 {G T : Type} (k : coordinate_access G T) (geometry : G) (c1 c2 : T) : G :=
  k.set 1 c2 (k.set 0 c1 geometry)

/-- Modelled from the spec: `dispatch::assign<point_tag, Geometry, 3>::apply(geometry, c1, c2,
c3)` of `algorithms/assign.hpp`, which is not among the sources: the coordinates `0`, `1` and
`2` are set to `c1`, `c2` and `c3`. -/
def dispatch_assign3 {G T : Type} (k : coordinate_access G T) (geometry : G) (c1 c2 c3 : T) :
    G :=
  k.set 2 c3 (k.set 1 c2 (k.set 0 c1 geometry))

/-- Modelled from the spec: `dispatch::assign_zero<Tag, Geometry>::apply(geometry)` of
`algorithms/assign.hpp`, which is not among the sources: every coordinate is set to zero. -/
def dispatch_assign_zero {G T : Type} [Zero T] (k : coordinate_access G T) (geometry : G) : G :=
  (List.range k.dimension).foldl (fun g i => k.set i 0 g) geometry

/-- Function `make<Geometry>(c1, c2)`. -/
def make2 {G T : Type} (k : coordinate_access G T) (c1 c2 : T) : G :=
  dispatch_assign2 k k.construct c1 c2

/-- Function `make<Geometry>(c1, c2, c3)`. -/
def make3 {G T : Type} (k : coordinate_access G T) (c1 c2 c3 : T) : G :=
  dispatch_assign3 k k.construct c1 c2 c3

/-- Function `make_zero<Geometry>()`. -/
def make_zero {G T : Type} [Zero T] (k : coordinate_access G T) : G :=
  dispatch_assign_zero k k.construct

/-- Modelled from the spec: class `model::d3::point_xyz<T>` of `geometries/point_xyz.hpp`,
which is not among the sources: a point with the three coordinates its constructor is given,
read by `x()`, `y()` and `z()`. -/
structure point_xyz (T : Type) where
  x : T
  y : T
  z : T
  deriving DecidableEq, Repr

/-- Modelled from the spec: `get<i>(p)` on a `point_xyz`, for `i` in `0`, `1`, `2`. -/
def point_xyz.get {T : Type} (i : Nat) (p : point_xyz T) : T :=
  match i with
  | 0 => p.x
  | 1 => p.y
  | _ => p.z

/-- Modelled from the spec: `set<i>(p, v)` on a `point_xyz`, for `i` in `0`, `1`, `2`. -/
def point_xyz.set {T : Type} (i : Nat) (v : T) (p : point_xyz T) : point_xyz T :=
  match i with
  | 0 => { p with x := v }
  | 1 => { p with y := v }
  | _ => { p with z := v }

/-- Modelled from the spec: a `point_xyz` as a geometry with three coordinates; `origin` is
what its default constructor gives. -/
def point_xyz.access {T : Type} (origin : point_xyz T) : coordinate_access (point_xyz T) T :=
  { dimension := 3, construct := origin, get := point_xyz.get, set := point_xyz.set }

/-- Function `create_point_xyz<T>()` of the test. -/
def create_point_xyz (T : Type) [NatCast T] : point_xyz T :=
  { x := ((1 : Nat) : T), y := ((2 : Nat) : T), z := ((3 : Nat) : T) }

/-- Function `check_point_xyz(to_check, x, y, z)` of the test: whether its six checks hold. -/
def check_point_xyz {T : Type} [DecidableEq T] (to_check : point_xyz T) (x y z : T) : Bool :=
  decide (to_check.get 0 = x) && decide (to_check.get 1 = y) && decide (to_check.get 2 = z)
    && decide (to_check.x = x) && decide (to_check.y = y) && decide (to_check.z = z)

/-- Function `test_construction<T>()` of the test. -/
def test_construction (T : Type) [DecidableEq T] [NatCast T] : Bool :=
  check_point_xyz (create_point_xyz T) ((1 : Nat) : T) ((2 : Nat) : T) ((3 : Nat) : T)

/-- Function `test_assignment<T>()` of the test. -/
def test_assignment (T : Type) [DecidableEq T] [NatCast T] : Bool :=
  let p := create_point_xyz T
  let p := p.set 0 ((4 : Nat) : T)
  let p := p.set 1 ((5 : Nat) : T)
  let p := p.set 2 ((6 : Nat) : T)
  check_point_xyz p ((4 : Nat) : T) ((5 : Nat) : T) ((6 : Nat) : T)

/-! ## Specification of the geometric predicates and of the loops -/

/-- Cross product of `q - p` and `s - p`; it is zero when the three points are collinear. -/
def cross_product (s p q : robust_point_type) : Int :=
  (q.x - p.x) * (s.y - p.y) - (q.y - p.y) * (s.x - p.x)

/-- Dot product of `s - p` and `q - p`. -/
def dot_product (s p q : robust_point_type) : Int :=
  (s.x - p.x) * (q.x - p.x) + (s.y - p.y) * (q.y - p.y)

/-- The point `s` lies on the closed segment from `p` to `q`: it is a weighted mean of the two
end points, with non-negative integer weights. -/
def lies_on_segment (s p q : robust_point_type) : Prop :=
  ∃ a b : Int, 0 ≤ a ∧ 0 ≤ b ∧ 0 < a + b ∧
    (a + b) * s.x = a * p.x + b * q.x ∧ (a + b) * s.y = a * p.y + b * q.y

/-- The side primitive is zero exactly for collinear points, as the sign of the cross product
is. -/
def side_of_cross_product
    (side : robust_point_type → robust_point_type → robust_point_type → Int) : Prop :=
  ∀ point previous current : robust_point_type,
    side point previous current = 0 ↔ cross_product point previous current = 0

/-- Position `k + 1` steps after `it` in a range of `n` points, going forward and from the
last position to position `1`. -/
def scan_position (n it k : Nat) : Nat :=
  1 + (it + k) % (n - 1)

/-- State of `analyse_each_turn` after the calls of the analyser on the first `count` turns,
when none of them made the function return. -/
def analysed {S : Type} (apply : Nat → S → S) (res : S) (count : Nat) : S :=
  (List.range count).foldl (fun r it => apply it r) res

/-- Recording stand-in for the analyser: it does what `apply` does and appends the position it
is called with to the record. -/
def record_analyser {S : Type} (apply : Nat → S → S) (it : Nat) (r : S × List Nat) :
    S × List Nat :=
  (apply it r.1, r.2 ++ [it])

/-! ## The pair loop with the calls that return -/

/-- Call `calculate_turns(*it1, *it2)` in the pair loop of `get_turns`, acting on `m_turns`,
together with the record of the pairs of pieces the function is called for.  A call that does
not return leaves no turns, and after it no call is made. -/
def get_turns_run {G : Type} (k : turn_strategies P F A L G) (fuel : Nat)
    (c : buffered_piece_collection P F) (piece1 piece2 : piece P F)
    (out : Option (List (buffer_turn_info P F)) × List (piece P F × piece P F)) :
    Option (List (buffer_turn_info P F)) × List (piece P F × piece P F) :=
  match out.1 with
  | none => out
  | some turns =>
    match calculate_turns k.equals k.turn_policy fuel k.default_turn c piece1 piece2 turns with
    | (turns1, true) => (some turns1, out.2 ++ [(piece1, piece2)])
    | (_, false) => (none, out.2 ++ [(piece1, piece2)])

/-- What `calculate_turns` needs of a piece to return: its first segment index is negative, so
that the call returns at once, or its slice holds at least one point, lies in its offsetted
ring, and for every point of the slice after the first some point of the ring after its first
one differs from it, so that `next_point` comes to an end. -/
def slice_scannable (equals : P → P → Bool) (c : buffered_piece_collection P F)
    (pc : piece P F) : Prop :=
  pc.first_seg_id.segment_index < 0 ∨
  ∃ (ring : List P) (first count : Nat),
    pc.first_seg_id.segment_index = (first : Int) ∧
    pc.last_segment_index = (first : Int) + count ∧ 1 ≤ count ∧
    0 ≤ pc.first_seg_id.multi_index ∧
    c.offsetted_rings[pc.first_seg_id.multi_index.toNat]? = some ring ∧
    first + count ≤ ring.length ∧
    ∀ i : Nat, i < count - 1 → has_next_point equals ring (first + i + 1) = true

end definitions

/-! ## Concrete data used to instantiate the statements -/

/-- Side of `p` relative to the directed segment `a b`: sign of the cross product. -/
def example_side (p a b : robust_point_type) : Int :=
  Int.sign ((b.x - a.x) * (p.y - a.y) - (b.y - a.y) * (p.x - a.x))

/-- Point-in-ring test of a toy collection: `0` (on the border) for the point `(1, 0)`,
`1` (inside) for `(1, 1)`, `-1` (outside) for every other point. -/
def example_point_in_geometry (p : robust_point_type) (_ring : List robust_point_type) : Int :=
  if p = ⟨1, 0⟩ then 0 else if p = ⟨1, 1⟩ then 1 else -1

/-- Segment identifier on ring `0` with the given segment index. -/
def example_seg_id (segment_index : Int) : segment_identifier :=
  { source_index := 0, multi_index := 0, ring_index := -1, segment_index := segment_index }

/-- Operation on piece `piece_index`, segment `segment_index`, at fraction `fraction`. -/
def example_operation (piece_index segment_index : Int) (fraction : Nat) :
    buffer_turn_operation Nat :=
  { piece_index := piece_index, index_in_robust_ring := -1,
    seg_id := example_seg_id segment_index, other_id := example_seg_id 0, fraction := fraction }

/-- Turn at `point` with the two given operations, location ok and all counters zero. -/
def example_turn (point : Int × Int) (op0 op1 : buffer_turn_operation Nat) :
    buffer_turn_info (Int × Int) Nat :=
  { point := point, robust_point := ⟨point.1, point.2⟩, mapped_robust_point := ⟨point.1, point.2⟩,
    op0 := op0, op1 := op1, location := intersection_location_type.location_ok,
    count_within := 0, count_on_offsetted := 0, count_on_helper := 0,
    count_on_occupied := 0, count_on_multi := 0 }

/-- Piece with a robust ring: the square `(0,0) (2,0) (2,2) (0,2) (0,0)`, whose first two points
are offsetted points, the rest being helper points. -/
def example_square_piece (type : piece_type) (index : Int) : piece (Int × Int) Nat :=
  { type := type, index := index, first_seg_id := example_seg_id 0, last_segment_index := 2,
    offsetted_count := 2, helper_segments := [(2, 2), (0, 2), (0, 0)], robust_turns := [],
    robust_ring := [⟨0, 0⟩, ⟨2, 0⟩, ⟨2, 2⟩, ⟨0, 2⟩, ⟨0, 0⟩] }

/-- Turn of pieces `0` and `1` on the offsetted border of the square, at `(1, 0)`. -/
def example_turn_on_offsetted : buffer_turn_info (Int × Int) Nat :=
  example_turn (1, 0) (example_operation 0 0 1) (example_operation 1 0 1)

/-- Turn of pieces `0` and `1` strictly inside the square, at `(1, 1)`. -/
def example_turn_within : buffer_turn_info (Int × Int) Nat :=
  example_turn (1, 1) (example_operation 0 0 1) (example_operation 1 0 1)

/-- Covered-by test of a toy polygon: the points with a non-negative first coordinate. -/
def example_covered_by (p : Int × Int) (_g : Unit) : Bool := decide (0 ≤ p.1)

/-- Collection for `check_remaining_points`: an ok turn at `(1, 0)`, covered by the toy
polygon, an ok turn at `(-1, 0)`, not covered, and a covered turn already inside the buffer. -/
def example_remaining_collection : buffered_piece_collection (Int × Int) Nat :=
  { m_pieces := [],
    m_turns := [example_turn (1, 0) (example_operation 0 0 1) (example_operation 1 0 1),
                example_turn (-1, 0) (example_operation 0 0 1) (example_operation 1 0 1),
                { example_turn (1, 0) (example_operation 0 0 1) (example_operation 1 0 1) with
                  location := intersection_location_type.inside_buffer, count_within := 1 }],
    offsetted_rings := [],
    current_segment_id := example_seg_id 0,
    traversed_rings := [], has_accepted_intersections := [],
    has_discarded_intersections := [] }

/-- Rescale policy of the examples: the identity on integer points. -/
def example_recalculate (p : Int × Int) : robust_point_type := ⟨p.1, p.2⟩

/-- Comparator of the examples: by segment index, then fraction. -/
def example_less (a b : robust_turn Nat) : Bool :=
  decide (a.seg_id.segment_index < b.seg_id.segment_index) ||
    (decide (a.seg_id.segment_index = b.seg_id.segment_index) && decide (a.fraction < b.fraction))

/-- Sort of the examples: insertion sort on the order "not greater than". -/
def example_sort (less : robust_turn Nat → robust_turn Nat → Bool) (l : List (robust_turn Nat)) :
    List (robust_turn Nat) :=
  List.insertionSort (fun a b => less b a = false) l

/-- Piece before rescaling: slice `[first, last)` of ring `0`, no robust points yet. -/
def example_fresh_piece (index first last : Int) (helper_segments : List (Int × Int)) :
    piece (Int × Int) Nat :=
  { type := piece_type.buffered_segment, index := index, first_seg_id := example_seg_id first,
    last_segment_index := last, offsetted_count := 0, helper_segments := helper_segments,
    robust_turns := [], robust_ring := [] }

/-- Collection before rescaling: one offsetted ring of five points, piece `0` with the slice
`[0, 3)` and one helper point, piece `1` with the slice `[2, 5)` and two helper points, and three
turns between the two pieces; on piece `0` two turns lie on segment `1`, at fractions `5` and
`2`, and one on segment `0`. -/
def example_rescale_collection : buffered_piece_collection (Int × Int) Nat :=
  { m_pieces := [example_fresh_piece 0 0 3 [(100, 100)],
                 example_fresh_piece 1 2 5 [(200, 200), (201, 201)]],
    m_turns := [example_turn (50, 50) (example_operation 0 1 5) (example_operation 1 2 3),
                example_turn (51, 51) (example_operation 0 1 2) (example_operation 1 3 1),
                example_turn (52, 52) (example_operation 1 2 1) (example_operation 0 0 1)],
    offsetted_rings := [[(0, 0), (1, 1), (2, 2), (3, 3), (4, 4)]],
    current_segment_id := example_seg_id 5,
    traversed_rings := [], has_accepted_intersections := [],
    has_discarded_intersections := [] }

/-- Empty collection: no piece, no turn, no ring. -/
def example_empty_collection : buffered_piece_collection (Int × Int) Nat :=
  { m_pieces := [], m_turns := [], offsetted_rings := [], current_segment_id := example_seg_id 0,
    traversed_rings := [], has_accepted_intersections := [],
    has_discarded_intersections := [] }

/-- Collection with one ring of two points and one segment piece on it. -/
def example_segment_collection : buffered_piece_collection (Int × Int) Nat :=
  { m_pieces := [{ example_fresh_piece 0 0 2 [(10, -1), (10, 0), (0, 0), (0, -1)] with
                   type := piece_type.buffered_segment }],
    m_turns := [],
    offsetted_rings := [[(0, -1), (10, -1)]],
    current_segment_id := example_seg_id 2,
    traversed_rings := [], has_accepted_intersections := [],
    has_discarded_intersections := [] }

/-- Collection with three pieces (the square as pieces `0`, `1`, `2`) and two turns. -/
def example_classify_collection : buffered_piece_collection (Int × Int) Nat :=
  { m_pieces := [example_square_piece piece_type.buffered_segment 0,
                 example_square_piece piece_type.buffered_join 1,
                 example_square_piece piece_type.buffered_segment 2],
    m_turns := [example_turn_on_offsetted, example_turn_within],
    offsetted_rings := [[(0, 0), (2, 0)]],
    current_segment_id := example_seg_id 2,
    traversed_rings := [], has_accepted_intersections := [],
    has_discarded_intersections := [] }

/-- Equality of points with integer coordinates, for `geometry::equals`. -/
def example_equals (a b : Int × Int) : Bool := decide (a = b)

/-- Default-constructed turn model: no piece and no segment in either operation. -/
def example_default_turn : buffer_turn_info (Int × Int) Nat :=
  example_turn (0, 0) (example_operation (-1) (-1) 0) (example_operation (-1) (-1) 0)

/-- Collection whose ring holds three times the same point, with one piece on the points `0`
and `1` and one on the points `1` and `2`. -/
def example_degenerate_collection : buffered_piece_collection (Int × Int) Nat :=
  { m_pieces := [example_fresh_piece 0 0 2 [], example_fresh_piece 1 1 3 []],
    m_turns := [],
    offsetted_rings := [[(5, 5), (5, 5), (5, 5)]],
    current_segment_id := example_seg_id 3,
    traversed_rings := [], has_accepted_intersections := [],
    has_discarded_intersections := [] }

/-- Arguments of the first call of the policy for the two pieces of `example_rescale_collection`:
segment `0` of piece `0` against segment `2` of piece `1`. -/
def example_policy_call : turn_policy_arguments (Int × Int) Nat :=
  { prev1 := (0, 0), it1 := (1, 1), next1 := (2, 2),
    prev2 := (2, 2), it2 := (3, 3), next2 := (4, 4),
    the_model := example_turn (0, 0)
      { example_operation 0 0 0 with other_id := example_seg_id 2 }
      (example_operation 1 2 0) }

/-- Example of the functions `get_occupation` takes from elsewhere: the default-constructed
occupation data has the count `0` and no turn; points are ordered by `x`, then by `y`;
`add_incoming_and_outgoing_angles` records the turn index it is given; a point left of the y
axis reports rounding issues; a point below the x axis has no left turn, any other point has
its first recorded turn as its left turn; and a turn counts as blocked when both its
operations lie at fraction `0`. -/
def example_occupation_policy : occupation_policy (Int × Int) Nat Unit Int :=
  { default_info := { count := 0, turns := [], angles := () },
    less := fun a b => decide (a.x < b.x) || (decide (a.x = b.x) && decide (a.y < b.y)),
    add_incoming_and_outgoing_angles := fun _ _ _ turn_index _ _ info =>
      { info with turns := info.turns ++ [turn_index] },
    has_rounding_issues := fun _ point => decide (point.x < 0),
    get_left_turns := fun info point => (info, if point.y < 0 then [] else info.turns.take 1),
    blocked := fun turn => decide (turn.op0.fraction = 0 ∧ turn.op1.fraction = 0) }

/-- Turn between piece `0` and piece `1` at the robust point `point`, with the given
`count_on_offsetted` and the given fraction on both segments. -/
def example_occupation_turn (point : Int × Int) (count_on_offsetted : Int) (fraction : Nat) :
    buffer_turn_info (Int × Int) Nat :=
  { example_turn point (example_operation 0 0 fraction) (example_operation 1 2 fraction) with
    count_on_offsetted := count_on_offsetted }

/-- The turn `example_occupation_turn` after `get_occupation`: mapped to `mapped`, with the
given `count_on_multi` and `count_on_occupied`. -/
def example_occupied_turn (point : Int × Int) (count_on_offsetted : Int) (fraction : Nat)
    (mapped : Int × Int) (count_on_multi count_on_occupied : Int) :
    buffer_turn_info (Int × Int) Nat :=
  { example_occupation_turn point count_on_offsetted fraction with
    mapped_robust_point := ⟨mapped.1, mapped.2⟩, count_on_multi := count_on_multi,
    count_on_occupied := count_on_occupied }

/-- Collection with the given turns and nothing else. -/
def example_occupation_collection (turns : List (buffer_turn_info (Int × Int) Nat)) :
    buffered_piece_collection (Int × Int) Nat :=
  { example_empty_collection with m_turns := turns }

/-- Two turns at the point `(5, 5)`, the second of them blocked, and one turn at `(7, 7)`. -/
def example_blocked_cluster : buffered_piece_collection (Int × Int) Nat :=
  example_occupation_collection
    [example_occupation_turn (5, 5) 1 1, example_occupation_turn (5, 5) 1 0,
     example_occupation_turn (7, 7) 1 1]

/-- The collection `example_blocked_cluster` after `get_occupation`: both turns of the cluster,
each recorded twice, have `count_on_occupied = 2`. -/
def example_blocked_cluster_result : buffered_piece_collection (Int × Int) Nat :=
  example_occupation_collection
    [example_occupied_turn (5, 5) 1 1 (5, 5) 1 2, example_occupied_turn (5, 5) 1 0 (5, 5) 1 2,
     example_occupied_turn (7, 7) 1 1 (7, 7) 0 0]

/-- Two turns at the point `(5, 5)`, none of them blocked, and one turn at `(7, 7)`. -/
def example_left_cluster : buffered_piece_collection (Int × Int) Nat :=
  example_occupation_collection
    [example_occupation_turn (5, 5) 1 1, example_occupation_turn (5, 5) 1 1,
     example_occupation_turn (7, 7) 1 1]

/-- The collection `example_left_cluster` after `get_occupation`: the turns of the cluster are
counted in `count_on_multi` and keep `count_on_occupied = 0`. -/
def example_left_cluster_result : buffered_piece_collection (Int × Int) Nat :=
  example_occupation_collection
    [example_occupied_turn (5, 5) 1 1 (5, 5) 1 0, example_occupied_turn (5, 5) 1 1 (5, 5) 1 0,
     example_occupied_turn (7, 7) 1 1 (7, 7) 0 0]

/-- The cluster of `example_left_cluster` and of `example_blocked_cluster`: the point `(5, 5)`
with two turns, each recorded once for each of its operations. -/
def example_cluster_entry : robust_point_type × occupation_info Unit :=
  (⟨5, 5⟩, { count := 2, turns := [0, 0, 1, 1], angles := () })

/-- Three turns with `count_on_offsetted = 1` at three different points. -/
def example_single_turns : buffered_piece_collection (Int × Int) Nat :=
  example_occupation_collection
    [example_occupation_turn (5, 5) 1 1, example_occupation_turn (6, 5) 1 1,
     example_occupation_turn (7, 7) 1 1]

/-- Two turns with `count_on_offsetted = 1` at the point `(5, -5)`, one turn with
`count_on_offsetted = 1` at `(7, 7)`, and a turn with `count_on_offsetted = 0` at
`(5, -5)`. -/
def example_count_zero_cluster : buffered_piece_collection (Int × Int) Nat :=
  example_occupation_collection
    [example_occupation_turn (5, -5) 1 1, example_occupation_turn (5, -5) 1 1,
     example_occupation_turn (7, 7) 1 1, example_occupation_turn (5, -5) 0 1]

/-- The collection `example_count_zero_cluster` after `get_occupation`: the turn with
`count_on_offsetted = 0` is counted like the two turns of the cluster. -/
def example_count_zero_cluster_result : buffered_piece_collection (Int × Int) Nat :=
  example_occupation_collection
    [example_occupied_turn (5, -5) 1 1 (5, -5) 1 2, example_occupied_turn (5, -5) 1 1 (5, -5) 1 2,
     example_occupied_turn (7, 7) 1 1 (7, 7) 0 0, example_occupied_turn (5, -5) 0 1 (5, -5) 1 2]

/-- Two turns with `count_on_offsetted = 1` at the point `(5, -5)` and a turn with
`count_on_offsetted = 0` at `(7, 7)`. -/
def example_count_zero_single : buffered_piece_collection (Int × Int) Nat :=
  example_occupation_collection
    [example_occupation_turn (5, -5) 1 1, example_occupation_turn (5, -5) 1 1,
     example_occupation_turn (7, 7) 0 1]

/-- The collection `example_count_zero_single` after `get_occupation`. -/
def example_count_zero_single_result : buffered_piece_collection (Int × Int) Nat :=
  example_occupation_collection
    [example_occupied_turn (5, -5) 1 1 (5, -5) 1 2, example_occupied_turn (5, -5) 1 1 (5, -5) 1 2,
     example_occupied_turn (7, 7) 0 1 (7, 7) 0 0]

/-- Two turns at the point `(-5, 5)`, which reports rounding issues, one turn next to it at
`(-4, 6)`, and one turn at `(7, 7)`. -/
def example_rounding_cluster : buffered_piece_collection (Int × Int) Nat :=
  example_occupation_collection
    [example_occupation_turn (-5, 5) 1 1, example_occupation_turn (-5, 5) 1 1,
     example_occupation_turn (-4, 6) 1 1, example_occupation_turn (7, 7) 1 1]

/-- The collection `example_rounding_cluster` after `get_occupation`: the call at distance `1`
maps the turn at `(-4, 6)` to the point `(-5, 5)` of the cluster, and the two turns of the
first cluster are counted in both calls. -/
def example_rounding_cluster_result : buffered_piece_collection (Int × Int) Nat :=
  example_occupation_collection
    [example_occupied_turn (-5, 5) 1 1 (-5, 5) 2 0, example_occupied_turn (-5, 5) 1 1 (-5, 5) 2 0,
     example_occupied_turn (-4, 6) 1 1 (-5, 5) 1 0, example_occupied_turn (7, 7) 1 1 (7, 7) 0 0]

/-- Occupation map with the one point `(-5, 5)`, counted twice. -/
def example_rounding_map : List (robust_point_type × occupation_info Unit) :=
  [(⟨-5, 5⟩, { count := 2, turns := [], angles := () })]

/-- A point with two integer coordinates as a geometry: the pair of its coordinates, with the
origin as the default-constructed point. -/
def example_point_access : coordinate_access (Int × Int) Int :=
  { dimension := 2, construct := (0, 0),
    get := fun i p => if i = 0 then p.1 else p.2,
    set := fun i v p => if i = 0 then (v, p.2) else (p.1, v) }

/-- Analyser of a toy run: the state is the list of the positions seen, and the result asks to
interrupt once the position `stop` was seen. -/
def example_analyser (it : Nat) (res : List Nat) : List Nat := it :: res

/-- The interrupt flag of the toy run: set once the position `stop` was seen. -/
def example_interrupt (stop : Nat) (res : List Nat) : Bool := decide (stop ∈ res)

/-- Piece whose robust ring starts with the offsetted points `(0,0) (0,0) (4,0)`, two of them
equal, followed by the helper points `(4,4) (0,0)`. -/
def example_degenerate_piece : piece (Int × Int) Nat :=
  { type := piece_type.buffered_segment, index := 0, first_seg_id := example_seg_id 0,
    last_segment_index := 2, offsetted_count := 3, helper_segments := [(4, 4), (0, 0)],
    robust_turns := [], robust_ring := [⟨0, 0⟩, ⟨0, 0⟩, ⟨4, 0⟩, ⟨4, 4⟩, ⟨0, 0⟩] }

/-- Collection with three pieces on one ring, with the indices `0`, `1` and `2`. -/
def example_three_pieces : buffered_piece_collection (Int × Int) Nat :=
  { example_empty_collection with
    m_pieces := [example_square_piece piece_type.buffered_segment 0,
      example_square_piece piece_type.buffered_join 1,
      example_square_piece piece_type.buffered_segment 2] }

/-- Example of what `get_turns` takes from outside the collection, with a turn policy that
finds no turn. -/
def example_turn_strategies : turn_strategies (Int × Int) Nat Unit Int Unit :=
  { equals := example_equals, turn_policy := fun _ out => out,
    default_turn := example_default_turn, recalculate := example_recalculate,
    buffer_operation_less := example_less, std_sort := example_sort,
    point_in_geometry := example_point_in_geometry, side := example_side,
    occupation := example_occupation_policy, tag := geometry_tag.polygon_tag,
    covered_by := example_covered_by }

/-- Turn with its two operations on the offsetted rings `ring0` and `ring1` and with the given
location. -/
def example_ring_turn (ring0 ring1 : Int) (location : intersection_location_type) :
    buffer_turn_info (Int × Int) Nat :=
  { example_default_turn with
    op0 := { example_default_turn.op0 with
      seg_id := { example_default_turn.op0.seg_id with multi_index := ring0 } },
    op1 := { example_default_turn.op1 with
      seg_id := { example_default_turn.op1.seg_id with multi_index := ring1 } },
    location := location }

/-- Collection with four offsetted rings, both flags of each clear, and three turns: one that
is not ok on the rings `0` and `1`, and two that are ok on the rings `1` and `2` and on the
ring `3`. -/
def example_flag_collection : buffered_piece_collection (Int × Int) Nat :=
  { example_empty_collection with
    offsetted_rings := [[(0, 0)], [(1, 1)], [(2, 2)], [(3, 3)]],
    m_turns := [example_ring_turn 0 1 intersection_location_type.inside_buffer,
      example_ring_turn 1 2 intersection_location_type.location_ok,
      example_ring_turn 3 3 intersection_location_type.location_ok] }

/-- Stand-in for `both(operation_union)` in the toy collection: true for the turn on the ring
`3` alone. -/
def example_both_union (turn : buffer_turn_info (Int × Int) Nat) : Bool :=
  decide (turn.op0.seg_id.multi_index = 3)

/-- Stand-in for `has_intersections()` of a ring: one of the two flags is set. -/
def example_has_intersections (accepted discarded : Bool) : Bool := accepted || discarded

/-- Stand-in for the properties of a ring: the number of its points. -/
def example_properties (ring : List (Int × Int)) : Nat := ring.length

/-- Stand-in for `assign_parents`: the selection is left as it is. -/
def example_assign_parents (_offsetted _traversed : List (List (Int × Int)))
    (selected : List (ring_identifier × Nat)) : List (ring_identifier × Nat) := selected

/-- Stand-in for `add_rings`: the identifiers of the selected rings are appended to the
output. -/
def example_add_rings (selected : List (ring_identifier × Nat))
    (_offsetted _traversed : List (List (Int × Int))) (out : List ring_identifier) :
    List ring_identifier := out ++ selected.map Prod.fst

/-- Collection with one offsetted ring of five different points and three pieces on it, a
segment, a join and a segment, with the slices `[0, 2)`, `[1, 3)` and `[2, 5)`. -/
def example_pairs_collection : buffered_piece_collection (Int × Int) Nat :=
  { example_empty_collection with
    m_pieces := [example_fresh_piece 0 0 2 [],
      { example_fresh_piece 1 1 3 [] with type := piece_type.buffered_join },
      example_fresh_piece 2 2 5 []],
    offsetted_rings := [[(0, 0), (1, 1), (2, 2), (3, 3), (4, 4)]] }

/-- Collection whose ring holds three times the same point, with three segment pieces on it,
on the slices `[0, 2)`, `[1, 3)` and `[0, 2)`. -/
def example_stuck_collection : buffered_piece_collection (Int × Int) Nat :=
  { example_empty_collection with
    m_pieces := [example_fresh_piece 0 0 2 [], example_fresh_piece 1 1 3 [],
      example_fresh_piece 2 0 2 []],
    offsetted_rings := [[(5, 5), (5, 5), (5, 5)]] }

/-! ## Turn classification: theorems -/

section classification

variable {P F : Type}

/-- C3: for a non-flat piece that is not a source piece of the turn and whose robust ring has the
turn's robust point exactly on its boundary (`point_in_geometry` returns `0`): if `on_offsetted`
holds, `classify_turn` adds one to `count_on_offsetted` and changes nothing else; otherwise it
adds one to `count_within` and one to `count_on_helper` and changes nothing else. -/
theorem classify_turn_on_boundary
    (point_in_geometry : robust_point_type → List robust_point_type → Int)
    (side : robust_point_type → robust_point_type → robust_point_type → Int)
    (turn : buffer_turn_info P F) (pc : piece P F)
    (hflat : pc.type ≠ piece_type.buffered_flat_end)
    (h0 : turn.op0.piece_index ≠ pc.index) (h1 : turn.op1.piece_index ≠ pc.index)
    (hcode : point_in_geometry turn.robust_point pc.robust_ring = 0) :
    (on_offsetted side turn.robust_point pc = true →
      classify_turn point_in_geometry side turn pc
        = { turn with count_on_offsetted := turn.count_on_offsetted + 1 }) ∧
    (on_offsetted side turn.robust_point pc = false →
      classify_turn point_in_geometry side turn pc
        = { turn with count_within := turn.count_within + 1,
                      count_on_helper := turn.count_on_helper + 1 }) := by
  constructor
  · intro hon
    simp [classify_turn, hflat, h0, h1, hcode, hon]
  · intro hon
    simp [classify_turn, hflat, h0, h1, hcode, hon]

/-- C3, instance: the turn at `(1, 0)` lies on the offsetted edge of the square piece `2`. -/
theorem classify_turn_on_boundary_witness :
    classify_turn example_point_in_geometry example_side example_turn_on_offsetted
        (example_square_piece piece_type.buffered_segment 2)
      = { example_turn_on_offsetted with count_on_offsetted := 1 } :=
  (classify_turn_on_boundary example_point_in_geometry example_side example_turn_on_offsetted
    (example_square_piece piece_type.buffered_segment 2) (by decide) (by decide) (by decide)
    (by decide)).1 (by decide)

/-- C4: for a non-flat piece that is not a source piece of the turn: when `point_in_geometry`
returns `1` (strictly inside), `classify_turn` adds one to `count_within` and changes nothing
else; when it returns `-1` (outside), `classify_turn` leaves the turn unchanged. -/
theorem classify_turn_within_or_outside
    (point_in_geometry : robust_point_type → List robust_point_type → Int)
    (side : robust_point_type → robust_point_type → robust_point_type → Int)
    (turn : buffer_turn_info P F) (pc : piece P F)
    (hflat : pc.type ≠ piece_type.buffered_flat_end)
    (h0 : turn.op0.piece_index ≠ pc.index) (h1 : turn.op1.piece_index ≠ pc.index) :
    (point_in_geometry turn.robust_point pc.robust_ring = 1 →
      classify_turn point_in_geometry side turn pc
        = { turn with count_within := turn.count_within + 1 }) ∧
    (point_in_geometry turn.robust_point pc.robust_ring = -1 →
      classify_turn point_in_geometry side turn pc = turn) := by
  constructor
  · intro hcode
    simp [classify_turn, hflat, h0, h1, hcode]
  · intro hcode
    simp [classify_turn, hflat, h0, h1, hcode]

/-- C4, instance: the turn at `(1, 1)` lies strictly inside the square piece `2`. -/
theorem classify_turn_within_or_outside_witness :
    classify_turn example_point_in_geometry example_side example_turn_within
        (example_square_piece piece_type.buffered_segment 2)
      = { example_turn_within with count_within := 1 } :=
  (classify_turn_within_or_outside example_point_in_geometry example_side example_turn_within
    (example_square_piece piece_type.buffered_segment 2) (by decide) (by decide) (by decide)).1
    (by decide)

/-- Case form of `classify_turn`. -/
theorem classify_turn_cases
    (point_in_geometry : robust_point_type → List robust_point_type → Int)
    (side : robust_point_type → robust_point_type → robust_point_type → Int)
    (turn : buffer_turn_info P F) (pc : piece P F) :
    classify_turn point_in_geometry side turn pc =
      if pc.type = piece_type.buffered_flat_end ∨ turn.op0.piece_index = pc.index
          ∨ turn.op1.piece_index = pc.index then turn
      else if point_in_geometry turn.robust_point pc.robust_ring = 0 then
        if on_offsetted side turn.robust_point pc = true then
          { turn with count_on_offsetted := turn.count_on_offsetted + 1 }
        else
          { turn with count_within := turn.count_within + 1,
                      count_on_helper := turn.count_on_helper + 1 }
      else if point_in_geometry turn.robust_point pc.robust_ring = 1 then
        { turn with count_within := turn.count_within + 1 }
      else turn := by
  by_cases hflat : pc.type = piece_type.buffered_flat_end
  · simp [classify_turn, hflat]
  by_cases h0 : turn.op0.piece_index = pc.index
  · simp [classify_turn, hflat, h0]
  by_cases h1 : turn.op1.piece_index = pc.index
  · simp [classify_turn, hflat, h0, h1]
  by_cases hc0 : point_in_geometry turn.robust_point pc.robust_ring = 0
  · by_cases hon : on_offsetted side turn.robust_point pc = true
    · simp [classify_turn, hflat, h0, h1, hc0, hon]
    · simp only [Bool.not_eq_true] at hon
      simp [classify_turn, hflat, h0, h1, hc0, hon]
  by_cases hc1 : point_in_geometry turn.robust_point pc.robust_ring = 1
  · simp [classify_turn, hflat, h0, h1, hc1]
  · simp [classify_turn, hflat, h0, h1, hc0, hc1]

/-- Frame of `classify_turn`: it never changes the two operations of the turn nor its robust point. -/
theorem classify_turn_frame
    (point_in_geometry : robust_point_type → List robust_point_type → Int)
    (side : robust_point_type → robust_point_type → robust_point_type → Int)
    (turn : buffer_turn_info P F) (pc : piece P F) :
    (classify_turn point_in_geometry side turn pc).op0 = turn.op0 ∧
    (classify_turn point_in_geometry side turn pc).op1 = turn.op1 ∧
    (classify_turn point_in_geometry side turn pc).robust_point = turn.robust_point := by
  rw [classify_turn_cases]
  split_ifs <;> simp

/-- Source pieces of a turn can be dropped from the piece list without changing the result of
the classification fold. -/
theorem foldl_classify_turn_filter
    (point_in_geometry : robust_point_type → List robust_point_type → Int)
    (side : robust_point_type → robust_point_type → robust_point_type → Int)
    (pieces : List (piece P F)) (a b : Int) :
    ∀ turn : buffer_turn_info P F, turn.op0.piece_index = a → turn.op1.piece_index = b →
      pieces.foldl (classify_turn point_in_geometry side) turn
        = (pieces.filter fun pc => decide (pc.index ≠ a) && decide (pc.index ≠ b)).foldl
            (classify_turn point_in_geometry side) turn := by
  induction pieces with
  | nil => intro turn _ _; rfl
  | cons pc rest ih =>
    intro turn ha hb
    obtain ⟨f0, f1, _⟩ := classify_turn_frame point_in_geometry side turn pc
    by_cases hk : pc.index ≠ a ∧ pc.index ≠ b
    · have hk2 : (decide (pc.index ≠ a) && decide (pc.index ≠ b)) = true := by
        simp [hk.1, hk.2]
      simp only [List.filter_cons, List.foldl_cons]
      rw [if_pos hk2, List.foldl_cons]
      exact ih _ (by rw [f0, ha]) (by rw [f1, hb])
    · have hk2 : ¬ ((decide (pc.index ≠ a) && decide (pc.index ≠ b)) = true) := by
        simpa using hk
      have hsame : classify_turn point_in_geometry side turn pc = turn := by
        have hor : turn.op0.piece_index = pc.index ∨ turn.op1.piece_index = pc.index := by
          by_contra hcon
          push_neg at hcon
          exact hk ⟨fun h => hcon.1 (by rw [ha, h]), fun h => hcon.2 (by rw [hb, h])⟩
        rw [classify_turn_cases, if_pos (Or.inr hor)]
      simp only [List.filter_cons, List.foldl_cons]
      rw [if_neg hk2, hsame]
      exact ih _ ha hb

/-- C5: `classify_turn(turn, pc)` returns the turn unchanged whenever `pc.index` is the piece
index of one of the two operations of the turn, whatever `point_in_geometry` and `on_offsetted`
report; hence `classify_turns` gives every turn the result of classifying it against the pieces
other than its two source pieces only. -/
theorem classify_turn_source_piece
    (point_in_geometry : robust_point_type → List robust_point_type → Int)
    (side : robust_point_type → robust_point_type → robust_point_type → Int)
    (c : buffered_piece_collection P F) (turn : buffer_turn_info P F) (pc : piece P F)
    (hsrc : turn.op0.piece_index = pc.index ∨ turn.op1.piece_index = pc.index) :
    classify_turn point_in_geometry side turn pc = turn ∧
    (classify_turns point_in_geometry side c).m_turns
      = c.m_turns.map fun t =>
          (c.m_pieces.filter fun q =>
              decide (q.index ≠ t.op0.piece_index) && decide (q.index ≠ t.op1.piece_index)).foldl
            (classify_turn point_in_geometry side) t := by
  constructor
  · rw [classify_turn_cases, if_pos (Or.inr hsrc)]
  · simp only [classify_turns]
    apply List.map_congr_left
    intro t _
    exact foldl_classify_turn_filter point_in_geometry side c.m_pieces _ _ t rfl rfl

/-- C5, instance: the turn at `(1, 1)`, strictly inside the square, is not counted for its
source piece `1`. -/
theorem classify_turn_source_piece_witness :
    classify_turn example_point_in_geometry example_side example_turn_within
        (example_square_piece piece_type.buffered_join 1) = example_turn_within :=
  (classify_turn_source_piece example_point_in_geometry example_side example_classify_collection
    example_turn_within (example_square_piece piece_type.buffered_join 1)
    (Or.inr (by decide))).1

/-- C6: `classify_turn(turn, pc)` returns the turn unchanged, so with all of its counters
unchanged, whenever `pc.type` is `buffered_flat_end`, whatever the position of the point. -/
theorem classify_turn_flat_end
    (point_in_geometry : robust_point_type → List robust_point_type → Int)
    (side : robust_point_type → robust_point_type → robust_point_type → Int)
    (turn : buffer_turn_info P F) (pc : piece P F)
    (hflat : pc.type = piece_type.buffered_flat_end) :
    classify_turn point_in_geometry side turn pc = turn := by
  simp [classify_turn, hflat]

/-- C6, instance: the turn on the border of the square is not counted when the square is a flat
end. -/
theorem classify_turn_flat_end_witness :
    classify_turn example_point_in_geometry example_side example_turn_on_offsetted
        (example_square_piece piece_type.buffered_flat_end 2) = example_turn_on_offsetted :=
  classify_turn_flat_end example_point_in_geometry example_side example_turn_on_offsetted
    (example_square_piece piece_type.buffered_flat_end 2) rfl

/-- Counters after classifying a turn against a list of pieces: each counter grows by the number
of pieces of its category. -/
theorem foldl_classify_turn_counts
    (point_in_geometry : robust_point_type → List robust_point_type → Int)
    (side : robust_point_type → robust_point_type → robust_point_type → Int)
    (t0 : buffer_turn_info P F) (pieces : List (piece P F)) :
    ∀ turn : buffer_turn_info P F, turn.op0 = t0.op0 → turn.op1 = t0.op1 →
      turn.robust_point = t0.robust_point →
      (pieces.foldl (classify_turn point_in_geometry side) turn).count_within
        = turn.count_within
          + (pieces.countP (has_point_strictly_within point_in_geometry t0) : Nat)
          + (pieces.countP (has_point_on_helper point_in_geometry side t0) : Nat) ∧
      (pieces.foldl (classify_turn point_in_geometry side) turn).count_on_offsetted
        = turn.count_on_offsetted
          + (pieces.countP (has_point_on_offsetted point_in_geometry side t0) : Nat) ∧
      (pieces.foldl (classify_turn point_in_geometry side) turn).count_on_helper
        = turn.count_on_helper
          + (pieces.countP (has_point_on_helper point_in_geometry side t0) : Nat) := by
  induction pieces with
  | nil => intro turn _ _ _; simp
  | cons pc rest ih =>
    intro turn e0 e1 er
    obtain ⟨f0, f1, fr⟩ := classify_turn_frame point_in_geometry side turn pc
    obtain ⟨i1, i2, i3⟩ := ih (classify_turn point_in_geometry side turn pc)
      (by rw [f0, e0]) (by rw [f1, e1]) (by rw [fr, er])
    simp only [List.foldl_cons, List.countP_cons]
    rw [i1, i2, i3, classify_turn_cases]
    simp only [has_point_strictly_within, has_point_on_helper, has_point_on_offsetted,
      is_tested_piece, ← e0, ← e1, ← er]
    by_cases hflat : pc.type = piece_type.buffered_flat_end
    · simp [hflat]
    by_cases h0 : turn.op0.piece_index = pc.index
    · simp [h0]
    by_cases h1 : turn.op1.piece_index = pc.index
    · simp [h1]
    by_cases hc0 : point_in_geometry turn.robust_point pc.robust_ring = 0
    · by_cases hon : on_offsetted side turn.robust_point pc = true
      · simp [hflat, h0, h1, hc0, hon]
        omega
      · simp only [Bool.not_eq_true] at hon
        simp [hflat, h0, h1, hc0, hon]
        omega
    by_cases hc1 : point_in_geometry turn.robust_point pc.robust_ring = 1
    · simp [hflat, h0, h1, hc1]
      omega
    · simp [hflat, h0, h1, hc0, hc1]

/-- The pieces that have the point are those that have it strictly within, on the offsetted
border or on a helper segment, each in exactly one way. -/
theorem countP_has_point
    (point_in_geometry : robust_point_type → List robust_point_type → Int)
    (side : robust_point_type → robust_point_type → robust_point_type → Int)
    (t0 : buffer_turn_info P F) (pieces : List (piece P F)) :
    pieces.countP (has_point point_in_geometry t0)
      = pieces.countP (has_point_strictly_within point_in_geometry t0)
        + pieces.countP (has_point_on_helper point_in_geometry side t0)
        + pieces.countP (has_point_on_offsetted point_in_geometry side t0) := by
  induction pieces with
  | nil => simp
  | cons pc rest ih =>
    simp only [List.countP_cons, ih]
    simp only [has_point, has_point_strictly_within, has_point_on_helper, has_point_on_offsetted]
    by_cases ht : is_tested_piece t0 pc = true
    · by_cases hc0 : point_in_geometry t0.robust_point pc.robust_ring = 0
      · by_cases hon : on_offsetted side t0.robust_point pc = true
        · simp [ht, hc0, hon]
          omega
        · simp only [Bool.not_eq_true] at hon
          simp [ht, hc0, hon]
          omega
      · by_cases hc1 : point_in_geometry t0.robust_point pc.robust_ring = 1
        · simp [ht, hc0, hc1]
          omega
        · simp [ht, hc0, hc1]
    · simp only [Bool.not_eq_true] at ht
      simp [ht]

/-- C7: after `classify_turns`, for a turn whose counters started at zero:
`count_within + count_on_offsetted` is the number of tested pieces (non-flat, not a source piece
of the turn) whose robust ring has the turn's robust point inside or on its boundary;
`count_on_offsetted` counts the pieces that have it on their offsetted border, `count_on_helper`
the pieces that have it on a helper segment, `count_within` the pieces that have it strictly
inside or on a helper segment; and `count_on_helper ≤ count_within`. -/
theorem classify_turns_counts
    (point_in_geometry : robust_point_type → List robust_point_type → Int)
    (side : robust_point_type → robust_point_type → robust_point_type → Int)
    (c : buffered_piece_collection P F) (n : Nat) (t : buffer_turn_info P F)
    (hn : c.m_turns[n]? = some t)
    (hw : t.count_within = 0) (ho : t.count_on_offsetted = 0) (hh : t.count_on_helper = 0) :
    ∃ t1, (classify_turns point_in_geometry side c).m_turns[n]? = some t1 ∧
      t1.count_within + t1.count_on_offsetted
        = (c.m_pieces.countP (has_point point_in_geometry t) : Nat) ∧
      t1.count_on_offsetted
        = (c.m_pieces.countP (has_point_on_offsetted point_in_geometry side t) : Nat) ∧
      t1.count_on_helper
        = (c.m_pieces.countP (has_point_on_helper point_in_geometry side t) : Nat) ∧
      t1.count_within
        = (c.m_pieces.countP (has_point_strictly_within point_in_geometry t) : Nat)
          + (c.m_pieces.countP (has_point_on_helper point_in_geometry side t) : Nat) ∧
      t1.count_on_helper ≤ t1.count_within := by
  obtain ⟨i1, i2, i3⟩ :=
    foldl_classify_turn_counts point_in_geometry side t c.m_pieces t rfl rfl rfl
  refine ⟨c.m_pieces.foldl (classify_turn point_in_geometry side) t, ?_, ?_, ?_, ?_, ?_, ?_⟩
  · simp [classify_turns, hn]
  · rw [i1, i2, hw, ho, countP_has_point point_in_geometry side]
    push_cast
    ring
  · rw [i2, ho]; simp
  · rw [i3, hh]; simp
  · rw [i1, hw]; simp
  · rw [i1, i3, hw, hh]
    omega

/-- C7, instance: in the toy collection the turn at `(1, 0)` is on the offsetted border of the
one piece that is not a source piece. -/
theorem classify_turns_counts_witness :
    ∃ t1 : buffer_turn_info (Int × Int) Nat,
      (classify_turns example_point_in_geometry example_side
        example_classify_collection).m_turns[0]? = some t1 ∧
      t1.count_within + t1.count_on_offsetted
        = ((example_classify_collection.m_pieces.countP
            (has_point example_point_in_geometry example_turn_on_offsetted) : Nat) : Int) ∧
      t1.count_on_offsetted
        = ((example_classify_collection.m_pieces.countP
            (has_point_on_offsetted example_point_in_geometry example_side
              example_turn_on_offsetted) : Nat) : Int) ∧
      t1.count_on_helper
        = ((example_classify_collection.m_pieces.countP
            (has_point_on_helper example_point_in_geometry example_side
              example_turn_on_offsetted) : Nat) : Int) ∧
      t1.count_within
        = ((example_classify_collection.m_pieces.countP
            (has_point_strictly_within example_point_in_geometry
              example_turn_on_offsetted) : Nat) : Int)
          + ((example_classify_collection.m_pieces.countP
            (has_point_on_helper example_point_in_geometry example_side
              example_turn_on_offsetted) : Nat) : Int) ∧
      t1.count_on_helper ≤ t1.count_within :=
  classify_turns_counts example_point_in_geometry example_side example_classify_collection 0
    example_turn_on_offsetted rfl rfl rfl rfl

/-- C8: `classify_inside` sets the location of a turn to `inside_buffer`, changing nothing else,
when `count_within > 0` or `count_on_occupied > 0`, and only then: a turn with both counters
zero is left as it is, whatever its other counters, and a turn whose location changes has one of
the two counters positive. -/
theorem classify_inside_location
    (c : buffered_piece_collection P F) (n : Nat) (t : buffer_turn_info P F)
    (hn : c.m_turns[n]? = some t) :
    ∃ t1, (classify_inside c).m_turns[n]? = some t1 ∧
      (t.count_within > 0 ∨ t.count_on_occupied > 0 →
        t1 = { t with location := intersection_location_type.inside_buffer }) ∧
      (t.count_within = 0 → t.count_on_occupied = 0 → t1 = t) ∧
      (t1.location ≠ t.location → t.count_within > 0 ∨ t.count_on_occupied > 0) ∧
      (classify_inside c).m_turns.length = c.m_turns.length := by
  by_cases hc : t.count_within > 0 ∨ t.count_on_occupied > 0
  · refine ⟨{ t with location := intersection_location_type.inside_buffer }, ?_, ?_, ?_, ?_, ?_⟩
    · have hb : classify_turn_inside t = true := by
        simpa [classify_turn_inside] using hc
      simp [classify_inside, hn, hb]
    · intro _; rfl
    · intro h1 h2
      rcases hc with h | h <;> omega
    · intro _; exact hc
    · simp [classify_inside]
  · refine ⟨t, ?_, ?_, ?_, ?_, ?_⟩
    · have hb : classify_turn_inside t = false := by
        simpa [classify_turn_inside] using hc
      simp [classify_inside, hn, hb]
    · intro h; exact absurd h hc
    · intro _ _; rfl
    · intro h; exact absurd rfl h
    · simp [classify_inside]

/-- C8, instance: the first turn of the toy collection, with all counters zero, is left as it
is. -/
theorem classify_inside_location_witness :
    ∃ t1, (classify_inside example_remaining_collection).m_turns[0]? = some t1 ∧
      ((example_turn (1, 0) (example_operation 0 0 1) (example_operation 1 0 1)).count_within > 0 ∨
        (example_turn (1, 0) (example_operation 0 0 1) (example_operation 1 0 1)).count_on_occupied > 0 →
        t1 = { example_turn (1, 0) (example_operation 0 0 1) (example_operation 1 0 1) with
                location := intersection_location_type.inside_buffer }) ∧
      ((example_turn (1, 0) (example_operation 0 0 1) (example_operation 1 0 1)).count_within = 0 →
        (example_turn (1, 0) (example_operation 0 0 1) (example_operation 1 0 1)).count_on_occupied = 0 →
        t1 = example_turn (1, 0) (example_operation 0 0 1) (example_operation 1 0 1)) ∧
      (t1.location ≠
          (example_turn (1, 0) (example_operation 0 0 1) (example_operation 1 0 1)).location →
        (example_turn (1, 0) (example_operation 0 0 1) (example_operation 1 0 1)).count_within > 0 ∨
        (example_turn (1, 0) (example_operation 0 0 1) (example_operation 1 0 1)).count_on_occupied > 0) ∧
      (classify_inside example_remaining_collection).m_turns.length
        = example_remaining_collection.m_turns.length :=
  classify_inside_location example_remaining_collection 0
    (example_turn (1, 0) (example_operation 0 0 1) (example_operation 1 0 1)) rfl

/-- C9, as stated, fails for an inward buffer (`factor = -1`): the ok turn at `(1, 0)`, covered
by the polygon, keeps location ok, and the ok turn at `(-1, 0)`, not covered, becomes
`inside_original`. -/
theorem check_remaining_points_inward_counterexample :
    example_covered_by (1, 0) () = true ∧ example_covered_by (-1, 0) () = false ∧
    example_remaining_collection.m_turns.map buffer_turn_info.location
      = [intersection_location_type.location_ok, intersection_location_type.location_ok,
         intersection_location_type.inside_buffer] ∧
    (check_remaining_points geometry_tag.polygon_tag example_covered_by () (-1)
        example_remaining_collection).m_turns.map buffer_turn_info.location
      = [intersection_location_type.location_ok, intersection_location_type.inside_original,
         intersection_location_type.inside_buffer] := by
  decide

/-- C9, amended: for polygonal input `check_remaining_points` sets the location of a turn to
`inside_original`, changing nothing else, exactly when the location was ok and either
`factor = 1` and the point is covered by the polygon, or `factor = -1` and the point is not
covered by it; every other turn is left as it is. -/
theorem check_remaining_points_polygon {G : Type}
    (covered_by : P → G → Bool) (input_geometry : G) (factor : Int)
    (c : buffered_piece_collection P F) :
    (check_remaining_points geometry_tag.polygon_tag covered_by input_geometry factor c).m_turns
      = c.m_turns.map fun t =>
          if t.location = intersection_location_type.location_ok ∧
              ((factor = 1 ∧ covered_by t.point input_geometry = true) ∨
               (factor = -1 ∧ covered_by t.point input_geometry = false)) then
            { t with location := intersection_location_type.inside_original }
          else t := by
  simp only [check_remaining_points]
  apply List.map_congr_left
  intro t _
  by_cases hl : t.location = intersection_location_type.location_ok
  · by_cases hcov : covered_by t.point input_geometry = true
    · by_cases hf : factor = 1
      · simp [check_original, hl, hcov, hf]
      · have hf2 : ¬ (1 * factor = 1) := by omega
        simp [check_original, hl, hcov, hf]
    · simp only [Bool.not_eq_true] at hcov
      by_cases hf : factor = -1
      · simp [check_original, hl, hcov, hf]
      · have hf2 : ¬ (-factor = 1) := by omega
        simp [check_original, hl, hcov, hf, hf2]
  · simp [hl]

/-- C10: for linestring or point input `check_remaining_points` changes nothing, for every
collection of turns and every factor: no turn becomes `inside_original`. -/
theorem check_remaining_points_linear {G : Type}
    (tag : geometry_tag) (covered_by : P → G → Bool) (input_geometry : G) (factor : Int)
    (c : buffered_piece_collection P F)
    (htag : tag = geometry_tag.linestring_tag ∨ tag = geometry_tag.point_tag) :
    check_remaining_points tag covered_by input_geometry factor c = c := by
  have hcode : ∀ p : P, check_original tag covered_by p input_geometry = 0 := by
    intro p
    rcases htag with h | h <;> simp [check_original, h]
  have hmap : (c.m_turns.map fun t =>
      if t.location = intersection_location_type.location_ok then
        if check_original tag covered_by t.point input_geometry * factor = 1 then
          { t with location := intersection_location_type.inside_original }
        else t
      else t) = c.m_turns := by
    conv_rhs => rw [← List.map_id c.m_turns]
    apply List.map_congr_left
    intro t _
    simp [hcode]
  simp only [check_remaining_points]
  rw [hmap]

/-- C10, instance: with linestring input and `factor = 1` the toy collection, which has an ok
turn covered by the toy polygon, is left unchanged. -/
theorem check_remaining_points_linear_witness :
    check_remaining_points geometry_tag.linestring_tag example_covered_by () 1
      example_remaining_collection = example_remaining_collection :=
  check_remaining_points_linear geometry_tag.linestring_tag example_covered_by () 1
    example_remaining_collection (Or.inl rfl)

end classification

/-! ## Robust rescaling: theorems -/

section rescaling

variable {P F : Type}

/-- Inserting at position `k` puts the new element at position `k`. -/
theorem getElem?_insert_self {α : Type} (l : List α) (x : α) (k : Nat) (hk : k ≤ l.length) :
    (l.take k ++ x :: l.drop k)[k]? = some x := by
  have hlen : (l.take k).length = k := by simp [hk]
  rw [List.getElem?_append_right (by omega)]
  simp [hlen]

/-- Inserting at position `k` moves the element at a position `m ≥ k` to position `m + 1`. -/
theorem getElem?_insert_after {α : Type} (l : List α) (x : α) (k m : Nat) (hk : k ≤ l.length)
    (hkm : k ≤ m) : (l.take k ++ x :: l.drop k)[m + 1]? = l[m]? := by
  have hlen : (l.take k).length = k := by simp [hk]
  rw [List.getElem?_append_right (by omega), hlen]
  have h1 : m + 1 - k = (m - k) + 1 := by omega
  rw [h1, List.getElem?_cons_succ, List.getElem?_drop]
  congr 1
  omega

/-- Length of the robust ring after one insertion. -/
theorem length_insert_robust_turn (f : Int) (e : robust_turn F) (ring : List robust_point_type) :
    (insert_robust_turn f e ring).length = ring.length + 1 := by
  simp only [insert_robust_turn, List.length_append, List.length_cons, List.length_take,
    List.length_drop]
  omega

/-- Length of the robust ring after the insertions of a list of robust turns. -/
theorem length_foldr_insert_robust_turn (f : Int) (entries : List (robust_turn F))
    (ring : List robust_point_type) :
    (entries.foldr (insert_robust_turn f) ring).length = ring.length + entries.length := by
  induction entries with
  | nil => simp
  | cons e rest ih =>
    simp only [List.foldr_cons, length_insert_robust_turn, ih, List.length_cons]
    omega

/-- Position of every inserted turn point: when the entries are ordered by segment index and
inserted from the last to the first, entry `j` ends at position `index_in_vector + j`. -/
theorem getElem?_foldr_insert_robust_turn (f : Int) (ring : List robust_point_type) :
    ∀ entries : List (robust_turn F),
      entries.Pairwise (fun a b => a.seg_id.segment_index ≤ b.seg_id.segment_index) →
      (∀ e ∈ entries, 0 ≤ index_in_vector f e ∧ index_in_vector f e ≤ (ring.length : Int)) →
      ∀ (j : Nat) (e : robust_turn F), entries[j]? = some e →
        (entries.foldr (insert_robust_turn f) ring)[(index_in_vector f e).toNat + j]?
          = some e.point := by
  intro entries
  induction entries with
  | nil => intro _ _ j e h; simp at h
  | cons a rest ih =>
    intro hsorted hrange j e hj
    rw [List.pairwise_cons] at hsorted
    have hrest : ∀ e ∈ rest, 0 ≤ index_in_vector f e ∧ index_in_vector f e ≤ (ring.length : Int) :=
      fun e he => hrange e (List.mem_cons_of_mem _ he)
    have ha := hrange a (List.mem_cons_self _ _)
    have hlen := length_foldr_insert_robust_turn f rest ring
    simp only [List.foldr_cons]
    cases j with
    | zero =>
      simp only [List.getElem?_cons_zero, Option.some.injEq] at hj
      subst hj
      simp only [insert_robust_turn, Nat.add_zero]
      apply getElem?_insert_self
      omega
    | succ j =>
      simp only [List.getElem?_cons_succ] at hj
      have hmem : e ∈ rest := List.getElem?_mem hj
      have hle := hsorted.1 e hmem
      have he := hrest e hmem
      have hih := ih hsorted.2 hrest j e hj
      rw [← hih]
      simp only [insert_robust_turn]
      rw [← Nat.add_assoc]
      apply getElem?_insert_after
      · omega
      · simp only [index_in_vector] at *
        omega

/-- A turn agrees with itself. -/
theorem same_except_index_refl (t : buffer_turn_info P F) : same_except_index t t := by
  unfold same_except_index
  rfl

/-- Agreement up to the ring indices is transitive. -/
theorem same_except_index_trans {t t1 t2 : buffer_turn_info P F}
    (h1 : same_except_index t t1) (h2 : same_except_index t1 t2) : same_except_index t t2 := by
  unfold same_except_index at *
  rw [h2, h1]

/-- Fields preserved by agreement up to the ring indices. -/
theorem same_except_index_fields {t t1 : buffer_turn_info P F} (h : same_except_index t t1) :
    t1.point = t.point ∧ t1.robust_point = t.robust_point ∧
    (∀ i : Int, (t1.operation i).piece_index = (t.operation i).piece_index ∧
      (t1.operation i).seg_id = (t.operation i).seg_id ∧
      (t1.operation i).fraction = (t.operation i).fraction) := by
  unfold same_except_index at h
  refine ⟨by rw [h], by rw [h], ?_⟩
  intro i
  unfold buffer_turn_info.operation
  split_ifs <;> (rw [h]; simp)

/-- Effect of one assignment of a ring index. -/
theorem set_index_in_robust_ring_spec (turns : List (buffer_turn_info P F))
    (turn_index operation_index value : Int)
    (h0 : 0 ≤ turn_index) (hlt : turn_index.toNat < turns.length)
    (hop : operation_index = 0 ∨ operation_index = 1) :
    ∃ turns1, set_index_in_robust_ring turns turn_index operation_index value = some turns1 ∧
      turns1.length = turns.length ∧
      ∀ (n : Nat) (t : buffer_turn_info P F), turns[n]? = some t →
        ∃ t1, turns1[n]? = some t1 ∧ same_except_index t t1 ∧
          ∀ i : Int, i = 0 ∨ i = 1 →
            (turn_index = (n : Int) ∧ operation_index = i →
              (t1.operation i).index_in_robust_ring = value) ∧
            (¬ (turn_index = (n : Int) ∧ operation_index = i) →
              (t1.operation i).index_in_robust_ring = (t.operation i).index_in_robust_ring) := by
  obtain ⟨t0, ht0⟩ : ∃ t0, turns[turn_index.toNat]? = some t0 :=
    ⟨turns[turn_index.toNat], List.getElem?_eq_getElem hlt⟩
  rcases hop with hop | hop
  · refine ⟨turns.set turn_index.toNat
      { t0 with op0 := { t0.op0 with index_in_robust_ring := value } }, ?_, ?_, ?_⟩
    · simp [set_index_in_robust_ring, h0, ht0, hop]
    · simp
    · intro n t hn
      by_cases hnn : turn_index.toNat = n
      · subst hnn
        rw [ht0] at hn
        simp only [Option.some.injEq] at hn
        subst hn
        refine ⟨_, by rw [List.getElem?_set_self hlt], by unfold same_except_index; rfl, ?_⟩
        intro i hi
        subst hop
        rcases hi with hi | hi
        · subst hi
          simp [buffer_turn_info.operation]
          intro h; omega
        · subst hi
          simp [buffer_turn_info.operation]
      · refine ⟨t, by rw [List.getElem?_set_ne hnn]; exact hn, same_except_index_refl t, ?_⟩
        intro i _
        constructor
        · intro h
          exact absurd (by omega) hnn
        · intro _; rfl
  · refine ⟨turns.set turn_index.toNat
      { t0 with op1 := { t0.op1 with index_in_robust_ring := value } }, ?_, ?_, ?_⟩
    · simp [set_index_in_robust_ring, h0, ht0, hop]
    · simp
    · intro n t hn
      by_cases hnn : turn_index.toNat = n
      · subst hnn
        rw [ht0] at hn
        simp only [Option.some.injEq] at hn
        subst hn
        refine ⟨_, by rw [List.getElem?_set_self hlt], by unfold same_except_index; rfl, ?_⟩
        intro i hi
        subst hop
        rcases hi with hi | hi
        · subst hi
          simp [buffer_turn_info.operation]
        · subst hi
          simp [buffer_turn_info.operation]
          intro h; omega
      · refine ⟨t, by rw [List.getElem?_set_ne hnn]; exact hn, same_except_index_refl t, ?_⟩
        intro i _
        constructor
        · intro h
          exact absurd (by omega) hnn
        · intro _; rfl

/-- The walk over the robust turns of one piece succeeds when every entry passes the assertion
and names an existing turn; it inserts the points one after the other and writes the ring
indices. -/
theorem insert_robust_turns_loop_spec (f : Int) :
    ∀ (entries : List (robust_turn F)) (k : Int) (pc : piece P F)
      (turns : List (buffer_turn_info P F)),
      (∀ e ∈ entries, 0 < index_in_vector f e ∧ index_in_vector f e < pc.offsetted_count ∧
        index_in_vector f e ≤ (pc.robust_ring.length : Int) ∧ 0 ≤ e.turn_index ∧
        e.turn_index.toNat < turns.length ∧ (e.operation_index = 0 ∨ e.operation_index = 1)) →
      ∃ turns1, insert_robust_turns_loop f entries k pc turns
          = some ({ pc with
              robust_ring := entries.foldl (fun r e => insert_robust_turn f e r) pc.robust_ring,
              offsetted_count := pc.offsetted_count + (entries.length : Int) }, turns1) ∧
        index_writes f entries (fun j => k - (j : Int)) turns turns1 := by
  intro entries
  induction entries with
  | nil =>
    intro k pc turns _
    refine ⟨turns, by simp [insert_robust_turns_loop], rfl, ?_⟩
    intro n t hn
    exact ⟨t, hn, same_except_index_refl t, fun i _ => Or.inl ⟨rfl, by simp⟩⟩
  | cons rit rest ih =>
    intro k pc turns hall
    obtain ⟨hpos, hcount, hlen, hti0, htilt, hop⟩ := hall rit (List.mem_cons_self _ _)
    obtain ⟨turns1, hset, hlen1, hturns1⟩ := set_index_in_robust_ring_spec turns rit.turn_index
      rit.operation_index (index_in_vector f rit + k) hti0 htilt hop
    have hrest : ∀ e ∈ rest, 0 < index_in_vector f e ∧
        index_in_vector f e < pc.offsetted_count + 1 ∧
        index_in_vector f e ≤ ((insert_robust_turn f rit pc.robust_ring).length : Int) ∧
        0 ≤ e.turn_index ∧ e.turn_index.toNat < turns1.length ∧
        (e.operation_index = 0 ∨ e.operation_index = 1) := by
      intro e he
      obtain ⟨a1, a2, a3, a4, a5, a6⟩ := hall e (List.mem_cons_of_mem _ he)
      refine ⟨a1, by omega, ?_, a4, by rw [hlen1]; exact a5, a6⟩
      rw [length_insert_robust_turn]
      push_cast
      omega
    obtain ⟨turns2, hloop, hlen2, hturns2⟩ := ih (k - 1)
      { pc with robust_ring := insert_robust_turn f rit pc.robust_ring,
                offsetted_count := pc.offsetted_count + 1 } turns1 hrest
    refine ⟨turns2, ?_, by rw [hlen2, hlen1], ?_⟩
    · have hins : vector_insert pc.robust_ring (1 + rit.seg_id.segment_index - f) rit.point
          = some (insert_robust_turn f rit pc.robust_ring) := by
        have h1 : 0 ≤ 1 + rit.seg_id.segment_index - f := by
          simp only [index_in_vector] at hpos; omega
        have h2 : 1 + rit.seg_id.segment_index - f ≤ (pc.robust_ring.length : Int) := by
          simp only [index_in_vector] at hlen; exact hlen
        simp [vector_insert, insert_robust_turn, index_in_vector, h1, h2]
      have hassert : 1 + rit.seg_id.segment_index - f > 0 ∧
          1 + rit.seg_id.segment_index - f < pc.offsetted_count := by
        simp only [index_in_vector] at hpos hcount
        exact ⟨hpos, hcount⟩
      have hset2 : set_index_in_robust_ring turns rit.turn_index rit.operation_index
          (1 + rit.seg_id.segment_index - f + k) = some turns1 := hset
      rw [insert_robust_turns_loop]
      simp only [hassert, and_self, if_true, hins, hset2]
      rw [hloop]
      simp only [List.foldl_cons, List.length_cons]
      congr 3
      push_cast
      omega
    · intro n t hn
      obtain ⟨t1, hn1, hsame1, hidx1⟩ := hturns1 n t hn
      obtain ⟨t2, hn2, hsame2, hidx2⟩ := hturns2 n t1 hn1
      refine ⟨t2, hn2, same_except_index_trans hsame1 hsame2, ?_⟩
      intro i hi
      rcases hidx2 i hi with ⟨heq, hno⟩ | ⟨j, e, hj, hte, hoe, hval⟩
      · by_cases hm : rit.turn_index = (n : Int) ∧ rit.operation_index = i
        · right
          refine ⟨0, rit, by simp, hm.1, hm.2, ?_⟩
          rw [heq, (hidx1 i hi).1 hm]
          simp
        · left
          refine ⟨by rw [heq, (hidx1 i hi).2 hm], ?_⟩
          intro e he
          rcases List.mem_cons.mp he with h | h
          · rw [h]; exact hm
          · exact hno e h
      · right
        refine ⟨j + 1, e, by simpa using hj, hte, hoe, ?_⟩
        rw [hval]
        push_cast
        omega

/-- Index writes of a walk over the reversed list, read against the list itself. -/
theorem index_writes_reverse (f : Int) (entries : List (robust_turn F))
    (turns turns1 : List (buffer_turn_info P F))
    (h : index_writes f entries.reverse (fun j => ((entries.length : Int) - 1) - (j : Int))
      turns turns1) :
    index_writes f entries (fun j => (j : Int)) turns turns1 := by
  refine ⟨h.1, ?_⟩
  intro n t hn
  obtain ⟨t1, hn1, hsame, hidx⟩ := h.2 n t hn
  refine ⟨t1, hn1, hsame, ?_⟩
  intro i hi
  rcases hidx i hi with ⟨heq, hno⟩ | ⟨j, e, hj, hte, hoe, hval⟩
  · left
    exact ⟨heq, fun e he => hno e (List.mem_reverse.mpr he)⟩
  · right
    have hjlt : j < entries.length := by
      have := (List.getElem?_eq_some_iff.mp hj).1
      simpa using this
    rw [List.getElem?_reverse hjlt] at hj
    refine ⟨entries.length - 1 - j, e, hj, hte, hoe, ?_⟩
    rw [hval]
    beta_reduce
    omega

/-- Body of the third loop for one piece: it succeeds when every robust turn of the piece passes
the assertion and names an existing turn; the points of the sorted robust turns are inserted and
the ring index written for the entry at position `j` is `index_in_vector + j`. -/
theorem insert_robust_turns_spec (buffer_operation_less : robust_turn F → robust_turn F → Bool)
    (std_sort : (robust_turn F → robust_turn F → Bool) → List (robust_turn F) → List (robust_turn F))
    (pc : piece P F) (turns : List (buffer_turn_info P F))
    (hall : ∀ e ∈ pc.robust_turns,
      0 < index_in_vector pc.first_seg_id.segment_index e ∧
      index_in_vector pc.first_seg_id.segment_index e < pc.offsetted_count ∧
      index_in_vector pc.first_seg_id.segment_index e ≤ (pc.robust_ring.length : Int) ∧
      0 ≤ e.turn_index ∧ e.turn_index.toNat < turns.length ∧
      (e.operation_index = 0 ∨ e.operation_index = 1))
    (hperm : (sorted_robust_turns buffer_operation_less std_sort pc).Perm pc.robust_turns) :
    ∃ turns1, insert_robust_turns buffer_operation_less std_sort pc turns
        = some (inserted_piece buffer_operation_less std_sort pc, turns1) ∧
      index_writes pc.first_seg_id.segment_index
        (sorted_robust_turns buffer_operation_less std_sort pc) (fun j => (j : Int))
        turns turns1 := by
  unfold inserted_piece
  by_cases hemp : pc.robust_turns = []
  · have hs : sorted_robust_turns buffer_operation_less std_sort pc = [] := by
      simp [sorted_robust_turns, hemp]
    refine ⟨turns, ?_, rfl, ?_⟩
    · rw [hs]
      simp only [insert_robust_turns, hemp, List.isEmpty_nil, if_true, List.foldr_nil,
        List.length_nil]
      congr 2
      cases pc
      simp_all
    · intro n t hn
      refine ⟨t, hn, same_except_index_refl t, fun i _ => Or.inl ⟨rfl, ?_⟩⟩
      rw [hs]
      simp
  · have hne : pc.robust_turns.isEmpty = false := by
      cases h : pc.robust_turns with
      | nil => exact absurd h hemp
      | cons a l => rfl
    have hall2 : ∀ e ∈ (sorted_robust_turns buffer_operation_less std_sort pc).reverse,
        0 < index_in_vector pc.first_seg_id.segment_index e ∧
        index_in_vector pc.first_seg_id.segment_index e < pc.offsetted_count ∧
        index_in_vector pc.first_seg_id.segment_index e ≤ (pc.robust_ring.length : Int) ∧
        0 ≤ e.turn_index ∧ e.turn_index.toNat < turns.length ∧
        (e.operation_index = 0 ∨ e.operation_index = 1) := by
      intro e he
      exact hall e (hperm.mem_iff.mp (List.mem_reverse.mp he))
    obtain ⟨turns1, hloop, hwrites⟩ := insert_robust_turns_loop_spec
      pc.first_seg_id.segment_index
      (sorted_robust_turns buffer_operation_less std_sort pc).reverse
      (((sorted_robust_turns buffer_operation_less std_sort pc).length : Int) - 1)
      { pc with robust_turns := sorted_robust_turns buffer_operation_less std_sort pc }
      turns hall2
    refine ⟨turns1, ?_, index_writes_reverse _ _ _ _ hwrites⟩
    have hunf : insert_robust_turns buffer_operation_less std_sort pc turns
        = insert_robust_turns_loop pc.first_seg_id.segment_index
            (sorted_robust_turns buffer_operation_less std_sort pc).reverse
            (((sorted_robust_turns buffer_operation_less std_sort pc).length : Int) - 1)
            { pc with robust_turns := sorted_robust_turns buffer_operation_less std_sort pc }
            turns := by
      simp only [insert_robust_turns, hne, sorted_robust_turns]
      rfl
    rw [hunf, hloop]
    simp only [List.foldl_reverse, List.length_reverse]

/-- The first loop of `rescale_pieces` succeeds on a piece whose slice lies in its ring. -/
theorem rescale_piece_spec (recalculate : P → robust_point_type) (offsetted_rings : List (List P))
    (pc : piece P F) (h : slice_in_ring offsetted_rings pc) :
    rescale_piece recalculate offsetted_rings pc
        = some (rescaled_piece recalculate offsetted_rings pc) ∧
    (slice_points offsetted_rings pc).length
      = (pc.last_segment_index - pc.first_seg_id.segment_index).toNat := by
  obtain ⟨hm, ring, hring, hf, hfl, hl⟩ := h
  constructor
  · have h1 : ¬ (pc.last_segment_index - pc.first_seg_id.segment_index < 0) := by omega
    have h2 : ¬ (pc.first_seg_id.multi_index < 0) := by omega
    simp [rescale_piece, rescaled_piece, slice_points, ring_slice, hring, h1, h2, hf, hfl, hl]
  · simp only [slice_points, hring, List.length_take, List.length_drop]
    omega

/-- The first loop of `rescale_pieces` over a list of pieces. -/
theorem rescale_piece_loop_spec (recalculate : P → robust_point_type)
    (offsetted_rings : List (List P)) (pieces : List (piece P F))
    (h : ∀ pc ∈ pieces, slice_in_ring offsetted_rings pc) :
    rescale_piece_loop recalculate offsetted_rings pieces
      = some (pieces.map (rescaled_piece recalculate offsetted_rings)) := by
  induction pieces with
  | nil => rfl
  | cons pc rest ih =>
    have h1 := (rescale_piece_spec recalculate offsetted_rings pc
      (h pc (List.mem_cons_self _ _))).1
    have h2 := ih fun q hq => h q (List.mem_cons_of_mem _ hq)
    simp [rescale_piece_loop, h1, h2]

/-- Effect of recording one robust turn in a piece. -/
theorem push_robust_turn_spec (pieces : List (piece P F)) (i : Int) (e : robust_turn F)
    (h0 : 0 ≤ i) (hlt : i.toNat < pieces.length) :
    ∃ pieces1, push_robust_turn pieces i e = some pieces1 ∧ pieces1.length = pieces.length ∧
      ∀ (p : Nat) (pc : piece P F), pieces[p]? = some pc →
        pieces1[p]? = some { pc with
          robust_turns := pc.robust_turns ++ (if i = (p : Int) then [e] else []) } := by
  obtain ⟨pc0, hpc0⟩ : ∃ pc0, pieces[i.toNat]? = some pc0 :=
    ⟨pieces[i.toNat], List.getElem?_eq_getElem hlt⟩
  refine ⟨pieces.set i.toNat { pc0 with robust_turns := pc0.robust_turns ++ [e] }, ?_, ?_, ?_⟩
  · simp [push_robust_turn, h0, hpc0]
  · simp
  · intro p pc hp
    by_cases hip : i.toNat = p
    · subst hip
      rw [hpc0] at hp
      simp only [Option.some.injEq] at hp
      subst hp
      have hi : i = ((i.toNat : Nat) : Int) := by omega
      rw [List.getElem?_set_self hlt, if_pos hi]
    · have hi : ¬ (i = (p : Int)) := by omega
      rw [List.getElem?_set_ne hip, if_neg hi, hp]
      simp

/-- The second loop of `rescale_pieces`: every turn is rescaled and every piece receives its
robust turns, in the order of the turns. -/
theorem add_robust_turns_loop_spec (recalculate : P → robust_point_type) :
    ∀ (turns : List (buffer_turn_info P F)) (index : Int) (pieces : List (piece P F)),
      (∀ t ∈ turns, (0 ≤ t.op0.piece_index ∧ t.op0.piece_index.toNat < pieces.length) ∧
        (0 ≤ t.op1.piece_index ∧ t.op1.piece_index.toNat < pieces.length)) →
      ∃ pieces1, add_robust_turns_loop recalculate turns index pieces
          = some (turns.map (rescaled_turn recalculate), pieces1) ∧
        pieces1.length = pieces.length ∧
        ∀ (p : Nat) (pc : piece P F), pieces[p]? = some pc →
          pieces1[p]? = some { pc with
            robust_turns := pc.robust_turns ++ piece_turns recalculate turns index (p : Int) } := by
  intro turns
  induction turns with
  | nil =>
    intro index pieces _
    refine ⟨pieces, rfl, rfl, ?_⟩
    intro p pc hp
    simp [piece_turns, hp]
  | cons it rest ih =>
    intro index pieces hall
    obtain ⟨⟨a0, a1⟩, ⟨b0, b1⟩⟩ := hall it (List.mem_cons_self _ _)
    obtain ⟨pieces1, hp1, hl1, hs1⟩ := push_robust_turn_spec pieces it.op0.piece_index
      { turn_index := index, operation_index := 0, point := recalculate it.point,
        seg_id := it.op0.seg_id, fraction := it.op0.fraction } a0 a1
    obtain ⟨pieces2, hp2, hl2, hs2⟩ := push_robust_turn_spec pieces1 it.op1.piece_index
      { turn_index := index, operation_index := 1, point := recalculate it.point,
        seg_id := it.op1.seg_id, fraction := it.op1.fraction } b0 (by rw [hl1]; exact b1)
    have hrest : ∀ t ∈ rest, (0 ≤ t.op0.piece_index ∧ t.op0.piece_index.toNat < pieces2.length) ∧
        (0 ≤ t.op1.piece_index ∧ t.op1.piece_index.toNat < pieces2.length) := by
      intro t ht
      rw [hl2, hl1]
      exact hall t (List.mem_cons_of_mem _ ht)
    obtain ⟨pieces3, hp3, hl3, hs3⟩ := ih (index + 1) pieces2 hrest
    refine ⟨pieces3, ?_, by rw [hl3, hl2, hl1], ?_⟩
    · simp only [add_robust_turns_loop, hp1, hp2, hp3, List.map_cons, rescaled_turn]
    · intro p pc hp
      rw [hs3 p _ (hs2 p _ (hs1 p pc hp))]
      simp only [piece_turns, List.append_assoc]

/-- Every robust turn of piece `p` comes from an operation of a turn that names `p`. -/
theorem mem_piece_turns (recalculate : P → robust_point_type) :
    ∀ (turns : List (buffer_turn_info P F)) (index p : Int) (e : robust_turn F),
      e ∈ piece_turns recalculate turns index p →
      ∃ (n : Nat) (t : buffer_turn_info P F) (i : Int), turns[n]? = some t ∧ (i = 0 ∨ i = 1) ∧
        e.turn_index = index + (n : Int) ∧ e.operation_index = i ∧
        (t.operation i).piece_index = p ∧ e.point = recalculate t.point ∧
        e.seg_id = (t.operation i).seg_id ∧ e.fraction = (t.operation i).fraction := by
  intro turns
  induction turns with
  | nil => intro index p e h; simp [piece_turns] at h
  | cons it rest ih =>
    intro index p e h
    simp only [piece_turns, List.mem_append] at h
    rcases h with (h | h) | h
    · by_cases hp : it.op0.piece_index = p
      · simp only [hp, if_true, List.mem_singleton] at h
        subst h
        exact ⟨0, it, 0, by simp, Or.inl rfl, by simp, rfl,
          by simp [buffer_turn_info.operation, hp], rfl,
          by simp [buffer_turn_info.operation], by simp [buffer_turn_info.operation]⟩
      · simp [hp] at h
    · by_cases hp : it.op1.piece_index = p
      · simp only [hp, if_true, List.mem_singleton] at h
        subst h
        exact ⟨0, it, 1, by simp, Or.inr rfl, by simp, rfl,
          by simp [buffer_turn_info.operation, hp], rfl,
          by simp [buffer_turn_info.operation], by simp [buffer_turn_info.operation]⟩
      · simp [hp] at h
    · obtain ⟨n, t, i, hn, hi, h1, h2, h3, h4, h5, h6⟩ := ih (index + 1) p e h
      refine ⟨n + 1, t, i, by simpa using hn, hi, ?_, h2, h3, h4, h5, h6⟩
      rw [h1]
      push_cast
      omega

/-- Every operation that names piece `p` has a robust turn in piece `p`. -/
theorem exists_mem_piece_turns (recalculate : P → robust_point_type) :
    ∀ (turns : List (buffer_turn_info P F)) (index p : Int) (n : Nat)
      (t : buffer_turn_info P F) (i : Int), turns[n]? = some t → (i = 0 ∨ i = 1) →
      (t.operation i).piece_index = p →
      ∃ e ∈ piece_turns recalculate turns index p,
        e.turn_index = index + (n : Int) ∧ e.operation_index = i := by
  intro turns
  induction turns with
  | nil => intro index p n t i h; simp at h
  | cons it rest ih =>
    intro index p n t i hn hi hp
    cases n with
    | zero =>
      simp only [List.getElem?_cons_zero, Option.some.injEq] at hn
      subst hn
      rcases hi with hi | hi
      · subst hi
        have hp0 : it.op0.piece_index = p := by simpa [buffer_turn_info.operation] using hp
        refine ⟨
          { turn_index := index, operation_index := 0, point := recalculate it.point,
            seg_id := it.op0.seg_id, fraction := it.op0.fraction }, ?_, by simp, rfl⟩
        simp [piece_turns, hp0]
      · subst hi
        have hp1 : it.op1.piece_index = p := by simpa [buffer_turn_info.operation] using hp
        refine ⟨
          { turn_index := index, operation_index := 1, point := recalculate it.point,
            seg_id := it.op1.seg_id, fraction := it.op1.fraction }, ?_, by simp, rfl⟩
        simp [piece_turns, hp1]
    | succ n =>
      simp only [List.getElem?_cons_succ] at hn
      obtain ⟨e, he, h1, h2⟩ := ih (index + 1) p n t i hn hi hp
      refine ⟨e, ?_, ?_, h2⟩
      · simp only [piece_turns, List.mem_append]
        exact Or.inr he
      · rw [h1]
        push_cast
        omega

/-- Third loop for one ready piece `q`: afterwards every operation that names `q` has the
position of the turn point in the ring of `q` as ring index, and every other operation keeps its
ring index. -/
theorem insert_robust_turns_ready (buffer_operation_less : robust_turn F → robust_turn F → Bool)
    (std_sort : (robust_turn F → robust_turn F → Bool) → List (robust_turn F) → List (robust_turn F))
    (ref turns : List (buffer_turn_info P F)) (q : Int) (pc : piece P F)
    (hlen : turns.length = ref.length)
    (hready : piece_ready buffer_operation_less std_sort ref q pc) :
    ∃ turns1, insert_robust_turns buffer_operation_less std_sort pc turns
        = some (inserted_piece buffer_operation_less std_sort pc, turns1) ∧
      turns1.length = ref.length ∧
      ∀ (n : Nat) (t t0 : buffer_turn_info P F), ref[n]? = some t → turns[n]? = some t0 →
        ∃ t1, turns1[n]? = some t1 ∧ same_except_index t0 t1 ∧
          ∀ i : Int, i = 0 ∨ i = 1 →
            ((t.operation i).piece_index = q →
              0 ≤ (t1.operation i).index_in_robust_ring ∧
              (inserted_piece buffer_operation_less std_sort pc).robust_ring[
                  ((t1.operation i).index_in_robust_ring).toNat]? = some t.robust_point) ∧
            ((t.operation i).piece_index ≠ q →
              (t1.operation i).index_in_robust_ring = (t0.operation i).index_in_robust_ring) := by
  obtain ⟨r1, r2, r3, hperm, hsorted⟩ := hready
  have hall : ∀ e ∈ pc.robust_turns,
      0 < index_in_vector pc.first_seg_id.segment_index e ∧
      index_in_vector pc.first_seg_id.segment_index e < pc.offsetted_count ∧
      index_in_vector pc.first_seg_id.segment_index e ≤ (pc.robust_ring.length : Int) ∧
      0 ≤ e.turn_index ∧ e.turn_index.toNat < turns.length ∧
      (e.operation_index = 0 ∨ e.operation_index = 1) := by
    intro e he
    obtain ⟨a1, a2, a3⟩ := r3 e he
    obtain ⟨n, t, i, hn, hi, hte, hoe, _, _⟩ := r1 e he
    have hnlt : n < ref.length := (List.getElem?_eq_some_iff.mp hn).1
    refine ⟨a1, a2, a3, by omega, by omega, by rw [hoe]; exact hi⟩
  obtain ⟨turns1, hres, hwl, hw⟩ :=
    insert_robust_turns_spec buffer_operation_less std_sort pc turns hall hperm
  refine ⟨turns1, hres, by rw [hwl, hlen], ?_⟩
  intro n t t0 hn hn0
  obtain ⟨t1, hn1, hsame, hidx⟩ := hw n t0 hn0
  refine ⟨t1, hn1, hsame, ?_⟩
  intro i hi
  rcases hidx i hi with ⟨heq, hno⟩ | ⟨j, e, hj, hte, hoe, hval⟩
  · constructor
    · intro hq
      obtain ⟨e, he, h1, h2⟩ := r2 n t i hn hi hq
      exact absurd ⟨h1, h2⟩ (hno e (hperm.mem_iff.mpr he))
    · intro _; exact heq
  · have hmem : e ∈ pc.robust_turns := hperm.mem_iff.mp (List.getElem?_mem hj)
    obtain ⟨n2, t2, i2, hn2, _, hte2, hoe2, hq2, hpt2⟩ := r1 e hmem
    have hnn : n2 = n := by omega
    subst hnn
    have hii : i2 = i := by rw [← hoe2, hoe]
    subst hii
    rw [hn] at hn2
    simp only [Option.some.injEq] at hn2
    subst hn2
    obtain ⟨a1, _, a3⟩ := r3 e hmem
    beta_reduce at hval
    constructor
    · intro _
      have hpos := getElem?_foldr_insert_robust_turn pc.first_seg_id.segment_index
        pc.robust_ring (sorted_robust_turns buffer_operation_less std_sort pc) hsorted
        (fun e he => by
          obtain ⟨b1, _, b3⟩ := r3 e (hperm.mem_iff.mp he)
          exact ⟨by omega, b3⟩) j e hj
      refine ⟨by rw [hval]; omega, ?_⟩
      have htonat : ((t1.operation i2).index_in_robust_ring).toNat
          = (index_in_vector pc.first_seg_id.segment_index e).toNat + j := by
        rw [hval]; omega
      rw [htonat, ← hpt2]
      exact hpos
    · intro hq; exact absurd hq2 hq

/-- Third loop of `rescale_pieces` over ready pieces, the first of which has position `b`:
afterwards every operation that names one of these pieces has the position of the turn point in
the ring of that piece as ring index; every other operation keeps its ring index. -/
theorem insert_robust_turns_pieces_spec
    (buffer_operation_less : robust_turn F → robust_turn F → Bool)
    (std_sort : (robust_turn F → robust_turn F → Bool) → List (robust_turn F) → List (robust_turn F))
    (ref : List (buffer_turn_info P F)) :
    ∀ (ps : List (piece P F)) (b : Nat) (turns : List (buffer_turn_info P F)),
      turns.length = ref.length →
      (∀ (n : Nat) (t : buffer_turn_info P F), ref[n]? = some t →
        ∃ t0, turns[n]? = some t0 ∧ same_except_index t t0) →
      (∀ (j : Nat) (pc : piece P F), ps[j]? = some pc →
        piece_ready buffer_operation_less std_sort ref ((b : Int) + (j : Int)) pc) →
      ∃ turns1, insert_robust_turns_pieces buffer_operation_less std_sort ps turns
          = some (ps.map (inserted_piece buffer_operation_less std_sort), turns1) ∧
        turns1.length = ref.length ∧
        ∀ (n : Nat) (t t0 : buffer_turn_info P F), ref[n]? = some t → turns[n]? = some t0 →
          ∃ t1, turns1[n]? = some t1 ∧ same_except_index t0 t1 ∧
            ∀ i : Int, i = 0 ∨ i = 1 →
              (∀ (j : Nat) (pc : piece P F), ps[j]? = some pc →
                (t.operation i).piece_index = (b : Int) + (j : Int) →
                0 ≤ (t1.operation i).index_in_robust_ring ∧
                (inserted_piece buffer_operation_less std_sort pc).robust_ring[
                    ((t1.operation i).index_in_robust_ring).toNat]? = some t.robust_point) ∧
              ((∀ j : Nat, j < ps.length → (t.operation i).piece_index ≠ (b : Int) + (j : Int)) →
                (t1.operation i).index_in_robust_ring
                  = (t0.operation i).index_in_robust_ring) := by
  intro ps
  induction ps with
  | nil =>
    intro b turns hlen _ _
    refine ⟨turns, rfl, hlen, ?_⟩
    intro n t t0 _ hn0
    refine ⟨t0, hn0, same_except_index_refl t0, fun i _ => ⟨?_, fun _ => rfl⟩⟩
    intro j pc hj
    simp at hj
  | cons pc rest ih =>
    intro b turns hlen hagree hready
    have hready0 : piece_ready buffer_operation_less std_sort ref (b : Int) pc := by
      have h := hready 0 pc (by simp)
      simpa using h
    obtain ⟨turns1, hres1, hlen1, hspec1⟩ := insert_robust_turns_ready buffer_operation_less
      std_sort ref turns (b : Int) pc hlen hready0
    have hagree1 : ∀ (n : Nat) (t : buffer_turn_info P F), ref[n]? = some t →
        ∃ t1, turns1[n]? = some t1 ∧ same_except_index t t1 := by
      intro n t hn
      obtain ⟨t0, hn0, hs0⟩ := hagree n t hn
      obtain ⟨t1, hn1, hs1, _⟩ := hspec1 n t t0 hn hn0
      exact ⟨t1, hn1, same_except_index_trans hs0 hs1⟩
    have hreadyrest : ∀ (j : Nat) (q : piece P F), rest[j]? = some q →
        piece_ready buffer_operation_less std_sort ref (((b + 1 : Nat) : Int) + (j : Int)) q := by
      intro j q hj
      have h := hready (j + 1) q (by simpa using hj)
      have hcast : ((b : Int) + ((j + 1 : Nat) : Int)) = (((b + 1 : Nat) : Int) + (j : Int)) := by
        push_cast; ring
      rw [hcast] at h
      exact h
    obtain ⟨turns2, hres2, hlen2, hspec2⟩ := ih (b + 1) turns1 hlen1 hagree1 hreadyrest
    refine ⟨turns2, ?_, hlen2, ?_⟩
    · simp only [insert_robust_turns_pieces, hres1, hres2, List.map_cons]
    · intro n t t0 hn hn0
      obtain ⟨t1, hn1, hs1, hidx1⟩ := hspec1 n t t0 hn hn0
      obtain ⟨t2, hn2, hs2, hidx2⟩ := hspec2 n t t1 hn hn1
      refine ⟨t2, hn2, same_except_index_trans hs1 hs2, ?_⟩
      intro i hi
      obtain ⟨g1, k1⟩ := hidx1 i hi
      obtain ⟨g2, k2⟩ := hidx2 i hi
      constructor
      · intro j q hj hq
        cases j with
        | zero =>
          simp only [List.getElem?_cons_zero, Option.some.injEq] at hj
          subst hj
          have hqb : (t.operation i).piece_index = (b : Int) := by simpa using hq
          have hkeep : (t2.operation i).index_in_robust_ring
              = (t1.operation i).index_in_robust_ring := by
            apply k2
            intro j _
            rw [hqb]
            push_cast
            omega
          rw [hkeep]
          exact g1 hqb
        | succ j =>
          simp only [List.getElem?_cons_succ] at hj
          apply g2 j q hj
          rw [hq]
          push_cast
          ring
      · intro hnone
        have h1 : (t1.operation i).index_in_robust_ring
            = (t0.operation i).index_in_robust_ring := by
          apply k1
          have := hnone 0 (by simp)
          simpa using this
        have h2 : (t2.operation i).index_in_robust_ring
            = (t1.operation i).index_in_robust_ring := by
          apply k2
          intro j hj
          have := hnone (j + 1) (by simp; omega)
          intro hcon
          apply this
          rw [hcon]
          push_cast
          ring
        rw [h2, h1]

/-- A list with at most one element is ordered for every relation. -/
theorem pairwise_of_length_le_one {α : Type} (R : α → α → Prop) (l : List α)
    (h : ¬ l.length > 1) : l.Pairwise R := by
  cases l with
  | nil => exact List.Pairwise.nil
  | cons a l =>
    cases l with
    | nil => simp
    | cons b l => simp at h

/-- Under the hypothesis on sorting, the sorted robust turns of a prepared piece are a
rearrangement of the robust turns of the piece in which no element is less than an earlier
one. -/
theorem sorted_robust_turns_prepared [LT F] (recalculate : P → robust_point_type)
    (buffer_operation_less : robust_turn F → robust_turn F → Bool)
    (std_sort : (robust_turn F → robust_turn F → Bool) → List (robust_turn F) → List (robust_turn F))
    (c : buffered_piece_collection P F)
    (hsort : sorts_piece_turns recalculate buffer_operation_less std_sort c)
    (p : Nat) (pc : piece P F) (hfresh : pc.robust_turns = []) :
    (sorted_robust_turns buffer_operation_less std_sort
        (prepared_piece recalculate c.offsetted_rings c.m_turns p pc)).Perm
      (piece_turns recalculate c.m_turns 0 (p : Int)) ∧
    (sorted_robust_turns buffer_operation_less std_sort
        (prepared_piece recalculate c.offsetted_rings c.m_turns p pc)).Pairwise
      (fun a b => a.seg_id.segment_index < b.seg_id.segment_index ∨
        (a.seg_id.segment_index = b.seg_id.segment_index ∧ ¬ b.fraction < a.fraction)) := by
  have hrt : (prepared_piece recalculate c.offsetted_rings c.m_turns p pc).robust_turns
      = piece_turns recalculate c.m_turns 0 (p : Int) := by
    simp [prepared_piece, rescaled_piece, hfresh]
  obtain ⟨hless, hperm, hpair⟩ := hsort (p : Int)
  unfold sorted_robust_turns
  rw [hrt]
  by_cases hlen : (piece_turns recalculate c.m_turns 0 (p : Int)).length > 1
  · rw [if_pos hlen]
    refine ⟨hperm, ?_⟩
    have hmem : ∀ a, a ∈ std_sort buffer_operation_less (piece_turns recalculate c.m_turns 0 (p : Int))
        → a ∈ piece_turns recalculate c.m_turns 0 (p : Int) := fun a ha => hperm.mem_iff.mp ha
    refine (List.Pairwise.and_mem.mp hpair).imp ?_
    intro a b hab
    obtain ⟨ha, hb, hnot⟩ := hab
    have hiff := hless b (hmem b hb) a (hmem a ha)
    have hn : ¬ (b.seg_id.segment_index < a.seg_id.segment_index ∨
        (b.seg_id.segment_index = a.seg_id.segment_index ∧ b.fraction < a.fraction)) := by
      intro hcon
      have := hiff.mpr hcon
      rw [hnot] at this
      exact Bool.false_ne_true this
    push_neg at hn
    rcases lt_or_eq_of_le hn.1 with h | h
    · exact Or.inl h
    · exact Or.inr ⟨h, hn.2 h.symm⟩
  · rw [if_neg hlen]
    exact ⟨List.Perm.refl _, pairwise_of_length_le_one _ _ hlen⟩

/-- After the first two loops of `rescale_pieces`, every piece is ready for the third loop. -/
theorem prepared_piece_ready [LT F] (recalculate : P → robust_point_type)
    (buffer_operation_less : robust_turn F → robust_turn F → Bool)
    (std_sort : (robust_turn F → robust_turn F → Bool) → List (robust_turn F) → List (robust_turn F))
    (c : buffered_piece_collection P F) (hin : rescale_input c)
    (hsort : sorts_piece_turns recalculate buffer_operation_less std_sort c)
    (p : Nat) (pc : piece P F) (hp : c.m_pieces[p]? = some pc) :
    piece_ready buffer_operation_less std_sort (c.m_turns.map (rescaled_turn recalculate))
      (p : Int) (prepared_piece recalculate c.offsetted_rings c.m_turns p pc) := by
  obtain ⟨hfresh, hslice, hops⟩ := hin
  have hpcmem : pc ∈ c.m_pieces := List.getElem?_mem hp
  obtain ⟨hring0, hturns0⟩ := hfresh pc hpcmem
  have hrt : (prepared_piece recalculate c.offsetted_rings c.m_turns p pc).robust_turns
      = piece_turns recalculate c.m_turns 0 (p : Int) := by
    simp [prepared_piece, rescaled_piece, hturns0]
  obtain ⟨hperm, hpair⟩ := sorted_robust_turns_prepared recalculate buffer_operation_less
    std_sort c hsort p pc hturns0
  refine ⟨?_, ?_, ?_, ?_, ?_⟩
  · intro e he
    rw [hrt] at he
    obtain ⟨n, t, i, hn, hi, h1, h2, h3, h4, _, _⟩ := mem_piece_turns recalculate _ _ _ e he
    refine ⟨n, rescaled_turn recalculate t, i, by simp [hn], hi, by rw [h1]; simp, h2, ?_, ?_⟩
    · rw [← h3]
      unfold buffer_turn_info.operation rescaled_turn
      split_ifs <;> rfl
    · rw [h4]; rfl
  · intro n t2 i hn hi hq
    rw [List.getElem?_map] at hn
    cases hnt : c.m_turns[n]? with
    | none => rw [hnt] at hn; simp at hn
    | some t =>
      rw [hnt] at hn
      simp only [Option.map_some', Option.some.injEq] at hn
      subst hn
      have hq2 : (t.operation i).piece_index = (p : Int) := by
        rw [← hq]
        unfold buffer_turn_info.operation rescaled_turn
        split_ifs <;> rfl
      obtain ⟨e, he, h1, h2⟩ := exists_mem_piece_turns recalculate c.m_turns 0 (p : Int) n t i
        hnt hi hq2
      exact ⟨e, by rw [hrt]; exact he, by rw [h1]; simp, h2⟩
  · intro e he
    rw [hrt] at he
    obtain ⟨n, t, i, hn, hi, _, _, h3, _, h5, _⟩ := mem_piece_turns recalculate _ _ _ e he
    have htmem : t ∈ c.m_turns := List.getElem?_mem hn
    obtain ⟨_, hop0, hop1⟩ := hops t htmem
    have hop : operation_in_slice c.m_pieces (t.operation i) := by
      unfold buffer_turn_info.operation
      split_ifs
      · exact hop0
      · exact hop1
    obtain ⟨hq0, q, hq, hlo, hhi⟩ := hop
    rw [h3] at hq
    simp only [Int.toNat_ofNat] at hq
    rw [hp] at hq
    simp only [Option.some.injEq] at hq
    subst hq
    obtain ⟨_, hlen⟩ := rescale_piece_spec recalculate c.offsetted_rings pc (hslice pc hpcmem)
    obtain ⟨_, ring, _, hf0, hfl, _⟩ := hslice pc hpcmem
    simp only [prepared_piece, rescaled_piece, index_in_vector, hring0, List.nil_append,
      List.length_append, List.length_map, hlen, h5]
    refine ⟨by omega, by omega, ?_⟩
    push_cast
    omega
  · rw [hrt]; exact hperm
  · refine hpair.imp ?_
    intro a b hab
    rcases hab with h | h
    · exact le_of_lt h
    · exact le_of_eq h.1

/-- Result of `rescale_pieces` on a well-formed input: it succeeds, every piece is the prepared
piece with its robust turns sorted and inserted, and every turn is the rescaled turn with, as
ring index of each operation, a position of its robust point in the ring of the piece the
operation names. -/
theorem rescale_pieces_spec [LT F] (recalculate : P → robust_point_type)
    (buffer_operation_less : robust_turn F → robust_turn F → Bool)
    (std_sort : (robust_turn F → robust_turn F → Bool) → List (robust_turn F) → List (robust_turn F))
    (c : buffered_piece_collection P F) (hin : rescale_input c)
    (hsort : sorts_piece_turns recalculate buffer_operation_less std_sort c) :
    ∃ pieces3 turns3,
      rescale_pieces recalculate buffer_operation_less std_sort c
        = some { c with m_pieces := pieces3, m_turns := turns3 } ∧
      assert_indices_in_robust_rings { c with m_pieces := pieces3, m_turns := turns3 } = true ∧
      pieces3.length = c.m_pieces.length ∧
      (∀ (p : Nat) (pc : piece P F), c.m_pieces[p]? = some pc →
        pieces3[p]? = some (inserted_piece buffer_operation_less std_sort
          (prepared_piece recalculate c.offsetted_rings c.m_turns p pc))) ∧
      turns3.length = c.m_turns.length ∧
      (∀ (n : Nat) (t : buffer_turn_info P F), c.m_turns[n]? = some t →
        ∃ t1, turns3[n]? = some t1 ∧ same_except_index (rescaled_turn recalculate t) t1 ∧
          ∀ i : Int, i = 0 ∨ i = 1 →
            robust_ring_point pieces3 (t1.operation i).piece_index
              (t1.operation i).index_in_robust_ring = some t1.robust_point) := by
  have hin0 := hin
  obtain ⟨hfresh, hslice, hops⟩ := hin
  have h1 := rescale_piece_loop_spec recalculate c.offsetted_rings c.m_pieces hslice
  have hvalid : ∀ t ∈ c.m_turns,
      (0 ≤ t.op0.piece_index ∧ t.op0.piece_index.toNat
        < (c.m_pieces.map (rescaled_piece recalculate c.offsetted_rings)).length) ∧
      (0 ≤ t.op1.piece_index ∧ t.op1.piece_index.toNat
        < (c.m_pieces.map (rescaled_piece recalculate c.offsetted_rings)).length) := by
    intro t ht
    obtain ⟨_, ⟨a0, q0, hq0, _⟩, ⟨b0, q1, hq1, _⟩⟩ := hops t ht
    rw [List.length_map]
    exact ⟨⟨a0, (List.getElem?_eq_some_iff.mp hq0).1⟩, ⟨b0, (List.getElem?_eq_some_iff.mp hq1).1⟩⟩
  obtain ⟨pieces2, h2, hlen2, hspec2⟩ := add_robust_turns_loop_spec recalculate c.m_turns 0
    (c.m_pieces.map (rescaled_piece recalculate c.offsetted_rings)) hvalid
  rw [List.length_map] at hlen2
  have hprep : ∀ (p : Nat) (pc : piece P F), c.m_pieces[p]? = some pc →
      pieces2[p]? = some (prepared_piece recalculate c.offsetted_rings c.m_turns p pc) := by
    intro p pc hp
    have := hspec2 p (rescaled_piece recalculate c.offsetted_rings pc) (by simp [hp])
    rw [this]
    rfl
  have hready : ∀ (j : Nat) (pc2 : piece P F), pieces2[j]? = some pc2 →
      piece_ready buffer_operation_less std_sort (c.m_turns.map (rescaled_turn recalculate))
        (((0 : Nat) : Int) + (j : Int)) pc2 := by
    intro j pc2 hj
    have hjlt : j < c.m_pieces.length := by
      rw [← hlen2]; exact (List.getElem?_eq_some_iff.mp hj).1
    have hpj : c.m_pieces[j]? = some c.m_pieces[j] := List.getElem?_eq_getElem hjlt
    have := hprep j _ hpj
    rw [hj] at this
    simp only [Option.some.injEq] at this
    rw [this]
    have hr := prepared_piece_ready recalculate buffer_operation_less std_sort c hin0 hsort j
      _ hpj
    simpa using hr
  obtain ⟨turns3, h3, hlen3, hspec3⟩ := insert_robust_turns_pieces_spec buffer_operation_less
    std_sort (c.m_turns.map (rescaled_turn recalculate)) pieces2 0
    (c.m_turns.map (rescaled_turn recalculate)) rfl
    (fun n t hn => ⟨t, hn, same_except_index_refl t⟩) hready
  rw [List.length_map] at hlen3
  have hturns : ∀ (n : Nat) (t : buffer_turn_info P F), c.m_turns[n]? = some t →
      ∃ t1, turns3[n]? = some t1 ∧ same_except_index (rescaled_turn recalculate t) t1 ∧
        ∀ i : Int, i = 0 ∨ i = 1 →
          robust_ring_point (pieces2.map (inserted_piece buffer_operation_less std_sort))
            (t1.operation i).piece_index (t1.operation i).index_in_robust_ring
              = some t1.robust_point := by
    intro n t hn
    have hn2 : (c.m_turns.map (rescaled_turn recalculate))[n]?
        = some (rescaled_turn recalculate t) := by simp [hn]
    obtain ⟨t1, hn1, hsame, hidx⟩ := hspec3 n _ _ hn2 hn2
    refine ⟨t1, hn1, hsame, ?_⟩
    intro i hi
    obtain ⟨hrp, hfields⟩ := (same_except_index_fields hsame).2
    obtain ⟨hpi, _, _⟩ := hfields i
    have hop : operation_in_slice c.m_pieces (t.operation i) := by
      obtain ⟨_, hop0, hop1⟩ := hops t (List.getElem?_mem hn)
      unfold buffer_turn_info.operation
      split_ifs
      · exact hop0
      · exact hop1
    have hresc : ((rescaled_turn recalculate t).operation i).piece_index
        = (t.operation i).piece_index := by
      unfold buffer_turn_info.operation rescaled_turn
      split_ifs <;> rfl
    obtain ⟨hq0, q, hq, _⟩ := hop
    have hqlt : (t.operation i).piece_index.toNat < pieces2.length := by
      rw [hlen2]; exact (List.getElem?_eq_some_iff.mp hq).1
    have hp2 : pieces2[(t.operation i).piece_index.toNat]?
        = some pieces2[(t.operation i).piece_index.toNat] := List.getElem?_eq_getElem hqlt
    obtain ⟨g0, g1⟩ := (hidx i hi).1 _ _ hp2 (by rw [hresc]; simp; omega)
    unfold robust_ring_point
    rw [hpi, hresc, if_pos ⟨hq0, g0⟩, List.getElem?_map, hp2]
    simp only [Option.map_some']
    rw [g1, hrp]
  have hassert : assert_indices_in_robust_rings
      { c with m_pieces := pieces2.map (inserted_piece buffer_operation_less std_sort),
               m_turns := turns3 } = true := by
    unfold assert_indices_in_robust_rings
    rw [List.all_eq_true]
    intro t1 ht1
    obtain ⟨n, hn1⟩ := List.getElem?_of_mem ht1
    have hnlt : n < c.m_turns.length := by
      rw [← hlen3]; exact (List.getElem?_eq_some_iff.mp hn1).1
    obtain ⟨t1b, hn1b, _, hidx⟩ := hturns n _ (List.getElem?_eq_getElem hnlt)
    rw [hn1] at hn1b
    simp only [Option.some.injEq] at hn1b
    subst hn1b
    have e0 := hidx 0 (Or.inl rfl)
    have e1 := hidx 1 (Or.inr rfl)
    simp only [buffer_turn_info.operation, if_true] at e0
    have hne : ¬ ((1 : Int) = 0) := by decide
    simp only [buffer_turn_info.operation, if_neg hne] at e1
    simp [e0, e1]
  refine ⟨pieces2.map (inserted_piece buffer_operation_less std_sort), turns3, ?_, hassert, ?_,
    ?_, hlen3, hturns⟩
  · simp only [rescale_pieces, h1, h2, h3, hassert, if_true]
  · rw [List.length_map, hlen2]
  · intro p pc hp
    rw [List.getElem?_map, hprep p pc hp]
    rfl

/-- A turn on a segment before the first slice point does not appear in the ring. -/
theorem ring_with_turns_cons_of_lt (t : robust_turn F) (rest : List (robust_turn F)) :
    ∀ (slice : List robust_point_type) (g : Int), t.seg_id.segment_index < g →
      ring_with_turns g slice (t :: rest) = ring_with_turns g slice rest := by
  intro slice
  induction slice with
  | nil => intro g _; rfl
  | cons a slice ih =>
    intro g hg
    have hne : ¬ (t.seg_id.segment_index = g) := by omega
    simp only [ring_with_turns, List.filter_cons, hne, decide_False]
    rw [ih (g + 1) (by omega)]
    simp

/-- The turns on segments after the first one do not follow the first slice point. -/
theorem filter_segment_eq_nil (rest : List (robust_turn F)) (g : Int)
    (h : ∀ e ∈ rest, g < e.seg_id.segment_index) :
    (rest.filter fun t => decide (t.seg_id.segment_index = g)) = [] := by
  rw [List.filter_eq_nil_iff]
  intro e he
  have := h e he
  simp only [decide_eq_true_eq]
  omega

/-- One insertion, read on the specified ring: inserting a turn of segment `g + k` that precedes
all turns already present, at position `k + 1`, gives the ring with that turn added in front of
the turn list. -/
theorem insert_ring_with_turns (t : robust_turn F) (rest : List (robust_turn F))
    (helpers : List robust_point_type) :
    ∀ (slice : List robust_point_type) (g : Int) (k : Nat), k < slice.length →
      t.seg_id.segment_index = g + (k : Int) →
      (∀ e ∈ rest, g + (k : Int) ≤ e.seg_id.segment_index) →
      (ring_with_turns g slice rest ++ helpers).take (k + 1)
          ++ t.point :: (ring_with_turns g slice rest ++ helpers).drop (k + 1)
        = ring_with_turns g slice (t :: rest) ++ helpers := by
  intro slice
  induction slice with
  | nil => intro g k hk; simp at hk
  | cons a slice ih =>
    intro g k hk hs hrest
    cases k with
    | zero =>
      have hs0 : t.seg_id.segment_index = g := by simpa using hs
      simp only [ring_with_turns, List.filter_cons, hs0, decide_True, if_true, List.map_cons]
      rw [ring_with_turns_cons_of_lt t rest slice (g + 1) (by omega)]
      simp
    | succ k =>
      have hne : ¬ (t.seg_id.segment_index = g) := by
        rw [hs]; push_cast; omega
      have hnil := filter_segment_eq_nil rest g (fun e he => by
        have := hrest e he
        push_cast at this
        omega)
      simp only [ring_with_turns, List.filter_cons, hne, decide_False, hnil, List.map_nil,
        List.nil_append, List.cons_append, List.take_succ_cons, List.drop_succ_cons]
      have hih := ih (g + 1) k (by simpa using hk) (by rw [hs]; push_cast; ring)
        (fun e he => by
          have := hrest e he
          push_cast at this
          omega)
      simp only [Bool.false_eq_true, if_false]
      rw [hih]
      simp

/-- The robust ring built by the insertions is the specified ring: the slice points in order,
each followed by the turns on the segment that starts at it, then the helper points. -/
theorem foldr_insert_robust_turn_eq (f : Int) (slice helpers : List robust_point_type) :
    ∀ entries : List (robust_turn F),
      entries.Pairwise (fun a b => a.seg_id.segment_index ≤ b.seg_id.segment_index) →
      (∀ e ∈ entries, f ≤ e.seg_id.segment_index ∧
        e.seg_id.segment_index < f + (slice.length : Int)) →
      entries.foldr (insert_robust_turn f) (slice ++ helpers)
        = ring_with_turns f slice entries ++ helpers := by
  intro entries
  induction entries with
  | nil =>
    intro _ _
    have hnil : ∀ (sl : List robust_point_type) (g : Int),
        ring_with_turns g sl ([] : List (robust_turn F)) = sl := by
      intro sl
      induction sl with
      | nil => intro g; rfl
      | cons a sl ih => intro g; simp [ring_with_turns, ih]
    simp [hnil]
  | cons t rest ih =>
    intro hsorted hrange
    rw [List.pairwise_cons] at hsorted
    obtain ⟨hlo, hhi⟩ := hrange t (List.mem_cons_self _ _)
    rw [List.foldr_cons, ih hsorted.2 (fun e he => hrange e (List.mem_cons_of_mem _ he))]
    have hk : (index_in_vector f t).toNat = (t.seg_id.segment_index - f).toNat + 1 := by
      simp only [index_in_vector]; omega
    simp only [insert_robust_turn, hk]
    apply insert_ring_with_turns
    · omega
    · omega
    · intro e he
      have := hsorted.1 e he
      omega

/-- With distinct source pieces, the number of robust turns of piece `p` is the number of turns
that have an operation on `p`. -/
theorem length_piece_turns (recalculate : P → robust_point_type) (p : Int) :
    ∀ (turns : List (buffer_turn_info P F)) (index : Int),
      (∀ t ∈ turns, t.op0.piece_index ≠ t.op1.piece_index) →
      (piece_turns recalculate turns index p).length
        = turns.countP (fun t => decide (t.op0.piece_index = p) || decide (t.op1.piece_index = p)) := by
  intro turns
  induction turns with
  | nil => intro _ _; rfl
  | cons it rest ih =>
    intro index h
    have hne := h it (List.mem_cons_self _ _)
    have hrest := ih (index + 1) (fun t ht => h t (List.mem_cons_of_mem _ ht))
    simp only [piece_turns, List.length_append, hrest, List.countP_cons]
    by_cases h0 : it.op0.piece_index = p
    · have h1 : ¬ (it.op1.piece_index = p) := fun h1 => hne (by rw [h0, h1])
      simp [h0, h1]
      omega
    · by_cases h1 : it.op1.piece_index = p
      · simp [h0, h1]
        omega
      · simp [h0, h1]

/-- The example collection is a well-formed input of `rescale_pieces`. -/
theorem example_rescale_input : rescale_input example_rescale_collection := by
  refine ⟨?_, ?_, ?_⟩
  · intro pc hpc
    simp only [example_rescale_collection, List.mem_cons, List.mem_singleton,
      List.not_mem_nil, or_false] at hpc
    rcases hpc with rfl | rfl <;> exact ⟨rfl, rfl⟩
  · intro pc hpc
    simp only [example_rescale_collection, List.mem_cons, List.mem_singleton,
      List.not_mem_nil, or_false] at hpc
    rcases hpc with rfl | rfl <;>
      exact ⟨by decide, _, rfl, by decide, by decide, by decide⟩
  · intro t ht
    simp only [example_rescale_collection, List.mem_cons, List.mem_singleton,
      List.not_mem_nil, or_false] at ht
    rcases ht with rfl | rfl | rfl <;>
      exact ⟨by decide, ⟨by decide, _, rfl, by decide, by decide⟩,
        ⟨by decide, _, rfl, by decide, by decide⟩⟩

/-- The example comparator and sort satisfy the hypothesis on sorting, on every collection. -/
theorem example_sorts (c : buffered_piece_collection (Int × Int) Nat) :
    sorts_piece_turns example_recalculate example_less example_sort c := by
  intro p
  refine ⟨?_, ?_, ?_⟩
  · intro a _ b _
    simp [example_less]
  · exact List.perm_insertionSort _ _
  · have htotal : IsTotal (robust_turn Nat) (fun a b => example_less b a = false) := by
      constructor
      intro a b
      simp only [example_less, Bool.or_eq_false_iff, Bool.and_eq_false_iff,
        decide_eq_false_iff_not]
      omega
    have htrans : IsTrans (robust_turn Nat) (fun a b => example_less b a = false) := by
      constructor
      intro a b d
      simp only [example_less, Bool.or_eq_false_iff, Bool.and_eq_false_iff,
        decide_eq_false_iff_not]
      omega
    exact @List.sorted_insertionSort _ (fun a b => example_less b a = false) _ htotal htrans _

/-- C1: on a well-formed input (fresh pieces whose slices lie in their rings, turns whose two
operations name existing, distinct pieces with a segment index `s` in the slice,
`first segment index ≤ s ≤ last_segment_index - 2`) and with `buffer_operation_less` ordering
the turns of a piece by segment index, then fraction, `rescale_pieces` succeeds, no assertion
failing; afterwards `assert_indices_in_robust_rings` is true and, for every turn and each of its
two operations, the robust ring of the piece the operation names holds the robust point of the
turn, the rescaled turn point, at the recorded `index_in_robust_ring`. -/
theorem rescale_pieces_indices [LT F] (recalculate : P → robust_point_type)
    (buffer_operation_less : robust_turn F → robust_turn F → Bool)
    (std_sort : (robust_turn F → robust_turn F → Bool) → List (robust_turn F) → List (robust_turn F))
    (c : buffered_piece_collection P F) (hin : rescale_input c)
    (hsort : sorts_piece_turns recalculate buffer_operation_less std_sort c) :
    ∃ c1, rescale_pieces recalculate buffer_operation_less std_sort c = some c1 ∧
      assert_indices_in_robust_rings c1 = true ∧
      c1.m_turns.length = c.m_turns.length ∧
      ∀ (n : Nat) (t : buffer_turn_info P F), c.m_turns[n]? = some t →
        ∃ t1, c1.m_turns[n]? = some t1 ∧
          t1.robust_point = recalculate t.point ∧
          t1.op0.piece_index = t.op0.piece_index ∧ t1.op1.piece_index = t.op1.piece_index ∧
          robust_ring_point c1.m_pieces t1.op0.piece_index t1.op0.index_in_robust_ring
            = some t1.robust_point ∧
          robust_ring_point c1.m_pieces t1.op1.piece_index t1.op1.index_in_robust_ring
            = some t1.robust_point := by
  obtain ⟨pieces3, turns3, hres, hassert, _, _, hlen3, hturns⟩ :=
    rescale_pieces_spec recalculate buffer_operation_less std_sort c hin hsort
  refine ⟨_, hres, hassert, hlen3, ?_⟩
  intro n t hn
  obtain ⟨t1, hn1, hsame, hidx⟩ := hturns n t hn
  obtain ⟨_, hrp, hfields⟩ := same_except_index_fields hsame
  have e0 := hidx 0 (Or.inl rfl)
  have e1 := hidx 1 (Or.inr rfl)
  have f0 := (hfields 0).1
  have f1 := (hfields 1).1
  have hne : ¬ ((1 : Int) = 0) := by decide
  simp only [buffer_turn_info.operation, if_true] at e0 f0
  simp only [buffer_turn_info.operation, if_neg hne] at e1 f1
  exact ⟨t1, hn1, hrp, f0, f1, e0, e1⟩

/-- C1, instance: the example collection, with the example comparator and sort. -/
theorem rescale_pieces_indices_witness :
    rescale_input example_rescale_collection ∧
    sorts_piece_turns example_recalculate example_less example_sort example_rescale_collection ∧
    ∃ c1, rescale_pieces example_recalculate example_less example_sort
        example_rescale_collection = some c1 ∧
      assert_indices_in_robust_rings c1 = true ∧
      c1.m_turns.length = example_rescale_collection.m_turns.length ∧
      ∀ (n : Nat) (t : buffer_turn_info (Int × Int) Nat),
        example_rescale_collection.m_turns[n]? = some t →
        ∃ t1, c1.m_turns[n]? = some t1 ∧
          t1.robust_point = example_recalculate t.point ∧
          t1.op0.piece_index = t.op0.piece_index ∧ t1.op1.piece_index = t.op1.piece_index ∧
          robust_ring_point c1.m_pieces t1.op0.piece_index t1.op0.index_in_robust_ring
            = some t1.robust_point ∧
          robust_ring_point c1.m_pieces t1.op1.piece_index t1.op1.index_in_robust_ring
            = some t1.robust_point :=
  ⟨example_rescale_input, example_sorts example_rescale_collection,
    rescale_pieces_indices example_recalculate example_less example_sort
      example_rescale_collection example_rescale_input
      (example_sorts example_rescale_collection)⟩

/-- C2: on a well-formed input and with `buffer_operation_less` ordering the turns of a piece
by segment index, then fraction, after `rescale_pieces` the piece at every position `p` has: as
robust turns, a rearrangement of the operations on the piece, ordered by segment index and,
inside a segment, by non-decreasing fraction; as robust ring, the rescaled points of its slice in
their order, each followed by the points of the turns on the segment that starts at it, in the
order of the robust turns, followed by the rescaled helper points in their order; as
`offsetted_count`, `last_segment_index - first segment index` plus the number of turns on the
piece; and a ring length of `offsetted_count` plus the number of helper points. -/
theorem rescale_pieces_robust_rings [LinearOrder F] (recalculate : P → robust_point_type)
    (buffer_operation_less : robust_turn F → robust_turn F → Bool)
    (std_sort : (robust_turn F → robust_turn F → Bool) → List (robust_turn F) → List (robust_turn F))
    (c : buffered_piece_collection P F) (hin : rescale_input c)
    (hsort : sorts_piece_turns recalculate buffer_operation_less std_sort c)
    (p : Nat) (pc : piece P F) (hp : c.m_pieces[p]? = some pc) :
    ∃ c1 pc1, rescale_pieces recalculate buffer_operation_less std_sort c = some c1 ∧
      c1.m_pieces.length = c.m_pieces.length ∧
      c1.m_pieces[p]? = some pc1 ∧
      pc1.robust_turns.Perm (piece_turns recalculate c.m_turns 0 (p : Int)) ∧
      pc1.robust_turns.Pairwise (fun a b =>
        a.seg_id.segment_index < b.seg_id.segment_index ∨
        (a.seg_id.segment_index = b.seg_id.segment_index ∧ a.fraction ≤ b.fraction)) ∧
      ((slice_points c.offsetted_rings pc).length : Int)
        = pc.last_segment_index - pc.first_seg_id.segment_index ∧
      pc1.robust_ring
        = ring_with_turns pc.first_seg_id.segment_index
            ((slice_points c.offsetted_rings pc).map recalculate) pc1.robust_turns
          ++ pc.helper_segments.map recalculate ∧
      pc1.offsetted_count
        = pc.last_segment_index - pc.first_seg_id.segment_index
          + ((c.m_turns.countP fun t =>
              decide (t.op0.piece_index = (p : Int)) || decide (t.op1.piece_index = (p : Int))
              : Nat) : Int) ∧
      (pc1.robust_ring.length : Int) = pc1.offsetted_count + (pc.helper_segments.length : Int) := by
  obtain ⟨pieces3, turns3, hres, _, hlenp, hpieces, _, _⟩ :=
    rescale_pieces_spec recalculate buffer_operation_less std_sort c hin hsort
  have hready := prepared_piece_ready recalculate buffer_operation_less std_sort c hin hsort
    p pc hp
  obtain ⟨hfresh, hslice, hops⟩ := hin
  have hpcmem : pc ∈ c.m_pieces := List.getElem?_mem hp
  obtain ⟨hring0, hturns0⟩ := hfresh pc hpcmem
  obtain ⟨hperm, hpair⟩ := sorted_robust_turns_prepared recalculate buffer_operation_less
    std_sort c hsort p pc hturns0
  obtain ⟨_, hslen⟩ := rescale_piece_spec recalculate c.offsetted_rings pc (hslice pc hpcmem)
  obtain ⟨_, ring, _, hf0, hfl, _⟩ := hslice pc hpcmem
  obtain ⟨_, _, r3, hperm2, hsorted⟩ := hready
  have hcount : (sorted_robust_turns buffer_operation_less std_sort
      (prepared_piece recalculate c.offsetted_rings c.m_turns p pc)).length
      = c.m_turns.countP fun t =>
          decide (t.op0.piece_index = (p : Int)) || decide (t.op1.piece_index = (p : Int)) := by
    rw [hperm.length_eq]
    exact length_piece_turns recalculate (p : Int) c.m_turns 0 (fun t ht => (hops t ht).1)
  have hpring : (prepared_piece recalculate c.offsetted_rings c.m_turns p pc).robust_ring
      = (slice_points c.offsetted_rings pc).map recalculate
        ++ pc.helper_segments.map recalculate := by
    simp [prepared_piece, rescaled_piece, hring0]
  have hpfirst : (prepared_piece recalculate c.offsetted_rings c.m_turns p pc).first_seg_id
      = pc.first_seg_id := rfl
  have hpcount : (prepared_piece recalculate c.offsetted_rings c.m_turns p pc).offsetted_count
      = pc.last_segment_index - pc.first_seg_id.segment_index := rfl
  have hshape : (inserted_piece buffer_operation_less std_sort
      (prepared_piece recalculate c.offsetted_rings c.m_turns p pc)).robust_ring
      = ring_with_turns pc.first_seg_id.segment_index
          ((slice_points c.offsetted_rings pc).map recalculate)
          (sorted_robust_turns buffer_operation_less std_sort
            (prepared_piece recalculate c.offsetted_rings c.m_turns p pc))
        ++ pc.helper_segments.map recalculate := by
    simp only [inserted_piece, hpring, hpfirst]
    apply foldr_insert_robust_turn_eq
    · exact hsorted
    · intro e he
      obtain ⟨b1, b2, _⟩ := r3 e (hperm2.mem_iff.mp he)
      rw [hpfirst] at b1 b2
      rw [hpcount] at b2
      simp only [index_in_vector] at b1 b2
      rw [List.length_map, hslen]
      omega
  refine ⟨_, _, hres, hlenp, hpieces p pc hp, hperm, ?_, ?_, hshape, ?_, ?_⟩
  · refine hpair.imp ?_
    intro a b hab
    rcases hab with h | h
    · exact Or.inl h
    · exact Or.inr ⟨h.1, not_lt.mp h.2⟩
  · rw [hslen]; omega
  · simp only [inserted_piece, hpcount, hcount]
  · rw [hshape]
    simp only [inserted_piece, hpcount, ← hcount]
    have hlen := length_foldr_insert_robust_turn pc.first_seg_id.segment_index
      (sorted_robust_turns buffer_operation_less std_sort
        (prepared_piece recalculate c.offsetted_rings c.m_turns p pc))
      ((slice_points c.offsetted_rings pc).map recalculate ++ pc.helper_segments.map recalculate)
    have hfold := foldr_insert_robust_turn_eq pc.first_seg_id.segment_index
      ((slice_points c.offsetted_rings pc).map recalculate) (pc.helper_segments.map recalculate)
      (sorted_robust_turns buffer_operation_less std_sort
        (prepared_piece recalculate c.offsetted_rings c.m_turns p pc)) hsorted
      (fun e he => by
        obtain ⟨b1, b2, _⟩ := r3 e (hperm2.mem_iff.mp he)
        rw [hpfirst] at b1 b2
        rw [hpcount] at b2
        simp only [index_in_vector] at b1 b2
        rw [List.length_map, hslen]
        omega)
    rw [← hfold, hlen]
    simp only [List.length_append, List.length_map, hslen]
    push_cast
    omega

/-- C2, instance: piece `0` of the example collection. -/
theorem rescale_pieces_robust_rings_witness :
    rescale_input example_rescale_collection ∧
    sorts_piece_turns example_recalculate example_less example_sort example_rescale_collection ∧
    ∃ c1 pc1, rescale_pieces example_recalculate example_less example_sort
        example_rescale_collection = some c1 ∧
      c1.m_pieces.length = example_rescale_collection.m_pieces.length ∧
      c1.m_pieces[0]? = some pc1 ∧
      pc1.robust_turns.Perm
        (piece_turns example_recalculate example_rescale_collection.m_turns 0 ((0 : Nat) : Int)) ∧
      pc1.robust_turns.Pairwise (fun a b =>
        a.seg_id.segment_index < b.seg_id.segment_index ∨
        (a.seg_id.segment_index = b.seg_id.segment_index ∧ a.fraction ≤ b.fraction)) ∧
      ((slice_points example_rescale_collection.offsetted_rings
          (example_fresh_piece 0 0 3 [(100, 100)])).length : Int)
        = (example_fresh_piece 0 0 3 [(100, 100)]).last_segment_index
          - (example_fresh_piece 0 0 3 [(100, 100)]).first_seg_id.segment_index ∧
      pc1.robust_ring
        = ring_with_turns (example_fresh_piece 0 0 3 [(100, 100)]).first_seg_id.segment_index
            ((slice_points example_rescale_collection.offsetted_rings
              (example_fresh_piece 0 0 3 [(100, 100)])).map example_recalculate)
            pc1.robust_turns
          ++ (example_fresh_piece 0 0 3 [(100, 100)]).helper_segments.map example_recalculate ∧
      pc1.offsetted_count
        = (example_fresh_piece 0 0 3 [(100, 100)]).last_segment_index
          - (example_fresh_piece 0 0 3 [(100, 100)]).first_seg_id.segment_index
          + ((example_rescale_collection.m_turns.countP fun t =>
              decide (t.op0.piece_index = ((0 : Nat) : Int))
                || decide (t.op1.piece_index = ((0 : Nat) : Int)) : Nat) : Int) ∧
      (pc1.robust_ring.length : Int)
        = pc1.offsetted_count
          + ((example_fresh_piece 0 0 3 [(100, 100)]).helper_segments.length : Int) :=
  ⟨example_rescale_input, example_sorts example_rescale_collection,
    rescale_pieces_robust_rings example_recalculate example_less example_sort
      example_rescale_collection example_rescale_input
      (example_sorts example_rescale_collection) 0 (example_fresh_piece 0 0 3 [(100, 100)]) rfl⟩

/-- The robust rings and the ring indices computed for the example collection. -/
theorem example_rescale_pieces_eval :
    (rescale_pieces example_recalculate example_less example_sort example_rescale_collection).map
        (fun c => (c.m_pieces.map fun pc => (pc.robust_ring.map robust_point_type.x,
            pc.offsetted_count),
          c.m_turns.map fun t => (t.op0.index_in_robust_ring, t.op1.index_in_robust_ring)))
      = some ([([0, 52, 1, 51, 50, 2, 100], 6), ([2, 52, 50, 3, 51, 4, 200, 201], 6)],
          [(4, 2), (3, 4), (1, 1)]) := by
  decide

end rescaling

/-! ## Piece generator: theorems -/

section generator

variable {P F : Type}

/-- Assignment through `back()` of a list that ends with `a`. -/
theorem update_back_concat {α : Type} (f : α → α) (l : List α) (a : α) :
    update_back f (l ++ [a]) = l ++ [f a] := by
  simp [update_back, List.getLast?_concat]

/-- Closed form of `add_point`. -/
theorem add_point_eq (c : buffered_piece_collection P F) (rings : List (List P)) (ring : List P)
    (p : P) (hr : c.offsetted_rings = rings ++ [ring]) :
    add_point c p = some (with_points c rings ring [p], ((ring.length + 1 : Nat) : Int)) := by
  simp [add_point, with_points, hr, List.getLast?_concat, update_back_concat]

/-- Closed form of `add_piece(type, decrease_segment_index_by_one)`. -/
theorem add_piece_eq (type : piece_type) (decrease : Bool) (c : buffered_piece_collection P F)
    (rings : List (List P)) (ring : List P) (hr : c.offsetted_rings = rings ++ [ring]) :
    add_piece type decrease c
      = some { c with m_pieces := c.m_pieces ++
          [recorded_piece c type
            (if decrease then (ring.length : Int) - 1 else (ring.length : Int)) 0 []] } := by
  simp [add_piece, recorded_piece, hr, List.getLast?_concat]

/-- Appending points in two steps. -/
theorem with_points_with_points (c : buffered_piece_collection P F) (rings : List (List P))
    (ring a b : List P) :
    with_points (with_points c rings ring a) rings (ring ++ a) b
      = with_points c rings ring (a ++ b) := by
  simp only [with_points, List.append_assoc, List.length_append]
  congr 2
  push_cast
  ring

/-- Appending no point. -/
theorem with_points_nil (c : buffered_piece_collection P F) (rings : List (List P))
    (ring : List P) (hr : c.offsetted_rings = rings ++ [ring]) :
    with_points c rings ring [] = c := by
  cases c
  simp_all [with_points]

/-- Closed form of `add_piece(type, p1, p2, b1, b2)`. -/
theorem add_piece_points_eq (type : piece_type) (p1 p2 b1 b2 : P)
    (c : buffered_piece_collection P F) (rings : List (List P)) (ring : List P)
    (hr : c.offsetted_rings = rings ++ [ring]) :
    add_piece_points type p1 p2 b1 b2 c
      = some { with_points c rings ring (if last_type_join c then [b2] else [b1, b2]) with
          m_pieces := c.m_pieces ++
            [recorded_piece c type
              (if last_type_join c then (ring.length : Int) - 1 else (ring.length : Int))
              ((ring.length : Int) + ((if last_type_join c then [b2] else [b1, b2]).length : Int))
              [b2, p2, p1, b1]] } := by
  have h1 := add_piece_eq (F := F) type (last_type_join c) c rings ring hr
  by_cases hj : last_type_join c = true
  · have h3 := add_point_eq { c with m_pieces := c.m_pieces ++
        [recorded_piece c type ((ring.length : Int) - 1) 0 []] } rings ring b2 hr
    simp only [hj, if_true] at h1
    simp only [add_piece_points, hj, h1, Bool.not_true, Bool.false_eq_true, if_false, h3]
    simp [with_points, recorded_piece, update_back_concat]
  · simp only [Bool.not_eq_true] at hj
    have h2 := add_point_eq { c with m_pieces := c.m_pieces ++
        [recorded_piece c type (ring.length : Int) 0 []] } rings ring b1 hr
    have h3 := add_point_eq (with_points { c with m_pieces := c.m_pieces ++
        [recorded_piece c type (ring.length : Int) 0 []] } rings ring [b1]) rings (ring ++ [b1])
        b2 rfl
    simp only [hj, Bool.false_eq_true, if_false] at h1
    simp only [add_piece_points, hj, h1, Bool.not_false, if_true, h2, Option.map_some', h3]
    simp [with_points, recorded_piece, update_back_concat]
    omega

/-- Closed form of the range loop after its first iteration: every point is appended. -/
theorem add_range_loop_false (rings : List (List P)) :
    ∀ (range : List P) (last : Int) (c : buffered_piece_collection P F) (ring : List P),
      c.offsetted_rings = rings ++ [ring] →
      add_range_loop range false last c
        = some (with_points c rings ring range,
            if range.isEmpty then last else ((ring.length + range.length : Nat) : Int)) := by
  intro range
  induction range with
  | nil =>
    intro last c ring hr
    simp [add_range_loop, with_points_nil c rings ring hr]
  | cons it rest ih =>
    intro last c ring hr
    have h1 := add_point_eq c rings ring it hr
    have h2 := ih ((ring.length + 1 : Nat) : Int) (with_points c rings ring [it]) (ring ++ [it]) rfl
    simp only [add_range_loop, hr, List.getLast?_concat, Bool.false_eq_true, if_false, if_true,
      h1, h2, with_points_with_points]
    simp only [List.singleton_append, List.isEmpty_cons, Bool.false_eq_true, if_false,
      List.length_append, List.length_cons, List.length_nil]
    congr 2
    cases rest with
    | nil => simp
    | cons a l => simp; omega

/-- Closed form of the range loop: the first point is appended only to an empty ring. -/
theorem add_range_loop_true (rings : List (List P)) (range : List P) (last : Int)
    (c : buffered_piece_collection P F) (ring : List P)
    (hr : c.offsetted_rings = rings ++ [ring]) :
    add_range_loop range true last c
      = some (with_points c rings ring (range_points ring range),
          if (range_points ring range).isEmpty then last
          else ((ring.length + (range_points ring range).length : Nat) : Int)) := by
  cases range with
  | nil =>
    have hnil : range_points ring ([] : List P) = [] := by
      simp [range_points]
    simp [add_range_loop, hnil, with_points_nil c rings ring hr]
  | cons it rest =>
    by_cases hemp : ring.isEmpty = true
    · have h1 := add_point_eq c rings ring it hr
      have h2 := add_range_loop_false rings rest ((ring.length + 1 : Nat) : Int)
        (with_points c rings ring [it]) (ring ++ [it]) rfl
      simp only [add_range_loop, hr, List.getLast?_concat, hemp, if_true, h1, h2,
        with_points_with_points, range_points]
      simp only [List.singleton_append, List.isEmpty_cons, Bool.false_eq_true, if_false,
        List.length_append, List.length_cons, List.length_nil]
      congr 2
      cases rest with
      | nil => simp
      | cons a l => simp; omega
    · simp only [Bool.not_eq_true] at hemp
      have h2 := add_range_loop_false rings rest last c ring hr
      simp only [add_range_loop, hr, List.getLast?_concat, hemp, if_true, Bool.false_eq_true,
        if_false, h2, range_points, List.tail_cons]

/-- Closed form of `add_piece(type, range, decrease_segment_index_by_one)`. -/
theorem add_piece_range_eq (type : piece_type) (range : List P) (decrease : Bool)
    (c : buffered_piece_collection P F) (rings : List (List P)) (ring : List P)
    (hr : c.offsetted_rings = rings ++ [ring]) :
    add_piece_range type range decrease c
      = some { with_points c rings ring (range_points ring range) with
          m_pieces := c.m_pieces ++
            [recorded_piece c type
              (if decrease then (ring.length : Int) - 1 else (ring.length : Int))
              (range_last ring range) []] } := by
  have h1 := add_piece_eq (F := F) type decrease c rings ring hr
  have h2 := add_range_loop_true rings range ((ring.length : Int) + 1)
    { c with m_pieces := c.m_pieces ++
      [recorded_piece c type
        (if decrease then (ring.length : Int) - 1 else (ring.length : Int)) 0 []] } ring hr
  have hg : c.offsetted_rings.getLast? = some ring := by rw [hr, List.getLast?_concat]
  simp only [add_piece_range, h1, hg, h2]
  simp [with_points, recorded_piece, update_back_concat, range_last]

/-- Closed form of `add_piece(type, p, range)`. -/
theorem add_piece_point_range_eq (type : piece_type) (p : P) (range : List P)
    (c : buffered_piece_collection P F) (rings : List (List P)) (ring : List P)
    (hr : c.offsetted_rings = rings ++ [ring]) :
    add_piece_point_range type p range c
      = some { with_points c rings ring (range_points ring range) with
          m_pieces := c.m_pieces ++
            [recorded_piece c type ((ring.length : Int) - 1) (range_last ring range)
              (range_helpers p range)] } := by
  have h1 := add_piece_range_eq (F := F) type range true c rings ring hr
  simp only [if_true] at h1
  simp only [add_piece_point_range, h1, range_helpers]
  cases hb : range.getLast? with
  | none => rfl
  | some back =>
    cases hf : range.head? with
    | none => rfl
    | some front =>
      simp [with_points, recorded_piece, update_back_concat]

/-- Closed form of `add_endcap`. -/
theorem add_endcap_eq (pt : piece_type) (range : List P) (end_point : P)
    (c : buffered_piece_collection P F) (rings : List (List P)) (ring : List P)
    (hr : c.offsetted_rings = rings ++ [ring]) :
    add_endcap pt range end_point c
      = some { with_points c rings ring (range_points ring range) with
          m_pieces := c.m_pieces ++
            [recorded_piece c pt ((ring.length : Int) - 1) (range_last ring range)
              (if pt = piece_type.buffered_flat_end then [] else range_helpers end_point range)] } := by
  by_cases hflat : pt = piece_type.buffered_flat_end
  · have h1 := add_piece_range_eq (F := F) pt range true c rings ring hr
    simp only [if_true] at h1
    simp only [add_endcap, hflat, if_true]
    rw [← hflat, h1]
  · simp only [add_endcap, hflat, if_false]
    exact add_piece_point_range_eq pt end_point range c rings ring hr

/-- C15: `add_piece(type, p1, p2, b1, b2)` on a collection whose last ring is `ring`: when the
previously added piece belongs to the current ring and is a join or a round end, only `b2` is
appended and the first segment index of the new piece is the old ring size minus one; in every
other case `b1` and then `b2` are appended and the first segment index is the old ring size.  In
both cases `last_segment_index` is the size of the ring after the call. -/
theorem add_piece_points_slice (type : piece_type) (p1 p2 b1 b2 : P)
    (c : buffered_piece_collection P F) (rings : List (List P)) (ring : List P)
    (hr : c.offsetted_rings = rings ++ [ring]) :
    (last_type_join c = true ↔
      ∃ back, c.m_pieces.getLast? = some back ∧
        back.first_seg_id.multi_index = c.current_segment_id.multi_index ∧
        (back.type = piece_type.buffered_join ∨ back.type = piece_type.buffered_round_end)) ∧
    ∃ c1 pc ring1, add_piece_points type p1 p2 b1 b2 c = some c1 ∧
      c1.m_pieces = c.m_pieces ++ [pc] ∧ c1.offsetted_rings = rings ++ [ring1] ∧
      (last_type_join c = true →
        ring1 = ring ++ [b2] ∧ pc.first_seg_id.segment_index = (ring.length : Int) - 1) ∧
      (last_type_join c = false →
        ring1 = ring ++ [b1, b2] ∧ pc.first_seg_id.segment_index = (ring.length : Int)) ∧
      pc.last_segment_index = (ring1.length : Int) := by
  constructor
  · unfold last_type_join
    cases hb : c.m_pieces.getLast? with
    | none => simp
    | some back => simp
  · refine ⟨_, _, _, add_piece_points_eq type p1 p2 b1 b2 c rings ring hr, rfl, rfl, ?_, ?_, ?_⟩
    · intro hj
      simp [hj, recorded_piece]
    · intro hj
      simp [hj, recorded_piece]
    · by_cases hj : last_type_join c = true
      · simp [hj, recorded_piece]
      · simp only [Bool.not_eq_true] at hj
        simp [hj, recorded_piece]

/-- C15, instance: a segment piece added after the segment piece of the example: `b1` and `b2`
are appended. -/
theorem add_piece_points_slice_witness :
    (last_type_join example_segment_collection = true ↔
      ∃ back, example_segment_collection.m_pieces.getLast? = some back ∧
        back.first_seg_id.multi_index
          = example_segment_collection.current_segment_id.multi_index ∧
        (back.type = piece_type.buffered_join ∨ back.type = piece_type.buffered_round_end)) ∧
    ∃ c1 pc ring1, add_piece_points piece_type.buffered_segment (10, 0) (10, 10) (11, 0) (11, 10)
        example_segment_collection = some c1 ∧
      c1.m_pieces = example_segment_collection.m_pieces ++ [pc] ∧
      c1.offsetted_rings = [] ++ [ring1] ∧
      (last_type_join example_segment_collection = true →
        ring1 = [(0, -1), (10, -1)] ++ [(11, 10)] ∧
        pc.first_seg_id.segment_index = (([(0, -1), (10, -1)] : List (Int × Int)).length : Int) - 1) ∧
      (last_type_join example_segment_collection = false →
        ring1 = [(0, -1), (10, -1)] ++ [(11, 0), (11, 10)] ∧
        pc.first_seg_id.segment_index = (([(0, -1), (10, -1)] : List (Int × Int)).length : Int)) ∧
      pc.last_segment_index = (ring1.length : Int) :=
  add_piece_points_slice piece_type.buffered_segment (10, 0) (10, 10) (11, 0) (11, 10)
    example_segment_collection [] [(0, -1), (10, -1)] rfl

/-- C16: `add_piece(type, range, decrease)` on a collection whose last ring is `ring` appends
the whole range, in order, when the ring is empty, and the range without its first point when
the ring is not empty.  On a non-empty ring a range of `n ≥ 2` points therefore adds `n - 1`
points and, with `decrease = true`, the slice of the new piece has `n` points
(`last_segment_index - first segment index = n`), the first of which is the last point of the
ring before the call. -/
theorem add_piece_range_points (type : piece_type) (range : List P) (decrease : Bool)
    (c : buffered_piece_collection P F) (rings : List (List P)) (ring : List P)
    (hr : c.offsetted_rings = rings ++ [ring]) :
    ∃ c1 pc ring1, add_piece_range type range decrease c = some c1 ∧
      c1.m_pieces = c.m_pieces ++ [pc] ∧ c1.offsetted_rings = rings ++ [ring1] ∧
      (ring = [] → ring1 = range) ∧
      (ring ≠ [] → ring1 = ring ++ range.tail) ∧
      (ring ≠ [] → 2 ≤ range.length →
        ring1.length = ring.length + (range.length - 1) ∧
        (decrease = true →
          pc.last_segment_index - pc.first_seg_id.segment_index = (range.length : Int) ∧
          0 ≤ pc.first_seg_id.segment_index ∧
          ring1[pc.first_seg_id.segment_index.toNat]? = ring.getLast?)) := by
  refine ⟨_, _, _, add_piece_range_eq type range decrease c rings ring hr, rfl, rfl, ?_, ?_, ?_⟩
  · intro hemp
    simp [hemp, range_points]
  · intro hne
    have : ring.isEmpty = false := by
      cases ring with
      | nil => exact absurd rfl hne
      | cons a l => rfl
    simp [range_points, this]
  · intro hne hlen
    have hemp : ring.isEmpty = false := by
      cases ring with
      | nil => exact absurd rfl hne
      | cons a l => rfl
    have hpts : range_points ring range = range.tail := by simp [range_points, hemp]
    have htl : range.tail.length = range.length - 1 := by simp
    have hrlen : 1 ≤ ring.length := by
      cases ring with
      | nil => exact absurd rfl hne
      | cons a l => simp
    refine ⟨by simp [hpts], ?_⟩
    intro hdec
    have htne : range.tail.isEmpty = false := by
      cases h : range.tail with
      | nil => rw [h] at htl; simp at htl; omega
      | cons a l => rfl
    simp only [recorded_piece, hdec, if_true, range_last, hpts, htne, Bool.false_eq_true,
      if_false, htl]
    refine ⟨by push_cast; omega, by omega, ?_⟩
    have hpos : ((ring.length : Int) - 1).toNat = ring.length - 1 := by omega
    rw [hpos, List.getElem?_append_left (by omega), List.getLast?_eq_getElem?]

/-- C16, instance: a join of three points added with `decrease = true` after the segment piece
of the example. -/
theorem add_piece_range_points_witness :
    ∃ c1 pc ring1, add_piece_range piece_type.buffered_join [(10, -1), (11, -1), (11, 0)] true
        example_segment_collection = some c1 ∧
      c1.m_pieces = example_segment_collection.m_pieces ++ [pc] ∧
      c1.offsetted_rings = [] ++ [ring1] ∧
      (([(0, -1), (10, -1)] : List (Int × Int)) = [] → ring1 = [(10, -1), (11, -1), (11, 0)]) ∧
      (([(0, -1), (10, -1)] : List (Int × Int)) ≠ [] →
        ring1 = [(0, -1), (10, -1)] ++ ([(10, -1), (11, -1), (11, 0)] : List (Int × Int)).tail) ∧
      (([(0, -1), (10, -1)] : List (Int × Int)) ≠ [] →
        2 ≤ ([(10, -1), (11, -1), (11, 0)] : List (Int × Int)).length →
        ring1.length = ([(0, -1), (10, -1)] : List (Int × Int)).length
          + (([(10, -1), (11, -1), (11, 0)] : List (Int × Int)).length - 1) ∧
        (true = true →
          pc.last_segment_index - pc.first_seg_id.segment_index
            = (([(10, -1), (11, -1), (11, 0)] : List (Int × Int)).length : Int) ∧
          0 ≤ pc.first_seg_id.segment_index ∧
          ring1[pc.first_seg_id.segment_index.toNat]?
            = ([(0, -1), (10, -1)] : List (Int × Int)).getLast?)) :=
  add_piece_range_points piece_type.buffered_join [(10, -1), (11, -1), (11, 0)] true
    example_segment_collection [] [(0, -1), (10, -1)] rfl

/-- C17, as stated, fails in the three cases it names: after `start_new_ring` on the empty
collection, `add_piece(type, range, true)` records the first segment index `-1`; and on the ring
of two points of the example, an empty range and a one-point range record
`last_segment_index = 3` while the ring still has two points. -/
theorem add_piece_range_slice_counterexample :
    (add_piece_range piece_type.buffered_join [(1, 1), (2, 2)] true
        (start_new_ring example_empty_collection)).map
      (fun c => (c.m_pieces.map fun pc => (pc.first_seg_id.segment_index, pc.last_segment_index),
        c.offsetted_rings.map List.length))
      = some ([(-1, 2)], [2]) ∧
    (add_piece_range piece_type.buffered_join [] true example_segment_collection).map
      (fun c => (c.m_pieces.map fun pc => (pc.first_seg_id.segment_index, pc.last_segment_index),
        c.offsetted_rings.map List.length))
      = some ([(0, 2), (1, 3)], [2]) ∧
    (add_endcap piece_type.buffered_round_end [(10, -1)] (10, 0) example_segment_collection).map
      (fun c => (c.m_pieces.map fun pc => (pc.first_seg_id.segment_index, pc.last_segment_index),
        c.offsetted_rings.map List.length))
      = some ([(0, 2), (1, 3)], [2]) := by
  decide

/-- C17, amended: for a range of at least two points added to a non-empty ring by
`add_piece(type, range, decrease)` or `add_endcap`, and for a range of at least one point added
to an empty ring with `decrease = false`, the recorded piece references an existing slice of the
ring: `0 ≤ first segment index ≤ last_segment_index ≤ size of the ring after the call`.  On an
empty ring with `decrease = true`, as in `add_endcap`, the first segment index is `-1`. -/
theorem add_piece_range_slice (type : piece_type) (range : List P) (decrease : Bool)
    (end_point : P) (c : buffered_piece_collection P F) (rings : List (List P)) (ring : List P)
    (hr : c.offsetted_rings = rings ++ [ring]) :
    (∃ c1 pc ring1, add_piece_range type range decrease c = some c1 ∧
      c1.m_pieces = c.m_pieces ++ [pc] ∧ c1.offsetted_rings = rings ++ [ring1] ∧
      (ring ≠ [] → 2 ≤ range.length →
        0 ≤ pc.first_seg_id.segment_index ∧
        pc.first_seg_id.segment_index ≤ pc.last_segment_index ∧
        pc.last_segment_index ≤ (ring1.length : Int)) ∧
      (ring = [] → 1 ≤ range.length → decrease = false →
        0 ≤ pc.first_seg_id.segment_index ∧
        pc.first_seg_id.segment_index ≤ pc.last_segment_index ∧
        pc.last_segment_index ≤ (ring1.length : Int)) ∧
      (ring = [] → decrease = true → pc.first_seg_id.segment_index = -1)) ∧
    (∃ c1 pc ring1, add_endcap type range end_point c = some c1 ∧
      c1.m_pieces = c.m_pieces ++ [pc] ∧ c1.offsetted_rings = rings ++ [ring1] ∧
      (ring ≠ [] → 2 ≤ range.length →
        0 ≤ pc.first_seg_id.segment_index ∧
        pc.first_seg_id.segment_index ≤ pc.last_segment_index ∧
        pc.last_segment_index ≤ (ring1.length : Int)) ∧
      (ring = [] → pc.first_seg_id.segment_index = -1)) := by
  have hnonempty : ring ≠ [] → 2 ≤ range.length →
      1 ≤ ring.length ∧ (range_points ring range).length = range.length - 1 ∧
      (range_points ring range).isEmpty = false := by
    intro hne hlen
    have hemp : ring.isEmpty = false := by
      cases ring with
      | nil => exact absurd rfl hne
      | cons a l => rfl
    have hpts : range_points ring range = range.tail := by simp [range_points, hemp]
    have htl : range.tail.length = range.length - 1 := by simp
    refine ⟨?_, by rw [hpts, htl], ?_⟩
    · cases ring with
      | nil => exact absurd rfl hne
      | cons a l => simp
    · rw [hpts]
      cases h : range.tail with
      | nil => rw [h] at htl; simp at htl; omega
      | cons a l => rfl
  constructor
  · refine ⟨_, _, _, add_piece_range_eq type range decrease c rings ring hr, rfl, rfl, ?_, ?_, ?_⟩
    · intro hne hlen
      obtain ⟨h1, h2, h3⟩ := hnonempty hne hlen
      simp only [recorded_piece, range_last, h3, Bool.false_eq_true, if_false,
        List.length_append, h2]
      refine ⟨?_, ?_, ?_⟩
      · split_ifs <;> omega
      · split_ifs <;> (push_cast; omega)
      · push_cast; omega
    · intro hemp hlen hdec
      subst hemp
      have hpts : range_points ([] : List P) range = range := by simp [range_points]
      have hne : range.isEmpty = false := by
        cases range with
        | nil => simp at hlen
        | cons a l => rfl
      simp [recorded_piece, range_last, hpts, hne, hdec]
    · intro hemp hdec
      subst hemp
      simp [recorded_piece, hdec]
  · refine ⟨_, _, _, add_endcap_eq type range end_point c rings ring hr, rfl, rfl, ?_, ?_⟩
    · intro hne hlen
      obtain ⟨h1, h2, h3⟩ := hnonempty hne hlen
      simp only [recorded_piece, range_last, h3, Bool.false_eq_true, if_false,
        List.length_append, h2]
      refine ⟨by omega, by push_cast; omega, by push_cast; omega⟩
    · intro hemp
      subst hemp
      simp [recorded_piece]

/-- C17, instance: a join of three points added after the segment piece of the example. -/
theorem add_piece_range_slice_witness :
    (∃ c1 pc ring1, add_piece_range piece_type.buffered_join [(10, -1), (11, -1), (11, 0)] true
        example_segment_collection = some c1 ∧
      c1.m_pieces = example_segment_collection.m_pieces ++ [pc] ∧
      c1.offsetted_rings = [] ++ [ring1] ∧
      (([(0, -1), (10, -1)] : List (Int × Int)) ≠ [] →
        2 ≤ ([(10, -1), (11, -1), (11, 0)] : List (Int × Int)).length →
        0 ≤ pc.first_seg_id.segment_index ∧
        pc.first_seg_id.segment_index ≤ pc.last_segment_index ∧
        pc.last_segment_index ≤ (ring1.length : Int)) ∧
      (([(0, -1), (10, -1)] : List (Int × Int)) = [] →
        1 ≤ ([(10, -1), (11, -1), (11, 0)] : List (Int × Int)).length → true = false →
        0 ≤ pc.first_seg_id.segment_index ∧
        pc.first_seg_id.segment_index ≤ pc.last_segment_index ∧
        pc.last_segment_index ≤ (ring1.length : Int)) ∧
      (([(0, -1), (10, -1)] : List (Int × Int)) = [] → true = true →
        pc.first_seg_id.segment_index = -1)) ∧
    (∃ c1 pc ring1, add_endcap piece_type.buffered_join [(10, -1), (11, -1), (11, 0)] (10, 0)
        example_segment_collection = some c1 ∧
      c1.m_pieces = example_segment_collection.m_pieces ++ [pc] ∧
      c1.offsetted_rings = [] ++ [ring1] ∧
      (([(0, -1), (10, -1)] : List (Int × Int)) ≠ [] →
        2 ≤ ([(10, -1), (11, -1), (11, 0)] : List (Int × Int)).length →
        0 ≤ pc.first_seg_id.segment_index ∧
        pc.first_seg_id.segment_index ≤ pc.last_segment_index ∧
        pc.last_segment_index ≤ (ring1.length : Int)) ∧
      (([(0, -1), (10, -1)] : List (Int × Int)) = [] → pc.first_seg_id.segment_index = -1)) :=
  add_piece_range_slice piece_type.buffered_join [(10, -1), (11, -1), (11, 0)] true (10, 0)
    example_segment_collection [] [(0, -1), (10, -1)] rfl

/-- C18: `add_endcap` with the piece type `buffered_flat_end` records a piece without helper
points, for every range and end point; with any other piece type and a non-empty range it
records the helper points `range.back()`, `end_point`, `range.front()`, in that order. -/
theorem add_endcap_helper_segments (pt : piece_type) (range : List P) (end_point : P)
    (c : buffered_piece_collection P F) (rings : List (List P)) (ring : List P)
    (hr : c.offsetted_rings = rings ++ [ring]) :
    ∃ c1 pc, add_endcap pt range end_point c = some c1 ∧ c1.m_pieces = c.m_pieces ++ [pc] ∧
      pc.type = pt ∧
      (pt = piece_type.buffered_flat_end → pc.helper_segments = []) ∧
      (pt ≠ piece_type.buffered_flat_end → ∀ back front : P,
        range.getLast? = some back → range.head? = some front →
        pc.helper_segments = [back, end_point, front]) := by
  refine ⟨_, _, add_endcap_eq pt range end_point c rings ring hr, rfl, rfl, ?_, ?_⟩
  · intro hflat
    simp [recorded_piece, hflat]
  · intro hflat back front hb hf
    simp [recorded_piece, hflat, range_helpers, hb, hf]

/-- C18, instance: a round end of two points added after the segment piece of the example. -/
theorem add_endcap_helper_segments_witness :
    ∃ c1 pc, add_endcap piece_type.buffered_round_end [(10, -1), (10, 1)] (10, 0)
        example_segment_collection = some c1 ∧
      c1.m_pieces = example_segment_collection.m_pieces ++ [pc] ∧
      pc.type = piece_type.buffered_round_end ∧
      (piece_type.buffered_round_end = piece_type.buffered_flat_end → pc.helper_segments = []) ∧
      (piece_type.buffered_round_end ≠ piece_type.buffered_flat_end → ∀ back front : Int × Int,
        ([(10, -1), (10, 1)] : List (Int × Int)).getLast? = some back →
        ([(10, -1), (10, 1)] : List (Int × Int)).head? = some front →
        pc.helper_segments = [back, (10, 0), front]) :=
  add_endcap_helper_segments piece_type.buffered_round_end [(10, -1), (10, 1)] (10, 0)
    example_segment_collection [] [(0, -1), (10, -1)] rfl

/-- C19, as stated, fails in its last part: the piece added by
`add_piece(type, p1, p2, b1, b2)` to a new ring stores the helper points `b2, p2, p1, b1`, and
the points `b1` and `b2` among them are appended to the offsetted ring. -/
theorem helper_points_counterexample :
    (add_piece_points piece_type.buffered_segment (0, 0) (10, 0) (0, -1) (10, -1)
        (start_new_ring example_empty_collection)).map
      (fun c => (c.m_pieces.map piece.helper_segments, c.offsetted_rings))
      = some ([[(10, -1), (10, 0), (0, 0), (0, -1)]], [[(0, -1), (10, -1)]]) := by
  decide

/-- C19, amended: `add_piece(type, p1, p2, b1, b2)` stores exactly the helper points
`b2, p2, p1, b1`, whether or not the piece follows a join, and appends to the ring only `b1` and
`b2`, or only `b2`: the rings do not depend on `p1` and `p2`.  `add_piece(type, p, range)` stores
exactly `range.back()`, `p`, `range.front()` for a non-empty range and no helper point for an
empty range, and appends to the ring only points of the range: the rings do not depend on `p`.
In both cases the piece stores at most four helper points. -/
theorem helper_points (type : piece_type) (p1 p2 b1 b2 p : P) (range : List P)
    (c : buffered_piece_collection P F) (rings : List (List P)) (ring : List P)
    (hr : c.offsetted_rings = rings ++ [ring]) :
    (∃ c1 pc, add_piece_points type p1 p2 b1 b2 c = some c1 ∧
      c1.m_pieces = c.m_pieces ++ [pc] ∧
      pc.helper_segments = [b2, p2, p1, b1] ∧ pc.helper_segments.length ≤ 4 ∧
      c1.offsetted_rings = rings ++ [ring ++ (if last_type_join c then [b2] else [b1, b2])] ∧
      ∀ q1 q2 : P, (add_piece_points type q1 q2 b1 b2 c).map
          buffered_piece_collection.offsetted_rings = some c1.offsetted_rings) ∧
    (∃ c1 pc, add_piece_point_range type p range c = some c1 ∧
      c1.m_pieces = c.m_pieces ++ [pc] ∧
      (∀ back front : P, range.getLast? = some back → range.head? = some front →
        pc.helper_segments = [back, p, front]) ∧
      (range = [] → pc.helper_segments = []) ∧ pc.helper_segments.length ≤ 4 ∧
      c1.offsetted_rings = rings ++ [ring ++ (if ring.isEmpty then range else range.tail)] ∧
      ∀ q : P, (add_piece_point_range type q range c).map
          buffered_piece_collection.offsetted_rings = some c1.offsetted_rings) := by
  constructor
  · refine ⟨_, _, add_piece_points_eq type p1 p2 b1 b2 c rings ring hr, rfl, rfl, by
      simp [recorded_piece], rfl, ?_⟩
    intro q1 q2
    rw [add_piece_points_eq type q1 q2 b1 b2 c rings ring hr]
    rfl
  · refine ⟨_, _, add_piece_point_range_eq type p range c rings ring hr, rfl, ?_, ?_, ?_, rfl, ?_⟩
    · intro back front hb hf
      simp [recorded_piece, range_helpers, hb, hf]
    · intro hemp
      subst hemp
      simp [recorded_piece, range_helpers]
    · simp only [recorded_piece, range_helpers]
      cases range.getLast? <;> cases range.head? <;> simp
    · intro q
      rw [add_piece_point_range_eq type q range c rings ring hr]
      rfl

/-- C19, instance: a segment piece and a join added after the segment piece of the example. -/
theorem helper_points_witness :
    (∃ c1 pc, add_piece_points piece_type.buffered_segment (10, 0) (10, 10) (11, 0) (11, 10)
        example_segment_collection = some c1 ∧
      c1.m_pieces = example_segment_collection.m_pieces ++ [pc] ∧
      pc.helper_segments = [(11, 10), (10, 10), (10, 0), (11, 0)] ∧
      pc.helper_segments.length ≤ 4 ∧
      c1.offsetted_rings = [] ++ [[(0, -1), (10, -1)] ++
        (if last_type_join example_segment_collection then [(11, 10)]
          else [(11, 0), (11, 10)])] ∧
      ∀ q1 q2 : Int × Int,
        (add_piece_points piece_type.buffered_segment q1 q2 (11, 0) (11, 10)
          example_segment_collection).map buffered_piece_collection.offsetted_rings
          = some c1.offsetted_rings) ∧
    (∃ c1 pc, add_piece_point_range piece_type.buffered_segment (10, 0)
        [(10, -1), (11, -1), (11, 0)] example_segment_collection = some c1 ∧
      c1.m_pieces = example_segment_collection.m_pieces ++ [pc] ∧
      (∀ back front : Int × Int,
        ([(10, -1), (11, -1), (11, 0)] : List (Int × Int)).getLast? = some back →
        ([(10, -1), (11, -1), (11, 0)] : List (Int × Int)).head? = some front →
        pc.helper_segments = [back, (10, 0), front]) ∧
      (([(10, -1), (11, -1), (11, 0)] : List (Int × Int)) = [] → pc.helper_segments = []) ∧
      pc.helper_segments.length ≤ 4 ∧
      c1.offsetted_rings = [] ++ [[(0, -1), (10, -1)] ++
        (if ([(0, -1), (10, -1)] : List (Int × Int)).isEmpty then [(10, -1), (11, -1), (11, 0)]
          else ([(10, -1), (11, -1), (11, 0)] : List (Int × Int)).tail)] ∧
      ∀ q : Int × Int,
        (add_piece_point_range piece_type.buffered_segment q [(10, -1), (11, -1), (11, 0)]
          example_segment_collection).map buffered_piece_collection.offsetted_rings
          = some c1.offsetted_rings) :=
  helper_points piece_type.buffered_segment (10, 0) (10, 10) (11, 0) (11, 10) (10, 0)
    [(10, -1), (11, -1), (11, 0)] example_segment_collection [] [(0, -1), (10, -1)] rfl

/-- Every call of the piece generator on a collection with a last ring succeeds, keeps the
earlier rings, and keeps the running segment index equal to the size of the last ring when it
was so before. -/
theorem apply_call_segment_index (call : generator_call P) (c : buffered_piece_collection P F)
    (rings : List (List P)) (ring : List P) (hr : c.offsetted_rings = rings ++ [ring])
    (hs : c.current_segment_id.segment_index = (ring.length : Int)) :
    ∃ c1 ring1, apply_call call c = some c1 ∧ c1.offsetted_rings = rings ++ [ring1] ∧
      c1.current_segment_id.segment_index = (ring1.length : Int) ∧
      c1.current_segment_id.multi_index = c.current_segment_id.multi_index := by
  cases call with
  | point p =>
    have h := add_point_eq c rings ring p hr
    refine ⟨with_points c rings ring [p], ring ++ [p], ?_, rfl, ?_, rfl⟩
    · simp only [apply_call, h, Option.map_some']
    · simp [with_points, hs]
  | piece_points type p1 p2 b1 b2 =>
    exact ⟨_, _, add_piece_points_eq type p1 p2 b1 b2 c rings ring hr, rfl,
      by simp [with_points, hs], rfl⟩
  | piece_range type range decrease =>
    exact ⟨_, _, add_piece_range_eq type range decrease c rings ring hr, rfl,
      by simp [with_points, hs], rfl⟩
  | piece_point_range type p range =>
    exact ⟨_, _, add_piece_point_range_eq type p range c rings ring hr, rfl,
      by simp [with_points, hs], rfl⟩
  | endcap pt range end_point =>
    exact ⟨_, _, add_endcap_eq pt range end_point c rings ring hr, rfl,
      by simp [with_points, hs], rfl⟩

/-- The invariant of the running segment index along a sequence of calls. -/
theorem apply_calls_segment_index (rings : List (List P)) :
    ∀ (calls : List (generator_call P)) (c : buffered_piece_collection P F) (ring : List P),
      c.offsetted_rings = rings ++ [ring] →
      c.current_segment_id.segment_index = (ring.length : Int) →
      ∃ c1 ring1, apply_calls calls c = some c1 ∧ c1.offsetted_rings = rings ++ [ring1] ∧
        c1.current_segment_id.segment_index = (ring1.length : Int) ∧
        c1.current_segment_id.multi_index = c.current_segment_id.multi_index := by
  intro calls
  induction calls with
  | nil => intro c ring hr hs; exact ⟨c, ring, rfl, hr, hs, rfl⟩
  | cons call rest ih =>
    intro c ring hr hs
    obtain ⟨c1, ring1, h1, hr1, hs1, hm1⟩ := apply_call_segment_index call c rings ring hr hs
    obtain ⟨c2, ring2, h2, hr2, hs2, hm2⟩ := ih c1 ring1 hr1 hs1
    exact ⟨c2, ring2, by simp only [apply_calls, h1, h2], hr2, hs2, by rw [hm2, hm1]⟩

/-- C20: `start_new_ring` appends one empty ring, sets `multi_index` to the previous number of
rings and the running segment index to `0`, and leaves the existing rings and the pieces
unchanged; after it, every sequence of `add_point`, `add_piece` and `add_endcap` calls succeeds
and ends in a state whose running index `current_segment_id.segment_index` is the number of
points of the last ring; and `add_point(p)` on a collection whose last ring is `ring` appends `p`
at the end of that ring, returns the new size of the ring, and changes no other ring, no piece
and no turn. -/
theorem segment_index_is_ring_size (c0 c : buffered_piece_collection P F)
    (calls : List (generator_call P)) (rings : List (List P)) (ring : List P) (p : P)
    (hr : c.offsetted_rings = rings ++ [ring]) :
    ((start_new_ring c0).offsetted_rings = c0.offsetted_rings ++ [[]] ∧
      (start_new_ring c0).current_segment_id.multi_index = (c0.offsetted_rings.length : Int) ∧
      (start_new_ring c0).current_segment_id.segment_index = 0 ∧
      (start_new_ring c0).m_pieces = c0.m_pieces) ∧
    (∃ c1 ring1, apply_calls calls (start_new_ring c0) = some c1 ∧
      c1.offsetted_rings = c0.offsetted_rings ++ [ring1] ∧
      c1.current_segment_id.segment_index = (ring1.length : Int) ∧
      c1.current_segment_id.multi_index = (c0.offsetted_rings.length : Int)) ∧
    (∃ c1, add_point c p = some (c1, ((ring ++ [p]).length : Int)) ∧
      c1.offsetted_rings = rings ++ [ring ++ [p]] ∧
      c1.m_pieces = c.m_pieces ∧ c1.m_turns = c.m_turns ∧
      c1.current_segment_id.segment_index = c.current_segment_id.segment_index + 1) := by
  refine ⟨⟨rfl, rfl, rfl, rfl⟩, ?_, ?_⟩
  · exact apply_calls_segment_index c0.offsetted_rings calls (start_new_ring c0) [] rfl rfl
  · refine ⟨with_points c rings ring [p], ?_, rfl, rfl, rfl, ?_⟩
    · rw [add_point_eq c rings ring p hr]
      simp
    · simp [with_points]

/-- C20, instance: a new ring on the example collection, then a point, a segment piece and a
join; and a point added to the example collection itself. -/
theorem segment_index_is_ring_size_witness :
    ((start_new_ring example_segment_collection).offsetted_rings
        = example_segment_collection.offsetted_rings ++ [[]] ∧
      (start_new_ring example_segment_collection).current_segment_id.multi_index
        = (example_segment_collection.offsetted_rings.length : Int) ∧
      (start_new_ring example_segment_collection).current_segment_id.segment_index = 0 ∧
      (start_new_ring example_segment_collection).m_pieces
        = example_segment_collection.m_pieces) ∧
    (∃ c1 ring1, apply_calls
        [generator_call.point (5, 5),
         generator_call.piece_points piece_type.buffered_segment (0, 0) (10, 0) (0, -1) (10, -1),
         generator_call.piece_point_range piece_type.buffered_join (10, 0)
           [(10, -1), (11, -1), (11, 0)]]
        (start_new_ring example_segment_collection) = some c1 ∧
      c1.offsetted_rings = example_segment_collection.offsetted_rings ++ [ring1] ∧
      c1.current_segment_id.segment_index = (ring1.length : Int) ∧
      c1.current_segment_id.multi_index
        = (example_segment_collection.offsetted_rings.length : Int)) ∧
    (∃ c1, add_point example_segment_collection (5, 5)
        = some (c1, (([(0, -1), (10, -1)] ++ [(5, 5)] : List (Int × Int)).length : Int)) ∧
      c1.offsetted_rings = [] ++ [[(0, -1), (10, -1)] ++ [(5, 5)]] ∧
      c1.m_pieces = example_segment_collection.m_pieces ∧
      c1.m_turns = example_segment_collection.m_turns ∧
      c1.current_segment_id.segment_index
        = example_segment_collection.current_segment_id.segment_index + 1) :=
  segment_index_is_ring_size example_segment_collection example_segment_collection
    [generator_call.point (5, 5),
     generator_call.piece_points piece_type.buffered_segment (0, 0) (10, 0) (0, -1) (10, -1),
     generator_call.piece_point_range piece_type.buffered_join (10, 0)
       [(10, -1), (11, -1), (11, 0)]]
    [] [(0, -1), (10, -1)] (5, 5) rfl

/-- A partition by slices is extended by a piece that starts at the last point of the ring, or
at position `0` of an empty ring, and ends at the new end of the ring. -/
theorem slices_partition_concat (pieces : List (piece P F)) (n n1 : Int) (pc : piece P F)
    (h : slices_partition pieces n) (hn : 0 ≤ n)
    (hlast : pc.last_segment_index = n1)
    (hempty : pieces = [] → pc.first_seg_id.segment_index = 0 ∧ 2 ≤ n1)
    (hchain : pieces ≠ [] → pc.first_seg_id.segment_index = n - 1 ∧ n + 1 ≤ n1) :
    slices_partition (pieces ++ [pc]) n1 := by
  obtain ⟨s1, s4, s2, s3⟩ := h
  have hn2 : pieces ≠ [] → 2 ≤ n := by
    intro hne
    rcases s4 with ⟨he, _⟩ | ⟨q, hq, hqn⟩
    · exact absurd he hne
    · have := s1 q (List.mem_of_mem_getLast? hq)
      omega
  refine ⟨?_, ?_, ?_, ?_⟩
  · intro q hq
    rcases List.mem_append.mp hq with hq | hq
    · obtain ⟨a, b, d⟩ := s1 q hq
      have hne : pieces ≠ [] := List.ne_nil_of_mem hq
      have := (hchain hne).2
      exact ⟨a, b, by omega⟩
    · rw [List.mem_singleton] at hq
      subst hq
      by_cases hne : pieces = []
      · have := hempty hne
        omega
      · have := hchain hne
        have := hn2 hne
        omega
  · right
    exact ⟨pc, List.getLast?_concat _, hlast⟩
  · intro k a b ha hb
    by_cases hk : k + 1 < pieces.length
    · rw [List.getElem?_append_left (by omega)] at ha
      rw [List.getElem?_append_left hk] at hb
      exact s2 k a b ha hb
    · have hklt : k + 1 < (pieces ++ [pc]).length := (List.getElem?_eq_some_iff.mp hb).1
      simp only [List.length_append, List.length_cons, List.length_nil] at hklt
      have hkeq : k + 1 = pieces.length := by omega
      have hne : pieces ≠ [] := by
        intro he
        rw [he] at hkeq
        simp at hkeq
      rw [List.getElem?_append_left (by omega)] at ha
      rw [List.getElem?_append_right (by omega)] at hb
      have hz : k + 1 - pieces.length = 0 := by omega
      rw [hz] at hb
      simp only [List.getElem?_cons_zero, Option.some.injEq] at hb
      subst hb
      rcases s4 with ⟨he, _⟩ | ⟨q, hq, hqn⟩
      · exact absurd he hne
      · have hqk : pieces[k]? = some q := by
          rw [List.getLast?_eq_getElem?] at hq
          have : pieces.length - 1 = k := by omega
          rw [this] at hq
          exact hq
        rw [ha] at hqk
        simp only [Option.some.injEq] at hqk
        subst hqk
        rw [(hchain hne).1, hqn]
  · intro m hm0 hm1
    by_cases hold : m + 1 < n
    · obtain ⟨k, q, hk, hin, huniq⟩ := s3 m hm0 hold
      have hklt : k < pieces.length := (List.getElem?_eq_some_iff.mp hk).1
      refine ⟨k, q, by rw [List.getElem?_append_left hklt]; exact hk, hin, ?_⟩
      intro j q2 hj hin2
      by_cases hjlt : j < pieces.length
      · rw [List.getElem?_append_left hjlt] at hj
        exact huniq j q2 hj hin2
      · have hjl : j < (pieces ++ [pc]).length := (List.getElem?_eq_some_iff.mp hj).1
        simp only [List.length_append, List.length_cons, List.length_nil] at hjl
        rw [List.getElem?_append_right (by omega)] at hj
        have hz : j - pieces.length = 0 := by omega
        rw [hz] at hj
        simp only [List.getElem?_cons_zero, Option.some.injEq] at hj
        subst hj
        have hne : pieces ≠ [] := by
          intro he
          rw [he] at hklt
          simp at hklt
        have := (hchain hne).1
        unfold segment_in_slice at hin2
        omega
    · refine ⟨pieces.length, pc, by simp, ?_, ?_⟩
      · unfold segment_in_slice
        by_cases hne : pieces = []
        · have := hempty hne
          rcases s4 with ⟨_, h0⟩ | ⟨q, hq, _⟩
          · omega
          · rw [hne] at hq
            simp at hq
        · have := hchain hne
          omega
      · intro j q2 hj hin2
        by_cases hjlt : j < pieces.length
        · rw [List.getElem?_append_left hjlt] at hj
          have := s1 q2 (List.getElem?_mem hj)
          unfold segment_in_slice at hin2
          omega
        · have hjl : j < (pieces ++ [pc]).length := (List.getElem?_eq_some_iff.mp hj).1
          simp only [List.length_append, List.length_cons, List.length_nil] at hjl
          omega

/-- Size of what a range of at least two points adds to a non-empty ring. -/
theorem range_last_of_nonempty (ring range : List P) (hne : ring ≠ []) (hlen : 2 ≤ range.length) :
    (range_points ring range).length = range.length - 1 ∧
    range_last ring range = (ring.length : Int) + (range.length : Int) - 1 := by
  have hemp : ring.isEmpty = false := by
    cases ring with
    | nil => exact absurd rfl hne
    | cons a l => rfl
  have hpts : range_points ring range = range.tail := by simp [range_points, hemp]
  have htl : range.tail.length = range.length - 1 := by simp
  have htne : range.tail.isEmpty = false := by
    cases h : range.tail with
    | nil => rw [h] at htl; simp at htl; omega
    | cons a l => rfl
  refine ⟨by rw [hpts, htl], ?_⟩
  simp only [range_last, hpts, htne, Bool.false_eq_true, if_false, htl]
  push_cast
  omega

/-- What a range of at least two points adds to a ring, and the last segment index recorded. -/
theorem range_last_of_two (ring range : List P) (hlen : 2 ≤ range.length) :
    range_last ring range = ((ring ++ range_points ring range).length : Int) ∧
    (ring = [] → (range_points ring range).length = range.length) ∧
    (ring ≠ [] → (range_points ring range).length = range.length - 1) := by
  by_cases hne : ring = []
  · subst hne
    have hpts : range_points ([] : List P) range = range := by simp [range_points]
    have hre : range.isEmpty = false := by
      cases range with
      | nil => simp at hlen
      | cons a l => rfl
    refine ⟨?_, fun _ => by rw [hpts], fun h => absurd rfl h⟩
    simp [range_last, hpts, hre]
  · obtain ⟨h1, h2⟩ := range_last_of_nonempty ring range hne hlen
    refine ⟨?_, fun h => absurd h hne, fun _ => h1⟩
    rw [h2, List.length_append, h1]
    push_cast
    omega

/-- One chaining call extends the partition of the current ring by the slices of its pieces. -/
theorem apply_call_partition (call : generator_call P) (c : buffered_piece_collection P F)
    (old news : List (piece P F)) (rings : List (List P)) (ring : List P)
    (hp : c.m_pieces = old ++ news) (hr : c.offsetted_rings = rings ++ [ring])
    (hpart : slices_partition news (ring.length : Int)) (hchains : chains c ring call = true) :
    ∃ c1 pc ring1, apply_call call c = some c1 ∧ c1.m_pieces = old ++ (news ++ [pc]) ∧
      c1.offsetted_rings = rings ++ [ring1] ∧
      slices_partition (news ++ [pc]) (ring1.length : Int) := by
  have hnews : (news = [] → ring = []) ∧ (news ≠ [] → ring ≠ []) := by
    obtain ⟨s1, s4, _, _⟩ := hpart
    constructor
    · intro he
      rcases s4 with ⟨_, h0⟩ | ⟨q, hq, _⟩
      · exact List.length_eq_zero.mp (by omega)
      · rw [he] at hq; simp at hq
    · intro hne hring
      rcases s4 with ⟨he, _⟩ | ⟨q, hq, hqn⟩
      · exact hne he
      · have := s1 q (List.mem_of_mem_getLast? hq)
        rw [hring] at hqn this
        simp at hqn this
        omega
  have hring : (ring = [] → news = []) ∧ (ring ≠ [] → news ≠ []) := by
    constructor
    · intro h
      by_contra hne
      exact hnews.2 hne h
    · intro h he
      exact h (hnews.1 he)
  have hisempty : ∀ b : Bool, (ring.isEmpty = b) ↔ (if b then ring = [] else ring ≠ []) := by
    intro b
    cases ring with
    | nil => cases b <;> simp
    | cons a l => cases b <;> simp
  cases call with
  | point p => exact absurd hchains (by simp [chains])
  | piece_points type p1 p2 b1 b2 =>
    refine ⟨_, recorded_piece c type
        (if last_type_join c then (ring.length : Int) - 1 else (ring.length : Int))
        ((ring.length : Int) + ((if last_type_join c then [b2] else [b1, b2]).length : Int))
        [b2, p2, p1, b1], _,
      add_piece_points_eq type p1 p2 b1 b2 c rings ring hr, ?_, rfl, ?_⟩
    · simp [hp]
    · replace hchains : (ring = [] ∧ last_type_join c = false) ∨
          (ring ≠ [] ∧ last_type_join c = true) := by
        simp only [chains, Bool.or_eq_true, Bool.and_eq_true, Bool.not_eq_true'] at hchains
        rcases hchains with ⟨h1, h2⟩ | ⟨h1, h2⟩
        · exact Or.inl ⟨by simpa using (hisempty true).mp h1, h2⟩
        · exact Or.inr ⟨by simpa using (hisempty false).mp h1, h2⟩
      refine slices_partition_concat news (ring.length : Int) _ _ hpart (by omega) ?_ ?_ ?_
      · simp [recorded_piece]
      · intro he
        rcases hchains with ⟨hr0, hj⟩ | ⟨hr1, _⟩
        · subst hr0
          simp [recorded_piece, hj]
        · exact absurd he (hring.2 hr1)
      · intro hne
        rcases hchains with ⟨hr0, _⟩ | ⟨_, hj⟩
        · exact absurd (hring.1 hr0) hne
        · simp [recorded_piece, hj]
  | piece_range type range decrease =>
    refine ⟨_, recorded_piece c type
        (if decrease then (ring.length : Int) - 1 else (ring.length : Int))
        (range_last ring range) [], _,
      add_piece_range_eq type range decrease c rings ring hr, ?_, rfl, ?_⟩
    · simp [hp]
    · replace hchains : 2 ≤ range.length ∧ (ring = [] → decrease = false) ∧
          (ring ≠ [] → decrease = true) := by
        simp only [chains, Bool.and_eq_true, decide_eq_true_eq, beq_iff_eq] at hchains
        refine ⟨hchains.1, ?_, ?_⟩
        · intro h0
          have := (hisempty true).mpr (by simpa using h0)
          rw [hchains.2, this]; rfl
        · intro h1
          have := (hisempty false).mpr (by simpa using h1)
          rw [hchains.2, this]; rfl
      obtain ⟨hlen, hd0, hd1⟩ := hchains
      obtain ⟨f1, f2, f3⟩ := range_last_of_two ring range hlen
      refine slices_partition_concat news (ring.length : Int) _ _ hpart (by omega) ?_ ?_ ?_
      · simp only [recorded_piece]
        exact f1
      · intro he
        have hr0 := hnews.1 he
        have hd := hd0 hr0
        subst hr0
        have := f2 rfl
        simp only [recorded_piece, hd, Bool.false_eq_true, if_false, List.length_append,
          this, List.length_nil]
        exact ⟨by simp, by push_cast; omega⟩
      · intro hne
        have hr1 := hnews.2 hne
        have := f3 hr1
        simp only [recorded_piece, hd1 hr1, if_true, List.length_append, this]
        exact ⟨trivial, by push_cast; omega⟩
  | piece_point_range type p range =>
    refine ⟨_, recorded_piece c type ((ring.length : Int) - 1) (range_last ring range)
        (range_helpers p range), _,
      add_piece_point_range_eq type p range c rings ring hr, ?_, rfl, ?_⟩
    · simp [hp]
    · replace hchains : 2 ≤ range.length ∧ ring ≠ [] := by
        simp only [chains, Bool.and_eq_true, decide_eq_true_eq, Bool.not_eq_true'] at hchains
        exact ⟨hchains.1, by simpa using (hisempty false).mp hchains.2⟩
      obtain ⟨hlen, hr1⟩ := hchains
      obtain ⟨f1, _, f3⟩ := range_last_of_two ring range hlen
      have := f3 hr1
      refine slices_partition_concat news (ring.length : Int) _ _ hpart (by omega) ?_ ?_ ?_
      · simp only [recorded_piece]
        exact f1
      · intro he
        exact absurd he (hring.2 hr1)
      · intro _
        simp only [recorded_piece, List.length_append, this]
        exact ⟨trivial, by push_cast; omega⟩
  | endcap pt range end_point =>
    refine ⟨_, recorded_piece c pt ((ring.length : Int) - 1) (range_last ring range)
        (if pt = piece_type.buffered_flat_end then [] else range_helpers end_point range), _,
      add_endcap_eq pt range end_point c rings ring hr, ?_, rfl, ?_⟩
    · simp [hp]
    · replace hchains : 2 ≤ range.length ∧ ring ≠ [] := by
        simp only [chains, Bool.and_eq_true, decide_eq_true_eq, Bool.not_eq_true'] at hchains
        exact ⟨hchains.1, by simpa using (hisempty false).mp hchains.2⟩
      obtain ⟨hlen, hr1⟩ := hchains
      obtain ⟨f1, _, f3⟩ := range_last_of_two ring range hlen
      have := f3 hr1
      refine slices_partition_concat news (ring.length : Int) _ _ hpart (by omega) ?_ ?_ ?_
      · simp only [recorded_piece]
        exact f1
      · intro he
        exact absurd he (hring.2 hr1)
      · intro _
        simp only [recorded_piece, List.length_append, this]
        exact ⟨trivial, by push_cast; omega⟩

/-- A sequence of chaining calls extends the partition of the current ring. -/
theorem apply_calls_partition (old : List (piece P F)) (rings : List (List P)) :
    ∀ (calls : List (generator_call P)) (c : buffered_piece_collection P F)
      (news : List (piece P F)) (ring : List P),
      c.m_pieces = old ++ news → c.offsetted_rings = rings ++ [ring] →
      slices_partition news (ring.length : Int) → chained_calls calls c = true →
      ∃ c1 news1 ring1, apply_calls calls c = some c1 ∧ c1.m_pieces = old ++ news1 ∧
        c1.offsetted_rings = rings ++ [ring1] ∧
        slices_partition news1 (ring1.length : Int) := by
  intro calls
  induction calls with
  | nil => intro c news ring hp hr hpart _; exact ⟨c, news, ring, rfl, hp, hr, hpart⟩
  | cons call rest ih =>
    intro c news ring hp hr hpart hch
    have hg : c.offsetted_rings.getLast? = some ring := by rw [hr, List.getLast?_concat]
    simp only [chained_calls, hg] at hch
    cases hc1 : apply_call call c with
    | none => rw [hc1] at hch; simp at hch
    | some c1 =>
      rw [hc1] at hch
      simp only [Bool.and_eq_true] at hch
      obtain ⟨c1b, pc, ring1, h1, hp1, hr1, hpart1⟩ :=
        apply_call_partition call c old news rings ring hp hr hpart hch.1
      rw [hc1] at h1
      simp only [Option.some.injEq] at h1
      subst h1
      obtain ⟨c2, news2, ring2, h2, hp2, hr2, hpart2⟩ :=
        ih c1 (news ++ [pc]) ring1 hp1 hr1 hpart1 hch.2
      exact ⟨c2, news2, ring2, by simp only [apply_calls, hc1, h2], hp2, hr2, hpart2⟩

/-- C14, as stated, fails for a segment piece that directly follows a segment piece: after
`start_new_ring` the two pieces get the slices `[0, 2)` and `[2, 4)` of a ring of four points;
the second slice starts at `2`, not at `2 - 1`, and the ring segment from point `1` to point `2`
lies in neither slice. -/
theorem consecutive_segments_counterexample :
    (apply_calls
        [generator_call.piece_points piece_type.buffered_segment (0, 0) (10, 0) (0, -1) (10, -1),
         generator_call.piece_points piece_type.buffered_segment (10, 0) (20, 0) (10, -1) (20, -1)]
        (start_new_ring example_empty_collection)).map
      (fun c => (c.m_pieces.map fun pc => (pc.first_seg_id.segment_index, pc.last_segment_index),
        c.offsetted_rings.map List.length))
      = some ([(0, 2), (2, 4)], [4]) := by
  decide

/-- C14, amended: after `start_new_ring`, for every sequence of piece additions in which each
four-point piece is the first piece of the ring or directly follows a join or round end of the
ring, and each range (added by `add_piece` with a range or by `add_endcap`) has at least two
points and is added with `decrease = true` to a non-empty ring or with `decrease = false` to the
empty ring: every addition succeeds, the slices of the added pieces lie in the ring, every
slice starts at the last point of the slice before it (the next first segment index is the
previous `last_segment_index - 1`), and every segment of the ring lies in the slice of exactly
one piece.  A four-point piece that follows a piece of the ring that is not a join or round end,
such as a segment piece after a segment piece, starts at the previous `last_segment_index`: the
two slices share no point. -/
theorem slices_partition_of_chained (c0 : buffered_piece_collection P F)
    (calls : List (generator_call P))
    (hchained : chained_calls calls (start_new_ring c0) = true) :
    (∃ c news ring, apply_calls calls (start_new_ring c0) = some c ∧
      c.m_pieces = c0.m_pieces ++ news ∧ c.offsetted_rings = c0.offsetted_rings ++ [ring] ∧
      slices_partition news (ring.length : Int)) ∧
    (∀ (c : buffered_piece_collection P F) (rings : List (List P)) (ring : List P)
      (prev : piece P F) (type : piece_type) (p1 p2 b1 b2 : P),
      c.offsetted_rings = rings ++ [ring] → c.m_pieces.getLast? = some prev →
      prev.last_segment_index = (ring.length : Int) → last_type_join c = false →
      ∃ c1 pc, add_piece_points type p1 p2 b1 b2 c = some c1 ∧
        c1.m_pieces = c.m_pieces ++ [pc] ∧
        pc.first_seg_id.segment_index = prev.last_segment_index) := by
  constructor
  · have hpart0 : slices_partition ([] : List (piece P F)) (([] : List P).length : Int) := by
      refine ⟨by simp, Or.inl ⟨rfl, rfl⟩, by simp, ?_⟩
      intro m h0 h1
      simp at h1
      omega
    exact apply_calls_partition c0.m_pieces c0.offsetted_rings calls (start_new_ring c0) [] []
      (by simp [start_new_ring]) rfl hpart0 hchained
  · intro c rings ring prev type p1 p2 b1 b2 hr _ hlast hj
    refine ⟨_, _, add_piece_points_eq type p1 p2 b1 b2 c rings ring hr, rfl, ?_⟩
    simp [recorded_piece, hj, hlast]

/-- C14, instance: a segment piece, a join of three points and a segment piece added to a new
ring of the empty collection. -/
theorem slices_partition_of_chained_witness :
    (∃ c news ring, apply_calls
        [generator_call.piece_points piece_type.buffered_segment (0, 0) (10, 0) (0, -1) (10, -1),
         generator_call.piece_point_range piece_type.buffered_join (10, 0)
           [(10, -1), (11, -1), (11, 0)],
         generator_call.piece_points piece_type.buffered_segment (10, 0) (10, 10) (11, 0) (11, 10)]
        (start_new_ring example_empty_collection) = some c ∧
      c.m_pieces = example_empty_collection.m_pieces ++ news ∧
      c.offsetted_rings = example_empty_collection.offsetted_rings ++ [ring] ∧
      slices_partition news (ring.length : Int)) ∧
    (∀ (c : buffered_piece_collection (Int × Int) Nat) (rings : List (List (Int × Int)))
      (ring : List (Int × Int)) (prev : piece (Int × Int) Nat) (type : piece_type)
      (p1 p2 b1 b2 : Int × Int),
      c.offsetted_rings = rings ++ [ring] → c.m_pieces.getLast? = some prev →
      prev.last_segment_index = (ring.length : Int) → last_type_join c = false →
      ∃ c1 pc, add_piece_points type p1 p2 b1 b2 c = some c1 ∧
        c1.m_pieces = c.m_pieces ++ [pc] ∧
        pc.first_seg_id.segment_index = prev.last_segment_index) :=
  slices_partition_of_chained example_empty_collection
    [generator_call.piece_points piece_type.buffered_segment (0, 0) (10, 0) (0, -1) (10, -1),
     generator_call.piece_point_range piece_type.buffered_join (10, 0)
       [(10, -1), (11, -1), (11, 0)],
     generator_call.piece_points piece_type.buffered_segment (10, 0) (10, 10) (11, 0) (11, 10)]
    (by decide)

end generator

/-! ## Turn finder: theorems -/

section turn_finder

variable {P F : Type}

/-- Inner pair loop with the recording stand-in: the later pieces that are not skipped. -/
theorem get_turns_loop2_record (c : buffered_piece_collection P F) (it1 : piece P F)
    (rest : List (piece P F)) (out : List (piece P F × piece P F)) :
    get_turns_loop2 record_pair c it1 rest out
      = out ++ (rest.map fun it2 => (it1, it2)).filter
          (fun ab => ! skip_neighbor c ab.1 ab.2) := by
  induction rest generalizing out with
  | nil => simp [get_turns_loop2]
  | cons b rest ih =>
    simp only [get_turns_loop2, ih, List.map_cons, List.filter_cons]
    cases h : skip_neighbor c it1 b <;> simp [record_pair]

/-- Outer pair loop with the recording stand-in. -/
theorem get_turns_loop1_record (c : buffered_piece_collection P F)
    (l : List (piece P F)) (out : List (piece P F × piece P F)) :
    get_turns_loop1 record_pair c l out
      = out ++ (ordered_pairs l).filter (fun ab => ! skip_neighbor c ab.1 ab.2) := by
  induction l generalizing out with
  | nil => simp [get_turns_loop1, ordered_pairs]
  | cons a rest ih =>
    simp only [get_turns_loop1, ih, get_turns_loop2_record, ordered_pairs, List.filter_append,
      List.append_assoc]

/-- Members of `ordered_pairs`: an element at an earlier and one at a later position. -/
theorem mem_ordered_pairs {α : Type} (l : List α) (a b : α) :
    (a, b) ∈ ordered_pairs l ↔ ∃ i j : Nat, i < j ∧ l[i]? = some a ∧ l[j]? = some b := by
  induction l with
  | nil => simp [ordered_pairs]
  | cons x rest ih =>
    simp only [ordered_pairs, List.mem_append, List.mem_map, Prod.mk.injEq, ih]
    constructor
    · rintro (⟨y, hy, rfl, rfl⟩ | ⟨i, j, hij, hi, hj⟩)
      · obtain ⟨k, hk⟩ := List.getElem?_of_mem hy
        exact ⟨0, k + 1, by omega, by simp, by simpa using hk⟩
      · exact ⟨i + 1, j + 1, by omega, by simpa using hi, by simpa using hj⟩
    · rintro ⟨i, j, hij, hi, hj⟩
      cases j with
      | zero => omega
      | succ j =>
        simp only [List.getElem?_cons_succ] at hj
        cases i with
        | zero =>
          simp only [List.getElem?_cons_zero, Option.some.injEq] at hi
          exact Or.inl ⟨b, List.getElem?_mem hj, hi, rfl⟩
        | succ i =>
          simp only [List.getElem?_cons_succ] at hi
          exact Or.inr ⟨i, j, by omega, hi, hj⟩

/-- Number of ordered pairs: `n (n - 1) / 2`. -/
theorem length_ordered_pairs {α : Type} (l : List α) :
    2 * (ordered_pairs l).length = l.length * (l.length - 1) := by
  induction l with
  | nil => rfl
  | cons x rest ih =>
    simp only [ordered_pairs, List.length_append, List.length_map, List.length_cons,
      Nat.add_sub_cancel]
    rw [Nat.mul_add, ih]
    cases rest.length with
    | zero => rfl
    | succ k =>
      simp only [Nat.add_sub_cancel]
      ring

/-- No pair occurs twice among the ordered pairs of a list without repetition. -/
theorem nodup_ordered_pairs {α : Type} (l : List α) (h : l.Nodup) : (ordered_pairs l).Nodup := by
  induction l with
  | nil => simp [ordered_pairs]
  | cons x rest ih =>
    have hx := List.nodup_cons.mp h
    refine List.Nodup.append ?_ (ih hx.2) ?_
    · exact hx.2.map (fun a b hab => by simpa using hab)
    · intro ab h1 h2
      obtain ⟨y, _, rfl⟩ := List.mem_map.mp h1
      obtain ⟨i, j, _, hi, _⟩ := (mem_ordered_pairs rest x y).mp h2
      exact hx.1 (List.getElem?_mem hi)

/-- Pieces whose `index` is their position are pairwise different. -/
theorem index_at_position (l : List (piece P F))
    (hindex : l.map (fun pc => pc.index) = (List.range l.length).map Int.ofNat)
    (i : Nat) (pc : piece P F) (h : l[i]? = some pc) : pc.index = (i : Int) := by
  have hi : i < l.length := by
    rcases Nat.lt_or_ge i l.length with hlt | hge
    · exact hlt
    · rw [List.getElem?_eq_none hge] at h
      cases h
  have h1 : (l.map (fun pc => pc.index))[i]? = some pc.index := by
    simp [List.getElem?_map, h]
  rw [hindex] at h1
  simp [List.getElem?_map, List.getElem?_range hi] at h1
  exact h1.symm

/-- The pair loop with the recording stand-in in the place of `calculate_turns`: it is run for
the pairs of an earlier and a later piece that `skip_neighbor` does not reject, in piece order
and nothing else; no pair is run twice, no piece is paired with itself, and at most
`n (n - 1) / 2` pairs are run for `n` pieces. -/
theorem get_turns_pairs_record (c : buffered_piece_collection P F)
    (hindex : c.m_pieces.map (fun pc => pc.index)
      = (List.range c.m_pieces.length).map Int.ofNat) :
    get_turns_pairs record_pair c []
      = (ordered_pairs c.m_pieces).filter (fun ab => ! skip_neighbor c ab.1 ab.2) ∧
    (∀ a b : piece P F, (a, b) ∈ get_turns_pairs record_pair c [] ↔
      ∃ i j : Nat, i < j ∧ c.m_pieces[i]? = some a ∧ c.m_pieces[j]? = some b ∧
        ¬ (a.type ≠ b.type ∧ is_neighbor c a b = true)) ∧
    (get_turns_pairs record_pair c []).Nodup ∧
    (∀ a : piece P F, (a, a) ∉ get_turns_pairs record_pair c []) ∧
    (get_turns_pairs record_pair c []).length
      ≤ c.m_pieces.length * (c.m_pieces.length - 1) / 2 := by
  have htrace : get_turns_pairs record_pair c []
      = (ordered_pairs c.m_pieces).filter (fun ab => ! skip_neighbor c ab.1 ab.2) := by
    simp [get_turns_pairs, get_turns_loop1_record]
  have hnodup : c.m_pieces.Nodup := by
    rw [List.nodup_iff_getElem?_ne_getElem?]
    intro i j hij hj heq
    obtain ⟨pc, hpc⟩ : ∃ pc, c.m_pieces[j]? = some pc := ⟨_, List.getElem?_eq_getElem hj⟩
    have h1 := index_at_position c.m_pieces hindex j pc hpc
    have h2 := index_at_position c.m_pieces hindex i pc (heq.trans hpc)
    omega
  have hmem : ∀ a b : piece P F, (a, b) ∈ get_turns_pairs record_pair c [] ↔
      ∃ i j : Nat, i < j ∧ c.m_pieces[i]? = some a ∧ c.m_pieces[j]? = some b ∧
        ¬ (a.type ≠ b.type ∧ is_neighbor c a b = true) := by
    intro a b
    rw [htrace, List.mem_filter, mem_ordered_pairs]
    simp only [skip_neighbor, Bool.not_eq_true', Bool.and_eq_false_iff, decide_eq_false_iff_not,
      Decidable.not_not, ne_eq, not_and, Bool.not_eq_true, Bool.and_eq_false_imp,
      decide_eq_true_eq]
    constructor
    · rintro ⟨⟨i, j, hij, hi, hj⟩, hskip⟩
      exact ⟨i, j, hij, hi, hj, fun hne => hskip.resolve_left hne⟩
    · rintro ⟨i, j, hij, hi, hj, hskip⟩
      refine ⟨⟨i, j, hij, hi, hj⟩, ?_⟩
      by_cases htype : a.type = b.type
      · exact Or.inl htype
      · exact Or.inr (hskip htype)
  refine ⟨htrace, hmem, ?_, ?_, ?_⟩
  · rw [htrace]
    exact (nodup_ordered_pairs _ hnodup).filter _
  · intro a ha
    obtain ⟨i, j, hij, hi, hj, _⟩ := (hmem a a).mp ha
    have h1 := index_at_position c.m_pieces hindex i a hi
    have h2 := index_at_position c.m_pieces hindex j a hj
    omega
  · rw [htrace]
    have hle := List.length_filter_le (fun ab : piece P F × piece P F =>
      ! skip_neighbor c ab.1 ab.2) (ordered_pairs c.m_pieces)
    have hlen := length_ordered_pairs c.m_pieces
    rw [Nat.le_div_iff_mul_le (by decide)]
    omega

/-- The loop of `next_point` comes to an end within `range.length` tests when some point after
the first differs from the point at `it`. -/
theorem next_point_loop_returns (equals : P → P → Bool) (range : List P) (it m : Nat) (a b : P)
    (ha : range[it]? = some a) (hb : range[m]? = some b) (hm : 1 ≤ m)
    (hab : equals a b = false) :
    ∀ (d result fuel : Nat), 1 ≤ result → result < range.length → d < fuel →
      ((result ≤ m ∧ d = m - result) ∨ (m < result ∧ d = range.length - 1 - result + m)) →
      ∃ res, next_point_loop equals range it fuel result = some res ∧ res < range.length := by
  have hmn : m < range.length := (List.getElem?_eq_some_iff.mp hb).1
  intro d
  induction d with
  | zero =>
    intro result fuel h1 hn hd hdist
    obtain ⟨fuel, rfl⟩ : ∃ f, fuel = f + 1 := ⟨fuel - 1, by omega⟩
    have hrm : result = m := by omega
    subst hrm
    exact ⟨result, by simp [next_point_loop, ha, hb, hab], hn⟩
  | succ d ih =>
    intro result fuel h1 hn hd hdist
    obtain ⟨fuel, rfl⟩ : ∃ f, fuel = f + 1 := ⟨fuel - 1, by omega⟩
    obtain ⟨x, hx⟩ : ∃ x, range[result]? = some x := ⟨_, List.getElem?_eq_getElem hn⟩
    simp only [next_point_loop, ha, hx]
    cases hax : equals a x with
    | false => exact ⟨result, by simp, hn⟩
    | true =>
      simp only [if_true]
      apply ih
      · unfold move_to_next_point
        split <;> omega
      · unfold move_to_next_point
        split <;> omega
      · omega
      · unfold move_to_next_point
        split <;> omega

/-- Function `next_point` returns a position of the range when `has_next_point` holds and the
fuel is at least the length of the range. -/
theorem next_point_returns (equals : P → P → Bool) (range : List P) (it fuel : Nat)
    (h : has_next_point equals range it = true) (hfuel : range.length ≤ fuel) :
    ∃ res x, next_point equals fuel range it = some res ∧ range[res]? = some x := by
  unfold has_next_point at h
  cases ha : range[it]? with
  | none => simp [ha] at h
  | some a =>
    simp only [ha, List.any_eq_true, Bool.not_eq_true'] at h
    obtain ⟨b, hb, hab⟩ := h
    obtain ⟨k, hk⟩ := List.getElem?_of_mem hb
    rw [List.getElem?_drop] at hk
    have hit : it < range.length := (List.getElem?_eq_some_iff.mp ha).1
    have hkn : 1 + k < range.length := (List.getElem?_eq_some_iff.mp hk).1
    have hmove1 : 1 ≤ move_to_next_point range it := by
      unfold move_to_next_point
      split <;> omega
    have hmove2 : move_to_next_point range it < range.length := by
      unfold move_to_next_point
      split <;> omega
    rcases Nat.lt_or_ge (1 + k) (move_to_next_point range it) with hlt | hge
    · obtain ⟨res, hres, hlen⟩ := next_point_loop_returns equals range it (1 + k) a b ha hk
        (by omega) hab (range.length - 1 - move_to_next_point range it + (1 + k))
        (move_to_next_point range it) fuel hmove1 hmove2 (by omega) (Or.inr ⟨hlt, rfl⟩)
      exact ⟨res, _, hres, List.getElem?_eq_getElem hlen⟩
    · obtain ⟨res, hres, hlen⟩ := next_point_loop_returns equals range it (1 + k) a b ha hk
        (by omega) hab (1 + k - move_to_next_point range it)
        (move_to_next_point range it) fuel hmove1 hmove2 (by omega) (Or.inl ⟨hge, rfl⟩)
      exact ⟨res, _, hres, List.getElem?_eq_getElem hlen⟩

/-- Inner loop of `calculate_turns` with the recording policy, when every `next_point` returns:
the loop runs to its end and calls the policy once for each remaining segment of the second
piece, in order. -/
theorem calculate_turns_loop2_calls (equals : P → P → Bool) (fuel : Nat) (ring2 : List P)
    (first2 n2 : Nat) (last2 : Int) (prev1 it1 next1 : P)
    (hlast : last2 = ((first2 + n2 + 1 : Nat) : Int))
    (hlen : first2 + n2 + 1 ≤ ring2.length) (hfuel : ring2.length ≤ fuel)
    (hnext : ∀ j, j < n2 → has_next_point equals ring2 (first2 + j + 1) = true) :
    ∀ (k j steps : Nat) (m : buffer_turn_info P F) (out : List (turn_policy_arguments P F)),
      j + k = n2 → k < steps → m.op1.seg_id.segment_index = (first2 : Int) + j →
      ∃ m1 calls,
        calculate_turns_loop2 equals record_call fuel ring2 last2 prev1 it1 next1 steps
          (first2 + j + 1) m out = ((m1, out ++ calls), true) ∧
        m1.op0.seg_id = m.op0.seg_id ∧
        calls.map turn_policy_arguments.segments
          = (List.range' j k).map (fun (j1 : Nat) =>
              ({ segment_index1 := m.op0.seg_id.segment_index,
                 segment_index2 := (first2 : Int) + j1,
                 prev1 := some prev1, it1 := some it1,
                 prev2 := ring2[first2 + j1]?, it2 := ring2[first2 + j1 + 1]? } :
                segment_pair P)) := by
  intro k
  induction k with
  | zero =>
    intro j steps m out hjk hsteps hidx
    obtain ⟨steps, rfl⟩ : ∃ s, steps = s + 1 := ⟨steps - 1, by omega⟩
    have hj : j = n2 := by omega
    subst hj
    exact ⟨m, [], by simp [calculate_turns_loop2, hlast], rfl, by simp⟩
  | succ k ih =>
    intro j steps m out hjk hsteps hidx
    obtain ⟨steps, rfl⟩ : ∃ s, steps = s + 1 := ⟨steps - 1, by omega⟩
    have hne : ¬ (((first2 + j + 1 : Nat) : Int) = last2) := by
      rw [hlast]
      omega
    obtain ⟨next2, x, hnp, hx⟩ := next_point_returns equals ring2 (first2 + j + 1) fuel
      (hnext j (by omega)) hfuel
    obtain ⟨p2, hp2⟩ : ∃ p2, ring2[first2 + j]? = some p2 :=
      ⟨_, List.getElem?_eq_getElem (by omega)⟩
    obtain ⟨i2, hi2⟩ : ∃ i2, ring2[first2 + j + 1]? = some i2 :=
      ⟨_, List.getElem?_eq_getElem (by omega)⟩
    obtain ⟨a, ha⟩ : ∃ a : turn_policy_arguments P F, a =
        { prev1 := prev1, it1 := it1, next1 := next1, prev2 := p2, it2 := i2, next2 := x,
          the_model := { m with op0 := { m.op0 with other_id := m.op1.seg_id },
                                op1 := { m.op1 with other_id := m.op0.seg_id } } } := ⟨_, rfl⟩
    obtain ⟨m1, calls, hrun, hm1, hcalls⟩ := ih (j + 1) steps
      { m with op0 := { m.op0 with other_id := m.op1.seg_id },
               op1 := { m.op1 with other_id := m.op0.seg_id, seg_id :=
                  { m.op1.seg_id with segment_index := m.op1.seg_id.segment_index + 1 } } }
      (record_call a out) (by omega) (by omega) (by simp [hidx]; omega)
    refine ⟨m1, a :: calls, ?_, hm1, ?_⟩
    · rw [calculate_turns_loop2]
      simp only [hne, if_false, hnp, Nat.add_sub_cancel, hp2, hi2, hx]
      rw [← ha]
      exact hrun.trans (by simp [record_call])
    · rw [List.range'_succ, List.map_cons, List.map_cons, hcalls, ha]
      simp [turn_policy_arguments.segments, hidx, hp2, hi2]

/-- Outer loop of `calculate_turns` with the recording policy, when every `next_point` returns:
the loop runs to its end and calls the policy once for every pair of a remaining segment of the
first piece and a segment of the second piece. -/
theorem calculate_turns_loop1_calls (equals : P → P → Bool) (fuel : Nat) (ring1 ring2 : List P)
    (first1 n1 first2 n2 : Nat) (last1 last2 : Int) (piece2 : piece P F)
    (hlast1 : last1 = ((first1 + n1 + 1 : Nat) : Int))
    (hlast2 : last2 = ((first2 + n2 + 1 : Nat) : Int))
    (hfirst2 : piece2.first_seg_id.segment_index = (first2 : Int))
    (hlen1 : first1 + n1 + 1 ≤ ring1.length) (hlen2 : first2 + n2 + 1 ≤ ring2.length)
    (hfuel1 : ring1.length ≤ fuel) (hfuel2 : ring2.length ≤ fuel)
    (hnext1 : ∀ i, i < n1 → has_next_point equals ring1 (first1 + i + 1) = true)
    (hnext2 : ∀ j, j < n2 → has_next_point equals ring2 (first2 + j + 1) = true) :
    ∀ (k i steps : Nat) (m : buffer_turn_info P F) (out : List (turn_policy_arguments P F)),
      i + k = n1 → k < steps → m.op0.seg_id.segment_index = (first1 : Int) + i →
      ∃ m1 calls,
        calculate_turns_loop1 equals record_call fuel ring1 ring2 last1 first2 last2 piece2 steps
          (first1 + i + 1) m out = ((m1, out ++ calls), true) ∧
        calls.map turn_policy_arguments.segments
          = (List.range' i k).flatMap (fun (i1 : Nat) =>
              (List.range n2).map (fun (j : Nat) =>
                segment_pair_at ring1 ring2 first1 first2 i1 j)) := by
  intro k
  induction k with
  | zero =>
    intro i steps m out hik hsteps hidx
    obtain ⟨steps, rfl⟩ : ∃ s, steps = s + 1 := ⟨steps - 1, by omega⟩
    have hi : i = n1 := by omega
    subst hi
    exact ⟨m, [], by simp [calculate_turns_loop1, hlast1], by simp⟩
  | succ k ih =>
    intro i steps m out hik hsteps hidx
    obtain ⟨steps, rfl⟩ : ∃ s, steps = s + 1 := ⟨steps - 1, by omega⟩
    have hne : ¬ (((first1 + i + 1 : Nat) : Int) = last1) := by
      rw [hlast1]
      omega
    obtain ⟨next1, x, hnp, hx⟩ := next_point_returns equals ring1 (first1 + i + 1) fuel
      (hnext1 i (by omega)) hfuel1
    obtain ⟨p1, hp1⟩ : ∃ p1, ring1[first1 + i]? = some p1 :=
      ⟨_, List.getElem?_eq_getElem (by omega)⟩
    obtain ⟨i1, hi1⟩ : ∃ i1, ring1[first1 + i + 1]? = some i1 :=
      ⟨_, List.getElem?_eq_getElem (by omega)⟩
    obtain ⟨m2, calls2, hrun2, hm2, hcalls2⟩ := calculate_turns_loop2_calls equals fuel ring2
      first2 n2 last2 p1 i1 x hlast2 hlen2 hfuel2 hnext2 n2 0 fuel
      { m with op1 := { m.op1 with piece_index := piece2.index, seg_id := piece2.first_seg_id } }
      out (by omega) (by omega) (by simp [hfirst2])
    obtain ⟨m3, calls3, hrun3, hcalls3⟩ := ih (i + 1) steps
      { m2 with op0 := { m2.op0 with seg_id :=
          { m2.op0.seg_id with segment_index := m2.op0.seg_id.segment_index + 1 } } }
      (out ++ calls2) (by omega) (by omega) (by simp [hm2, hidx]; omega)
    refine ⟨m3, calls2 ++ calls3, ?_, ?_⟩
    · rw [calculate_turns_loop1]
      simp only [hne, if_false, hnp, Nat.add_sub_cancel, hp1, hi1, hx]
      simp only [Nat.add_zero] at hrun2
      rw [hrun2]
      exact hrun3.trans (by simp)
    · rw [List.range'_succ, List.flatMap_cons, List.map_append, hcalls2, hcalls3,
        List.range_eq_range']
      simp [segment_pair_at, hidx, hp1, hi1]

/-- Number of the pairs of `all_segment_pairs`. -/
theorem length_all_segment_pairs (ring1 ring2 : List P) (first1 first2 n1 n2 : Nat) :
    (all_segment_pairs ring1 ring2 first1 first2 n1 n2).length = n1 * n2 := by
  have h : ∀ l : List Nat, (l.flatMap fun i =>
      (List.range n2).map fun j => segment_pair_at ring1 ring2 first1 first2 i j).length
        = l.length * n2 := by
    intro l
    induction l with
    | nil => simp
    | cons a l ih =>
      rw [List.flatMap_cons, List.length_append, ih]
      simp [Nat.succ_mul, Nat.add_comm]
  have h1 := h (List.range n1)
  rw [List.length_range] at h1
  exact h1

/-- No pair occurs twice in `all_segment_pairs`. -/
theorem nodup_all_segment_pairs (ring1 ring2 : List P) (first1 first2 n1 n2 : Nat) :
    (all_segment_pairs ring1 ring2 first1 first2 n1 n2).Nodup := by
  unfold all_segment_pairs
  rw [List.nodup_flatMap]
  constructor
  · intro i _
    refine (List.nodup_range n2).map ?_
    intro j1 j2 h
    have h2 := congrArg segment_pair.segment_index2 h
    simp only [segment_pair_at] at h2
    omega
  · refine (List.nodup_range n1).imp ?_
    intro i1 i2 hne
    intro a h1 h2
    obtain ⟨j1, _, rfl⟩ := List.mem_map.mp h1
    obtain ⟨j2, _, h⟩ := List.mem_map.mp h2
    have h2 := congrArg segment_pair.segment_index1 h
    simp only [segment_pair_at] at h2
    omega

/-- C12, amended: for two pieces with non-negative first segment indices and ring indices whose
slices hold `c1 ≥ 1` and `c2 ≥ 1` points of their rings, and where for every point of the two
slices after the first some point of its ring after the first one differs from it (so that
`next_point` returns), `calculate_turns` returns, given fuel for the lengths of the rings, and
has called the policy once for every pair `(i, j)` with `i < c1 - 1` and `j < c2 - 1`, in
lexicographic order, on the segment from point `first1 + i` to point `first1 + i + 1` of the
first ring and the segment from point `first2 + j` to point `first2 + j + 1` of the second, with
the segment indices `first1 + i` and `first2 + j` in the turn model: `(c1 - 1) (c2 - 1)` calls,
no pair twice. -/
theorem calculate_turns_calls (equals : P → P → Bool) (fuel : Nat)
    (default_turn : buffer_turn_info P F) (c : buffered_piece_collection P F)
    (piece1 piece2 : piece P F) (ring1 ring2 : List P) (first1 c1 first2 c2 : Nat)
    (hfirst1 : piece1.first_seg_id.segment_index = (first1 : Int))
    (hlast1 : piece1.last_segment_index = (first1 : Int) + c1) (hc1 : 1 ≤ c1)
    (hmulti1 : 0 ≤ piece1.first_seg_id.multi_index)
    (hring1 : c.offsetted_rings[piece1.first_seg_id.multi_index.toNat]? = some ring1)
    (hlen1 : first1 + c1 ≤ ring1.length)
    (hnext1 : ∀ i, i < c1 - 1 → has_next_point equals ring1 (first1 + i + 1) = true)
    (hfirst2 : piece2.first_seg_id.segment_index = (first2 : Int))
    (hlast2 : piece2.last_segment_index = (first2 : Int) + c2) (hc2 : 1 ≤ c2)
    (hmulti2 : 0 ≤ piece2.first_seg_id.multi_index)
    (hring2 : c.offsetted_rings[piece2.first_seg_id.multi_index.toNat]? = some ring2)
    (hlen2 : first2 + c2 ≤ ring2.length)
    (hnext2 : ∀ j, j < c2 - 1 → has_next_point equals ring2 (first2 + j + 1) = true)
    (hfuel1 : ring1.length ≤ fuel) (hfuel2 : ring2.length ≤ fuel) :
    ∃ calls, calculate_turns equals record_call fuel default_turn c piece1 piece2 []
        = (calls, true) ∧
      calls.map turn_policy_arguments.segments
        = all_segment_pairs ring1 ring2 first1 first2 (c1 - 1) (c2 - 1) ∧
      (all_segment_pairs ring1 ring2 first1 first2 (c1 - 1) (c2 - 1)).Nodup ∧
      calls.length = (c1 - 1) * (c2 - 1) := by
  obtain ⟨m1, calls, hrun, hcalls⟩ := calculate_turns_loop1_calls equals fuel ring1 ring2
    first1 (c1 - 1) first2 (c2 - 1) piece1.last_segment_index piece2.last_segment_index piece2
    (by rw [hlast1]; omega) (by rw [hlast2]; omega) hfirst2 (by omega) (by omega) hfuel1 hfuel2
    hnext1 hnext2 (c1 - 1) 0 fuel
    { default_turn with op0 :=
        { default_turn.op0 with piece_index := piece1.index, seg_id := piece1.first_seg_id } }
    [] (by omega) (by omega) (by simp [hfirst1])
  have hall : calls.map turn_policy_arguments.segments
      = all_segment_pairs ring1 ring2 first1 first2 (c1 - 1) (c2 - 1) := by
    simp only [hcalls, all_segment_pairs, List.range_eq_range']
  refine ⟨calls, ?_, hall, nodup_all_segment_pairs _ _ _ _ _ _, ?_⟩
  · have hlt1 : ¬ ((first1 : Int) < 0) := by omega
    have hlt2 : ¬ ((first2 : Int) < 0) := by omega
    have hm1 : ¬ (piece1.first_seg_id.multi_index < 0) := by omega
    have hm2 : ¬ (piece2.first_seg_id.multi_index < 0) := by omega
    simp only [Nat.add_zero, List.nil_append] at hrun
    simp only [calculate_turns, hfirst1, hfirst2, hlt1, hlt2, hm1, hm2, or_self, if_false,
      hring1, hring2, Int.toNat_ofNat, hrun]
  · rw [← length_all_segment_pairs ring1 ring2 first1 first2 (c1 - 1) (c2 - 1), ← hall,
      List.length_map]

/-- C12, instance: the two pieces of `example_rescale_collection`, with the slices `[0, 3)` and
`[2, 5)` of a ring of five different points: four calls. -/
theorem calculate_turns_calls_witness :
    ∃ calls, calculate_turns example_equals record_call 10 example_default_turn
        example_rescale_collection (example_fresh_piece 0 0 3 [(100, 100)])
        (example_fresh_piece 1 2 5 [(200, 200), (201, 201)]) [] = (calls, true) ∧
      calls.map turn_policy_arguments.segments
        = all_segment_pairs [(0, 0), (1, 1), (2, 2), (3, 3), (4, 4)]
            [(0, 0), (1, 1), (2, 2), (3, 3), (4, 4)] 0 2 (3 - 1) (3 - 1) ∧
      (all_segment_pairs [((0 : Int), (0 : Int)), (1, 1), (2, 2), (3, 3), (4, 4)]
            [(0, 0), (1, 1), (2, 2), (3, 3), (4, 4)] 0 2 (3 - 1) (3 - 1)).Nodup ∧
      calls.length = (3 - 1) * (3 - 1) :=
  calculate_turns_calls example_equals 10 example_default_turn example_rescale_collection
    (example_fresh_piece 0 0 3 [(100, 100)]) (example_fresh_piece 1 2 5 [(200, 200), (201, 201)])
    [(0, 0), (1, 1), (2, 2), (3, 3), (4, 4)] [(0, 0), (1, 1), (2, 2), (3, 3), (4, 4)] 0 3 2 3
    (by decide) (by decide) (by decide) (by decide) (by decide) (by decide) (by decide)
    (by decide) (by decide) (by decide) (by decide) (by decide) (by decide) (by decide)
    (by decide) (by decide)

/-- On the ring of three equal points the loop of `next_point` from position `1` never ends. -/
theorem next_point_loop_degenerate : ∀ (fuel result : Nat), result = 1 ∨ result = 2 →
    next_point_loop example_equals [((5 : Int), (5 : Int)), (5, 5), (5, 5)] 1 fuel result = none
  | 0, _, _ => rfl
  | fuel + 1, result, h => by
    rcases h with rfl | rfl
    · rw [next_point_loop]
      simpa [example_equals, move_to_next_point] using
        next_point_loop_degenerate fuel 2 (Or.inr rfl)
    · rw [next_point_loop]
      simpa [example_equals, move_to_next_point] using
        next_point_loop_degenerate fuel 1 (Or.inl rfl)

/-- C12, as stated, fails on a ring that holds three times the same point: the two pieces have
non-negative first segment indices and slices of two points, so that one call of the policy is
due, but whatever the fuel `calculate_turns` does not return and has called the policy not once:
`next_point` walks round the ring looking for a different point. -/
theorem calculate_turns_degenerate_counterexample :
    (example_fresh_piece 0 0 2 []).last_segment_index
        - (example_fresh_piece 0 0 2 []).first_seg_id.segment_index = 2 ∧
    (example_fresh_piece 1 1 3 []).last_segment_index
        - (example_fresh_piece 1 1 3 []).first_seg_id.segment_index = 2 ∧
    ¬ ∃ fuel : Nat, calculate_turns example_equals record_call fuel example_default_turn
        example_degenerate_collection (example_fresh_piece 0 0 2 [])
        (example_fresh_piece 1 1 3 []) [] ≠ ([], false) := by
  refine ⟨by decide, by decide, ?_⟩
  rintro ⟨fuel, h⟩
  apply h
  cases fuel with
  | zero => rfl
  | succ fuel =>
    have hnp : next_point example_equals (fuel + 1) [((5 : Int), (5 : Int)), (5, 5), (5, 5)] 1
        = none := next_point_loop_degenerate (fuel + 1) 2 (Or.inr rfl)
    simp [calculate_turns, example_fresh_piece, example_seg_id, example_degenerate_collection,
      calculate_turns_loop1, hnp]

/-- Inner loop of `calculate_turns` with the recording policy, for any fuel and whether or not it
runs to its end: every call made is a call for the segment of the first piece the outer loop is
at and some segment of the second piece. -/
theorem calculate_turns_loop2_invariant (equals : P → P → Bool) (fuel : Nat)
    (piece1 piece2 : piece P F) (ring1 ring2 : List P) (last2 : Int) (prev1 it1 next1 : P)
    (i : Nat)
    (hp1 : ring1[piece1.first_seg_id.segment_index.toNat + i]? = some prev1)
    (hi1 : ring1[piece1.first_seg_id.segment_index.toNat + i + 1]? = some it1) :
    ∀ (steps j : Nat) (m : buffer_turn_info P F) (out : List (turn_policy_arguments P F)),
      m.op0.piece_index = piece1.index →
      m.op0.seg_id = { piece1.first_seg_id with
        segment_index := piece1.first_seg_id.segment_index + i } →
      m.op1.piece_index = piece2.index →
      m.op1.seg_id = { piece2.first_seg_id with
        segment_index := piece2.first_seg_id.segment_index + j } →
      ∃ m1 calls completed,
        calculate_turns_loop2 equals record_call fuel ring2 last2 prev1 it1 next1 steps
          (piece2.first_seg_id.segment_index.toNat + j + 1) m out
            = ((m1, out ++ calls), completed) ∧
        m1.op0.piece_index = piece1.index ∧ m1.op0.seg_id = m.op0.seg_id ∧
        ∀ a ∈ calls, ∃ j1, call_for_segments piece1 piece2 ring1 ring2 i j1 a := by
  intro steps
  induction steps with
  | zero =>
    intro j m out h0 h1 h2 h3
    exact ⟨m, [], false, by simp [calculate_turns_loop2], h0, rfl, by simp⟩
  | succ steps ih =>
    intro j m out h0 h1 h2 h3
    rw [calculate_turns_loop2]
    split
    · exact ⟨m, [], true, by simp, h0, rfl, by simp⟩
    · split
      · exact ⟨{ m with op0 := { m.op0 with other_id := m.op1.seg_id },
                        op1 := { m.op1 with other_id := m.op0.seg_id } },
          [], false, by simp, h0, rfl, by simp⟩
      · rename_i next2 hnp
        split
        · rename_i p2 i2 n2 hp2 hi2 hn2
          simp only [Nat.add_sub_cancel] at hp2
          obtain ⟨a0, ha0⟩ : ∃ a0 : turn_policy_arguments P F, a0 =
              { prev1 := prev1, it1 := it1, next1 := next1, prev2 := p2, it2 := i2, next2 := n2,
                the_model := { m with op0 := { m.op0 with other_id := m.op1.seg_id },
                                      op1 := { m.op1 with other_id := m.op0.seg_id } } } :=
            ⟨_, rfl⟩
          obtain ⟨m1, calls, completed, hrun, hm0, hm1, hcalls⟩ := ih (j + 1)
            { m with op0 := { m.op0 with other_id := m.op1.seg_id },
                     op1 := { m.op1 with other_id := m.op0.seg_id, seg_id :=
                       { m.op1.seg_id with segment_index := m.op1.seg_id.segment_index + 1 } } }
            (record_call a0 out) h0 h1 h2 (by simp [h3, Int.add_assoc])
          refine ⟨m1, a0 :: calls, completed, ?_, hm0, hm1, ?_⟩
          · subst ha0
            exact hrun.trans (by simp [record_call])
          · intro a ha
            rcases List.mem_cons.mp ha with h | ha
            · rw [h, ha0]
              exact ⟨j, h0, h1, h2, h3, rfl, rfl, hp1, hi1, hp2, hi2⟩
            · exact hcalls a ha
        · exact ⟨{ m with op0 := { m.op0 with other_id := m.op1.seg_id },
                          op1 := { m.op1 with other_id := m.op0.seg_id } },
            [], false, by simp, h0, rfl, by simp⟩

/-- A segment identifier whose segment index is advanced by zero is unchanged. -/
theorem segment_identifier_add_zero (s : segment_identifier) :
    ({ s with segment_index := s.segment_index + ((0 : Nat) : Int) } : segment_identifier) = s := by
  cases s
  simp

/-- Outer loop of `calculate_turns` with the recording policy, for any fuel and whether or not it
runs to its end: every call made is a call for some segment of the first piece and some segment
of the second piece. -/
theorem calculate_turns_loop1_invariant (equals : P → P → Bool) (fuel : Nat)
    (piece1 piece2 : piece P F) (ring1 ring2 : List P) (last1 last2 : Int) :
    ∀ (steps i : Nat) (m : buffer_turn_info P F) (out : List (turn_policy_arguments P F)),
      m.op0.piece_index = piece1.index →
      m.op0.seg_id = { piece1.first_seg_id with
        segment_index := piece1.first_seg_id.segment_index + i } →
      ∃ m1 calls completed,
        calculate_turns_loop1 equals record_call fuel ring1 ring2 last1
          piece2.first_seg_id.segment_index.toNat last2 piece2 steps
          (piece1.first_seg_id.segment_index.toNat + i + 1) m out
            = ((m1, out ++ calls), completed) ∧
        ∀ a ∈ calls, ∃ i1 j1, call_for_segments piece1 piece2 ring1 ring2 i1 j1 a := by
  intro steps
  induction steps with
  | zero =>
    intro i m out h0 h1
    exact ⟨m, [], false, by simp [calculate_turns_loop1], by simp⟩
  | succ steps ih =>
    intro i m out h0 h1
    rw [calculate_turns_loop1]
    split
    · exact ⟨m, [], true, by simp, by simp⟩
    · split
      · exact ⟨{ m with op1 := { m.op1 with
            piece_index := piece2.index, seg_id := piece2.first_seg_id } },
          [], false, by simp, by simp⟩
      · rename_i next1 hnp
        split
        · rename_i p1 i1 n1 hp1 hi1 hn1
          simp only [Nat.add_sub_cancel] at hp1
          obtain ⟨m2, calls2, completed2, hrun2, hm0, hm1, hcalls2⟩ :=
            calculate_turns_loop2_invariant equals fuel piece1 piece2 ring1 ring2 last2 p1 i1 n1
              i hp1 hi1 fuel 0
              { m with op1 := { m.op1 with
                  piece_index := piece2.index, seg_id := piece2.first_seg_id } }
              out h0 h1 rfl (segment_identifier_add_zero _).symm
          simp only [Nat.add_zero] at hrun2
          simp only [hrun2]
          cases completed2 with
          | false => exact ⟨m2, calls2, false, rfl, fun a ha => ⟨i, hcalls2 a ha⟩⟩
          | true =>
            obtain ⟨m3, calls3, completed3, hrun3, hcalls3⟩ := ih (i + 1)
              { m2 with op0 := { m2.op0 with seg_id :=
                  { m2.op0.seg_id with segment_index := m2.op0.seg_id.segment_index + 1 } } }
              (out ++ calls2) hm0 (by simp [hm1, h1, Int.add_assoc])
            refine ⟨m3, calls2 ++ calls3, completed3, hrun3.trans (by simp), ?_⟩
            intro a ha
            rcases List.mem_append.mp ha with ha | ha
            · exact ⟨i, hcalls2 a ha⟩
            · exact hcalls3 a ha
        · exact ⟨{ m with op1 := { m.op1 with
              piece_index := piece2.index, seg_id := piece2.first_seg_id } },
            [], false, by simp, by simp⟩

/-- C13: every call of the policy made by `calculate_turns`, whatever the fuel and whether or
not the function returns, is a call for some segment `i` of `piece1` and some segment `j` of
`piece2`: it is passed the end points of these two segments, and a turn model with
`operations[0].piece_index = piece1.index` and segment index `first1 + i` in the segment
identifier of `piece1`, `operations[1].piece_index = piece2.index` and segment index
`first2 + j` in the segment identifier of `piece2`, and the reciprocal references
`operations[0].other_id = operations[1].seg_id`, `operations[1].other_id = operations[0].seg_id`. -/
theorem calculate_turns_turn_model (equals : P → P → Bool) (fuel : Nat)
    (default_turn : buffer_turn_info P F) (c : buffered_piece_collection P F)
    (piece1 piece2 : piece P F) (a : turn_policy_arguments P F)
    (ha : a ∈ (calculate_turns equals record_call fuel default_turn c piece1 piece2 []).1) :
    ∃ ring1 ring2 i j,
      c.offsetted_rings[piece1.first_seg_id.multi_index.toNat]? = some ring1 ∧
      c.offsetted_rings[piece2.first_seg_id.multi_index.toNat]? = some ring2 ∧
      call_for_segments piece1 piece2 ring1 ring2 i j a := by
  unfold calculate_turns at ha
  simp only at ha
  split at ha
  · simp at ha
  · split at ha
    · simp at ha
    · split at ha
      · rename_i ring1 ring2 hr1 hr2
        obtain ⟨m1, calls, completed, hrun, hcalls⟩ := calculate_turns_loop1_invariant equals
          fuel piece1 piece2 ring1 ring2 piece1.last_segment_index piece2.last_segment_index
          fuel 0
          { default_turn with op0 := { default_turn.op0 with
              piece_index := piece1.index, seg_id := piece1.first_seg_id } }
          [] rfl (segment_identifier_add_zero _).symm
        simp only [Nat.add_zero] at hrun
        simp only [hrun, List.nil_append] at ha
        obtain ⟨i, j, h⟩ := hcalls a ha
        exact ⟨ring1, ring2, i, j, hr1, hr2, h⟩
      · simp at ha

/-- C13, instance: the first call for the two pieces of `example_rescale_collection`. -/
theorem calculate_turns_turn_model_witness :
    example_policy_call ∈ (calculate_turns example_equals record_call 10 example_default_turn
        example_rescale_collection (example_fresh_piece 0 0 3 [(100, 100)])
        (example_fresh_piece 1 2 5 [(200, 200), (201, 201)]) []).1 ∧
    ∃ ring1 ring2 i j,
      example_rescale_collection.offsetted_rings[
        (example_fresh_piece 0 0 3 [(100, 100)]).first_seg_id.multi_index.toNat]? = some ring1 ∧
      example_rescale_collection.offsetted_rings[
        (example_fresh_piece 1 2 5 [(200, 200), (201, 201)]).first_seg_id.multi_index.toNat]?
          = some ring2 ∧
      call_for_segments (example_fresh_piece 0 0 3 [(100, 100)])
        (example_fresh_piece 1 2 5 [(200, 200), (201, 201)]) ring1 ring2 i j
        example_policy_call :=
  ⟨by decide,
    calculate_turns_turn_model example_equals 10 example_default_turn example_rescale_collection
      (example_fresh_piece 0 0 3 [(100, 100)])
      (example_fresh_piece 1 2 5 [(200, 200), (201, 201)]) example_policy_call (by decide)⟩

/-- The inner loop of `calculate_turns` runs the same way whatever the policy does with its
output: the turn model, the calls and whether the loop runs to its end are those of the run with
the recording policy. -/
theorem calculate_turns_loop2_policy (equals : P → P → Bool) (fuel : Nat) (ring2 : List P)
    (it2_last : Int) (prev1 it1 next1 : P) :
    ∀ (steps it2 : Nat) (m : buffer_turn_info P F),
      ∃ (m1 : buffer_turn_info P F) (calls : List (turn_policy_arguments P F))
        (completed : Bool),
        ∀ (S : Type) (turn_policy : turn_policy_arguments P F → S → S) (out : S),
          calculate_turns_loop2 equals turn_policy fuel ring2 it2_last prev1 it1 next1 steps it2
              m out
            = ((m1, calls.foldl (fun s a => turn_policy a s) out), completed) := by
  intro steps
  induction steps with
  | zero =>
    intro it2 m
    exact ⟨m, [], false, fun S turn_policy out => rfl⟩
  | succ steps ih =>
    intro it2 m
    by_cases hlast : (it2 : Int) = it2_last
    · exact ⟨m, [], true, fun S turn_policy out => by simp [calculate_turns_loop2, hlast]⟩
    · cases hnext : next_point equals fuel ring2 it2 with
      | none =>
        exact ⟨_, [], false, fun S turn_policy out => by
          simp only [calculate_turns_loop2, hlast, if_false, hnext, List.foldl_nil]
          rfl⟩
      | some next2 =>
        cases hp : ring2[it2 - 1]? with
        | none =>
          exact ⟨_, [], false, fun S turn_policy out => by
            simp only [calculate_turns_loop2, hlast, if_false, hnext, hp, List.foldl_nil]
            rfl⟩
        | some p2 =>
          cases hi : ring2[it2]? with
          | none =>
            exact ⟨_, [], false, fun S turn_policy out => by
              simp only [calculate_turns_loop2, hlast, if_false, hnext, hp, hi,
                List.foldl_nil]
              rfl⟩
          | some i2 =>
            cases hn : ring2[next2]? with
            | none =>
              exact ⟨_, [], false, fun S turn_policy out => by
                simp only [calculate_turns_loop2, hlast, if_false, hnext, hp, hi, hn,
                  List.foldl_nil]
                rfl⟩
            | some n2 =>
              obtain ⟨m1, calls, completed, h⟩ := ih (it2 + 1)
                { ({ ({ m with op0 := { m.op0 with other_id := m.op1.seg_id } } :
                      buffer_turn_info P F) with
                    op1 := { m.op1 with other_id := m.op0.seg_id } } :
                    buffer_turn_info P F) with
                  op1 := { ({ m.op1 with other_id := m.op0.seg_id } :
                      buffer_turn_operation F) with
                    seg_id := { m.op1.seg_id with
                      segment_index := m.op1.seg_id.segment_index + 1 } } }
              exact ⟨m1, _ :: calls, completed, fun S turn_policy out => by
                simp only [calculate_turns_loop2, hlast, if_false, hnext, hp, hi, hn,
                  List.foldl_cons]
                exact h S turn_policy _⟩

/-- The outer loop of `calculate_turns` runs the same way whatever the policy does with its
output. -/
theorem calculate_turns_loop1_policy (equals : P → P → Bool) (fuel : Nat) (ring1 ring2 : List P)
    (it1_last : Int) (it2_first : Nat) (it2_last : Int) (piece2 : piece P F) :
    ∀ (steps it1 : Nat) (m : buffer_turn_info P F),
      ∃ (m1 : buffer_turn_info P F) (calls : List (turn_policy_arguments P F))
        (completed : Bool),
        ∀ (S : Type) (turn_policy : turn_policy_arguments P F → S → S) (out : S),
          calculate_turns_loop1 equals turn_policy fuel ring1 ring2 it1_last it2_first it2_last
              piece2 steps it1 m out
            = ((m1, calls.foldl (fun s a => turn_policy a s) out), completed) := by
  intro steps
  induction steps with
  | zero =>
    intro it1 m
    exact ⟨m, [], false, fun S turn_policy out => rfl⟩
  | succ steps ih =>
    intro it1 m
    by_cases hlast : (it1 : Int) = it1_last
    · exact ⟨m, [], true, fun S turn_policy out => by simp [calculate_turns_loop1, hlast]⟩
    · cases hnext : next_point equals fuel ring1 it1 with
      | none =>
        exact ⟨_, [], false, fun S turn_policy out => by
          simp only [calculate_turns_loop1, hlast, if_false, hnext, List.foldl_nil]
          rfl⟩
      | some next1 =>
        cases hp : ring1[it1 - 1]? with
        | none =>
          exact ⟨_, [], false, fun S turn_policy out => by
            simp only [calculate_turns_loop1, hlast, if_false, hnext, hp, List.foldl_nil]
            rfl⟩
        | some p1 =>
          cases hi : ring1[it1]? with
          | none =>
            exact ⟨_, [], false, fun S turn_policy out => by
              simp only [calculate_turns_loop1, hlast, if_false, hnext, hp, hi,
                List.foldl_nil]
              rfl⟩
          | some i1 =>
            cases hn : ring1[next1]? with
            | none =>
              exact ⟨_, [], false, fun S turn_policy out => by
                simp only [calculate_turns_loop1, hlast, if_false, hnext, hp, hi, hn,
                  List.foldl_nil]
                rfl⟩
            | some n1 =>
              obtain ⟨m2, calls2, completed2, h2⟩ :=
                calculate_turns_loop2_policy equals fuel ring2 it2_last p1 i1 n1 fuel
                  (it2_first + 1)
                  ({ m with op1 := { m.op1 with
                    piece_index := piece2.index, seg_id := piece2.first_seg_id } } :
                    buffer_turn_info P F)
              cases completed2 with
              | false =>
                exact ⟨m2, calls2, false, fun S turn_policy out => by
                  simp only [calculate_turns_loop1, hlast, if_false, hnext, hp, hi, hn,
                    h2 S turn_policy out]⟩
              | true =>
                obtain ⟨m1, calls, completed, h⟩ := ih (it1 + 1)
                  ({ m2 with op0 := { m2.op0 with seg_id :=
                    { m2.op0.seg_id with
                      segment_index := m2.op0.seg_id.segment_index + 1 } } } :
                    buffer_turn_info P F)
                exact ⟨m1, calls2 ++ calls, completed, fun S turn_policy out => by
                  simp only [calculate_turns_loop1, hlast, if_false, hnext, hp, hi, hn,
                    h2 S turn_policy out, List.foldl_append]
                  exact h S turn_policy _⟩

/-- Function `calculate_turns` runs the same way whatever the policy does with its output: the
calls and whether the function returns are those of the run with the recording policy. -/
theorem calculate_turns_policy (equals : P → P → Bool) (fuel : Nat)
    (default_turn : buffer_turn_info P F) (c : buffered_piece_collection P F)
    (piece1 piece2 : piece P F) :
    ∀ (S : Type) (turn_policy : turn_policy_arguments P F → S → S) (out : S),
      calculate_turns equals turn_policy fuel default_turn c piece1 piece2 out
        = (((calculate_turns equals record_call fuel default_turn c piece1 piece2 []).1).foldl
            (fun s a => turn_policy a s) out,
          (calculate_turns equals record_call fuel default_turn c piece1 piece2 []).2) := by
  have hrecord : ∀ calls : List (turn_policy_arguments P F),
      calls.foldl (fun s a => record_call a s) [] = calls := by
    intro calls
    have hgen : ∀ (l out : List (turn_policy_arguments P F)),
        l.foldl (fun s a => record_call a s) out = out ++ l := by
      intro l
      induction l with
      | nil => intro out; simp
      | cons a l ih =>
        intro out
        rw [List.foldl_cons, ih]
        simp [record_call]
    simpa using hgen calls []
  have hexists : ∃ (calls : List (turn_policy_arguments P F)) (completed : Bool),
      ∀ (S : Type) (turn_policy : turn_policy_arguments P F → S → S) (out : S),
        calculate_turns equals turn_policy fuel default_turn c piece1 piece2 out
          = (calls.foldl (fun s a => turn_policy a s) out, completed) := by
    by_cases hneg : piece1.first_seg_id.segment_index < 0 ∨
        piece2.first_seg_id.segment_index < 0
    · exact ⟨[], true, fun S turn_policy out => by simp [calculate_turns, hneg]⟩
    · by_cases hmulti : piece1.first_seg_id.multi_index < 0 ∨
          piece2.first_seg_id.multi_index < 0
      · exact ⟨[], false, fun S turn_policy out => by simp [calculate_turns, hneg, hmulti]⟩
      · cases hr1 : c.offsetted_rings[piece1.first_seg_id.multi_index.toNat]? with
        | none =>
          exact ⟨[], false, fun S turn_policy out => by
            simp [calculate_turns, hneg, hmulti, hr1]⟩
        | some ring1 =>
          cases hr2 : c.offsetted_rings[piece2.first_seg_id.multi_index.toNat]? with
          | none =>
            exact ⟨[], false, fun S turn_policy out => by
              simp [calculate_turns, hneg, hmulti, hr1, hr2]⟩
          | some ring2 =>
            obtain ⟨m1, calls, completed, h⟩ :=
              calculate_turns_loop1_policy equals fuel ring1 ring2
                piece1.last_segment_index piece2.first_seg_id.segment_index.toNat
                piece2.last_segment_index piece2 fuel
                (piece1.first_seg_id.segment_index.toNat + 1)
                ({ default_turn with op0 := { default_turn.op0 with
                  piece_index := piece1.index, seg_id := piece1.first_seg_id } } :
                  buffer_turn_info P F)
            exact ⟨calls, completed, fun S turn_policy out => by
              simp only [calculate_turns, hneg, hmulti, if_false, hr1, hr2,
                h S turn_policy out]⟩
  obtain ⟨calls, completed, h⟩ := hexists
  intro S turn_policy out
  rw [h S turn_policy out, h _ record_call [], hrecord]

/-- Function `calculate_turns` returns for two pieces whose slices can be scanned, with fuel for
the lengths of the rings. -/
theorem calculate_turns_returns (equals : P → P → Bool) (fuel : Nat)
    (default_turn : buffer_turn_info P F) (c : buffered_piece_collection P F)
    (piece1 piece2 : piece P F) (h1 : slice_scannable equals c piece1)
    (h2 : slice_scannable equals c piece2)
    (hfuel : ∀ ring ∈ c.offsetted_rings, ring.length ≤ fuel) :
    (calculate_turns equals record_call fuel default_turn c piece1 piece2 []).2 = true := by
  rcases h1 with hneg1 | ⟨ring1, first1, c1, hfirst1, hlast1, hc1, hmulti1, hring1, hlen1, hnext1⟩
  · simp [calculate_turns, hneg1]
  rcases h2 with hneg2 | ⟨ring2, first2, c2, hfirst2, hlast2, hc2, hmulti2, hring2, hlen2, hnext2⟩
  · simp [calculate_turns, hneg2]
  have hfuel1 : ring1.length ≤ fuel := hfuel ring1 (List.getElem?_mem hring1)
  have hfuel2 : ring2.length ≤ fuel := hfuel ring2 (List.getElem?_mem hring2)
  obtain ⟨m1, calls, hrun, _⟩ := calculate_turns_loop1_calls equals fuel ring1 ring2
    first1 (c1 - 1) first2 (c2 - 1) piece1.last_segment_index piece2.last_segment_index piece2
    (by rw [hlast1]; omega) (by rw [hlast2]; omega) hfirst2 (by omega) (by omega) hfuel1 hfuel2
    hnext1 hnext2 (c1 - 1) 0 fuel
    { default_turn with op0 :=
        { default_turn.op0 with piece_index := piece1.index, seg_id := piece1.first_seg_id } }
    [] (by omega) (by omega) (by simp [hfirst1])
  have hlt1 : ¬ ((first1 : Int) < 0) := by omega
  have hlt2 : ¬ ((first2 : Int) < 0) := by omega
  have hm1 : ¬ (piece1.first_seg_id.multi_index < 0) := by omega
  have hm2 : ¬ (piece2.first_seg_id.multi_index < 0) := by omega
  simp only [Nat.add_zero, List.nil_append] at hrun
  simp only [calculate_turns, hfirst1, hfirst2, hlt1, hlt2, hm1, hm2, or_self, if_false,
    hring1, hring2, Int.toNat_ofNat, hrun]

/-- The turns one call of the pair loop leaves are those of `get_turns_calculate`. -/
theorem get_turns_run_fst {A L G : Type} (k : turn_strategies P F A L G) (fuel : Nat)
    (c : buffered_piece_collection P F) (piece1 piece2 : piece P F)
    (out : Option (List (buffer_turn_info P F)) × List (piece P F × piece P F)) :
    (get_turns_run k fuel c piece1 piece2 out).1
      = get_turns_calculate k fuel c piece1 piece2 out.1 := by
  obtain ⟨turns, pairs⟩ := out
  cases turns with
  | none => rfl
  | some turns =>
    simp only [get_turns_run, get_turns_calculate]
    rcases hrun : calculate_turns k.equals k.turn_policy fuel k.default_turn c piece1 piece2
        turns with ⟨turns1, completed⟩
    cases completed <;> rfl

/-- The turns the inner pair loop leaves are those of the loop over `get_turns_calculate`. -/
theorem get_turns_loop2_run_fst {A L G : Type} (k : turn_strategies P F A L G) (fuel : Nat)
    (c : buffered_piece_collection P F) (it1 : piece P F) :
    ∀ (rest : List (piece P F))
      (out : Option (List (buffer_turn_info P F)) × List (piece P F × piece P F)),
      (get_turns_loop2 (get_turns_run k fuel c) c it1 rest out).1
        = get_turns_loop2 (get_turns_calculate k fuel c) c it1 rest out.1 := by
  intro rest
  induction rest with
  | nil => intro out; rfl
  | cons b rest ih =>
    intro out
    simp only [get_turns_loop2]
    rw [ih]
    cases hskip : skip_neighbor c it1 b
    · simp only [Bool.not_false, if_true, get_turns_run_fst]
    · simp only [Bool.not_true, Bool.false_eq_true, if_false]

/-- The turns the pair loop leaves are those of the loop over `get_turns_calculate`. -/
theorem get_turns_loop1_run_fst {A L G : Type} (k : turn_strategies P F A L G) (fuel : Nat)
    (c : buffered_piece_collection P F) :
    ∀ (l : List (piece P F))
      (out : Option (List (buffer_turn_info P F)) × List (piece P F × piece P F)),
      (get_turns_loop1 (get_turns_run k fuel c) c l out).1
        = get_turns_loop1 (get_turns_calculate k fuel c) c l out.1 := by
  intro l
  induction l with
  | nil => intro out; rfl
  | cons a rest ih =>
    intro out
    simp only [get_turns_loop1]
    rw [ih, get_turns_loop2_run_fst]

/-- One call of the pair loop on two pieces whose slices can be scanned returns and is
recorded. -/
theorem get_turns_run_returns {A L G : Type} (k : turn_strategies P F A L G) (fuel : Nat)
    (c : buffered_piece_collection P F) (piece1 piece2 : piece P F)
    (h1 : slice_scannable k.equals c piece1) (h2 : slice_scannable k.equals c piece2)
    (hfuel : ∀ ring ∈ c.offsetted_rings, ring.length ≤ fuel)
    (turns : List (buffer_turn_info P F)) (pairs : List (piece P F × piece P F)) :
    ∃ turns1, get_turns_run k fuel c piece1 piece2 (some turns, pairs)
      = (some turns1, record_pair piece1 piece2 pairs) := by
  have hpolicy := calculate_turns_policy k.equals fuel k.default_turn c piece1 piece2 _
    k.turn_policy turns
  rw [calculate_turns_returns k.equals fuel k.default_turn c piece1 piece2 h1 h2 hfuel]
    at hpolicy
  exact ⟨_, by simp only [get_turns_run, hpolicy, record_pair]; rfl⟩

/-- The inner pair loop over pieces whose slices can be scanned returns, and the calls made are
those of the loop with the recording stand-in. -/
theorem get_turns_loop2_run {A L G : Type} (k : turn_strategies P F A L G) (fuel : Nat)
    (c : buffered_piece_collection P F) (it1 : piece P F)
    (hit1 : slice_scannable k.equals c it1)
    (hfuel : ∀ ring ∈ c.offsetted_rings, ring.length ≤ fuel) :
    ∀ (rest : List (piece P F)), (∀ pc ∈ rest, slice_scannable k.equals c pc) →
      ∀ (turns : List (buffer_turn_info P F)) (pairs : List (piece P F × piece P F)),
        ∃ turns1, get_turns_loop2 (get_turns_run k fuel c) c it1 rest (some turns, pairs)
          = (some turns1, get_turns_loop2 record_pair c it1 rest pairs) := by
  intro rest
  induction rest with
  | nil => intro _ turns pairs; exact ⟨turns, rfl⟩
  | cons b rest ih =>
    intro hrest turns pairs
    simp only [get_turns_loop2]
    cases hskip : skip_neighbor c it1 b
    · simp only [Bool.not_false, if_true]
      obtain ⟨turns1, hrun⟩ := get_turns_run_returns k fuel c it1 b hit1
        (hrest b (List.mem_cons_self _ _)) hfuel turns pairs
      rw [hrun]
      exact ih (fun pc hpc => hrest pc (List.mem_cons_of_mem _ hpc)) turns1 _
    · simp only [Bool.not_true, Bool.false_eq_true, if_false]
      exact ih (fun pc hpc => hrest pc (List.mem_cons_of_mem _ hpc)) turns pairs

/-- The pair loop over pieces whose slices can be scanned returns, and the calls made are those
of the loop with the recording stand-in. -/
theorem get_turns_loop1_run {A L G : Type} (k : turn_strategies P F A L G) (fuel : Nat)
    (c : buffered_piece_collection P F)
    (hfuel : ∀ ring ∈ c.offsetted_rings, ring.length ≤ fuel) :
    ∀ (l : List (piece P F)), (∀ pc ∈ l, slice_scannable k.equals c pc) →
      ∀ (turns : List (buffer_turn_info P F)) (pairs : List (piece P F × piece P F)),
        ∃ turns1, get_turns_loop1 (get_turns_run k fuel c) c l (some turns, pairs)
          = (some turns1, get_turns_loop1 record_pair c l pairs) := by
  intro l
  induction l with
  | nil => intro _ turns pairs; exact ⟨turns, rfl⟩
  | cons a rest ih =>
    intro hl turns pairs
    simp only [get_turns_loop1]
    obtain ⟨turns1, hinner⟩ := get_turns_loop2_run k fuel c a (hl a (List.mem_cons_self _ _))
      hfuel rest (fun pc hpc => hl pc (List.mem_cons_of_mem _ hpc)) turns pairs
    rw [hinner]
    exact ih (fun pc hpc => hl pc (List.mem_cons_of_mem _ hpc)) turns1 _

/-- On the ring of three equal points the call of `calculate_turns` for the first two pieces of
`example_stuck_collection` does not return, whatever the fuel. -/
theorem calculate_turns_stuck (fuel : Nat) :
    calculate_turns example_equals record_call fuel example_default_turn
      example_stuck_collection (example_fresh_piece 0 0 2 []) (example_fresh_piece 1 1 3 []) []
      = ([], false) := by
  cases fuel with
  | zero => rfl
  | succ fuel =>
    have hnp : next_point example_equals (fuel + 1) [((5 : Int), (5 : Int)), (5, 5), (5, 5)] 1
        = none := next_point_loop_degenerate (fuel + 1) 2 (Or.inr rfl)
    simp [calculate_turns, example_fresh_piece, example_seg_id, example_stuck_collection,
      example_empty_collection, calculate_turns_loop1, hnp]

/-- The slices of the pieces of `example_pairs_collection` can be scanned. -/
theorem example_pairs_collection_scannable :
    ∀ pc ∈ example_pairs_collection.m_pieces,
      slice_scannable example_turn_strategies.equals example_pairs_collection pc := by
  intro pc hpc
  simp only [example_pairs_collection, List.mem_cons, List.mem_singleton, List.not_mem_nil,
    or_false] at hpc
  rcases hpc with rfl | rfl | rfl
  · exact Or.inr ⟨[(0, 0), (1, 1), (2, 2), (3, 3), (4, 4)], 0, 2, rfl, rfl, by decide,
      by decide, rfl, by decide, by decide⟩
  · exact Or.inr ⟨[(0, 0), (1, 1), (2, 2), (3, 3), (4, 4)], 1, 2, rfl, rfl, by decide,
      by decide, rfl, by decide, by decide⟩
  · exact Or.inr ⟨[(0, 0), (1, 1), (2, 2), (3, 3), (4, 4)], 2, 3, rfl, rfl, by decide,
      by decide, rfl, by decide, by decide⟩

/-- Claim C11 as stated fails on a ring that holds three times the same point: the pair of the
first and the third piece of `example_stuck_collection` is a pair of pieces of the same type, for
which `calculate_turns` is due, but whatever the fuel the pair loop of `get_turns` makes the call
for the first and the second piece only, which does not return. -/
theorem get_turns_pairs_stuck_counterexample :
    (example_fresh_piece 0 0 2 [], example_fresh_piece 2 0 2 [])
      ∈ (ordered_pairs example_stuck_collection.m_pieces).filter
          (fun ab => ! skip_neighbor example_stuck_collection ab.1 ab.2) ∧
    ∀ fuel : Nat,
      get_turns_pairs (get_turns_run example_turn_strategies fuel example_stuck_collection)
          example_stuck_collection (some example_stuck_collection.m_turns, [])
        = (none, [(example_fresh_piece 0 0 2 [], example_fresh_piece 1 1 3 [])]) := by
  refine ⟨by decide, ?_⟩
  intro fuel
  have hpolicy := calculate_turns_policy example_equals fuel example_default_turn
    example_stuck_collection (example_fresh_piece 0 0 2 []) (example_fresh_piece 1 1 3 []) _
    (fun (_ : turn_policy_arguments (Int × Int) Nat)
      (out : List (buffer_turn_info (Int × Int) Nat)) => out) []
  rw [calculate_turns_stuck fuel] at hpolicy
  have hskip : skip_neighbor example_stuck_collection (example_fresh_piece 0 0 2 [])
      (example_fresh_piece 1 1 3 []) = false := by decide
  have hrun : get_turns_run example_turn_strategies fuel example_stuck_collection
      (example_fresh_piece 0 0 2 []) (example_fresh_piece 1 1 3 [])
      (some example_stuck_collection.m_turns, [])
      = (none, [(example_fresh_piece 0 0 2 [], example_fresh_piece 1 1 3 [])]) := by
    simp only [get_turns_run, example_turn_strategies]
    rw [show example_stuck_collection.m_turns = [] from rfl, hpolicy]
    rfl
  simp only [get_turns_pairs, show example_stuck_collection.m_pieces
    = [example_fresh_piece 0 0 2 [], example_fresh_piece 1 1 3 [],
        example_fresh_piece 2 0 2 []] from rfl, get_turns_loop1, get_turns_loop2, hskip,
    Bool.not_false, if_true, hrun]
  simp [get_turns_run]

/-- C11, amended: when the slice of every piece can be scanned, so that every call of
`calculate_turns` returns, and a piece's index is its position, the pair loop of `get_turns`
returns, given fuel for the lengths of the rings, and has run `calculate_turns` for the pairs of
an earlier and a later piece that `skip_neighbor` does not reject, in piece order and nothing
else: a pair is run exactly when it is a pair of pieces at positions `i < j` that is not a pair
of neighbours of different type; no pair is run twice, no piece is paired with itself, and at
most `n (n - 1) / 2` pairs are run for `n` pieces. -/
theorem get_turns_pairs_calls {A L G : Type} (k : turn_strategies P F A L G) (fuel : Nat)
    (c : buffered_piece_collection P F)
    (hindex : c.m_pieces.map (fun pc => pc.index)
      = (List.range c.m_pieces.length).map Int.ofNat)
    (hscan : ∀ pc ∈ c.m_pieces, slice_scannable k.equals c pc)
    (hfuel : ∀ ring ∈ c.offsetted_rings, ring.length ≤ fuel) :
    ∃ (turns1 : List (buffer_turn_info P F)) (pairs : List (piece P F × piece P F)),
      get_turns_pairs (get_turns_run k fuel c) c (some c.m_turns, []) = (some turns1, pairs) ∧
      get_turns_pairs (get_turns_calculate k fuel c) c (some c.m_turns) = some turns1 ∧
      pairs = (ordered_pairs c.m_pieces).filter (fun ab => ! skip_neighbor c ab.1 ab.2) ∧
      (∀ a b : piece P F, (a, b) ∈ pairs ↔
        ∃ i j : Nat, i < j ∧ c.m_pieces[i]? = some a ∧ c.m_pieces[j]? = some b ∧
          ¬ (a.type ≠ b.type ∧ is_neighbor c a b = true)) ∧
      pairs.Nodup ∧
      (∀ a : piece P F, (a, a) ∉ pairs) ∧
      pairs.length ≤ c.m_pieces.length * (c.m_pieces.length - 1) / 2 := by
  obtain ⟨turns1, hrun⟩ := get_turns_loop1_run k fuel c hfuel c.m_pieces hscan c.m_turns []
  obtain ⟨htrace, hmem, hnodup, hself, hlen⟩ := get_turns_pairs_record c hindex
  have hfst := get_turns_loop1_run_fst k fuel c c.m_pieces (some c.m_turns, [])
  rw [hrun] at hfst
  exact ⟨turns1, get_turns_pairs record_pair c [], hrun, hfst.symm, htrace, hmem, hnodup, hself,
    hlen⟩

/-- C11, amended, instance: three pieces on a ring of five different points, a segment, a join
and a segment; the call is made for the two segments only. -/
theorem get_turns_pairs_calls_witness :
    ∃ (turns1 : List (buffer_turn_info (Int × Int) Nat))
      (pairs : List (piece (Int × Int) Nat × piece (Int × Int) Nat)),
      get_turns_pairs (get_turns_run example_turn_strategies 5 example_pairs_collection)
          example_pairs_collection (some example_pairs_collection.m_turns, [])
        = (some turns1, pairs) ∧
      get_turns_pairs (get_turns_calculate example_turn_strategies 5 example_pairs_collection)
          example_pairs_collection (some example_pairs_collection.m_turns) = some turns1 ∧
      pairs = (ordered_pairs example_pairs_collection.m_pieces).filter
          (fun ab => ! skip_neighbor example_pairs_collection ab.1 ab.2) ∧
      (∀ a b : piece (Int × Int) Nat, (a, b) ∈ pairs ↔
        ∃ i j : Nat, i < j ∧ example_pairs_collection.m_pieces[i]? = some a ∧
          example_pairs_collection.m_pieces[j]? = some b ∧
          ¬ (a.type ≠ b.type ∧ is_neighbor example_pairs_collection a b = true)) ∧
      pairs.Nodup ∧
      (∀ a : piece (Int × Int) Nat, (a, a) ∉ pairs) ∧
      pairs.length ≤ example_pairs_collection.m_pieces.length
        * (example_pairs_collection.m_pieces.length - 1) / 2 :=
  get_turns_pairs_calls example_turn_strategies 5 example_pairs_collection (by decide)
    example_pairs_collection_scannable (by decide)

end turn_finder

/-! ## Occupation resolver: theorems -/

section occupation

variable {P F A L : Type}

/-- Assignment in the occupation map keeps it non-empty or empty. -/
theorem isEmpty_occupation_map_set (key : robust_point_type) (value : occupation_info A)
    (map : List (robust_point_type × occupation_info A)) :
    (occupation_map_set key value map).isEmpty = map.isEmpty := by
  cases map with
  | nil => rfl
  | cons e rest =>
    obtain ⟨k, info⟩ := e
    by_cases h : k = key <;> simp [occupation_map_set, h]

/-- Step 3 keeps the occupation map non-empty or empty. -/
theorem isEmpty_occupation_add_angles (policy : occupation_policy P F A L)
    (pieces : List (piece P F)) (turns : List (buffer_turn_info P F)) :
    ∀ (index : Int) (map : List (robust_point_type × occupation_info A)),
      (occupation_add_angles policy pieces turns index map).2.isEmpty = map.isEmpty := by
  induction turns with
  | nil => intro index map; rfl
  | cons turn rest ih =>
    intro index map
    rw [occupation_add_angles]
    split
    · simp only [ih, isEmpty_occupation_map_set]
    · simp only [ih]

/-- One call of `get_occupation` in terms of its steps 1 to 3, the test for a second call and
the last two loops. -/
theorem get_occupation_succ (policy : occupation_policy P F A L) (fuel : Nat) (distance : Int)
    (c : buffered_piece_collection P F) :
    get_occupation policy (fuel + 1) distance c
      = if occupation_retries policy distance c then
          ((get_occupation policy fuel (distance + 1)
              { c with m_turns := (occupation_pass policy distance c).1 }).1,
            (distance + 1) :: (get_occupation policy fuel (distance + 1)
              { c with m_turns := (occupation_pass policy distance c).1 }).2)
        else
          (match occupation_finish policy (occupation_pass policy distance c) with
            | some m_turns => occupation_outcome.returned { c with m_turns := m_turns }
            | none => occupation_outcome.out_of_range, []) := by
  rw [get_occupation]
  simp only [occupation_retries, occupation_pass, occupation_finish]
  by_cases hempty : (occupation_erase_single
      (occupation_add_turns policy distance c.m_turns []).2).isEmpty = true
  · simp [hempty, propagate_blocked, block_without_left_turns]
  · simp only [hempty, if_false, Bool.false_eq_true, Bool.and_eq_true, decide_eq_true_eq]
    split
    · rfl
    · cases h5 : propagate_blocked policy
          (occupation_add_angles policy c.m_pieces
            (occupation_add_turns policy distance c.m_turns []).1 0
            (occupation_erase_single (occupation_add_turns policy distance c.m_turns []).2)).2
          (occupation_add_angles policy c.m_pieces
            (occupation_add_turns policy distance c.m_turns []).1 0
            (occupation_erase_single (occupation_add_turns policy distance c.m_turns []).2)).1 with
      | none => simp
      | some m_turns5 =>
        simp only [Option.some_bind]
        cases h4 : block_without_left_turns policy
          (occupation_add_angles policy c.m_pieces
            (occupation_add_turns policy distance c.m_turns []).1 0
            (occupation_erase_single (occupation_add_turns policy distance c.m_turns []).2)).2
          m_turns5 <;> simp

/-- A call of `get_occupation` with a distance other than `0` makes no call of itself. -/
theorem get_occupation_of_ne_zero (policy : occupation_policy P F A L) (fuel : Nat)
    (distance : Int) (c : buffered_piece_collection P F) (hd : distance ≠ 0) :
    get_occupation policy (fuel + 1) distance c
      = (match occupation_finish policy (occupation_pass policy distance c) with
          | some m_turns => occupation_outcome.returned { c with m_turns := m_turns }
          | none => occupation_outcome.out_of_range, []) := by
  rw [get_occupation_succ]
  simp [occupation_retries, hd]

/-- C23: a call of `get_occupation` with distance `0` calls itself at most once, and then with
distance `1`; a call with any other distance makes no call of itself.  With fuel for two calls
a call with distance `0`, and with fuel for one call a call with another distance, does not use
up the fuel and gives the result it gives with any more fuel, for every collection and whatever
`has_rounding_issues` and the other functions of the policy give. -/
theorem get_occupation_calls (policy : occupation_policy P F A L) (fuel : Nat)
    (distance : Int) (c : buffered_piece_collection P F) :
    ((get_occupation policy (fuel + 2) 0 c).2 = [] ∨
      ((get_occupation policy (fuel + 2) 0 c).2 = [1] ∧
        occupation_retries policy 0 c = true)) ∧
    (get_occupation policy (fuel + 2) 0 c).1 ≠ occupation_outcome.out_of_fuel ∧
    get_occupation policy (fuel + 2) 0 c = get_occupation policy 2 0 c ∧
    (distance = 0 ∨
      ((get_occupation policy (fuel + 1) distance c).2 = [] ∧
       (get_occupation policy (fuel + 1) distance c).1 ≠ occupation_outcome.out_of_fuel ∧
       get_occupation policy (fuel + 1) distance c = get_occupation policy 1 distance c)) := by
  have hne : ∀ (fuel : Nat) (distance : Int) (c : buffered_piece_collection P F),
      distance ≠ 0 →
      (get_occupation policy (fuel + 1) distance c).2 = [] ∧
      (get_occupation policy (fuel + 1) distance c).1 ≠ occupation_outcome.out_of_fuel ∧
      get_occupation policy (fuel + 1) distance c = get_occupation policy 1 distance c := by
    intro fuel distance c hd
    rw [get_occupation_of_ne_zero policy fuel distance c hd,
      get_occupation_of_ne_zero policy 0 distance c hd]
    refine ⟨rfl, ?_, rfl⟩
    cases occupation_finish policy (occupation_pass policy distance c) <;> simp
  have h1 := hne fuel 1 { c with m_turns := (occupation_pass policy 0 c).1 } (by decide)
  refine ⟨?_, ?_, ?_, ?_⟩
  · rw [get_occupation_succ]
    cases hr : occupation_retries policy 0 c with
    | true => exact Or.inr ⟨by simp [h1.1], rfl⟩
    | false => exact Or.inl (by simp)
  · rw [get_occupation_succ]
    cases hr : occupation_retries policy 0 c with
    | true => simpa using h1.2.1
    | false =>
      cases occupation_finish policy (occupation_pass policy 0 c) <;> simp
  · rw [get_occupation_succ policy (fuel + 1), get_occupation_succ policy 1]
    simp only [Int.zero_add]
    rw [h1.2.2]
  · by_cases hd : distance = 0
    · exact Or.inl hd
    · exact Or.inr (hne fuel distance c hd)

/-- Lookup after an assignment. -/
theorem occupation_map_find_set (key : robust_point_type) (value : occupation_info A)
    (map : List (robust_point_type × occupation_info A)) (key1 : robust_point_type) :
    occupation_map_find (occupation_map_set key value map) key1
      = if key1 = key then (occupation_map_find map key).map (fun _ => value)
        else occupation_map_find map key1 := by
  induction map with
  | nil => simp [occupation_map_set, occupation_map_find]
  | cons e rest ih =>
    obtain ⟨k, info⟩ := e
    by_cases hk : k = key
    · subst hk
      by_cases hk1 : key1 = k
      · subst hk1
        simp [occupation_map_set, occupation_map_find]
      · have hk2 : ¬ k = key1 := fun h => hk1 h.symm
        simp [occupation_map_set, occupation_map_find, hk1, hk2]
    · by_cases hk1 : key1 = key
      · subst hk1
        simp [occupation_map_set, occupation_map_find, hk, ih]
      · by_cases hk2 : k = key1
        · simp [occupation_map_set, occupation_map_find, hk, hk1, hk2]
        · simp [occupation_map_set, occupation_map_find, hk, hk1, hk2, ih]

/-- Lookup after the insertion of a new key. -/
theorem occupation_map_find_insert (less : robust_point_type → robust_point_type → Bool)
    (key : robust_point_type) (value : occupation_info A)
    (map : List (robust_point_type × occupation_info A)) (key1 : robust_point_type)
    (hnew : occupation_map_find map key = none) :
    occupation_map_find (occupation_map_insert less key value map) key1
      = if key1 = key then some value else occupation_map_find map key1 := by
  induction map with
  | nil =>
    by_cases hk1 : key1 = key
    · subst hk1
      simp [occupation_map_insert, occupation_map_find]
    · have hk2 : ¬ key = key1 := fun h => hk1 h.symm
      simp [occupation_map_insert, occupation_map_find, hk1, hk2]
  | cons e rest ih =>
    obtain ⟨k, info⟩ := e
    have hk : ¬ k = key := by
      intro h
      simp [occupation_map_find, h] at hnew
    have hrest : occupation_map_find rest key = none := by
      simpa [occupation_map_find, hk] using hnew
    by_cases hless : less key k = true
    · by_cases hk1 : key1 = key
      · subst hk1
        simp [occupation_map_insert, occupation_map_find, hless]
      · have hk2 : ¬ key = key1 := fun h => hk1 h.symm
        simp [occupation_map_insert, occupation_map_find, hless, hk1, hk2]
    · by_cases hk1 : key1 = key
      · subst hk1
        simp [occupation_map_insert, occupation_map_find, hless, hk, ih hrest]
      · by_cases hk2 : k = key1
        · subst hk2
          simp [occupation_map_insert, occupation_map_find, hless, hk]
        · simp [occupation_map_insert, occupation_map_find, hless, hk1, hk2, ih hrest]

/-- Lookup after `occupation_map[key].count++`. -/
theorem occupation_map_find_count (policy : occupation_policy P F A L)
    (key : robust_point_type) (map : List (robust_point_type × occupation_info A))
    (key1 : robust_point_type) :
    occupation_map_find (occupation_map_count policy key map) key1
      = if key1 = key then
          some { (occupation_map_find map key).getD policy.default_info with
            count := ((occupation_map_find map key).getD policy.default_info).count + 1 }
        else occupation_map_find map key1 := by
  unfold occupation_map_count
  cases h : occupation_map_find map key with
  | none => simp [occupation_map_find_insert, h]
  | some info => simp [occupation_map_find_set, h]

/-- A key that is found is in the map with the data found. -/
theorem mem_of_occupation_map_find (map : List (robust_point_type × occupation_info A))
    (key : robust_point_type) (info : occupation_info A)
    (h : occupation_map_find map key = some info) : (key, info) ∈ map := by
  induction map with
  | nil => simp [occupation_map_find] at h
  | cons e rest ih =>
    obtain ⟨k, i⟩ := e
    by_cases hk : k = key
    · subst hk
      simp [occupation_map_find] at h
      simp [h]
    · simp only [occupation_map_find, hk, if_false] at h
      exact List.mem_cons_of_mem _ (ih h)

/-- A key is not found exactly when it is not a key of the map. -/
theorem occupation_map_find_eq_none (map : List (robust_point_type × occupation_info A))
    (key : robust_point_type) :
    occupation_map_find map key = none ↔ key ∉ map.map Prod.fst := by
  induction map with
  | nil => simp [occupation_map_find]
  | cons e rest ih =>
    obtain ⟨k, i⟩ := e
    by_cases hk : k = key
    · simp [occupation_map_find, hk]
    · have hk2 : ¬ key = k := fun h => hk h.symm
      simp [occupation_map_find, hk, hk2, ih]

/-- In a map that holds every key once, the entries are what is found. -/
theorem occupation_map_find_of_mem (map : List (robust_point_type × occupation_info A))
    (hnodup : (map.map Prod.fst).Nodup) (key : robust_point_type) (info : occupation_info A)
    (h : (key, info) ∈ map) : occupation_map_find map key = some info := by
  induction map with
  | nil => simp at h
  | cons e rest ih =>
    obtain ⟨k, i⟩ := e
    simp only [List.map_cons, List.nodup_cons] at hnodup
    rcases List.mem_cons.mp h with heq | hmem
    · cases heq
      simp [occupation_map_find]
    · have hk : ¬ k = key := by
        intro hk
        subst hk
        exact hnodup.1 (List.mem_map.mpr ⟨(k, info), hmem, rfl⟩)
      simp only [occupation_map_find, hk, if_false]
      exact ih hnodup.2 hmem

/-- Assignment keeps the keys. -/
theorem occupation_map_set_keys (key : robust_point_type) (value : occupation_info A)
    (map : List (robust_point_type × occupation_info A)) :
    (occupation_map_set key value map).map Prod.fst = map.map Prod.fst := by
  induction map with
  | nil => rfl
  | cons e rest ih =>
    obtain ⟨k, i⟩ := e
    by_cases hk : k = key <;> simp [occupation_map_set, hk, ih]

/-- Insertion adds the key. -/
theorem occupation_map_insert_keys (less : robust_point_type → robust_point_type → Bool)
    (key : robust_point_type) (value : occupation_info A)
    (map : List (robust_point_type × occupation_info A)) :
    List.Perm ((occupation_map_insert less key value map).map Prod.fst)
      (key :: map.map Prod.fst) := by
  induction map with
  | nil => simp [occupation_map_insert]
  | cons e rest ih =>
    obtain ⟨k, i⟩ := e
    by_cases hless : less key k = true
    · simp [occupation_map_insert, hless]
    · simp only [occupation_map_insert, hless, if_false, List.map_cons]
      exact (List.Perm.cons k ih).trans (List.Perm.swap key k _)

/-- Statement `occupation_map[key].count++` keeps every key once. -/
theorem occupation_map_count_nodup (policy : occupation_policy P F A L)
    (key : robust_point_type) (map : List (robust_point_type × occupation_info A))
    (hnodup : (map.map Prod.fst).Nodup) :
    ((occupation_map_count policy key map).map Prod.fst).Nodup := by
  unfold occupation_map_count
  cases h : occupation_map_find map key with
  | none =>
    simp only
    rw [(occupation_map_insert_keys policy.less key _ map).nodup_iff, List.nodup_cons]
    exact ⟨(occupation_map_find_eq_none map key).mp h, hnodup⟩
  | some info =>
    simp only
    rw [occupation_map_set_keys]
    exact hnodup

/-- What is found after step 2: what was found before, when its count is above one. -/
theorem occupation_map_find_erase_single (map : List (robust_point_type × occupation_info A))
    (hnodup : (map.map Prod.fst).Nodup) (key : robust_point_type) :
    occupation_map_find (occupation_erase_single map) key
      = (occupation_map_find map key).filter fun info => ! decide (info.count ≤ 1) := by
  induction map with
  | nil => simp [occupation_erase_single, occupation_map_find]
  | cons e rest ih =>
    obtain ⟨k, i⟩ := e
    simp only [List.map_cons, List.nodup_cons] at hnodup
    have ih1 := ih hnodup.2
    simp only [occupation_erase_single] at ih1 ⊢
    by_cases hk : k = key
    · subst hk
      by_cases hc : i.count ≤ 1
      · have hnone : occupation_map_find rest k = none :=
          (occupation_map_find_eq_none rest k).mpr hnodup.1
        simp [List.filter_cons, hc, occupation_map_find, ih1, hnone, Option.filter]
      · simp [List.filter_cons, hc, occupation_map_find, Option.filter]
    · by_cases hc : i.count ≤ 1
      · simp [List.filter_cons, hc, occupation_map_find, hk, ih1]
      · simp [List.filter_cons, hc, occupation_map_find, hk, ih1]

/-- Step 2 keeps every key once. -/
theorem occupation_erase_single_nodup (map : List (robust_point_type × occupation_info A))
    (hnodup : (map.map Prod.fst).Nodup) :
    ((occupation_erase_single map).map Prod.fst).Nodup :=
  hnodup.sublist ((List.filter_sublist _).map _)

/-- A map in which nothing is found is empty. -/
theorem isEmpty_of_find_eq_none (map : List (robust_point_type × occupation_info A))
    (h : ∀ key, occupation_map_find map key = none) : map.isEmpty = true := by
  cases map with
  | nil => rfl
  | cons e rest =>
    obtain ⟨k, i⟩ := e
    have := h k
    simp [occupation_map_find] at this

/-- Inner loop of `adapt_mapped_robust_point` as a search in a list. -/
theorem adapt_loop_y_eq (map : List (robust_point_type × occupation_info A))
    (robust_point : robust_point_type) (x : Int) (ys : List Int) :
    adapt_loop_y map robust_point x ys
      = (ys.map fun y =>
          ({ x := robust_point.x + x, y := robust_point.y + y } : robust_point_type)).find?
          fun rp => (occupation_map_find map rp).isSome := by
  induction ys with
  | nil => rfl
  | cons y ys ih =>
    simp only [adapt_loop_y, List.map_cons, List.find?_cons, ih]
    cases (occupation_map_find map
      { x := robust_point.x + x, y := robust_point.y + y }).isSome <;> simp

/-- The two loops of `adapt_mapped_robust_point` as a search in the list of candidates. -/
theorem adapt_loop_x_eq (map : List (robust_point_type × occupation_info A))
    (robust_point : robust_point_type) (ys xs : List Int) :
    adapt_loop_x map robust_point ys xs
      = (xs.flatMap fun x => ys.map fun y =>
          ({ x := robust_point.x + x, y := robust_point.y + y } : robust_point_type)).find?
          fun rp => (occupation_map_find map rp).isSome := by
  induction xs with
  | nil => rfl
  | cons x xs ih =>
    simp only [adapt_loop_x, List.flatMap_cons, List.find?_append, ih, adapt_loop_y_eq]
    cases ((ys.map fun y =>
          ({ x := robust_point.x + x, y := robust_point.y + y } : robust_point_type)).find?
          fun rp => (occupation_map_find map rp).isSome) <;> simp

/-- The values of the loop variables of `adapt_mapped_robust_point`. -/
theorem mem_adapt_offsets (distance x : Int) :
    x ∈ adapt_offsets distance ↔ -distance ≤ x ∧ x ≤ distance := by
  simp only [adapt_offsets, List.mem_map, List.mem_range]
  constructor
  · rintro ⟨i, hi, rfl⟩
    omega
  · rintro ⟨h1, h2⟩
    refine ⟨(x + distance).toNat, by omega, ?_⟩
    beta_reduce
    omega

/-- The candidates of `adapt_mapped_robust_point` are the points within `distance` of the
robust point in each coordinate. -/
theorem mem_adapt_candidates (robust_point rp : robust_point_type) (distance : Int) :
    rp ∈ adapt_candidates robust_point distance ↔
      |rp.x - robust_point.x| ≤ distance ∧ |rp.y - robust_point.y| ≤ distance := by
  simp only [adapt_candidates, List.mem_flatMap, List.mem_map, mem_adapt_offsets, abs_le]
  constructor
  · rintro ⟨x, hx, y, hy, rfl⟩
    simp only
    omega
  · rintro ⟨hx, hy⟩
    refine ⟨rp.x - robust_point.x, by omega, rp.y - robust_point.y, by omega, ?_⟩
    cases rp
    simp

/-- Function `adapt_mapped_robust_point` as a search in the list of candidates. -/
theorem adapt_mapped_robust_point_eq (map : List (robust_point_type × occupation_info A))
    (turn : buffer_turn_info P F) (distance : Int) :
    adapt_mapped_robust_point map turn distance
      = match (adapt_candidates turn.robust_point distance).find?
            fun rp => (occupation_map_find map rp).isSome with
        | some rp => { turn with mapped_robust_point := rp }
        | none => turn := by
  rw [adapt_mapped_robust_point, adapt_loop_x_eq]
  rfl

/-- Relation of the turn lists: empty lists. -/
theorem turns_pointwise_nil (R : buffer_turn_info P F → buffer_turn_info P F → Prop) :
    turns_pointwise R [] [] :=
  ⟨rfl, by simp⟩

/-- Relation of the turn lists: one more turn in front. -/
theorem turns_pointwise_cons (R : buffer_turn_info P F → buffer_turn_info P F → Prop)
    (turn turn1 : buffer_turn_info P F) (turns turns1 : List (buffer_turn_info P F))
    (h : R turn turn1) (hrest : turns_pointwise R turns turns1) :
    turns_pointwise R (turn :: turns) (turn1 :: turns1) := by
  refine ⟨by simp [hrest.1], ?_⟩
  intro n t hn
  cases n with
  | zero =>
    simp only [List.getElem?_cons_zero, Option.some.injEq] at hn
    subst hn
    exact ⟨turn1, by simp, h⟩
  | succ n =>
    simp only [List.getElem?_cons_succ] at hn ⊢
    exact hrest.2 n t hn

/-- Relation of the turn lists: a weaker relation. -/
theorem turns_pointwise_mono (R S : buffer_turn_info P F → buffer_turn_info P F → Prop)
    (turns turns1 : List (buffer_turn_info P F)) (hRS : ∀ a b, R a b → S a b)
    (h : turns_pointwise R turns turns1) : turns_pointwise S turns turns1 :=
  ⟨h.1, fun n t hn => by
    obtain ⟨t1, h1, h2⟩ := h.2 n t hn
    exact ⟨t1, h1, hRS _ _ h2⟩⟩

/-- Relation of the turn lists: two steps in a row. -/
theorem turns_pointwise_trans (R S T : buffer_turn_info P F → buffer_turn_info P F → Prop)
    (turns turns1 turns2 : List (buffer_turn_info P F))
    (hRST : ∀ a b c, R a b → S b c → T a c)
    (h1 : turns_pointwise R turns turns1) (h2 : turns_pointwise S turns1 turns2) :
    turns_pointwise T turns turns2 :=
  ⟨h2.1.trans h1.1, fun n t hn => by
    obtain ⟨t1, ht1, hr⟩ := h1.2 n t hn
    obtain ⟨t2, ht2, hs⟩ := h2.2 n t1 ht1
    exact ⟨t2, ht2, hRST _ _ _ hr hs⟩⟩

/-- Relation of the turn lists: the image under a function. -/
theorem turns_pointwise_map (f : buffer_turn_info P F → buffer_turn_info P F)
    (turns : List (buffer_turn_info P F)) :
    turns_pointwise (fun a b => b = f a) turns (turns.map f) :=
  ⟨by simp, fun n t hn => ⟨f t, by simp [List.getElem?_map, hn], rfl⟩⟩

/-- Function `adapt_mapped_robust_point` leaves the turn as it is or moves its mapped robust
point to a candidate that is a key of the map. -/
theorem adapt_mapped_robust_point_cases (map : List (robust_point_type × occupation_info A))
    (turn : buffer_turn_info P F) (distance : Int) :
    (adapt_mapped_robust_point map turn distance = turn ∧
      ∀ rp ∈ adapt_candidates turn.robust_point distance,
        occupation_map_find map rp = none) ∨
    ∃ rp, rp ∈ adapt_candidates turn.robust_point distance ∧
      (occupation_map_find map rp).isSome = true ∧
      adapt_mapped_robust_point map turn distance = { turn with mapped_robust_point := rp } := by
  rw [adapt_mapped_robust_point_eq]
  cases h : (adapt_candidates turn.robust_point distance).find?
      fun rp => (occupation_map_find map rp).isSome with
  | none =>
    refine Or.inl ⟨rfl, ?_⟩
    intro rp hrp
    have := List.find?_eq_none.mp h rp hrp
    simpa using this
  | some rp =>
    have hp : (occupation_map_find map rp).isSome = true :=
      @List.find?_some _ (fun rp => (occupation_map_find map rp).isSome) rp _ h
    exact Or.inr ⟨rp, List.mem_of_find?_eq_some h, hp, rfl⟩

/-- Step 1 of `get_occupation`, turn by turn. -/
theorem occupation_add_turns_pointwise (policy : occupation_policy P F A L) (distance : Int)
    (turns : List (buffer_turn_info P F)) :
    ∀ map : List (robust_point_type × occupation_info A),
      turns_pointwise (adapted distance) turns
        (occupation_add_turns policy distance turns map).1 := by
  induction turns with
  | nil => intro map; exact turns_pointwise_nil _
  | cons turn rest ih =>
    intro map
    rw [occupation_add_turns]
    split
    · rename_i hc
      refine turns_pointwise_cons _ _ _ _ _ ?_ (ih _)
      split
      · rename_i hd
        rcases adapt_mapped_robust_point_cases map turn distance with h | ⟨rp, h1, _, h3⟩
        · exact Or.inl h.1
        · exact Or.inr ⟨hc, hd.1, rp, h1, h3⟩
      · exact Or.inl rfl
    · exact turns_pointwise_cons _ _ _ _ _ (Or.inl rfl) (ih _)

/-- Step 1 of `get_occupation` keeps every key once. -/
theorem occupation_add_turns_nodup (policy : occupation_policy P F A L) (distance : Int)
    (turns : List (buffer_turn_info P F)) :
    ∀ map : List (robust_point_type × occupation_info A), (map.map Prod.fst).Nodup →
      ((occupation_add_turns policy distance turns map).2.map Prod.fst).Nodup := by
  induction turns with
  | nil => intro map h; exact h
  | cons turn rest ih =>
    intro map h
    rw [occupation_add_turns]
    split
    · exact ih _ (occupation_map_count_nodup policy _ map h)
    · exact ih _ h

/-- Step 1 of `get_occupation` with a distance that is not positive leaves the turns as they
are. -/
theorem occupation_add_turns_of_not_pos (policy : occupation_policy P F A L) (distance : Int)
    (hd : ¬ 0 < distance) (turns : List (buffer_turn_info P F)) :
    ∀ map : List (robust_point_type × occupation_info A),
      (occupation_add_turns policy distance turns map).1 = turns := by
  induction turns with
  | nil => intro map; rfl
  | cons turn rest ih =>
    intro map
    rw [occupation_add_turns]
    split
    · simp [hd, ih]
    · simp [ih]

/-- Count of the turns at a key, one turn more. -/
theorem occupation_count_cons (turn : buffer_turn_info P F)
    (turns : List (buffer_turn_info P F)) (key : robust_point_type) :
    occupation_count (turn :: turns) key
      = (if 1 ≤ turn.count_on_offsetted ∧ turn.mapped_robust_point = key then 1 else 0)
        + occupation_count turns key := by
  unfold occupation_count
  by_cases h : 1 ≤ turn.count_on_offsetted ∧ turn.mapped_robust_point = key
  · simp [List.filter_cons, h.1, h.2]
    omega
  · have h2 : (decide (1 ≤ turn.count_on_offsetted)
        && decide (turn.mapped_robust_point = key)) = false := by
      simpa using h
    simp [List.filter_cons, h2, h]

/-- What is found in the occupation map after step 1: at every key the default-constructed
data with the count raised by the number of the turns counted there. -/
theorem occupation_add_turns_find (policy : occupation_policy P F A L) (distance : Int)
    (turns : List (buffer_turn_info P F)) :
    ∀ (map : List (robust_point_type × occupation_info A)) (base : robust_point_type → Nat),
      (∀ key, occupation_map_find map key
        = if base key = 0 then none
          else some { policy.default_info with
            count := policy.default_info.count + (base key : Int) }) →
      ∀ key, occupation_map_find (occupation_add_turns policy distance turns map).2 key
        = if base key
              + occupation_count (occupation_add_turns policy distance turns map).1 key = 0
          then none
          else some { policy.default_info with
            count := policy.default_info.count
              + ((base key
                + occupation_count (occupation_add_turns policy distance turns map).1 key :
                  Nat) : Int) } := by
  induction turns with
  | nil =>
    intro map base hmap key
    simp [occupation_add_turns, occupation_count, hmap key]
  | cons turn rest ih =>
    intro map base hmap key
    rw [occupation_add_turns]
    split
    · rename_i hc
      obtain ⟨turn1, hturn1⟩ : ∃ turn1, turn1 =
          (if 0 < distance ∧ map.isEmpty = false then adapt_mapped_robust_point map turn distance
            else turn) := ⟨_, rfl⟩
      have hc1 : 1 ≤ turn1.count_on_offsetted := by
        rw [hturn1]
        split
        · rcases adapt_mapped_robust_point_cases map turn distance with h | ⟨rp, _, _, h3⟩
          · rw [h.1]; exact hc
          · rw [h3]; exact hc
        · exact hc
      simp only [← hturn1]
      have hmap1 : ∀ key, occupation_map_find
          (occupation_map_count policy turn1.mapped_robust_point map) key
          = if (base key + if key = turn1.mapped_robust_point then 1 else 0) = 0 then none
            else some { policy.default_info with
              count := policy.default_info.count
                + ((base key + if key = turn1.mapped_robust_point then 1 else 0 : Nat) : Int) } := by
        intro key
        rw [occupation_map_find_count]
        by_cases hk : key = turn1.mapped_robust_point
        · subst hk
          rw [hmap turn1.mapped_robust_point]
          by_cases hb : base turn1.mapped_robust_point = 0
          · simp [hb]
          · simp [hb]
            omega
        · simp [hk, hmap key]
      have h := ih (occupation_map_count policy turn1.mapped_robust_point map)
        (fun key => base key + if key = turn1.mapped_robust_point then 1 else 0) hmap1 key
      rw [h, occupation_count_cons]
      have harith : (base key + if key = turn1.mapped_robust_point then 1 else 0)
          + occupation_count (occupation_add_turns policy distance rest
              (occupation_map_count policy turn1.mapped_robust_point map)).1 key
          = base key + ((if 1 ≤ turn1.count_on_offsetted ∧ turn1.mapped_robust_point = key
              then 1 else 0)
            + occupation_count (occupation_add_turns policy distance rest
              (occupation_map_count policy turn1.mapped_robust_point map)).1 key) := by
        by_cases hk : key = turn1.mapped_robust_point
        · subst hk
          simp [hc1]
          omega
        · have hk2 : ¬ turn1.mapped_robust_point = key := fun h => hk h.symm
          simp [hk, hk2]
      simp only [harith]
    · rename_i hc
      have h := ih map base hmap key
      simp only [occupation_count_cons, hc, false_and, if_false, Nat.zero_add]
      exact h

/-- Step 3 of `get_occupation` keeps the keys of the occupation map. -/
theorem occupation_add_angles_keys (policy : occupation_policy P F A L)
    (pieces : List (piece P F)) (turns : List (buffer_turn_info P F)) :
    ∀ (index : Int) (map : List (robust_point_type × occupation_info A)),
      (occupation_add_angles policy pieces turns index map).2.map Prod.fst
        = map.map Prod.fst := by
  induction turns with
  | nil => intro index map; rfl
  | cons turn rest ih =>
    intro index map
    rw [occupation_add_angles]
    split
    · simp only [ih, occupation_map_set_keys]
    · simp only [ih]

/-- Whether a key is found depends on the keys only. -/
theorem occupation_map_find_isSome (map : List (robust_point_type × occupation_info A))
    (key : robust_point_type) :
    (occupation_map_find map key).isSome = decide (key ∈ map.map Prod.fst) := by
  cases h : occupation_map_find map key with
  | none =>
    have := (occupation_map_find_eq_none map key).mp h
    simp [this]
  | some info =>
    have hmem : key ∈ map.map Prod.fst :=
      List.mem_map.mpr ⟨(key, info), mem_of_occupation_map_find map key info h, rfl⟩
    simp [hmem]

/-- Step 3 of `get_occupation` on the turns: `count_on_multi` is incremented for the turns whose
mapped robust point is a key of the occupation map. -/
theorem occupation_add_angles_turns (policy : occupation_policy P F A L)
    (pieces : List (piece P F)) (turns : List (buffer_turn_info P F)) :
    ∀ (index : Int) (map : List (robust_point_type × occupation_info A)),
      (occupation_add_angles policy pieces turns index map).1
        = turns.map fun turn =>
            if (occupation_map_find map turn.mapped_robust_point).isSome then
              { turn with count_on_multi := turn.count_on_multi + 1 }
            else turn := by
  induction turns with
  | nil => intro index map; rfl
  | cons turn rest ih =>
    intro index map
    rw [occupation_add_angles]
    split
    · rename_i info hfind
      simp only [ih, List.map_cons, hfind, Option.isSome_some, if_true]
      congr 1
      apply List.map_congr_left
      intro t _
      rw [occupation_map_find_isSome, occupation_map_set_keys, ← occupation_map_find_isSome]
    · rename_i hfind
      simp only [ih, List.map_cons, hfind, Option.isSome_none, Bool.false_eq_true, if_false]

/-- An entry of the map after an assignment is an entry of the map before or the new entry. -/
theorem mem_occupation_map_set (key : robust_point_type) (value : occupation_info A)
    (map : List (robust_point_type × occupation_info A))
    (e : robust_point_type × occupation_info A) (h : e ∈ occupation_map_set key value map) :
    e ∈ map ∨ e = (key, value) := by
  induction map with
  | nil => simp [occupation_map_set] at h
  | cons e1 rest ih =>
    obtain ⟨k, info⟩ := e1
    by_cases hk : k = key
    · subst hk
      simp only [occupation_map_set, if_true, List.mem_cons] at h
      rcases h with h | h
      · exact Or.inr h
      · exact Or.inl (List.mem_cons_of_mem _ h)
    · simp only [occupation_map_set, hk, if_false, List.mem_cons] at h
      rcases h with h | h
      · exact Or.inl (h ▸ List.mem_cons_self _ _)
      · rcases ih h with h1 | h1
        · exact Or.inl (List.mem_cons_of_mem _ h1)
        · exact Or.inr h1

/-- Step 3 of `get_occupation` records at every point only positions of turns whose mapped
robust point is that point, when the functions of the policy keep their contract. -/
theorem occupation_add_angles_records (policy : occupation_policy P F A L)
    (hrecords : records_given_index policy) (pieces : List (piece P F))
    (turns : List (buffer_turn_info P F)) :
    ∀ (pre : List (buffer_turn_info P F))
      (map : List (robust_point_type × occupation_info A)),
      (∀ e ∈ map, ∀ j ∈ e.2.turns, recorded_at (pre ++ turns) e.1 j) →
      ∀ e ∈ (occupation_add_angles policy pieces turns (pre.length : Int) map).2,
        ∀ j ∈ e.2.turns, recorded_at (pre ++ turns) e.1 j := by
  induction turns with
  | nil => intro pre map h; exact h
  | cons turn rest ih =>
    intro pre map h
    have happ : pre ++ turn :: rest = (pre ++ [turn]) ++ rest := by simp
    have hlen : ((pre.length : Int) + 1) = ((pre ++ [turn]).length : Int) := by simp
    have hget : (pre ++ turn :: rest)[((pre.length : Int)).toNat]? = some turn := by
      rw [Int.toNat_ofNat, List.getElem?_append_right (Nat.le_refl _)]
      simp
    rw [occupation_add_angles]
    split
    · rename_i info hfind
      simp only
      rw [hlen, happ]
      apply ih (pre ++ [turn])
      intro e he j hj
      rw [← happ]
      rcases mem_occupation_map_set _ _ _ e he with he | he
      · exact h e he j hj
      · subst he
        simp only at hj ⊢
        rcases hrecords.2.1 _ _ _ _ _ _ _ j hj with hj | hj
        · rcases hrecords.2.1 _ _ _ _ _ _ _ j hj with hj | hj
          · exact h _ (mem_of_occupation_map_find map _ info hfind) j hj
          · subst hj
            exact ⟨by omega, turn, hget, rfl⟩
        · subst hj
          exact ⟨by omega, turn, hget, rfl⟩
    · simp only
      rw [hlen, happ]
      apply ih (pre ++ [turn])
      intro e he j hj
      rw [← happ]
      exact h e he j hj

/-- No change is a raise by zero. -/
theorem occupied_by_refl (turns : List (buffer_turn_info P F)) :
    occupied_by (fun _ => 0) turns turns :=
  ⟨rfl, fun n turn h => by simp [h]⟩

/-- Two raises in a row. -/
theorem occupied_by_trans (k1 k2 : Nat → Nat) (turns turns1 turns2 : List (buffer_turn_info P F))
    (h1 : occupied_by k1 turns turns1) (h2 : occupied_by k2 turns1 turns2) :
    occupied_by (fun n => k1 n + k2 n) turns turns2 := by
  refine ⟨h2.1.trans h1.1, ?_⟩
  intro n turn h
  rw [h2.2 n _ (h1.2 n turn h)]
  simp only [Option.some.injEq]
  congr 1
  push_cast
  omega

/-- A raise by the same numbers. -/
theorem occupied_by_congr (k1 k2 : Nat → Nat) (turns turns1 : List (buffer_turn_info P F))
    (hk : ∀ n, k1 n = k2 n) (h : occupied_by k1 turns turns1) : occupied_by k2 turns turns1 := by
  have : k1 = k2 := funext hk
  rw [← this]
  exact h

/-- The loop that blocks the turns of a cluster: every turn index lies in `m_turns`, and every
turn has its `count_on_occupied` raised by the number of times it is recorded. -/
theorem block_turns_spec : ∀ (indices : List Int) (turns turns1 : List (buffer_turn_info P F)),
    block_turns indices turns = some turns1 →
    occupied_by (fun n => indices.count (n : Int)) turns turns1 ∧
    ∀ j ∈ indices, 0 ≤ j ∧ j.toNat < turns.length := by
  intro indices
  induction indices with
  | nil =>
    intro turns turns1 h
    simp only [block_turns, Option.some.injEq] at h
    subst h
    exact ⟨by simpa using occupied_by_refl turns, by simp⟩
  | cons j rest ih =>
    intro turns turns1 h
    rw [block_turns] at h
    split at h
    · cases h
    · rename_i hj
      split at h
      · cases h
      · rename_i turn hturn
        have hlt : j.toNat < turns.length := (List.getElem?_eq_some_iff.mp hturn).1
        obtain ⟨hocc, hvalid⟩ := ih _ _ h
        refine ⟨⟨by simpa using hocc.1, ?_⟩, ?_⟩
        · intro n t hn
          by_cases hnj : n = j.toNat
          · subst hnj
            have hjn : ((j.toNat : Nat) : Int) = j := by omega
            rw [hturn] at hn
            cases hn
            rw [hocc.2 j.toNat _ (List.getElem?_set_self hlt)]
            simp only [Option.some.injEq, List.count_cons, hjn, beq_self_eq_true, if_true]
            have hcast : turn.count_on_occupied + 1 + ((List.count j rest : Nat) : Int)
                = turn.count_on_occupied + ((List.count j rest + 1 : Nat) : Int) := by
              push_cast
              omega
            rw [hcast]
          · have hjn : ¬ (j = (n : Int)) := by omega
            have hjn2 : (j == (n : Int)) = false := by simpa using hjn
            rw [hocc.2 n t (by rw [List.getElem?_set_ne (fun h => hnj h.symm)]; exact hn)]
            simp [List.count_cons, hjn2]
        · intro i hi
          rcases List.mem_cons.mp hi with hi | hi
          · subst hi
            exact ⟨by omega, hlt⟩
          · have := hvalid i hi
            simpa using this

/-- The loop that blocks the turns of a cluster has a result when every turn index lies in
`m_turns`. -/
theorem block_turns_some : ∀ (indices : List Int) (turns : List (buffer_turn_info P F)),
    (∀ j ∈ indices, 0 ≤ j ∧ j.toNat < turns.length) →
    ∃ turns1, block_turns indices turns = some turns1 := by
  intro indices
  induction indices with
  | nil => intro turns _; exact ⟨turns, rfl⟩
  | cons j rest ih =>
    intro turns h
    have hj := h j (List.mem_cons_self _ _)
    obtain ⟨turn, hturn⟩ : ∃ turn, turns[j.toNat]? = some turn :=
      ⟨_, List.getElem?_eq_getElem hj.2⟩
    have hneg : ¬ j < 0 := by omega
    rw [block_turns]
    simp only [hneg, if_false, hturn]
    apply ih
    intro i hi
    have := h i (List.mem_cons_of_mem _ hi)
    simpa using this

/-- The loop that looks for a blocked turn of a cluster, when it has a result: the result is
whether a recorded turn is blocked, and when none is, every turn index lies in `m_turns`. -/
theorem any_turn_blocked_spec (policy : occupation_policy P F A L)
    (turns : List (buffer_turn_info P F)) :
    ∀ (indices : List Int) (b : Bool),
      any_turn_blocked policy.blocked turns indices = some b →
      b = cluster_blocked policy turns indices ∧
      (b = false → ∀ j ∈ indices, 0 ≤ j ∧ j.toNat < turns.length) := by
  intro indices
  induction indices with
  | nil =>
    intro b h
    simp only [any_turn_blocked, Option.some.injEq] at h
    subst h
    simp [cluster_blocked]
  | cons j rest ih =>
    intro b h
    rw [any_turn_blocked] at h
    split at h
    · cases h
    · rename_i hj
      split at h
      · cases h
      · rename_i turn hturn
        have hlt : j.toNat < turns.length := (List.getElem?_eq_some_iff.mp hturn).1
        have hj0 : 0 ≤ j := by omega
        split at h
        · rename_i hb
          cases h
          simp [cluster_blocked, hj0, hturn, hb]
        · rename_i hb
          obtain ⟨h1, h2⟩ := ih b h
          refine ⟨?_, ?_⟩
          · rw [h1]
            simp [cluster_blocked, hj0, hturn, hb]
          · intro hfalse i hi
            rcases List.mem_cons.mp hi with hi | hi
            · subst hi
              exact ⟨hj0, hlt⟩
            · exact h2 hfalse i hi

/-- The loop that looks for a blocked turn of a cluster has a result when every turn index
lies in `m_turns`. -/
theorem any_turn_blocked_some (blocked : buffer_turn_info P F → Bool)
    (turns : List (buffer_turn_info P F)) :
    ∀ indices : List Int, (∀ j ∈ indices, 0 ≤ j ∧ j.toNat < turns.length) →
      ∃ b, any_turn_blocked blocked turns indices = some b := by
  intro indices
  induction indices with
  | nil => intro _; exact ⟨false, rfl⟩
  | cons j rest ih =>
    intro h
    have hj := h j (List.mem_cons_self _ _)
    obtain ⟨turn, hturn⟩ : ∃ turn, turns[j.toNat]? = some turn :=
      ⟨_, List.getElem?_eq_getElem hj.2⟩
    have hneg : ¬ j < 0 := by omega
    rw [any_turn_blocked]
    simp only [hneg, if_false, hturn]
    split
    · exact ⟨true, rfl⟩
    · exact ih (fun i hi => h i (List.mem_cons_of_mem _ hi))

/-- Whether a cluster has a blocked turn does not depend on `count_on_occupied`. -/
theorem cluster_blocked_of_occupied_by (policy : occupation_policy P F A L)
    (hstable : blocked_is_stable policy) (k : Nat → Nat)
    (turns turns1 : List (buffer_turn_info P F)) (h : occupied_by k turns turns1)
    (indices : List Int) :
    cluster_blocked policy turns1 indices = cluster_blocked policy turns indices := by
  unfold cluster_blocked
  congr 1
  funext j
  congr 1
  cases hj : turns[j.toNat]? with
  | none =>
    have hlen : turns.length ≤ j.toNat := by
      rcases Nat.lt_or_ge j.toNat turns.length with hlt | hge
      · rw [List.getElem?_eq_getElem hlt] at hj
        cases hj
      · exact hge
    rw [List.getElem?_eq_none (by rw [h.1]; exact hlen)]
  | some turn =>
    rw [h.2 _ turn hj]
    simp only
    have := hstable turn turn.mapped_robust_point turn.count_on_multi
      (turn.count_on_occupied + (k j.toNat : Int))
    simpa using this

/-- The loop that blocks the clusters with a blocked turn, when it has a result: every turn has
its `count_on_occupied` raised by the number of times it is recorded in such a cluster, and
every recorded turn index lies in `m_turns`. -/
theorem propagate_blocked_spec (policy : occupation_policy P F A L)
    (hstable : blocked_is_stable policy) (turns0 : List (buffer_turn_info P F)) :
    ∀ (map : List (robust_point_type × occupation_info A))
      (turns turns1 : List (buffer_turn_info P F)) (k0 : Nat → Nat),
      occupied_by k0 turns0 turns → propagate_blocked policy map turns = some turns1 →
      occupied_by (fun n => k0 n + propagated_count policy turns0 map n) turns0 turns1 ∧
      ∀ e ∈ map, ∀ j ∈ e.2.turns, 0 ≤ j ∧ j.toNat < turns0.length := by
  intro map
  induction map with
  | nil =>
    intro turns turns1 k0 h0 h
    simp only [propagate_blocked, Option.some.injEq] at h
    subst h
    exact ⟨by simpa [propagated_count] using h0, by simp⟩
  | cons e rest ih =>
    obtain ⟨key, info⟩ := e
    intro turns turns1 k0 h0 h
    rw [propagate_blocked] at h
    cases hany : any_turn_blocked policy.blocked turns info.turns with
    | none => simp [hany] at h
    | some b =>
      obtain ⟨hb, hvalid⟩ := any_turn_blocked_spec policy turns info.turns b hany
      rw [cluster_blocked_of_occupied_by policy hstable k0 turns0 turns h0] at hb
      cases b with
      | true =>
        simp only [hany] at h
        cases hblock : block_turns info.turns turns with
        | none => simp [hblock] at h
        | some turns2 =>
          simp only [hblock] at h
          obtain ⟨hocc, hval⟩ := block_turns_spec info.turns turns turns2 hblock
          obtain ⟨h1, h2⟩ := ih turns2 turns1 _ (occupied_by_trans _ _ _ _ _ h0 hocc) h
          refine ⟨occupied_by_congr _ _ _ _ ?_ h1, ?_⟩
          · intro n
            simp only [propagated_count, ← hb, if_true]
            omega
          · intro e he j hj
            rcases List.mem_cons.mp he with he | he
            · subst he
              have := hval j hj
              rw [h0.1] at this
              exact this
            · exact h2 e he j hj
      | false =>
        simp only [hany] at h
        obtain ⟨h1, h2⟩ := ih turns turns1 k0 h0 h
        refine ⟨occupied_by_congr _ _ _ _ ?_ h1, ?_⟩
        · intro n
          simp only [propagated_count, ← hb, Bool.false_eq_true, if_false]
          omega
        · intro e he j hj
          rcases List.mem_cons.mp he with he | he
          · subst he
            have := hvalid rfl j hj
            rw [h0.1] at this
            exact this
          · exact h2 e he j hj

/-- The loop that blocks the clusters with a blocked turn has a result when every recorded turn
index lies in `m_turns`. -/
theorem propagate_blocked_some (policy : occupation_policy P F A L) :
    ∀ (map : List (robust_point_type × occupation_info A))
      (turns : List (buffer_turn_info P F)),
      (∀ e ∈ map, ∀ j ∈ e.2.turns, 0 ≤ j ∧ j.toNat < turns.length) →
      ∃ turns1, propagate_blocked policy map turns = some turns1 ∧
        turns1.length = turns.length := by
  intro map
  induction map with
  | nil => intro turns _; exact ⟨turns, rfl, rfl⟩
  | cons e rest ih =>
    obtain ⟨key, info⟩ := e
    intro turns h
    have hinfo := h (key, info) (List.mem_cons_self _ _)
    obtain ⟨b, hb⟩ := any_turn_blocked_some policy.blocked turns info.turns hinfo
    rw [propagate_blocked]
    cases b with
    | true =>
      obtain ⟨turns2, h2⟩ := block_turns_some info.turns turns hinfo
      have hlen := (block_turns_spec info.turns turns turns2 h2).1.1
      simp only [hb, h2]
      obtain ⟨turns1, h1, hl⟩ := ih turns2 (fun e he j hj => by
        rw [hlen]
        exact h e (List.mem_cons_of_mem _ he) j hj)
      exact ⟨turns1, h1, hl.trans hlen⟩
    | false =>
      simp only [hb]
      exact ih turns (fun e he j hj => h e (List.mem_cons_of_mem _ he) j hj)

/-- Step 4 of `get_occupation`, when it has a result: every turn has its `count_on_occupied`
raised by the number of times it is recorded in a cluster without left turns, and the turn
indices recorded in such a cluster lie in `m_turns`. -/
theorem block_without_left_turns_spec (policy : occupation_policy P F A L) :
    ∀ (map : List (robust_point_type × occupation_info A))
      (turns turns1 : List (buffer_turn_info P F)),
      block_without_left_turns policy map turns = some turns1 →
      occupied_by (left_blocked_count policy map) turns turns1 ∧
      ∀ e ∈ map, (policy.get_left_turns e.2 e.1).2.isEmpty = true →
        ∀ j ∈ (policy.get_left_turns e.2 e.1).1.turns, 0 ≤ j ∧ j.toNat < turns.length := by
  intro map
  induction map with
  | nil =>
    intro turns turns1 h
    simp only [block_without_left_turns, Option.some.injEq] at h
    subst h
    exact ⟨by simpa [left_blocked_count] using occupied_by_refl turns, by simp⟩
  | cons e rest ih =>
    obtain ⟨key, info⟩ := e
    intro turns turns1 h
    rw [block_without_left_turns] at h
    by_cases hleft : (policy.get_left_turns info key).2.isEmpty = true
    · simp only [hleft, if_true] at h
      cases hblock : block_turns (policy.get_left_turns info key).1.turns turns with
      | none => simp [hblock] at h
      | some turns2 =>
        simp only [hblock] at h
        obtain ⟨hocc, hval⟩ := block_turns_spec _ turns turns2 hblock
        obtain ⟨h1, h2⟩ := ih turns2 turns1 h
        refine ⟨occupied_by_congr _ _ _ _ ?_ (occupied_by_trans _ _ _ _ _ hocc h1), ?_⟩
        · intro n
          simp only [left_blocked_count, hleft, if_true]
        · intro e he hle j hj
          rcases List.mem_cons.mp he with he | he
          · subst he
            exact hval j hj
          · have := h2 e he hle j hj
            rw [hocc.1] at this
            exact this
    · simp only [hleft, if_false] at h
      obtain ⟨h1, h2⟩ := ih turns turns1 h
      refine ⟨occupied_by_congr _ _ _ _ ?_ h1, ?_⟩
      · intro n
        simp only [left_blocked_count, hleft, Bool.false_eq_true, if_false]
        omega
      · intro e he hle j hj
        rcases List.mem_cons.mp he with he | he
        · subst he
          exact absurd hle hleft
        · exact h2 e he hle j hj

/-- Step 4 of `get_occupation` has a result when every turn index recorded in a cluster
without left turns lies in `m_turns`. -/
theorem block_without_left_turns_some (policy : occupation_policy P F A L) :
    ∀ (map : List (robust_point_type × occupation_info A))
      (turns : List (buffer_turn_info P F)),
      (∀ e ∈ map, ∀ j ∈ (policy.get_left_turns e.2 e.1).1.turns,
        0 ≤ j ∧ j.toNat < turns.length) →
      ∃ turns1, block_without_left_turns policy map turns = some turns1 := by
  intro map
  induction map with
  | nil => intro turns _; exact ⟨turns, rfl⟩
  | cons e rest ih =>
    obtain ⟨key, info⟩ := e
    intro turns h
    rw [block_without_left_turns]
    by_cases hleft : (policy.get_left_turns info key).2.isEmpty = true
    · obtain ⟨turns2, h2⟩ := block_turns_some _ turns
        (h (key, info) (List.mem_cons_self _ _))
      have hlen := (block_turns_spec _ turns turns2 h2).1.1
      simp only [hleft, if_true, h2]
      exact ih turns2 (fun e he j hj => by
        rw [hlen]
        exact h e (List.mem_cons_of_mem _ he) j hj)
    · simp only [hleft, if_false]
      exact ih turns (fun e he j hj => h e (List.mem_cons_of_mem _ he) j hj)

/-- The clusters of a call of `get_occupation` have the keys left by step 2. -/
theorem occupation_pass_keys (policy : occupation_policy P F A L) (distance : Int)
    (c : buffered_piece_collection P F) :
    (occupation_pass policy distance c).2.map Prod.fst
      = (occupation_erase_single
          (occupation_add_turns policy distance c.m_turns []).2).map Prod.fst := by
  unfold occupation_pass
  simp only
  split
  · rename_i h
    simp only [List.isEmpty_iff] at h
    simp [h]
  · exact occupation_add_angles_keys policy c.m_pieces _ 0 _

/-- The clusters of a call of `get_occupation` hold every key once. -/
theorem occupation_pass_nodup (policy : occupation_policy P F A L) (distance : Int)
    (c : buffered_piece_collection P F) :
    ((occupation_pass policy distance c).2.map Prod.fst).Nodup := by
  rw [occupation_pass_keys]
  exact occupation_erase_single_nodup _
    (occupation_add_turns_nodup policy distance c.m_turns [] (by simp))

/-- The turns after steps 1 to 3 of a call of `get_occupation`: the turns after step 1, with
`count_on_multi` incremented for the turns whose mapped robust point is the point of a
cluster. -/
theorem occupation_pass_turns (policy : occupation_policy P F A L) (distance : Int)
    (c : buffered_piece_collection P F) :
    (occupation_pass policy distance c).1
      = (occupation_add_turns policy distance c.m_turns []).1.map fun turn =>
          if (occupation_map_find (occupation_pass policy distance c).2
              turn.mapped_robust_point).isSome then
            { turn with count_on_multi := turn.count_on_multi + 1 }
          else turn := by
  have hkeys := occupation_pass_keys policy distance c
  unfold occupation_pass at hkeys ⊢
  simp only at hkeys ⊢
  split
  · simp [occupation_map_find]
  · rename_i h
    simp only [h, if_false, Bool.false_eq_true] at hkeys
    rw [occupation_add_angles_turns]
    apply List.map_congr_left
    intro t _
    rw [occupation_map_find_isSome, occupation_map_find_isSome, hkeys]

/-- What is found among the clusters of a call of `get_occupation`, as far as the count that
step 1 has made decides it: a point is the point of a cluster exactly when the count of the
default-constructed data, raised by the number of the turns counted at the point, is above
one. -/
theorem occupation_pass_find_isSome (policy : occupation_policy P F A L) (distance : Int)
    (c : buffered_piece_collection P F) (key : robust_point_type) :
    (occupation_map_find (occupation_pass policy distance c).2 key).isSome
      = (decide (occupation_count (occupation_add_turns policy distance c.m_turns []).1 key ≠ 0)
          && ! decide (policy.default_info.count
            + (occupation_count (occupation_add_turns policy distance c.m_turns []).1 key : Int)
              ≤ 1)) := by
  rw [occupation_map_find_isSome, occupation_pass_keys, ← occupation_map_find_isSome,
    occupation_map_find_erase_single _
      (occupation_add_turns_nodup policy distance c.m_turns [] (by simp))]
  have h := occupation_add_turns_find policy distance c.m_turns [] (fun _ => 0)
    (by intro key; simp [occupation_map_find]) key
  simp only [Nat.zero_add] at h
  rw [h]
  by_cases h0 : occupation_count (occupation_add_turns policy distance c.m_turns []).1 key = 0
  · simp [h0, Option.filter]
  · by_cases h1 : policy.default_info.count
        + (occupation_count (occupation_add_turns policy distance c.m_turns []).1 key : Int) ≤ 1
    · simp [h0, h1, Option.filter]
    · simp [h0, h1, Option.filter]

/-- The clusters of a call of `get_occupation` record at every point only positions of turns
whose mapped robust point is that point, when the functions of the policy keep their
contract. -/
theorem occupation_pass_records (policy : occupation_policy P F A L)
    (hrecords : records_given_index policy) (distance : Int)
    (c : buffered_piece_collection P F) :
    ∀ e ∈ (occupation_pass policy distance c).2, ∀ j ∈ e.2.turns,
      recorded_at (occupation_pass policy distance c).1 e.1 j := by
  have hturns := occupation_pass_turns policy distance c
  have hstart : ∀ e ∈ occupation_erase_single
      (occupation_add_turns policy distance c.m_turns []).2, ∀ j ∈ e.2.turns,
      recorded_at ([] ++ (occupation_add_turns policy distance c.m_turns []).1) e.1 j := by
    intro e he j hj
    have hmem : e ∈ (occupation_add_turns policy distance c.m_turns []).2 :=
      (List.filter_sublist _).subset he
    have hfind := occupation_map_find_of_mem _
      (occupation_add_turns_nodup policy distance c.m_turns [] (by simp)) e.1 e.2 hmem
    have h := occupation_add_turns_find policy distance c.m_turns [] (fun _ => 0)
      (by intro key; simp [occupation_map_find]) e.1
    rw [hfind] at h
    split at h
    · cases h
    · simp only [Option.some.injEq] at h
      rw [h] at hj
      simp [hrecords.1] at hj
  have hrec : ∀ e ∈ (occupation_pass policy distance c).2, ∀ j ∈ e.2.turns,
      recorded_at (occupation_add_turns policy distance c.m_turns []).1 e.1 j := by
    unfold occupation_pass
    simp only
    split
    · simp
    · have := occupation_add_angles_records policy hrecords c.m_pieces
        (occupation_add_turns policy distance c.m_turns []).1 [] _ hstart
      simpa using this
  intro e he j hj
  obtain ⟨h0, turn, hturn, hkey⟩ := hrec e he j hj
  refine ⟨h0, ?_⟩
  rw [hturns, List.getElem?_map, hturn]
  simp only [Option.map_some', Option.some.injEq, exists_eq_left']
  split <;> exact hkey

/-- A call of `get_occupation` that returns without a call of itself: its result is the result
of the last two loops on the turns and clusters left by steps 1 to 3, and it changes nothing
but the turns. -/
theorem occupation_finish_of_returned (policy : occupation_policy P F A L) (fuel : Nat)
    (distance : Int) (c c1 : buffered_piece_collection P F)
    (hrun : get_occupation policy fuel distance c = (occupation_outcome.returned c1, [])) :
    occupation_retries policy distance c = false ∧
    occupation_finish policy (occupation_pass policy distance c) = some c1.m_turns ∧
    c1 = { c with m_turns := c1.m_turns } := by
  cases fuel with
  | zero => simp [get_occupation] at hrun
  | succ fuel =>
    rw [get_occupation_succ] at hrun
    cases hretry : occupation_retries policy distance c with
    | true => simp [hretry] at hrun
    | false =>
      simp only [hretry, Bool.false_eq_true, if_false, Prod.mk.injEq, and_true] at hrun
      cases hfinish : occupation_finish policy (occupation_pass policy distance c) with
      | none => simp [hfinish] at hrun
      | some m_turns =>
        simp only [hfinish, occupation_outcome.returned.injEq] at hrun
        subst hrun
        exact ⟨rfl, rfl, rfl⟩

/-- A turn that no cluster with a blocked turn records is not counted. -/
theorem propagated_count_eq_zero (policy : occupation_policy P F A L)
    (turns : List (buffer_turn_info P F)) (n : Nat) :
    ∀ map : List (robust_point_type × occupation_info A),
      (∀ e ∈ map, (n : Int) ∈ e.2.turns → cluster_blocked policy turns e.2.turns = false) →
      propagated_count policy turns map n = 0 := by
  intro map
  induction map with
  | nil => intro _; rfl
  | cons e rest ih =>
    obtain ⟨key, info⟩ := e
    intro h
    have hrest := ih (fun e he => h e (List.mem_cons_of_mem _ he))
    simp only [propagated_count, hrest, Nat.add_zero]
    by_cases hmem : (n : Int) ∈ info.turns
    · simp [h (key, info) (List.mem_cons_self _ _) hmem]
    · simp [List.count_eq_zero_of_not_mem hmem]

/-- A turn recorded in a cluster with a blocked turn is counted. -/
theorem propagated_count_pos (policy : occupation_policy P F A L)
    (turns : List (buffer_turn_info P F)) (n : Nat) :
    ∀ map : List (robust_point_type × occupation_info A),
      (∃ e ∈ map, (n : Int) ∈ e.2.turns ∧ cluster_blocked policy turns e.2.turns = true) →
      1 ≤ propagated_count policy turns map n := by
  intro map
  induction map with
  | nil => rintro ⟨e, he, _⟩; simp at he
  | cons e1 rest ih =>
    obtain ⟨key, info⟩ := e1
    rintro ⟨e, he, hn, hb⟩
    rcases List.mem_cons.mp he with he | he
    · subst he
      have := List.one_le_count_iff.mpr hn
      simp only [propagated_count, hb, if_true]
      simp only at this
      omega
    · have := ih ⟨e, he, hn, hb⟩
      simp only [propagated_count]
      omega

/-- A turn that no cluster without left turns records after `get_left_turns` is not counted. -/
theorem left_blocked_count_eq_zero (policy : occupation_policy P F A L) (n : Nat) :
    ∀ map : List (robust_point_type × occupation_info A),
      (∀ e ∈ map, (n : Int) ∈ (policy.get_left_turns e.2 e.1).1.turns →
        (policy.get_left_turns e.2 e.1).2.isEmpty = false) →
      left_blocked_count policy map n = 0 := by
  intro map
  induction map with
  | nil => intro _; rfl
  | cons e rest ih =>
    obtain ⟨key, info⟩ := e
    intro h
    have hrest := ih (fun e he => h e (List.mem_cons_of_mem _ he))
    simp only [left_blocked_count, hrest, Nat.add_zero]
    by_cases hmem : (n : Int) ∈ (policy.get_left_turns info key).1.turns
    · simp [h (key, info) (List.mem_cons_self _ _) hmem]
    · simp [List.count_eq_zero_of_not_mem hmem]

/-- A turn recorded in a cluster without left turns is counted. -/
theorem left_blocked_count_pos (policy : occupation_policy P F A L) (n : Nat) :
    ∀ map : List (robust_point_type × occupation_info A),
      (∃ e ∈ map, (n : Int) ∈ (policy.get_left_turns e.2 e.1).1.turns ∧
        (policy.get_left_turns e.2 e.1).2.isEmpty = true) →
      1 ≤ left_blocked_count policy map n := by
  intro map
  induction map with
  | nil => rintro ⟨e, he, _⟩; simp at he
  | cons e1 rest ih =>
    obtain ⟨key, info⟩ := e1
    rintro ⟨e, he, hn, hb⟩
    rcases List.mem_cons.mp he with he | he
    · subst he
      have := List.one_le_count_iff.mpr hn
      simp only [left_blocked_count, hb, if_true]
      simp only at this
      omega
    · have := ih ⟨e, he, hn, hb⟩
      simp only [left_blocked_count]
      omega

/-- The loop that blocks the clusters with a blocked turn, whatever `blocked()` reads: the turns
that no cluster records are left as they are, and no `count_on_occupied` is lowered. -/
theorem propagate_blocked_bound (policy : occupation_policy P F A L) :
    ∀ (map : List (robust_point_type × occupation_info A))
      (turns turns1 : List (buffer_turn_info P F)),
      propagate_blocked policy map turns = some turns1 →
      ∃ k : Nat → Nat, occupied_by k turns turns1 ∧
        ∀ n : Nat, (∀ e ∈ map, (n : Int) ∉ e.2.turns) → k n = 0 := by
  intro map
  induction map with
  | nil =>
    intro turns turns1 h
    simp only [propagate_blocked, Option.some.injEq] at h
    subst h
    exact ⟨fun _ => 0, occupied_by_refl turns, fun _ _ => rfl⟩
  | cons e rest ih =>
    obtain ⟨key, info⟩ := e
    intro turns turns1 h
    rw [propagate_blocked] at h
    cases hany : any_turn_blocked policy.blocked turns info.turns with
    | none => simp [hany] at h
    | some b =>
      cases b with
      | true =>
        simp only [hany] at h
        cases hblock : block_turns info.turns turns with
        | none => simp [hblock] at h
        | some turns2 =>
          simp only [hblock] at h
          obtain ⟨hocc, _⟩ := block_turns_spec info.turns turns turns2 hblock
          obtain ⟨k, hk, hzero⟩ := ih turns2 turns1 h
          refine ⟨_, occupied_by_trans _ _ _ _ _ hocc hk, ?_⟩
          intro n hn
          have h1 : List.count (n : Int) info.turns = 0 :=
            List.count_eq_zero_of_not_mem (hn (key, info) (List.mem_cons_self _ _))
          have h2 := hzero n (fun e he => hn e (List.mem_cons_of_mem _ he))
          simp only [h1, h2]
      | false =>
        simp only [hany] at h
        obtain ⟨k, hk, hzero⟩ := ih turns turns1 h
        exact ⟨k, hk, fun n hn => hzero n (fun e he => hn e (List.mem_cons_of_mem _ he))⟩

/-- The two loops `get_occupation` ends with, when they have a result and `blocked()` does not
read what `get_occupation` writes: every turn has its `count_on_occupied` raised by the number
of times it is recorded in a cluster with a blocked turn, and in a cluster without left
turns. -/
theorem occupation_finish_spec (policy : occupation_policy P F A L)
    (hstable : blocked_is_stable policy)
    (r : List (buffer_turn_info P F) × List (robust_point_type × occupation_info A))
    (turns1 : List (buffer_turn_info P F)) (h : occupation_finish policy r = some turns1) :
    ∃ turns5, propagate_blocked policy r.2 r.1 = some turns5 ∧
      block_without_left_turns policy r.2 turns5 = some turns1 ∧
      occupied_by (propagated_count policy r.1 r.2) r.1 turns5 ∧
      occupied_by (left_blocked_count policy r.2) turns5 turns1 ∧
      occupied_by (fun n => propagated_count policy r.1 r.2 n + left_blocked_count policy r.2 n)
        r.1 turns1 ∧
      (∀ e ∈ r.2, ∀ j ∈ e.2.turns, 0 ≤ j ∧ j.toNat < r.1.length) := by
  unfold occupation_finish at h
  cases h5 : propagate_blocked policy r.2 r.1 with
  | none => simp [h5] at h
  | some turns5 =>
    simp only [h5, Option.some_bind] at h
    obtain ⟨hp, hvalid⟩ := propagate_blocked_spec policy hstable r.1 r.2 r.1 turns5
      (fun _ => 0) (occupied_by_refl r.1) h5
    have hp1 : occupied_by (propagated_count policy r.1 r.2) r.1 turns5 :=
      occupied_by_congr _ _ _ _ (fun n => by simp) hp
    obtain ⟨hl, _⟩ := block_without_left_turns_spec policy r.2 turns5 turns1 h
    exact ⟨turns5, rfl, h, hp1, hl, occupied_by_trans _ _ _ _ _ hp1 hl, hvalid⟩

/-- The two loops `get_occupation` ends with, when they have a result, whatever `blocked()`
reads: the first loop raises `count_on_occupied` only of turns that a cluster records, the
second raises it by the number of times the turn is recorded in a cluster without left
turns. -/
theorem occupation_finish_bound (policy : occupation_policy P F A L)
    (r : List (buffer_turn_info P F) × List (robust_point_type × occupation_info A))
    (turns1 : List (buffer_turn_info P F)) (h : occupation_finish policy r = some turns1) :
    ∃ (turns5 : List (buffer_turn_info P F)) (k : Nat → Nat),
      propagate_blocked policy r.2 r.1 = some turns5 ∧
      block_without_left_turns policy r.2 turns5 = some turns1 ∧
      occupied_by k r.1 turns5 ∧
      (∀ n : Nat, (∀ e ∈ r.2, (n : Int) ∉ e.2.turns) → k n = 0) ∧
      occupied_by (left_blocked_count policy r.2) turns5 turns1 ∧
      (∀ e ∈ r.2, (policy.get_left_turns e.2 e.1).2.isEmpty = true →
        ∀ j ∈ (policy.get_left_turns e.2 e.1).1.turns, 0 ≤ j ∧ j.toNat < r.1.length) := by
  unfold occupation_finish at h
  cases h5 : propagate_blocked policy r.2 r.1 with
  | none => simp [h5] at h
  | some turns5 =>
    simp only [h5, Option.some_bind] at h
    obtain ⟨k, hk, hzero⟩ := propagate_blocked_bound policy r.2 r.1 turns5 h5
    obtain ⟨hl, hvalid⟩ := block_without_left_turns_spec policy r.2 turns5 turns1 h
    refine ⟨turns5, k, rfl, h, hk, hzero, hl, ?_⟩
    intro e he hle j hj
    have := hvalid e he hle j hj
    rw [hk.1] at this
    exact this

/-- The two loops `get_occupation` ends with have a result when every recorded turn index lies
in `m_turns`. -/
theorem occupation_finish_some (policy : occupation_policy P F A L)
    (r : List (buffer_turn_info P F) × List (robust_point_type × occupation_info A))
    (h1 : ∀ e ∈ r.2, ∀ j ∈ e.2.turns, 0 ≤ j ∧ j.toNat < r.1.length)
    (h2 : ∀ e ∈ r.2, ∀ j ∈ (policy.get_left_turns e.2 e.1).1.turns,
      0 ≤ j ∧ j.toNat < r.1.length) :
    ∃ turns1, occupation_finish policy r = some turns1 := by
  obtain ⟨turns5, h5, hlen⟩ := propagate_blocked_some policy r.2 r.1 h1
  obtain ⟨turns1, h4⟩ := block_without_left_turns_some policy r.2 turns5 (by
    intro e he j hj
    rw [hlen]
    exact h2 e he j hj)
  exact ⟨turns1, by simp [occupation_finish, h5, h4]⟩

/-- Steps 1 to 3 of a call of `get_occupation`, turn by turn: the turn after step 1, with
`count_on_multi` incremented when its mapped robust point is the point of a cluster. -/
theorem occupation_pass_pointwise (policy : occupation_policy P F A L) (distance : Int)
    (c : buffered_piece_collection P F) :
    turns_pointwise
      (fun turn turn3 => ∃ turn1, adapted distance turn turn1 ∧
        turn3 = if (occupation_map_find (occupation_pass policy distance c).2
            turn1.mapped_robust_point).isSome then
          { turn1 with count_on_multi := turn1.count_on_multi + 1 }
        else turn1)
      c.m_turns (occupation_pass policy distance c).1 := by
  rw [occupation_pass_turns]
  exact turns_pointwise_trans _ _ _ _ _ _ (fun a b c1 hab hbc => ⟨b, hab, hbc⟩)
    (occupation_add_turns_pointwise policy distance c.m_turns [])
    (turns_pointwise_map _ _)

/-- Steps 1 to 3 of a call of `get_occupation` write nothing but `mapped_robust_point` and
`count_on_multi`. -/
theorem occupation_pass_frame (policy : occupation_policy P F A L) (distance : Int)
    (c : buffered_piece_collection P F) :
    turns_pointwise
      (fun turn turn3 => turn3 = { turn with
        mapped_robust_point := turn3.mapped_robust_point,
        count_on_multi := turn3.count_on_multi })
      c.m_turns (occupation_pass policy distance c).1 := by
  refine turns_pointwise_mono _ _ _ _ ?_ (occupation_pass_pointwise policy distance c)
  rintro a b ⟨t1, had, hb⟩
  have h1 : t1 = { a with mapped_robust_point := t1.mapped_robust_point } := by
    rcases had with h | ⟨_, _, rp, _, h⟩
    · rw [h]
    · rw [h]
  rw [hb]
  split
  · simp only
    rw [h1]
  · rw [h1]

/-- Whether the recorded turns have a blocked turn among them is the same before and after
steps 1 to 3 of a call of `get_occupation`. -/
theorem cluster_blocked_pass (policy : occupation_policy P F A L)
    (hstable : blocked_is_stable policy) (distance : Int) (c : buffered_piece_collection P F)
    (indices : List Int) :
    cluster_blocked policy (occupation_pass policy distance c).1 indices
      = cluster_blocked policy c.m_turns indices := by
  have hframe := occupation_pass_frame policy distance c
  unfold cluster_blocked
  congr 1
  funext j
  congr 1
  cases hj : c.m_turns[j.toNat]? with
  | none =>
    have hlen : c.m_turns.length ≤ j.toNat := by
      rcases Nat.lt_or_ge j.toNat c.m_turns.length with hlt | hge
      · rw [List.getElem?_eq_getElem hlt] at hj
        cases hj
      · exact hge
    rw [List.getElem?_eq_none (by rw [hframe.1]; exact hlen)]
  | some turn =>
    obtain ⟨turn3, h3, heq⟩ := hframe.2 _ turn hj
    rw [h3]
    simp only
    rw [heq]
    have := hstable turn turn3.mapped_robust_point turn3.count_on_multi turn.count_on_occupied
    simpa using this

/-- C24: in a call of `get_occupation` that returns without calling itself, for every cluster
for which `get_left_turns` gives no turn to keep, the final loop increments `count_on_occupied`
of every turn recorded in the cluster: the turn is raised by the number of times it is recorded
in such clusters, at least by one, so that `count_on_occupied` is at least one afterwards,
when no `count_on_occupied` was negative before, and `classify_inside` then gives the turn the
location `inside_buffer`. -/
theorem block_without_left_turns_blocks (policy : occupation_policy P F A L) (fuel : Nat)
    (distance : Int) (c c1 : buffered_piece_collection P F)
    (hrun : get_occupation policy fuel distance c = (occupation_outcome.returned c1, []))
    (hcount : ∀ turn ∈ c.m_turns, 0 ≤ turn.count_on_occupied) :
    ∃ m_turns5,
      propagate_blocked policy (occupation_pass policy distance c).2
        (occupation_pass policy distance c).1 = some m_turns5 ∧
      block_without_left_turns policy (occupation_pass policy distance c).2 m_turns5
        = some c1.m_turns ∧
      ∀ e ∈ (occupation_pass policy distance c).2,
        (policy.get_left_turns e.2 e.1).2.isEmpty = true →
        ∀ j ∈ (policy.get_left_turns e.2 e.1).1.turns,
          0 ≤ j ∧ ∃ turn5 turn1 turn2,
            m_turns5[j.toNat]? = some turn5 ∧ c1.m_turns[j.toNat]? = some turn1 ∧
            turn1 = { turn5 with count_on_occupied := turn5.count_on_occupied
              + (left_blocked_count policy (occupation_pass policy distance c).2 j.toNat :
                Nat) } ∧
            1 ≤ left_blocked_count policy (occupation_pass policy distance c).2 j.toNat ∧
            1 ≤ turn1.count_on_occupied ∧
            (classify_inside c1).m_turns[j.toNat]? = some turn2 ∧
            turn2.location = intersection_location_type.inside_buffer := by
  obtain ⟨_, hfinish, _⟩ := occupation_finish_of_returned policy fuel distance c c1 hrun
  obtain ⟨turns5, k, h5, h4, hk, _, hl, hvalid⟩ :=
    occupation_finish_bound policy (occupation_pass policy distance c) c1.m_turns hfinish
  refine ⟨turns5, h5, h4, ?_⟩
  intro e he hle j hj
  obtain ⟨hj0, hjlt⟩ := hvalid e he hle j hj
  have hframe := occupation_pass_frame policy distance c
  have hlt0 : j.toNat < c.m_turns.length := by
    rw [← hframe.1]
    exact hjlt
  obtain ⟨turn3, h3, heq3⟩ := hframe.2 j.toNat _ (List.getElem?_eq_getElem hlt0)
  have hk5 := hk.2 j.toNat turn3 h3
  have hl1 := hl.2 j.toNat _ hk5
  have hjn : ((j.toNat : Nat) : Int) = j := by omega
  have hpos : 1 ≤ left_blocked_count policy (occupation_pass policy distance c).2 j.toNat :=
    left_blocked_count_pos policy j.toNat _ ⟨e, he, by rw [hjn]; exact hj, hle⟩
  have h0 : 0 ≤ turn3.count_on_occupied := by
    have := hcount _ (List.getElem_mem hlt0)
    rw [heq3]
    exact this
  obtain ⟨turn1, hturn1⟩ : ∃ turn1 : buffer_turn_info P F, turn1 =
      { ({ turn3 with count_on_occupied := turn3.count_on_occupied + (k j.toNat : Int) } :
          buffer_turn_info P F) with
        count_on_occupied := turn3.count_on_occupied + (k j.toNat : Int)
          + (left_blocked_count policy (occupation_pass policy distance c).2 j.toNat : Nat) } :=
    ⟨_, rfl⟩
  have hl2 : c1.m_turns[j.toNat]? = some turn1 := by
    rw [hturn1]
    exact hl1
  have hone : 1 ≤ turn1.count_on_occupied := by
    rw [hturn1]
    simp only
    omega
  refine ⟨hj0, _, turn1,
    { turn1 with location := intersection_location_type.inside_buffer },
    hk5, hl2, hturn1, hpos, hone, ?_, rfl⟩
  simp only [classify_inside, List.getElem?_map, hl2, Option.map_some', Option.some.injEq]
  have hinside : classify_turn_inside turn1 = true := by
    simp only [classify_turn_inside, Bool.or_eq_true, decide_eq_true_eq]
    right
    omega
  simp only [hinside, if_true]

/-- C24, instance: two turns at the point `(5, -5)`, which has no left turn, and one turn at
the point `(7, 7)`; every turn of the cluster is recorded twice. -/
theorem block_without_left_turns_blocks_witness :
    ∃ m_turns5,
      propagate_blocked example_occupation_policy
        (occupation_pass example_occupation_policy 0 (example_occupation_collection
          [example_occupation_turn (5, -5) 1 1, example_occupation_turn (5, -5) 1 1,
           example_occupation_turn (7, 7) 1 1])).2
        (occupation_pass example_occupation_policy 0 (example_occupation_collection
          [example_occupation_turn (5, -5) 1 1, example_occupation_turn (5, -5) 1 1,
           example_occupation_turn (7, 7) 1 1])).1 = some m_turns5 ∧
      block_without_left_turns example_occupation_policy
        (occupation_pass example_occupation_policy 0 (example_occupation_collection
          [example_occupation_turn (5, -5) 1 1, example_occupation_turn (5, -5) 1 1,
           example_occupation_turn (7, 7) 1 1])).2 m_turns5
        = some (example_occupation_collection
          [example_occupied_turn (5, -5) 1 1 (5, -5) 1 2,
           example_occupied_turn (5, -5) 1 1 (5, -5) 1 2,
           example_occupied_turn (7, 7) 1 1 (7, 7) 0 0]).m_turns ∧
      ∀ e ∈ (occupation_pass example_occupation_policy 0 (example_occupation_collection
          [example_occupation_turn (5, -5) 1 1, example_occupation_turn (5, -5) 1 1,
           example_occupation_turn (7, 7) 1 1])).2,
        (example_occupation_policy.get_left_turns e.2 e.1).2.isEmpty = true →
        ∀ j ∈ (example_occupation_policy.get_left_turns e.2 e.1).1.turns,
          0 ≤ j ∧ ∃ turn5 turn1 turn2,
            m_turns5[j.toNat]? = some turn5 ∧
            (example_occupation_collection
              [example_occupied_turn (5, -5) 1 1 (5, -5) 1 2,
               example_occupied_turn (5, -5) 1 1 (5, -5) 1 2,
               example_occupied_turn (7, 7) 1 1 (7, 7) 0 0]).m_turns[j.toNat]? = some turn1 ∧
            turn1 = { turn5 with count_on_occupied := turn5.count_on_occupied
              + (left_blocked_count example_occupation_policy
                  (occupation_pass example_occupation_policy 0 (example_occupation_collection
                    [example_occupation_turn (5, -5) 1 1, example_occupation_turn (5, -5) 1 1,
                     example_occupation_turn (7, 7) 1 1])).2 j.toNat : Nat) } ∧
            1 ≤ left_blocked_count example_occupation_policy
              (occupation_pass example_occupation_policy 0 (example_occupation_collection
                [example_occupation_turn (5, -5) 1 1, example_occupation_turn (5, -5) 1 1,
                 example_occupation_turn (7, 7) 1 1])).2 j.toNat ∧
            1 ≤ turn1.count_on_occupied ∧
            (classify_inside (example_occupation_collection
              [example_occupied_turn (5, -5) 1 1 (5, -5) 1 2,
               example_occupied_turn (5, -5) 1 1 (5, -5) 1 2,
               example_occupied_turn (7, 7) 1 1 (7, 7) 0 0])).m_turns[j.toNat]? = some turn2 ∧
            turn2.location = intersection_location_type.inside_buffer :=
  block_without_left_turns_blocks example_occupation_policy 2 0
    (example_occupation_collection
      [example_occupation_turn (5, -5) 1 1, example_occupation_turn (5, -5) 1 1,
       example_occupation_turn (7, 7) 1 1])
    (example_occupation_collection
      [example_occupied_turn (5, -5) 1 1 (5, -5) 1 2,
       example_occupied_turn (5, -5) 1 1 (5, -5) 1 2,
       example_occupied_turn (7, 7) 1 1 (7, 7) 0 0])
    (by decide) (by decide)

/-- Meaning of `cluster_blocked`: one of the recorded turn indices is the position of a blocked
turn. -/
theorem cluster_blocked_iff (policy : occupation_policy P F A L)
    (turns : List (buffer_turn_info P F)) (indices : List Int) :
    cluster_blocked policy turns indices = true ↔
      ∃ j ∈ indices, 0 ≤ j ∧ ∃ turn, turns[j.toNat]? = some turn ∧ policy.blocked turn = true := by
  simp only [cluster_blocked, List.any_eq_true, Bool.and_eq_true, decide_eq_true_eq]
  constructor
  · rintro ⟨j, hj, h0, hb⟩
    cases ht : turns[j.toNat]? with
    | none => simp [ht] at hb
    | some turn =>
      simp only [ht] at hb
      exact ⟨j, hj, h0, turn, ht, hb⟩
  · rintro ⟨j, hj, h0, turn, ht, hb⟩
    exact ⟨j, hj, h0, by simp [ht, hb]⟩

/-- Two clusters that record the same turn are the same cluster, when the functions of the
policy keep their contract. -/
theorem occupation_pass_cluster_unique (policy : occupation_policy P F A L)
    (hrecords : records_given_index policy) (distance : Int)
    (c : buffered_piece_collection P F)
    (e e2 : robust_point_type × occupation_info A)
    (he : e ∈ (occupation_pass policy distance c).2)
    (he2 : e2 ∈ (occupation_pass policy distance c).2)
    (j : Int) (hj : j ∈ e.2.turns) (hj2 : j ∈ e2.2.turns) : e2 = e := by
  obtain ⟨_, turn, hturn, hkey⟩ := occupation_pass_records policy hrecords distance c e he j hj
  obtain ⟨_, turn2, hturn2, hkey2⟩ :=
    occupation_pass_records policy hrecords distance c e2 he2 j hj2
  rw [hturn] at hturn2
  cases hturn2
  have hk : e2.1 = e.1 := hkey2.symm.trans hkey
  have hnodup := occupation_pass_nodup policy distance c
  have h1 := occupation_map_find_of_mem _ hnodup e.1 e.2 he
  have h2 := occupation_map_find_of_mem _ hnodup e2.1 e2.2 he2
  rw [hk, h1] at h2
  exact Prod.ext hk (Option.some.inj h2).symm

/-- C25: in a call of `get_occupation` that returns without calling itself, with a member
`blocked()` that does not read what `get_occupation` writes: when at least one turn recorded in
a cluster is blocked, the propagation loop raises `count_on_occupied` of every turn recorded in
that cluster, at least by one, and after the call every such turn has `count_on_occupied >= 1`,
when no `count_on_occupied` was negative before; and the propagation loop leaves unchanged
every turn that is recorded only in clusters without a blocked turn. -/
theorem propagate_blocked_blocks (policy : occupation_policy P F A L)
    (hstable : blocked_is_stable policy) (fuel : Nat) (distance : Int)
    (c c1 : buffered_piece_collection P F)
    (hrun : get_occupation policy fuel distance c = (occupation_outcome.returned c1, []))
    (hcount : ∀ turn ∈ c.m_turns, 0 ≤ turn.count_on_occupied) :
    ∃ m_turns5,
      propagate_blocked policy (occupation_pass policy distance c).2
        (occupation_pass policy distance c).1 = some m_turns5 ∧
      block_without_left_turns policy (occupation_pass policy distance c).2 m_turns5
        = some c1.m_turns ∧
      (∀ e ∈ (occupation_pass policy distance c).2,
        cluster_blocked policy c.m_turns e.2.turns = true →
        ∀ j ∈ e.2.turns, 0 ≤ j ∧ ∃ turn3 turn5 turn1,
          (occupation_pass policy distance c).1[j.toNat]? = some turn3 ∧
          m_turns5[j.toNat]? = some turn5 ∧ c1.m_turns[j.toNat]? = some turn1 ∧
          turn5 = { turn3 with count_on_occupied := turn3.count_on_occupied
            + (propagated_count policy (occupation_pass policy distance c).1
                (occupation_pass policy distance c).2 j.toNat : Nat) } ∧
          1 ≤ propagated_count policy (occupation_pass policy distance c).1
            (occupation_pass policy distance c).2 j.toNat ∧
          1 ≤ turn1.count_on_occupied) ∧
      (∀ n : Nat,
        (∀ e ∈ (occupation_pass policy distance c).2, (n : Int) ∈ e.2.turns →
          cluster_blocked policy c.m_turns e.2.turns = false) →
        m_turns5[n]? = (occupation_pass policy distance c).1[n]?) ∧
      (∀ indices : List Int, cluster_blocked policy c.m_turns indices = true ↔
        ∃ j ∈ indices, 0 ≤ j ∧ ∃ turn, c.m_turns[j.toNat]? = some turn ∧
          policy.blocked turn = true) := by
  obtain ⟨_, hfinish, _⟩ := occupation_finish_of_returned policy fuel distance c c1 hrun
  obtain ⟨turns5, h5, h4, hp, hl, _, hvalid⟩ :=
    occupation_finish_spec policy hstable (occupation_pass policy distance c) c1.m_turns hfinish
  have hframe := occupation_pass_frame policy distance c
  refine ⟨turns5, h5, h4, ?_, ?_, cluster_blocked_iff policy c.m_turns⟩
  · intro e he hb j hj
    obtain ⟨hj0, hjlt⟩ := hvalid e he j hj
    have hlt0 : j.toNat < c.m_turns.length := by
      rw [← hframe.1]
      exact hjlt
    obtain ⟨turn3, h3, heq3⟩ := hframe.2 j.toNat _ (List.getElem?_eq_getElem hlt0)
    have hk5 := hp.2 j.toNat turn3 h3
    have hl1 := hl.2 j.toNat _ hk5
    have hjn : ((j.toNat : Nat) : Int) = j := by omega
    have hpos : 1 ≤ propagated_count policy (occupation_pass policy distance c).1
        (occupation_pass policy distance c).2 j.toNat :=
      propagated_count_pos policy _ j.toNat _ ⟨e, he, by rw [hjn]; exact hj, by
        rw [cluster_blocked_pass policy hstable]
        exact hb⟩
    have h0 : 0 ≤ turn3.count_on_occupied := by
      have := hcount _ (List.getElem_mem hlt0)
      rw [heq3]
      exact this
    refine ⟨hj0, turn3, _, _, h3, hk5, hl1, rfl, hpos, ?_⟩
    simp only
    omega
  · intro n hn
    have hzero : propagated_count policy (occupation_pass policy distance c).1
        (occupation_pass policy distance c).2 n = 0 :=
      propagated_count_eq_zero policy _ n _ (fun e he hmem => by
        rw [cluster_blocked_pass policy hstable]
        exact hn e he hmem)
    cases h3 : (occupation_pass policy distance c).1[n]? with
    | none =>
      have hlen : (occupation_pass policy distance c).1.length ≤ n := by
        rcases Nat.lt_or_ge n (occupation_pass policy distance c).1.length with hlt | hge
        · rw [List.getElem?_eq_getElem hlt] at h3
          cases h3
        · exact hge
      exact List.getElem?_eq_none (by rw [hp.1]; exact hlen)
    | some turn3 =>
      rw [hp.2 n turn3 h3, hzero]
      simp

/-- C27: in a call of `get_occupation` that returns without calling itself, with a member
`blocked()` that does not read what `get_occupation` writes and functions of the policy that
record only the turn they are given: when `get_left_turns` gives at least one turn for a cluster
and no turn recorded in the cluster is blocked, every turn recorded in the cluster has the
`count_on_occupied` after the call that it had before, whether or not it is among the left
turns. -/
theorem left_turns_keep (policy : occupation_policy P F A L)
    (hstable : blocked_is_stable policy) (hrecords : records_given_index policy) (fuel : Nat)
    (distance : Int) (c c1 : buffered_piece_collection P F)
    (hrun : get_occupation policy fuel distance c = (occupation_outcome.returned c1, [])) :
    ∀ e ∈ (occupation_pass policy distance c).2,
      (policy.get_left_turns e.2 e.1).2.isEmpty = false →
      cluster_blocked policy c.m_turns e.2.turns = false →
      ∀ j ∈ e.2.turns, 0 ≤ j ∧ ∃ turn turn1,
        c.m_turns[j.toNat]? = some turn ∧ c1.m_turns[j.toNat]? = some turn1 ∧
        turn1.count_on_occupied = turn.count_on_occupied := by
  obtain ⟨_, hfinish, _⟩ := occupation_finish_of_returned policy fuel distance c c1 hrun
  obtain ⟨turns5, h5, h4, hp, hl, hboth, hvalid⟩ :=
    occupation_finish_spec policy hstable (occupation_pass policy distance c) c1.m_turns hfinish
  have hframe := occupation_pass_frame policy distance c
  intro e he hleft hb j hj
  obtain ⟨hj0, hjlt⟩ := hvalid e he j hj
  have hlt0 : j.toNat < c.m_turns.length := by
    rw [← hframe.1]
    exact hjlt
  obtain ⟨turn3, h3, heq3⟩ := hframe.2 j.toNat _ (List.getElem?_eq_getElem hlt0)
  have hjn : ((j.toNat : Nat) : Int) = j := by omega
  have hzero1 : propagated_count policy (occupation_pass policy distance c).1
      (occupation_pass policy distance c).2 j.toNat = 0 :=
    propagated_count_eq_zero policy _ j.toNat _ (fun e2 he2 hmem => by
      rw [hjn] at hmem
      rw [occupation_pass_cluster_unique policy hrecords distance c e e2 he he2 j hj hmem,
        cluster_blocked_pass policy hstable]
      exact hb)
  have hzero2 : left_blocked_count policy (occupation_pass policy distance c).2 j.toNat = 0 :=
    left_blocked_count_eq_zero policy j.toNat _ (fun e2 he2 hmem => by
      rw [hjn] at hmem
      rw [occupation_pass_cluster_unique policy hrecords distance c e e2 he he2 j hj
        (hrecords.2.2 _ _ j hmem)]
      exact hleft)
  have h1 := hboth.2 j.toNat turn3 h3
  simp only [hzero1, hzero2] at h1
  refine ⟨hj0, _, _, List.getElem?_eq_getElem hlt0, h1, ?_⟩
  simp only
  rw [heq3]
  simp

/-- The example policy records only the turn it is given. -/
theorem example_occupation_policy_records : records_given_index example_occupation_policy := by
  refine ⟨rfl, ?_, ?_⟩
  · intro map_point turn pieces turn_index operation_index seg_id info j hj
    simp only [example_occupation_policy, List.mem_append, List.mem_singleton] at hj
    exact hj
  · intro info key j hj
    exact hj

/-- The example policy decides `blocked()` from the fractions of the two operations only. -/
theorem example_occupation_policy_stable : blocked_is_stable example_occupation_policy := by
  intro turn rp m k
  rfl

/-- C25, instance: two turns at the point `(5, 5)`, one of them blocked, and one turn at
`(7, 7)`; both turns of the cluster end with `count_on_occupied = 2`. -/
theorem propagate_blocked_blocks_witness :
    ∃ m_turns5,
      propagate_blocked example_occupation_policy
        (occupation_pass example_occupation_policy 0 example_blocked_cluster).2
        (occupation_pass example_occupation_policy 0 example_blocked_cluster).1
          = some m_turns5 ∧
      block_without_left_turns example_occupation_policy
        (occupation_pass example_occupation_policy 0 example_blocked_cluster).2 m_turns5
        = some example_blocked_cluster_result.m_turns ∧
      (∀ e ∈ (occupation_pass example_occupation_policy 0 example_blocked_cluster).2,
        cluster_blocked example_occupation_policy example_blocked_cluster.m_turns e.2.turns
          = true →
        ∀ j ∈ e.2.turns, 0 ≤ j ∧ ∃ turn3 turn5 turn1,
          (occupation_pass example_occupation_policy 0 example_blocked_cluster).1[j.toNat]?
            = some turn3 ∧
          m_turns5[j.toNat]? = some turn5 ∧
          example_blocked_cluster_result.m_turns[j.toNat]? = some turn1 ∧
          turn5 = { turn3 with count_on_occupied := turn3.count_on_occupied
            + (propagated_count example_occupation_policy
                (occupation_pass example_occupation_policy 0 example_blocked_cluster).1
                (occupation_pass example_occupation_policy 0 example_blocked_cluster).2
                j.toNat : Nat) } ∧
          1 ≤ propagated_count example_occupation_policy
            (occupation_pass example_occupation_policy 0 example_blocked_cluster).1
            (occupation_pass example_occupation_policy 0 example_blocked_cluster).2 j.toNat ∧
          1 ≤ turn1.count_on_occupied) ∧
      (∀ n : Nat,
        (∀ e ∈ (occupation_pass example_occupation_policy 0 example_blocked_cluster).2,
          (n : Int) ∈ e.2.turns →
          cluster_blocked example_occupation_policy example_blocked_cluster.m_turns e.2.turns
            = false) →
        m_turns5[n]?
          = (occupation_pass example_occupation_policy 0 example_blocked_cluster).1[n]?) ∧
      (∀ indices : List Int,
        cluster_blocked example_occupation_policy example_blocked_cluster.m_turns indices
          = true ↔
        ∃ j ∈ indices, 0 ≤ j ∧ ∃ turn, example_blocked_cluster.m_turns[j.toNat]? = some turn ∧
          example_occupation_policy.blocked turn = true) :=
  propagate_blocked_blocks example_occupation_policy example_occupation_policy_stable 2 0
    example_blocked_cluster example_blocked_cluster_result (by decide) (by decide)

/-- C27, instance: two turns at the point `(5, 5)`, which has a left turn, none of them
blocked; the turn at position `1`, which is not the left turn, keeps its
`count_on_occupied`. -/
theorem left_turns_keep_witness :
    (0 : Int) ≤ 1 ∧ ∃ turn turn1,
      example_left_cluster.m_turns[(1 : Int).toNat]? = some turn ∧
      example_left_cluster_result.m_turns[(1 : Int).toNat]? = some turn1 ∧
      turn1.count_on_occupied = turn.count_on_occupied :=
  left_turns_keep example_occupation_policy example_occupation_policy_stable
    example_occupation_policy_records 2 0 example_left_cluster example_left_cluster_result
    (by decide) example_cluster_entry (by decide) (by decide) (by decide) 1 (by decide)

/-- A call of `get_occupation` that does not call itself returns, when the functions of the
policy record only the turn they are given. -/
theorem get_occupation_returns (policy : occupation_policy P F A L)
    (hrecords : records_given_index policy) (fuel : Nat) (distance : Int)
    (c : buffered_piece_collection P F) (hretry : occupation_retries policy distance c = false) :
    ∃ c1, get_occupation policy (fuel + 1) distance c = (occupation_outcome.returned c1, []) := by
  have h1 : ∀ e ∈ (occupation_pass policy distance c).2, ∀ j ∈ e.2.turns,
      0 ≤ j ∧ j.toNat < (occupation_pass policy distance c).1.length := by
    intro e he j hj
    obtain ⟨hj0, turn, hturn, _⟩ := occupation_pass_records policy hrecords distance c e he j hj
    exact ⟨hj0, (List.getElem?_eq_some_iff.mp hturn).1⟩
  obtain ⟨turns1, hfinish⟩ := occupation_finish_some policy (occupation_pass policy distance c) h1
    (fun e he j hj => h1 e he j (hrecords.2.2 e.2 e.1 j hj))
  refine ⟨{ c with m_turns := turns1 }, ?_⟩
  rw [get_occupation_succ, hretry, hfinish]
  rfl

/-- A turn whose mapped robust point is not the point of a cluster after steps 1 to 3 passes the
last two loops of `get_occupation` unchanged. -/
theorem occupation_unclustered_unchanged (policy : occupation_policy P F A L)
    (hrecords : records_given_index policy) (fuel : Nat) (distance : Int)
    (c c1 : buffered_piece_collection P F)
    (hrun : get_occupation policy fuel distance c = (occupation_outcome.returned c1, []))
    (n : Nat) (turn3 : buffer_turn_info P F)
    (h3 : (occupation_pass policy distance c).1[n]? = some turn3)
    (hnone : occupation_map_find (occupation_pass policy distance c).2
      turn3.mapped_robust_point = none) :
    c1.m_turns[n]? = some turn3 := by
  obtain ⟨_, hfinish, _⟩ := occupation_finish_of_returned policy fuel distance c c1 hrun
  obtain ⟨turns5, k, _, _, hk, hk0, hl, _⟩ :=
    occupation_finish_bound policy (occupation_pass policy distance c) c1.m_turns hfinish
  have hnot : ∀ e ∈ (occupation_pass policy distance c).2, (n : Int) ∉ e.2.turns := by
    intro e he hn
    obtain ⟨_, turn, hturn, hkey⟩ :=
      occupation_pass_records policy hrecords distance c e he _ hn
    rw [Int.toNat_ofNat, h3] at hturn
    rw [Option.some.inj hturn, hkey] at hnone
    exact (occupation_map_find_eq_none _ _).mp hnone (List.mem_map_of_mem Prod.fst he)
  have hkn := hk0 n hnot
  have hln : left_blocked_count policy (occupation_pass policy distance c).2 n = 0 :=
    left_blocked_count_eq_zero policy n _
      (fun e he hn => absurd (hrecords.2.2 e.2 e.1 _ hn) (hnot e he))
  have h5 := hk.2 n turn3 h3
  rw [hkn] at h5
  have h1 := hl.2 n _ h5
  rw [hln] at h1
  rw [h1]
  simp

/-- At distance `0` steps 1 to 3 of `get_occupation` raise `count_on_multi` of the turns whose
mapped robust point is the point of a cluster, and change nothing else. -/
theorem occupation_pass_zero (policy : occupation_policy P F A L)
    (c : buffered_piece_collection P F) :
    (occupation_pass policy 0 c).1
      = c.m_turns.map fun turn =>
          if (occupation_map_find (occupation_pass policy 0 c).2
              turn.mapped_robust_point).isSome then
            { turn with count_on_multi := turn.count_on_multi + 1 }
          else turn := by
  have h := occupation_pass_turns policy 0 c
  rw [occupation_add_turns_of_not_pos policy 0 (by omega) c.m_turns []] at h
  exact h

/-- The number of turns with `count_on_offsetted >= 1` at a point, as a count in the list of
the points of these turns. -/
theorem occupation_count_eq_count (turns : List (buffer_turn_info P F))
    (key : robust_point_type) :
    occupation_count turns key
      = List.count key ((turns.filter fun turn => decide (1 ≤ turn.count_on_offsetted)).map
          fun turn => turn.mapped_robust_point) := by
  induction turns with
  | nil => rfl
  | cons turn rest ih =>
    rw [occupation_count_cons, ih]
    simp only [List.filter_cons]
    by_cases h1 : 1 ≤ turn.count_on_offsetted
    · by_cases h2 : turn.mapped_robust_point = key
      · simp [h1, h2, List.count_cons]
        omega
      · simp [h1, h2, List.count_cons]
    · simp [h1]

/-- A point that at most one turn with `count_on_offsetted >= 1` is mapped to is not the point
of a cluster at distance `0`, when a default-constructed count is `0`. -/
theorem occupation_pass_find_of_le_one (policy : occupation_policy P F A L)
    (hzero : policy.default_info.count = 0) (c : buffered_piece_collection P F)
    (key : robust_point_type) (hle : occupation_count c.m_turns key ≤ 1) :
    occupation_map_find (occupation_pass policy 0 c).2 key = none := by
  have h := occupation_pass_find_isSome policy 0 c key
  rw [occupation_add_turns_of_not_pos policy 0 (by omega) c.m_turns [], hzero] at h
  have hfalse : (occupation_map_find (occupation_pass policy 0 c).2 key).isSome = false := by
    rw [h]
    simp only [Bool.and_eq_false_imp, decide_eq_true_eq, Bool.not_eq_false', Int.zero_add]
    intro _
    omega
  cases hfind : occupation_map_find (occupation_pass policy 0 c).2 key with
  | none => rfl
  | some info => rw [hfind] at hfalse; cases hfalse

/-- C22: with a default-constructed count of `0` and every mapped robust point equal to the
robust point, the state `rescale_pieces` leaves: a robust point carried by at most one turn with
`count_on_offsetted >= 1` is not the point of a cluster at distance `0`, and when the call does
not call itself and the functions of the policy record only the turn they are given, the call
returns and every turn at that point is unchanged; and when no two turns with
`count_on_offsetted >= 1` share a robust point, `get_occupation` does not call itself and
returns with the collection unchanged. -/
theorem single_turn_forms_no_cluster (policy : occupation_policy P F A L)
    (hzero : policy.default_info.count = 0) (fuel : Nat) (c : buffered_piece_collection P F)
    (hmapped : ∀ turn ∈ c.m_turns, turn.mapped_robust_point = turn.robust_point) :
    (∀ point : robust_point_type,
      (c.m_turns.filter fun turn =>
        decide (1 ≤ turn.count_on_offsetted) && decide (turn.robust_point = point)).length ≤ 1 →
      occupation_map_find (occupation_pass policy 0 c).2 point = none ∧
      (records_given_index policy → occupation_retries policy 0 c = false →
        ∃ c1, get_occupation policy (fuel + 1) 0 c = (occupation_outcome.returned c1, []) ∧
          c1.m_turns.length = c.m_turns.length ∧
          ∀ (n : Nat) (turn : buffer_turn_info P F), c.m_turns[n]? = some turn →
            turn.robust_point = point → c1.m_turns[n]? = some turn)) ∧
    (((c.m_turns.filter fun turn => decide (1 ≤ turn.count_on_offsetted)).map
        fun turn => turn.robust_point).Nodup →
      occupation_retries policy 0 c = false ∧
      get_occupation policy (fuel + 1) 0 c = (occupation_outcome.returned c, [])) := by
  constructor
  · intro point hle
    have hfilter : (c.m_turns.filter fun turn =>
          decide (1 ≤ turn.count_on_offsetted) && decide (turn.mapped_robust_point = point))
        = c.m_turns.filter fun turn =>
          decide (1 ≤ turn.count_on_offsetted) && decide (turn.robust_point = point) :=
      List.filter_congr (fun turn ht => by rw [hmapped turn ht])
    have hcount : occupation_count c.m_turns point ≤ 1 := by
      rw [occupation_count, hfilter]
      exact hle
    have hnone := occupation_pass_find_of_le_one policy hzero c point hcount
    refine ⟨hnone, fun hrecords hretry => ?_⟩
    obtain ⟨c1, hrun⟩ := get_occupation_returns policy hrecords fuel 0 c hretry
    obtain ⟨_, hfinish, _⟩ := occupation_finish_of_returned policy (fuel + 1) 0 c c1 hrun
    obtain ⟨turns5, k, _, _, hk, _, hl, _⟩ :=
      occupation_finish_bound policy (occupation_pass policy 0 c) c1.m_turns hfinish
    refine ⟨c1, hrun, ?_, ?_⟩
    · rw [hl.1, hk.1]
      exact (occupation_pass_frame policy 0 c).1
    · intro n turn hn hp
      have hm : turn.mapped_robust_point = point :=
        (hmapped turn (List.getElem?_mem hn)).trans hp
      refine occupation_unclustered_unchanged policy hrecords (fuel + 1) 0 c c1 hrun n turn ?_
        (by rw [hm]; exact hnone)
      rw [occupation_pass_zero]
      simp [List.getElem?_map, hn, hm, hnone]
  · intro hnodup
    have hmap : ((c.m_turns.filter fun turn => decide (1 ≤ turn.count_on_offsetted)).map
          fun turn => turn.mapped_robust_point)
        = (c.m_turns.filter fun turn => decide (1 ≤ turn.count_on_offsetted)).map
          fun turn => turn.robust_point :=
      List.map_congr_left (fun turn ht => hmapped turn (List.mem_filter.mp ht).1)
    have hfind : ∀ key, occupation_map_find (occupation_pass policy 0 c).2 key = none := by
      intro key
      refine occupation_pass_find_of_le_one policy hzero c key ?_
      rw [occupation_count_eq_count, hmap]
      exact List.nodup_iff_count_le_one.mp hnodup key
    have hempty : (occupation_pass policy 0 c).2 = [] :=
      List.isEmpty_iff.mp (isEmpty_of_find_eq_none _ hfind)
    have hturns : (occupation_pass policy 0 c).1 = c.m_turns := by
      have h := occupation_pass_zero policy c
      simp only [hfind, Option.isSome_none, Bool.false_eq_true, if_false, List.map_id'] at h
      exact h
    have hpass : occupation_pass policy 0 c = (c.m_turns, []) := Prod.ext hturns hempty
    have hretry : occupation_retries policy 0 c = false := by
      rw [occupation_retries, hempty]
      simp
    refine ⟨hretry, ?_⟩
    rw [get_occupation_succ, hretry, hpass]
    simp [occupation_finish, propagate_blocked, block_without_left_turns]

/-- C22, instance: in `example_left_cluster` the point `(7, 7)` is carried by one turn, which
`get_occupation` leaves as it is; in `example_single_turns` no two turns share a point and
`get_occupation` returns the collection as it was. -/
theorem single_turn_forms_no_cluster_witness :
    (occupation_map_find (occupation_pass example_occupation_policy 0 example_left_cluster).2
        ⟨7, 7⟩ = none ∧
      ∃ c1, get_occupation example_occupation_policy 2 0 example_left_cluster
          = (occupation_outcome.returned c1, []) ∧
        c1.m_turns.length = example_left_cluster.m_turns.length ∧
        ∀ (n : Nat) (turn : buffer_turn_info (Int × Int) Nat),
          example_left_cluster.m_turns[n]? = some turn →
          turn.robust_point = ⟨7, 7⟩ → c1.m_turns[n]? = some turn) ∧
    (occupation_retries example_occupation_policy 0 example_single_turns = false ∧
      get_occupation example_occupation_policy 2 0 example_single_turns
        = (occupation_outcome.returned example_single_turns, [])) :=
  ⟨⟨((single_turn_forms_no_cluster example_occupation_policy rfl 1 example_left_cluster
        (by decide)).1 ⟨7, 7⟩ (by decide)).1,
      ((single_turn_forms_no_cluster example_occupation_policy rfl 1 example_left_cluster
        (by decide)).1 ⟨7, 7⟩ (by decide)).2 example_occupation_policy_records (by decide)⟩,
    (single_turn_forms_no_cluster example_occupation_policy rfl 1 example_single_turns
      (by decide)).2 (by decide)⟩

/-- Step 1 of `get_occupation` builds the map from the turns with `count_on_offsetted >= 1`
alone. -/
theorem occupation_add_turns_filter (policy : occupation_policy P F A L) (distance : Int)
    (turns : List (buffer_turn_info P F)) :
    ∀ map : List (robust_point_type × occupation_info A),
      (occupation_add_turns policy distance turns map).2
        = (occupation_add_turns policy distance
            (turns.filter fun turn => decide (1 ≤ turn.count_on_offsetted)) map).2 := by
  induction turns with
  | nil => intro map; rfl
  | cons turn rest ih =>
    intro map
    simp only [List.filter_cons]
    by_cases h1 : 1 ≤ turn.count_on_offsetted
    · simp only [h1, decide_True, if_true, occupation_add_turns]
      exact ih _
    · simp only [h1, decide_False, Bool.false_eq_true, if_false, occupation_add_turns]
      exact ih _

/-- Step 1 of `get_occupation` leaves a turn without `count_on_offsetted >= 1` as it is. -/
theorem occupation_add_turns_count_zero (policy : occupation_policy P F A L) (distance : Int)
    (turns : List (buffer_turn_info P F)) :
    ∀ (map : List (robust_point_type × occupation_info A)) (n : Nat)
      (turn : buffer_turn_info P F), turns[n]? = some turn → ¬ 1 ≤ turn.count_on_offsetted →
      (occupation_add_turns policy distance turns map).1[n]? = some turn := by
  induction turns with
  | nil => intro map n turn hn; simp at hn
  | cons turn0 rest ih =>
    intro map n turn hn hcount
    cases n with
    | zero =>
      simp only [List.getElem?_cons_zero, Option.some.injEq] at hn
      subst hn
      simp [occupation_add_turns, hcount]
    | succ n =>
      simp only [List.getElem?_cons_succ] at hn
      by_cases h1 : 1 ≤ turn0.count_on_offsetted
      · simp only [occupation_add_turns, h1, if_true, List.getElem?_cons_succ]
        exact ih _ n turn hn hcount
      · simp only [occupation_add_turns, h1, if_false, List.getElem?_cons_succ]
        exact ih _ n turn hn hcount

/-- Claim C21 as stated fails: in `example_count_zero_cluster` the turn at position `3` has
`count_on_offsetted = 0` and lies at the point of a cluster of two other turns, and
`get_occupation` raises its `count_on_multi` by one and its `count_on_occupied` by two. -/
theorem count_zero_turn_counterexample :
    get_occupation example_occupation_policy 2 0 example_count_zero_cluster
      = (occupation_outcome.returned example_count_zero_cluster_result, []) ∧
    ∃ turn turn1, example_count_zero_cluster.m_turns[3]? = some turn ∧
      example_count_zero_cluster_result.m_turns[3]? = some turn1 ∧
      turn.count_on_offsetted = 0 ∧
      turn1.count_on_multi = turn.count_on_multi + 1 ∧
      turn1.count_on_occupied = turn.count_on_occupied + 2 :=
  ⟨by decide, _, _, rfl, rfl, by decide, by decide, by decide⟩

/-- C21, amended: in a call of `get_occupation` that returns without calling itself, the map of
step 1, and with it the points of the clusters, is the one built from the turns with
`count_on_offsetted >= 1` alone; a turn without `count_on_offsetted >= 1` passes step 1
unchanged; when its mapped robust point is not the point of a cluster and the functions of the
policy record only the turn they are given, the call leaves it unchanged; and when its mapped
robust point is the point of a cluster, step 3 raises its `count_on_multi` by one. -/
theorem count_zero_turn_occupation (policy : occupation_policy P F A L) (fuel : Nat)
    (distance : Int) (c c1 : buffered_piece_collection P F)
    (hrun : get_occupation policy fuel distance c = (occupation_outcome.returned c1, []))
    (n : Nat) (turn : buffer_turn_info P F) (hn : c.m_turns[n]? = some turn)
    (hcount : ¬ 1 ≤ turn.count_on_offsetted) :
    (occupation_add_turns policy distance c.m_turns []).2
      = (occupation_add_turns policy distance
          (c.m_turns.filter fun turn => decide (1 ≤ turn.count_on_offsetted)) []).2 ∧
    (occupation_pass policy distance c).2.map Prod.fst
      = (occupation_erase_single (occupation_add_turns policy distance
          (c.m_turns.filter fun turn => decide (1 ≤ turn.count_on_offsetted)) []).2).map
            Prod.fst ∧
    (occupation_add_turns policy distance c.m_turns []).1[n]? = some turn ∧
    (records_given_index policy →
      occupation_map_find (occupation_pass policy distance c).2 turn.mapped_robust_point = none →
      c1.m_turns[n]? = some turn) ∧
    ((occupation_map_find (occupation_pass policy distance c).2
        turn.mapped_robust_point).isSome = true →
      ∃ turn1, c1.m_turns[n]? = some turn1 ∧
        turn1 = { turn with count_on_multi := turn.count_on_multi + 1,
                            count_on_occupied := turn1.count_on_occupied }) := by
  have hfilter := occupation_add_turns_filter policy distance c.m_turns []
  have hstep := occupation_add_turns_count_zero policy distance c.m_turns [] n turn hn hcount
  have hpass : (occupation_pass policy distance c).1[n]?
      = some (if (occupation_map_find (occupation_pass policy distance c).2
            turn.mapped_robust_point).isSome then
          { turn with count_on_multi := turn.count_on_multi + 1 }
        else turn) := by
    rw [occupation_pass_turns, List.getElem?_map, hstep]
    rfl
  refine ⟨hfilter, ?_, hstep, ?_, ?_⟩
  · rw [occupation_pass_keys, hfilter]
  · intro hrecords hnone
    rw [hnone] at hpass
    exact occupation_unclustered_unchanged policy hrecords fuel distance c c1 hrun n turn hpass
      hnone
  · intro hsome
    rw [hsome, if_pos rfl] at hpass
    obtain ⟨_, hfinish, _⟩ := occupation_finish_of_returned policy fuel distance c c1 hrun
    obtain ⟨turns5, k, _, _, hk, _, hl, _⟩ :=
      occupation_finish_bound policy (occupation_pass policy distance c) c1.m_turns hfinish
    have h1 := hl.2 n _ (hk.2 n _ hpass)
    exact ⟨_, h1, rfl⟩

/-- C21, amended, instance: in `example_count_zero_cluster` the turn at position `3` ends with
`count_on_multi` raised by one; in `example_count_zero_single` the turn at position `2` is left
as it is. -/
theorem count_zero_turn_occupation_witness :
    (∃ turn1, example_count_zero_cluster_result.m_turns[3]? = some turn1 ∧
      turn1 = { example_occupation_turn (5, -5) 0 1 with
        count_on_multi := (example_occupation_turn (5, -5) 0 1).count_on_multi + 1,
        count_on_occupied := turn1.count_on_occupied }) ∧
    example_count_zero_single_result.m_turns[2]? = some (example_occupation_turn (7, 7) 0 1) :=
  ⟨(count_zero_turn_occupation example_occupation_policy 2 0 example_count_zero_cluster
      example_count_zero_cluster_result (by decide) 3 (example_occupation_turn (5, -5) 0 1)
      (by decide) (by decide)).2.2.2.2 (by decide),
    (count_zero_turn_occupation example_occupation_policy 2 0 example_count_zero_single
      example_count_zero_single_result (by decide) 2 (example_occupation_turn (7, 7) 0 1)
      (by decide) (by decide)).2.2.2.1 example_occupation_policy_records (by decide)⟩

/-- The offsets of `adapt_mapped_robust_point` are scanned in increasing order. -/
theorem adapt_offsets_pairwise (distance : Int) :
    (adapt_offsets distance).Pairwise fun a b => a < b := by
  rw [adapt_offsets, List.pairwise_map]
  refine List.Pairwise.imp ?_ (List.pairwise_lt_range _)
  intro a b hab
  omega

/-- The candidates of `adapt_mapped_robust_point` are scanned by increasing `x`, and for equal
`x` by increasing `y`. -/
theorem adapt_candidates_pairwise (robust_point : robust_point_type) (distance : Int) :
    (adapt_candidates robust_point distance).Pairwise
      fun a b => a.x < b.x ∨ (a.x = b.x ∧ a.y < b.y) := by
  rw [adapt_candidates, List.pairwise_flatMap]
  constructor
  · intro x _
    rw [List.pairwise_map]
    refine List.Pairwise.imp ?_ (adapt_offsets_pairwise distance)
    intro a b hab
    right
    exact ⟨rfl, by simp only; omega⟩
  · refine List.Pairwise.imp ?_ (adapt_offsets_pairwise distance)
    intro a b hab p hp q hq
    obtain ⟨y1, _, rfl⟩ := List.mem_map.mp hp
    obtain ⟨y2, _, rfl⟩ := List.mem_map.mp hq
    left
    simp only
    omega

/-- When `adapt_mapped_robust_point` finds a key, it is the first candidate in scan order that
is a key: no key within the distance comes before it. -/
theorem adapt_mapped_robust_point_first (map : List (robust_point_type × occupation_info A))
    (turn : buffer_turn_info P F) (distance : Int)
    (hkey : ∃ key, (occupation_map_find map key).isSome = true ∧
      |key.x - turn.robust_point.x| ≤ distance ∧ |key.y - turn.robust_point.y| ≤ distance) :
    ∃ rp, adapt_mapped_robust_point map turn distance = { turn with mapped_robust_point := rp } ∧
      (occupation_map_find map rp).isSome = true ∧
      |rp.x - turn.robust_point.x| ≤ distance ∧ |rp.y - turn.robust_point.y| ≤ distance ∧
      ∀ key, (occupation_map_find map key).isSome = true →
        |key.x - turn.robust_point.x| ≤ distance → |key.y - turn.robust_point.y| ≤ distance →
        rp.x < key.x ∨ (rp.x = key.x ∧ rp.y ≤ key.y) := by
  rw [adapt_mapped_robust_point_eq]
  cases hfind : (adapt_candidates turn.robust_point distance).find?
      fun rp => (occupation_map_find map rp).isSome with
  | none =>
    obtain ⟨key, hsome, hx, hy⟩ := hkey
    have hmem := (mem_adapt_candidates turn.robust_point key distance).mpr ⟨hx, hy⟩
    have := List.find?_eq_none.mp hfind key hmem
    rw [hsome] at this
    exact absurd rfl this
  | some rp =>
    obtain ⟨hp, before, after, happ, hbefore⟩ := List.find?_eq_some.mp hfind
    have hmem : rp ∈ adapt_candidates turn.robust_point distance := by
      rw [happ]
      simp
    have hwithin := (mem_adapt_candidates turn.robust_point rp distance).mp hmem
    refine ⟨rp, rfl, hp, hwithin.1, hwithin.2, ?_⟩
    intro key hsome hx hy
    have hk := (mem_adapt_candidates turn.robust_point key distance).mpr ⟨hx, hy⟩
    have hpair := adapt_candidates_pairwise turn.robust_point distance
    rw [happ] at hk hpair
    rcases List.mem_append.mp hk with hb | hb
    · have := hbefore key hb
      rw [hsome] at this
      cases this
    · rcases List.mem_cons.mp hb with hb | hb
      · rw [hb]
        right
        exact ⟨rfl, Int.le_refl _⟩
      · have h := (List.pairwise_cons.mp (List.pairwise_append.mp hpair).2.1).1 key hb
        rcases h with h | h
        · left; exact h
        · right; exact ⟨h.1, Int.le_of_lt h.2⟩

/-- A call of `get_occupation` at a distance of at most `1` that does not call itself keeps the
robust point of every turn and keeps its mapped robust point within one unit of it. -/
theorem occupation_call_within (policy : occupation_policy P F A L) (distance : Int)
    (hd : distance ≤ 1) (c : buffered_piece_collection P F)
    (turns1 : List (buffer_turn_info P F))
    (hfinish : occupation_finish policy (occupation_pass policy distance c) = some turns1) :
    turns_pointwise
      (fun turn turn1 => turn1.robust_point = turn.robust_point ∧
        (mapped_within 1 turn → mapped_within 1 turn1))
      c.m_turns turns1 := by
  obtain ⟨turns5, k, _, _, hk, _, hl, _⟩ :=
    occupation_finish_bound policy (occupation_pass policy distance c) turns1 hfinish
  have hpass := occupation_pass_pointwise policy distance c
  refine ⟨by rw [hl.1, hk.1]; exact hpass.1, ?_⟩
  intro n turn hn
  obtain ⟨turn3, h3, turn1, hadapted, hturn3⟩ := hpass.2 n turn hn
  have h1 := hl.2 n _ (hk.2 n _ h3)
  refine ⟨_, h1, ?_⟩
  have hr1 : turn1.robust_point = turn.robust_point ∧
      (mapped_within 1 turn → mapped_within 1 turn1) := by
    rcases hadapted with h | ⟨_, _, rp, hrp, h⟩
    · rw [h]
      exact ⟨rfl, fun h => h⟩
    · rw [h]
      refine ⟨rfl, fun _ => ?_⟩
      have hw := (mem_adapt_candidates turn.robust_point rp distance).mp hrp
      exact ⟨le_trans hw.1 hd, le_trans hw.2 hd⟩
  have hr3 : turn3.robust_point = turn1.robust_point ∧
      turn3.mapped_robust_point = turn1.mapped_robust_point := by
    rw [hturn3]
    split <;> exact ⟨rfl, rfl⟩
  refine ⟨hr3.1.trans hr1.1, fun hw => ?_⟩
  have hw1 := hr1.2 hw
  simp only [mapped_within] at hw1 ⊢
  rw [hr3.1, hr3.2]
  exact hw1

/-- Steps 1 to 3 of a call of `get_occupation` at a distance of at most `1` keep the robust
point of every turn and keep its mapped robust point within one unit of it. -/
theorem occupation_pass_within (policy : occupation_policy P F A L) (distance : Int)
    (hd : distance ≤ 1) (c : buffered_piece_collection P F) :
    turns_pointwise
      (fun turn turn1 => turn1.robust_point = turn.robust_point ∧
        (mapped_within 1 turn → mapped_within 1 turn1))
      c.m_turns (occupation_pass policy distance c).1 := by
  have hpass := occupation_pass_pointwise policy distance c
  refine ⟨hpass.1, ?_⟩
  intro n turn hn
  obtain ⟨turn3, h3, turn1, hadapted, hturn3⟩ := hpass.2 n turn hn
  refine ⟨turn3, h3, ?_⟩
  have hr1 : turn1.robust_point = turn.robust_point ∧
      (mapped_within 1 turn → mapped_within 1 turn1) := by
    rcases hadapted with h | ⟨_, _, rp, hrp, h⟩
    · rw [h]
      exact ⟨rfl, fun h => h⟩
    · rw [h]
      refine ⟨rfl, fun _ => ?_⟩
      have hw := (mem_adapt_candidates turn.robust_point rp distance).mp hrp
      exact ⟨le_trans hw.1 hd, le_trans hw.2 hd⟩
  have hr3 : turn3.robust_point = turn1.robust_point ∧
      turn3.mapped_robust_point = turn1.mapped_robust_point := by
    rw [hturn3]
    split <;> exact ⟨rfl, rfl⟩
  refine ⟨hr3.1.trans hr1.1, fun hw => ?_⟩
  have hw1 := hr1.2 hw
  simp only [mapped_within] at hw1 ⊢
  rw [hr3.1, hr3.2]
  exact hw1

/-- A call of `get_occupation` at distance `0` that returns, with or without a call of itself,
keeps the robust point of every turn and keeps its mapped robust point within one unit of
it. -/
theorem get_occupation_within (policy : occupation_policy P F A L) (fuel : Nat)
    (c c1 : buffered_piece_collection P F) (calls : List Int)
    (hrun : get_occupation policy fuel 0 c = (occupation_outcome.returned c1, calls)) :
    turns_pointwise
      (fun turn turn1 => turn1.robust_point = turn.robust_point ∧
        (mapped_within 1 turn → mapped_within 1 turn1))
      c.m_turns c1.m_turns := by
  have htrans : ∀ a b d : buffer_turn_info P F,
      (b.robust_point = a.robust_point ∧ (mapped_within 1 a → mapped_within 1 b)) →
      (d.robust_point = b.robust_point ∧ (mapped_within 1 b → mapped_within 1 d)) →
      (d.robust_point = a.robust_point ∧ (mapped_within 1 a → mapped_within 1 d)) :=
    fun a b d h1 h2 => ⟨h2.1.trans h1.1, fun h => h2.2 (h1.2 h)⟩
  cases fuel with
  | zero => simp [get_occupation] at hrun
  | succ fuel =>
    rw [get_occupation_succ] at hrun
    by_cases hretry : occupation_retries policy 0 c = true
    · rw [if_pos hretry] at hrun
      have h1 := congrArg Prod.fst hrun
      simp only at h1
      cases fuel with
      | zero => simp [get_occupation] at h1
      | succ fuel =>
        rw [get_occupation_of_ne_zero policy fuel (0 + 1) _ (by omega)] at h1
        cases hf : occupation_finish policy (occupation_pass policy (0 + 1)
            { c with m_turns := (occupation_pass policy 0 c).1 }) with
        | none =>
          rw [hf] at h1
          cases h1
        | some m =>
          rw [hf] at h1
          have hc1 : c1.m_turns = m := by
            rw [← occupation_outcome.returned.inj h1]
          rw [hc1]
          exact turns_pointwise_trans _ _ _ _ _ _ htrans
            (occupation_pass_within policy 0 (by omega) c)
            (occupation_call_within policy (0 + 1) (by omega)
              { c with m_turns := (occupation_pass policy 0 c).1 } m hf)
    · rw [if_neg hretry] at hrun
      have h1 := congrArg Prod.fst hrun
      simp only at h1
      cases hf : occupation_finish policy (occupation_pass policy 0 c) with
      | none =>
        rw [hf] at h1
        cases h1
      | some m =>
        rw [hf] at h1
        have hc1 : c1.m_turns = m := by
          rw [← occupation_outcome.returned.inj h1]
        rw [hc1]
        exact occupation_call_within policy 0 (by omega) c m hf

/-- C26: `adapt_mapped_robust_point(map, turn, d)` changes nothing but the mapped robust point;
if the map has a key whose `x` and `y` each differ from the robust point of the turn by at most
`d`, the mapped robust point becomes such a key, the first in the order of the scan, that is the
one with the least `x` and, among these, the least `y`; if the map has no such key, the turn is
left unchanged; and a call `get_occupation()` that returns keeps the robust point of every turn
and leaves every mapped robust point that was within one unit per coordinate of its robust
point, as `rescale_pieces` leaves it, within one unit per coordinate of it. -/
theorem adapt_mapped_robust_point_spec (policy : occupation_policy P F A L)
    (map : List (robust_point_type × occupation_info A))
    (turn : buffer_turn_info P F) (distance : Int) :
    (adapt_mapped_robust_point map turn distance).robust_point = turn.robust_point ∧
    adapt_mapped_robust_point map turn distance
      = { turn with mapped_robust_point :=
            (adapt_mapped_robust_point map turn distance).mapped_robust_point } ∧
    ((∃ key, (occupation_map_find map key).isSome = true ∧
        |key.x - turn.robust_point.x| ≤ distance ∧ |key.y - turn.robust_point.y| ≤ distance) →
      (occupation_map_find map
        (adapt_mapped_robust_point map turn distance).mapped_robust_point).isSome = true ∧
      |(adapt_mapped_robust_point map turn distance).mapped_robust_point.x
        - turn.robust_point.x| ≤ distance ∧
      |(adapt_mapped_robust_point map turn distance).mapped_robust_point.y
        - turn.robust_point.y| ≤ distance ∧
      ∀ key, (occupation_map_find map key).isSome = true →
        |key.x - turn.robust_point.x| ≤ distance → |key.y - turn.robust_point.y| ≤ distance →
        (adapt_mapped_robust_point map turn distance).mapped_robust_point.x < key.x ∨
        ((adapt_mapped_robust_point map turn distance).mapped_robust_point.x = key.x ∧
          (adapt_mapped_robust_point map turn distance).mapped_robust_point.y ≤ key.y)) ∧
    ((∀ key, |key.x - turn.robust_point.x| ≤ distance →
        |key.y - turn.robust_point.y| ≤ distance → occupation_map_find map key = none) →
      adapt_mapped_robust_point map turn distance = turn) ∧
    (∀ (fuel : Nat) (c c1 : buffered_piece_collection P F) (calls : List Int),
      get_occupation policy fuel 0 c = (occupation_outcome.returned c1, calls) →
      (∀ turn0 ∈ c.m_turns, mapped_within 1 turn0) →
      turns_pointwise
        (fun turn0 turn1 => turn1.robust_point = turn0.robust_point ∧ mapped_within 1 turn1)
        c.m_turns c1.m_turns) := by
  have hcases := adapt_mapped_robust_point_cases map turn distance
  refine ⟨?_, ?_, ?_, ?_, ?_⟩
  · rcases hcases with ⟨h, _⟩ | ⟨rp, _, _, h⟩ <;> rw [h]
  · rcases hcases with ⟨h, _⟩ | ⟨rp, _, _, h⟩ <;> rw [h]
  · intro hkey
    obtain ⟨rp, h, hsome, hx, hy, hfirst⟩ :=
      adapt_mapped_robust_point_first map turn distance hkey
    rw [h]
    exact ⟨hsome, hx, hy, hfirst⟩
  · intro hnone
    rcases hcases with ⟨h, _⟩ | ⟨rp, hrp, hsome, _⟩
    · exact h
    · have hw := (mem_adapt_candidates turn.robust_point rp distance).mp hrp
      rw [hnone rp hw.1 hw.2] at hsome
      cases hsome
  · intro fuel c c1 calls hrun hwithin
    have h := get_occupation_within policy fuel c c1 calls hrun
    refine ⟨h.1, fun n turn0 hn => ?_⟩
    obtain ⟨turn1, h1, hr, hw⟩ := h.2 n turn0 hn
    exact ⟨turn1, h1, hr, hw (hwithin turn0 (List.getElem?_mem hn))⟩

/-- C26, instance: with the point `(-5, 5)` in the map, the turn at `(-4, 6)` is mapped to a
key within the distance `1`; and `get_occupation()` on `example_rounding_cluster`, which calls
itself once, leaves every mapped robust point within one unit of the robust point. -/
theorem adapt_mapped_robust_point_spec_witness :
    ((occupation_map_find example_rounding_map
        (adapt_mapped_robust_point example_rounding_map
          (example_occupation_turn (-4, 6) 1 1) 1).mapped_robust_point).isSome = true ∧
      |(adapt_mapped_robust_point example_rounding_map
          (example_occupation_turn (-4, 6) 1 1) 1).mapped_robust_point.x
        - (example_occupation_turn (-4, 6) 1 1).robust_point.x| ≤ 1 ∧
      |(adapt_mapped_robust_point example_rounding_map
          (example_occupation_turn (-4, 6) 1 1) 1).mapped_robust_point.y
        - (example_occupation_turn (-4, 6) 1 1).robust_point.y| ≤ 1 ∧
      ∀ key, (occupation_map_find example_rounding_map key).isSome = true →
        |key.x - (example_occupation_turn (-4, 6) 1 1).robust_point.x| ≤ 1 →
        |key.y - (example_occupation_turn (-4, 6) 1 1).robust_point.y| ≤ 1 →
        (adapt_mapped_robust_point example_rounding_map
          (example_occupation_turn (-4, 6) 1 1) 1).mapped_robust_point.x < key.x ∨
        ((adapt_mapped_robust_point example_rounding_map
            (example_occupation_turn (-4, 6) 1 1) 1).mapped_robust_point.x = key.x ∧
          (adapt_mapped_robust_point example_rounding_map
            (example_occupation_turn (-4, 6) 1 1) 1).mapped_robust_point.y ≤ key.y)) ∧
    turns_pointwise
      (fun turn0 turn1 => turn1.robust_point = turn0.robust_point ∧ mapped_within 1 turn1)
      example_rounding_cluster.m_turns example_rounding_cluster_result.m_turns :=
  ⟨(adapt_mapped_robust_point_spec example_occupation_policy example_rounding_map
      (example_occupation_turn (-4, 6) 1 1) 1).2.2.1 ⟨⟨-5, 5⟩, by decide, by decide, by decide⟩,
    (adapt_mapped_robust_point_spec example_occupation_policy example_rounding_map
      (example_occupation_turn (-4, 6) 1 1) 1).2.2.2.2 2
      example_rounding_cluster example_rounding_cluster_result [1] (by decide)
      (by unfold mapped_within; decide)⟩

end occupation

/-! ## Discarding turns, reversal and selection of rings: theorems -/

section final_passes

variable {P F : Type}

/-- C28: `discard_turns` leaves in the turn vector exactly the turns whose location is ok and
which are not opposite, in their original relative order and each unchanged; it removes every
turn whose location is not ok and every opposite turn; it changes nothing but the turn vector;
and a second application changes nothing. -/
theorem discard_turns_keeps (opposite : buffer_turn_info P F → Bool)
    (c : buffered_piece_collection P F) :
    (discard_turns opposite c).m_turns
      = c.m_turns.filter (fun turn =>
          decide (turn.location = intersection_location_type.location_ok) && ! opposite turn) ∧
    List.Sublist (discard_turns opposite c).m_turns c.m_turns ∧
    (∀ turn, turn ∈ (discard_turns opposite c).m_turns ↔
      turn ∈ c.m_turns ∧ turn.location = intersection_location_type.location_ok ∧
        opposite turn = false) ∧
    (∀ turn, turn ∈ (discard_turns opposite c).m_turns ↔
      turn ∈ c.m_turns ∧ ¬ (turn.location = intersection_location_type.inside_buffer ∨
        turn.location = intersection_location_type.inside_original ∨ opposite turn = true)) ∧
    discard_turns opposite c = { c with m_turns := (discard_turns opposite c).m_turns } ∧
    discard_turns opposite (discard_turns opposite c) = discard_turns opposite c := by
  have hfilter : (discard_turns opposite c).m_turns
      = c.m_turns.filter (fun turn =>
          decide (turn.location = intersection_location_type.location_ok) && ! opposite turn) := by
    simp only [discard_turns, redundant_turn]
    congr 1
    funext turn
    cases opposite turn <;> simp
  have hmem : ∀ turn, turn ∈ (discard_turns opposite c).m_turns ↔
      turn ∈ c.m_turns ∧ turn.location = intersection_location_type.location_ok ∧
        opposite turn = false := by
    intro turn
    rw [hfilter, List.mem_filter]
    simp
  refine ⟨hfilter, ?_, hmem, ?_, rfl, ?_⟩
  · rw [hfilter]
    exact List.filter_sublist _
  · intro turn
    rw [hmem]
    constructor
    · rintro ⟨h1, h2, h3⟩
      refine ⟨h1, ?_⟩
      rw [h2, h3]
      simp
    · rintro ⟨h1, h2⟩
      refine ⟨h1, ?_, ?_⟩
      · cases hloc : turn.location with
        | location_ok => rfl
        | inside_buffer => exact absurd (Or.inl hloc) h2
        | inside_original => exact absurd (Or.inr (Or.inl hloc)) h2
      · cases hop : opposite turn with
        | false => rfl
        | true => exact absurd (Or.inr (Or.inr hop)) h2
  · simp only [discard_turns, List.filter_filter, Bool.and_self]

/-- The flags of the rings do not depend on the points of the rings. -/
theorem ring_has_intersections_congr (has_intersections : Bool → Bool → Bool)
    (c c1 : buffered_piece_collection P F) (index : Nat)
    (ha : c1.has_accepted_intersections = c.has_accepted_intersections)
    (hd : c1.has_discarded_intersections = c.has_discarded_intersections) :
    ring_has_intersections has_intersections c1 index
      = ring_has_intersections has_intersections c index := by
  simp [ring_has_intersections, ha, hd]

/-- First loop of `reverse`, ring by ring. -/
theorem getElem?_reverse_offsetted_rings (has_intersections : Bool → Bool → Bool)
    (c : buffered_piece_collection P F) (rings : List (List P)) :
    ∀ (index i : Nat),
      (reverse_offsetted_rings has_intersections c index rings)[i]?
        = (rings[i]?).map fun ring =>
            if ring_has_intersections has_intersections c (index + i) then ring
            else ring.reverse := by
  induction rings with
  | nil => intro index i; simp [reverse_offsetted_rings]
  | cons ring rest ih =>
    intro index i
    cases i with
    | zero =>
      cases h : ring_has_intersections has_intersections c index <;>
        simp [reverse_offsetted_rings, h]
    | succ i =>
      simp only [reverse_offsetted_rings, List.getElem?_cons_succ, ih]
      rw [show index + 1 + i = index + (i + 1) by omega]

/-- First loop of `reverse` applied twice. -/
theorem reverse_offsetted_rings_twice (has_intersections : Bool → Bool → Bool)
    (c c1 : buffered_piece_collection P F)
    (ha : c1.has_accepted_intersections = c.has_accepted_intersections)
    (hd : c1.has_discarded_intersections = c.has_discarded_intersections)
    (rings : List (List P)) :
    ∀ index : Nat,
      reverse_offsetted_rings has_intersections c1 index
        (reverse_offsetted_rings has_intersections c index rings) = rings := by
  induction rings with
  | nil => intro index; simp [reverse_offsetted_rings]
  | cons ring rest ih =>
    intro index
    simp only [reverse_offsetted_rings, ih,
      ring_has_intersections_congr has_intersections c c1 index ha hd]
    cases h : ring_has_intersections has_intersections c index <;> simp

/-- First loop of `reverse`: the number of rings is kept. -/
theorem length_reverse_offsetted_rings (has_intersections : Bool → Bool → Bool)
    (c : buffered_piece_collection P F) (rings : List (List P)) :
    ∀ index : Nat,
      (reverse_offsetted_rings has_intersections c index rings).length = rings.length := by
  induction rings with
  | nil => intro index; rfl
  | cons ring rest ih => intro index; simp [reverse_offsetted_rings, ih]

/-- C30: `reverse` reverses the points of every offsetted ring that has no intersections and of
every traversed ring, leaves the points of every offsetted ring that has intersections, the
pieces, the turns and the flags of the rings unchanged, and applied twice gives back the
collection. -/
theorem reverse_rings (has_intersections : Bool → Bool → Bool)
    (c : buffered_piece_collection P F) :
    (reverse has_intersections c).offsetted_rings.length = c.offsetted_rings.length ∧
    (∀ i : Nat, (reverse has_intersections c).offsetted_rings[i]?
      = (c.offsetted_rings[i]?).map fun ring =>
          if ring_has_intersections has_intersections c i then ring else ring.reverse) ∧
    (reverse has_intersections c).traversed_rings = c.traversed_rings.map List.reverse ∧
    (reverse has_intersections c).m_pieces = c.m_pieces ∧
    (reverse has_intersections c).m_turns = c.m_turns ∧
    (reverse has_intersections c).has_accepted_intersections = c.has_accepted_intersections ∧
    (reverse has_intersections c).has_discarded_intersections
      = c.has_discarded_intersections ∧
    (reverse has_intersections c).current_segment_id = c.current_segment_id ∧
    reverse has_intersections (reverse has_intersections c) = c := by
  have hget := getElem?_reverse_offsetted_rings has_intersections c c.offsetted_rings 0
  simp only [Nat.zero_add] at hget
  refine ⟨?_, hget, rfl, rfl, rfl, rfl, rfl, rfl, ?_⟩
  · exact length_reverse_offsetted_rings has_intersections c c.offsetted_rings 0
  · have h2 := reverse_offsetted_rings_twice has_intersections c (reverse has_intersections c)
      rfl rfl c.offsetted_rings 0
    have h3 : (c.traversed_rings.map List.reverse).map List.reverse = c.traversed_rings := by
      simp [List.map_map]
    cases c
    simp only [reverse] at h2 h3 ⊢
    simp only [h2, h3]

/-- Assignment at an identifier the map does not hold: a new entry at the end. -/
theorem selected_assign_new {R : Type} (id : ring_identifier) (value : R)
    (selected : List (ring_identifier × R)) (h : ∀ e ∈ selected, e.1 ≠ id) :
    selected_assign id value selected = selected ++ [(id, value)] := by
  induction selected with
  | nil => rfl
  | cons e rest ih =>
    obtain ⟨k, v⟩ := e
    have hk : k ≠ id := h (k, v) (List.mem_cons_self _ _)
    simp only [selected_assign, hk, if_false, List.cons_append]
    rw [ih (fun e he => h e (List.mem_cons_of_mem _ he))]

/-- First loop of `assign`: the rings without intersections are appended. -/
theorem select_offsetted_rings_eq {R : Type} (has_intersections : Bool → Bool → Bool)
    (properties : List P → R) (c : buffered_piece_collection P F) (rings : List (List P)) :
    ∀ (index : Nat) (selected : List (ring_identifier × R)),
      (∀ e ∈ selected, e.1.source_index = 0 ∧ e.1.multi_index < (index : Int)) →
      select_offsetted_rings has_intersections properties c index rings selected
        = selected ++ ((rings.enumFrom index).filter fun e =>
            ! ring_has_intersections has_intersections c e.1).map
            fun e => (offsetted_ring_id e.1, properties e.2) := by
  induction rings with
  | nil => intro index selected _; simp [select_offsetted_rings]
  | cons ring rest ih =>
    intro index selected hsel
    simp only [select_offsetted_rings, List.enumFrom_cons, List.filter_cons]
    cases h : ring_has_intersections has_intersections c index with
    | true =>
      simp only [Bool.not_true, Bool.false_eq_true, if_false]
      exact ih (index + 1) selected (fun e he => ⟨(hsel e he).1, by
        have := (hsel e he).2
        push_cast
        omega⟩)
    | false =>
      simp only [Bool.not_false, if_true]
      rw [selected_assign_new _ _ _ (fun e he heq => by
        have := (hsel e he).2
        rw [heq] at this
        simp at this)]
      rw [ih (index + 1) _ (fun e he => by
        rcases List.mem_append.mp he with he | he
        · exact ⟨(hsel e he).1, by
            have := (hsel e he).2
            push_cast
            omega⟩
        · simp only [List.mem_singleton] at he
          subst he
          exact ⟨rfl, by push_cast; omega⟩)]
      simp [offsetted_ring_id]

/-- Second loop of `assign`: every traversed ring is appended. -/
theorem select_traversed_rings_eq {R : Type} (properties : List P → R)
    (rings : List (List P)) :
    ∀ (index : Nat) (selected : List (ring_identifier × R)),
      (∀ e ∈ selected, e.1.source_index = 2 → e.1.multi_index < (index : Int)) →
      select_traversed_rings properties index rings selected
        = selected ++ (rings.enumFrom index).map
            fun e => (traversed_ring_id e.1, properties e.2) := by
  induction rings with
  | nil => intro index selected _; simp [select_traversed_rings]
  | cons ring rest ih =>
    intro index selected hsel
    simp only [select_traversed_rings, List.enumFrom_cons, List.map_cons]
    rw [selected_assign_new _ _ _ (fun e he heq => by
      have := hsel e he (by rw [heq])
      rw [heq] at this
      simp at this)]
    rw [ih (index + 1) _ (fun e he h2 => by
      rcases List.mem_append.mp he with he | he
      · have := hsel e he h2
        push_cast
        omega
      · simp only [List.mem_singleton] at he
        subst he
        push_cast
        omega)]
    simp [traversed_ring_id]

/-- C29: the map `selected` built by the two loops of `assign` holds exactly one entry
`(0, i, -1)` for every offsetted ring `i` that has no intersections and one entry `(2, j, -1)`
for every traversed ring `j`, each with the properties of its ring: no offsetted ring that has
intersections is a candidate, no identifier occurs twice, and the number of candidates is the
number of offsetted rings without intersections plus the number of traversed rings. -/
theorem assign_selected_candidates {R : Type} (has_intersections : Bool → Bool → Bool)
    (properties : List P → R) (c : buffered_piece_collection P F) :
    assign_selected has_intersections properties c
      = ring_candidates has_intersections properties c ∧
    (∀ id : ring_identifier,
      id ∈ (assign_selected has_intersections properties c).map Prod.fst ↔
        (∃ i : Nat, i < c.offsetted_rings.length ∧
          ring_has_intersections has_intersections c i = false ∧
          id = offsetted_ring_id i) ∨
        (∃ j : Nat, j < c.traversed_rings.length ∧
          id = traversed_ring_id j)) ∧
    ((assign_selected has_intersections properties c).map Prod.fst).Nodup ∧
    (assign_selected has_intersections properties c).length
      = ((List.range c.offsetted_rings.length).filter fun i =>
          ! ring_has_intersections has_intersections c i).length
        + c.traversed_rings.length := by
  have heq : assign_selected has_intersections properties c
      = ring_candidates has_intersections properties c := by
    unfold assign_selected ring_candidates
    rw [select_offsetted_rings_eq has_intersections properties c c.offsetted_rings 0 []
      (by simp)]
    rw [select_traversed_rings_eq properties c.traversed_rings 0 _ (by
      intro e he h2
      simp only [List.nil_append, List.mem_map, List.mem_filter] at he
      obtain ⟨e1, _, rfl⟩ := he
      simp [offsetted_ring_id] at h2)]
    simp [List.enum]
  have hkeys : (assign_selected has_intersections properties c).map Prod.fst
      = ((List.range c.offsetted_rings.length).filter fun i =>
          ! ring_has_intersections has_intersections c i).map offsetted_ring_id
        ++ (List.range c.traversed_rings.length).map traversed_ring_id := by
    rw [heq, ring_candidates, List.map_append, List.map_map, List.map_map,
      ← List.enum_map_fst c.offsetted_rings, ← List.enum_map_fst c.traversed_rings,
      List.filter_map, List.map_map, List.map_map]
    rfl
  refine ⟨heq, ?_, ?_, ?_⟩
  · intro id
    rw [hkeys]
    simp only [List.mem_append, List.mem_map, List.mem_filter, List.mem_range,
      Bool.not_eq_true']
    constructor
    · rintro (⟨i, ⟨hi, hint⟩, rfl⟩ | ⟨j, hj, rfl⟩)
      · exact Or.inl ⟨i, hi, hint, rfl⟩
      · exact Or.inr ⟨j, hj, rfl⟩
    · rintro (⟨i, hi, hint, rfl⟩ | ⟨j, hj, rfl⟩)
      · exact Or.inl ⟨i, ⟨hi, hint⟩, rfl⟩
      · exact Or.inr ⟨j, hj, rfl⟩
  · rw [hkeys]
    refine List.Nodup.append ?_ ?_ ?_
    · refine ((List.nodup_range _).filter _).map ?_
      intro i j h
      have h2 := congrArg ring_identifier.multi_index h
      simp only [offsetted_ring_id] at h2
      omega
    · refine (List.nodup_range _).map ?_
      intro i j h
      have h2 := congrArg ring_identifier.multi_index h
      simp only [traversed_ring_id] at h2
      omega
    · intro id h1 h2
      obtain ⟨i, _, rfl⟩ := List.mem_map.mp h1
      obtain ⟨j, _, h⟩ := List.mem_map.mp h2
      have h3 := congrArg ring_identifier.source_index h
      simp [offsetted_ring_id, traversed_ring_id] at h3
  · have hlen := congrArg List.length hkeys
    simpa using hlen

end final_passes

/-! ## Geometric predicates and neighbours: theorems -/

section predicates

variable {P F : Type}

/-- Function `projection_on_segment` compares the dot product of `subject - p` and `q - p`
with zero and with the squared length of `q - p`. -/
theorem projection_on_segment_eq (s p q : robust_point_type) :
    projection_on_segment s p q = true ↔
      0 ≤ dot_product s p q ∧ dot_product s p q ≤ dot_product q p q := by
  simp only [projection_on_segment, dot_product]
  by_cases h1 : (s.x - p.x) * (q.x - p.x) + (s.y - p.y) * (q.y - p.y) < 0
  · simp only [h1, if_true, Bool.false_eq_true, false_iff, not_and]
    intro h
    omega
  · simp only [h1, if_false]
    by_cases h2 : (q.x - p.x) * (q.x - p.x) + (q.y - p.y) * (q.y - p.y)
        < (s.x - p.x) * (q.x - p.x) + (s.y - p.y) * (q.y - p.y)
    · simp only [h2, if_true, Bool.false_eq_true, false_iff, not_and]
      intro _
      omega
    · simp only [h2, if_false, true_iff]
      constructor <;> omega

/-- A point on the closed segment from `p` to `q` is collinear with `p` and `q`. -/
theorem cross_product_of_lies_on_segment (s p q : robust_point_type)
    (h : lies_on_segment s p q) : cross_product s p q = 0 := by
  obtain ⟨a, b, ha, hb, hab, hx, hy⟩ := h
  have hsx : (a + b) * (s.x - p.x) = b * (q.x - p.x) := by linear_combination hx
  have hsy : (a + b) * (s.y - p.y) = b * (q.y - p.y) := by linear_combination hy
  have hmul : (a + b) * cross_product s p q = 0 := by
    simp only [cross_product]
    linear_combination (q.x - p.x) * hsy - (q.y - p.y) * hsx
  rcases mul_eq_zero.mp hmul with h0 | h0
  · omega
  · exact h0

/-- For a point collinear with two different points `p` and `q`, the two comparisons of
`projection_on_segment` say that the point lies on the closed segment from `p` to `q`. -/
theorem lies_on_segment_iff (s p q : robust_point_type) (hpq : p ≠ q) :
    lies_on_segment s p q ↔
      cross_product s p q = 0 ∧ 0 ≤ dot_product s p q ∧
        dot_product s p q ≤ dot_product q p q := by
  have hlen : 0 < dot_product q p q := by
    simp only [dot_product]
    have hne : q.x - p.x ≠ 0 ∨ q.y - p.y ≠ 0 := by
      by_contra hcon
      push_neg at hcon
      apply hpq
      cases p
      cases q
      simp only [robust_point_type.mk.injEq]
      constructor <;> [have := hcon.1; have := hcon.2] <;> simp only at this <;> omega
    rcases hne with hne | hne
    · have := mul_self_pos.mpr hne
      have := mul_self_nonneg (q.y - p.y)
      omega
    · have := mul_self_pos.mpr hne
      have := mul_self_nonneg (q.x - p.x)
      omega
  constructor
  · intro h
    refine ⟨cross_product_of_lies_on_segment s p q h, ?_⟩
    obtain ⟨a, b, ha, hb, hab, hx, hy⟩ := h
    have hsx : (a + b) * (s.x - p.x) = b * (q.x - p.x) := by linear_combination hx
    have hsy : (a + b) * (s.y - p.y) = b * (q.y - p.y) := by linear_combination hy
    have hdot : (a + b) * dot_product s p q = b * dot_product q p q := by
      simp only [dot_product]
      linear_combination (q.x - p.x) * hsx + (q.y - p.y) * hsy
    constructor
    · have hnn : 0 ≤ (a + b) * dot_product s p q := by
        rw [hdot]
        exact mul_nonneg hb (le_of_lt hlen)
      exact nonneg_of_mul_nonneg_right hnn hab
    · have hle : (a + b) * dot_product s p q ≤ (a + b) * dot_product q p q := by
        rw [hdot]
        exact mul_le_mul_of_nonneg_right (by omega) (le_of_lt hlen)
      exact le_of_mul_le_mul_left hle hab
  · rintro ⟨hcross, h0, h1⟩
    refine ⟨dot_product q p q - dot_product s p q, dot_product s p q, by omega, h0, by omega,
      ?_, ?_⟩
    · simp only [cross_product, dot_product] at hcross ⊢
      linear_combination (-(q.y - p.y)) * hcross
    · simp only [cross_product, dot_product] at hcross ⊢
      linear_combination (q.x - p.x) * hcross

/-- C36: over integer coordinates `projection_on_segment(s, p, q)` is true if and only if
`0 <= (s - p).(q - p) <= (q - p).(q - p)`; and for `s` collinear with two different points
`p` and `q` it is true exactly when `s` lies on the closed segment from `p` to `q`, whose end
points it holds for. -/
theorem projection_on_segment_iff (s p q : robust_point_type) :
    (projection_on_segment s p q = true ↔
      0 ≤ dot_product s p q ∧ dot_product s p q ≤ dot_product q p q) ∧
    (cross_product s p q = 0 → p ≠ q →
      (projection_on_segment s p q = true ↔ lies_on_segment s p q)) ∧
    projection_on_segment p p q = true ∧ projection_on_segment q p q = true := by
  refine ⟨projection_on_segment_eq s p q, ?_, ?_, ?_⟩
  · intro hcross hpq
    rw [projection_on_segment_eq, lies_on_segment_iff s p q hpq]
    exact ⟨fun h => ⟨hcross, h⟩, fun h => h.2⟩
  · rw [projection_on_segment_eq]
    simp only [dot_product]
    have := mul_self_nonneg (q.x - p.x)
    have := mul_self_nonneg (q.y - p.y)
    constructor
    · simp
    · simp only [sub_self, zero_mul, add_zero]
      omega
  · rw [projection_on_segment_eq]
    simp only [dot_product]
    have := mul_self_nonneg (q.x - p.x)
    have := mul_self_nonneg (q.y - p.y)
    constructor <;> omega

/-- C36, instance: on the segment from `(0, 0)` to `(4, 0)` the collinear point `(2, 0)` lies on
the segment and `projection_on_segment` is true. -/
theorem projection_on_segment_iff_witness :
    (projection_on_segment ⟨2, 0⟩ ⟨0, 0⟩ ⟨4, 0⟩ = true ↔ lies_on_segment ⟨2, 0⟩ ⟨0, 0⟩ ⟨4, 0⟩) ∧
    projection_on_segment ⟨2, 0⟩ ⟨0, 0⟩ ⟨4, 0⟩ = true :=
  ⟨(projection_on_segment_iff ⟨2, 0⟩ ⟨0, 0⟩ ⟨4, 0⟩).2.1 (by decide) (by decide), by decide⟩

/-- C37: `is_neighbor` is symmetric; it is false for pieces of different offsetted rings; for
two pieces of the same ring it is true exactly when their indices differ by `1` or one has the
index `0` and the other the index `N - 1`, `N` being the number of pieces of the collection,
so that two pieces whose indices do not differ by `1` are neighbours only as the first and the
last piece of the whole sequence; and `skip_neighbor` is symmetric. -/
theorem is_neighbor_symmetric (c : buffered_piece_collection P F) (piece1 piece2 : piece P F) :
    is_neighbor c piece1 piece2 = is_neighbor c piece2 piece1 ∧
    (piece1.first_seg_id.multi_index ≠ piece2.first_seg_id.multi_index →
      is_neighbor c piece1 piece2 = false) ∧
    (piece1.first_seg_id.multi_index = piece2.first_seg_id.multi_index →
      (is_neighbor c piece1 piece2 = true ↔
        (piece1.index - piece2.index = 1 ∨ piece2.index - piece1.index = 1 ∨
          (piece1.index = 0 ∧ piece2.index = (c.m_pieces.length : Int) - 1) ∨
          (piece1.index = (c.m_pieces.length : Int) - 1 ∧ piece2.index = 0)))) ∧
    (is_neighbor c piece1 piece2 = true →
      ¬ (piece1.index - piece2.index = 1 ∨ piece2.index - piece1.index = 1) →
      (piece1.index = 0 ∧ piece2.index = (c.m_pieces.length : Int) - 1) ∨
      (piece1.index = (c.m_pieces.length : Int) - 1 ∧ piece2.index = 0)) ∧
    skip_neighbor c piece1 piece2 = skip_neighbor c piece2 piece1 := by
  have hiff : ∀ a b : piece P F, a.first_seg_id.multi_index = b.first_seg_id.multi_index →
      (is_neighbor c a b = true ↔
        (a.index - b.index = 1 ∨ b.index - a.index = 1 ∨
          (a.index = 0 ∧ b.index = (c.m_pieces.length : Int) - 1) ∨
          (a.index = (c.m_pieces.length : Int) - 1 ∧ b.index = 0))) := by
    intro a b hab
    simp only [is_neighbor, hab, ne_eq, not_true_eq_false, if_false]
    by_cases habs : (a.index - b.index).natAbs = 1
    · simp only [habs, if_true, true_iff]
      omega
    · simp only [habs, if_false, Bool.or_eq_true, Bool.and_eq_true, decide_eq_true_eq]
      constructor
      · intro h
        omega
      · intro h
        omega
  have hfalse : ∀ a b : piece P F, a.first_seg_id.multi_index ≠ b.first_seg_id.multi_index →
      is_neighbor c a b = false := by
    intro a b hab
    simp [is_neighbor, hab]
  have hsymm : is_neighbor c piece1 piece2 = is_neighbor c piece2 piece1 := by
    by_cases hm : piece1.first_seg_id.multi_index = piece2.first_seg_id.multi_index
    · rw [Bool.eq_iff_iff, hiff piece1 piece2 hm, hiff piece2 piece1 hm.symm]
      omega
    · rw [hfalse piece1 piece2 hm, hfalse piece2 piece1 (fun h => hm h.symm)]
  refine ⟨hsymm, hfalse piece1 piece2, hiff piece1 piece2, ?_, ?_⟩
  · intro h hdiff
    by_cases hm : piece1.first_seg_id.multi_index = piece2.first_seg_id.multi_index
    · have := (hiff piece1 piece2 hm).mp h
      omega
    · rw [hfalse piece1 piece2 hm] at h
      cases h
  · simp only [skip_neighbor, hsymm]
    congr 1
    rw [Bool.eq_iff_iff]
    simp only [decide_eq_true_eq]
    exact ⟨fun h => fun h2 => h h2.symm, fun h => fun h2 => h h2.symm⟩


/-- Function `on_offsetted` is true when for some `i` from `1` up to `offsetted_count - 1` the
point has side `0` of the segment from point `i - 1` to point `i` of the robust ring and
`projection_on_segment` holds for it. -/
theorem on_offsetted_iff (side : robust_point_type → robust_point_type → robust_point_type → Int)
    (point : robust_point_type) (pc : piece P F) :
    on_offsetted side point pc = true ↔
      ∃ (i : Nat) (previous current : robust_point_type), 1 ≤ i ∧ (i : Int) < pc.offsetted_count ∧
        pc.robust_ring[i - 1]? = some previous ∧ pc.robust_ring[i]? = some current ∧
        side point previous current = 0 ∧
        projection_on_segment point previous current = true := by
  simp only [on_offsetted, List.any_eq_true, List.mem_range'_1]
  constructor
  · rintro ⟨i, ⟨h1, h2⟩, h⟩
    cases hp : pc.robust_ring[i - 1]? with
    | none => simp [hp] at h
    | some previous =>
      cases hc : pc.robust_ring[i]? with
      | none => simp [hp, hc] at h
      | some current =>
        simp only [hp, hc, Bool.and_eq_true, decide_eq_true_eq] at h
        exact ⟨i, previous, current, h1, by omega, hp, hc, h.1, h.2⟩
  · rintro ⟨i, previous, current, h1, h2, hp, hc, hs, hproj⟩
    refine ⟨i, ⟨h1, by omega⟩, ?_⟩
    simp [hp, hc, hs, hproj]

/-- When the consecutive points of the offsetted part of the robust ring are different and the
side primitive is zero exactly for collinear points, `on_offsetted` is true exactly for the
points that lie on one of the segments of the offsetted part. -/
theorem on_offsetted_of_distinct
    (side : robust_point_type → robust_point_type → robust_point_type → Int)
    (hside : side_of_cross_product side) (point : robust_point_type) (pc : piece P F)
    (hdistinct : ∀ (i : Nat) (previous current : robust_point_type), 1 ≤ i →
      (i : Int) < pc.offsetted_count → pc.robust_ring[i - 1]? = some previous →
      pc.robust_ring[i]? = some current → previous ≠ current) :
    on_offsetted side point pc = true ↔
      ∃ (i : Nat) (previous current : robust_point_type), 1 ≤ i ∧ (i : Int) < pc.offsetted_count ∧
        pc.robust_ring[i - 1]? = some previous ∧ pc.robust_ring[i]? = some current ∧
        lies_on_segment point previous current := by
  rw [on_offsetted_iff]
  constructor
  · rintro ⟨i, previous, current, h1, h2, hp, hc, hs, hproj⟩
    have hne := hdistinct i previous current h1 h2 hp hc
    refine ⟨i, previous, current, h1, h2, hp, hc, ?_⟩
    rw [lies_on_segment_iff point previous current hne]
    exact ⟨(hside point previous current).mp hs,
      (projection_on_segment_eq point previous current).mp hproj⟩
  · rintro ⟨i, previous, current, h1, h2, hp, hc, hlies⟩
    have hne := hdistinct i previous current h1 h2 hp hc
    rw [lies_on_segment_iff point previous current hne] at hlies
    exact ⟨i, previous, current, h1, h2, hp, hc, (hside point previous current).mpr hlies.1,
      (projection_on_segment_eq point previous current).mpr hlies.2⟩

/-- When two consecutive points of the offsetted part of the robust ring are equal and the side
primitive is zero for collinear points, `on_offsetted` is true for every point. -/
theorem on_offsetted_of_equal_points
    (side : robust_point_type → robust_point_type → robust_point_type → Int)
    (hside : side_of_cross_product side) (pc : piece P F) (i : Nat)
    (previous : robust_point_type) (h1 : 1 ≤ i) (h2 : (i : Int) < pc.offsetted_count)
    (hp : pc.robust_ring[i - 1]? = some previous) (hc : pc.robust_ring[i]? = some previous)
    (point : robust_point_type) : on_offsetted side point pc = true := by
  rw [on_offsetted_iff]
  refine ⟨i, previous, previous, h1, h2, hp, hc, ?_, ?_⟩
  · rw [hside]
    simp [cross_product]
  · rw [projection_on_segment_eq]
    simp [dot_product]

/-- The sign of the cross product is a side primitive that is zero exactly for collinear
points. -/
theorem example_side_of_cross_product : side_of_cross_product example_side := by
  intro point previous current
  simp only [example_side, cross_product, Int.sign_eq_zero_iff_zero]

/-- C35, failing input: on a piece whose offsetted part `(0,0) (0,0) (4,0)` holds two equal
consecutive points, `on_offsetted` is true for the point `(4, 2)`, which lies on no segment of
the offsetted part and lies on the helper segment from `(4, 0)` to `(4, 4)`. -/
theorem on_offsetted_equal_points :
    on_offsetted example_side ⟨4, 2⟩ example_degenerate_piece = true ∧
    (∀ (i : Nat) (previous current : robust_point_type), 1 ≤ i →
      (i : Int) < example_degenerate_piece.offsetted_count →
      example_degenerate_piece.robust_ring[i - 1]? = some previous →
      example_degenerate_piece.robust_ring[i]? = some current →
      ¬ lies_on_segment ⟨4, 2⟩ previous current) ∧
    example_degenerate_piece.robust_ring[2]? = some ⟨4, 0⟩ ∧
    example_degenerate_piece.robust_ring[3]? = some ⟨4, 4⟩ ∧
    lies_on_segment ⟨4, 2⟩ ⟨4, 0⟩ ⟨4, 4⟩ := by
  refine ⟨by decide, ?_, rfl, rfl, ⟨1, 1, by decide, by decide, by decide, by decide,
    by decide⟩⟩
  intro i previous current h1 h2 hp hc
  simp only [example_degenerate_piece] at h2 hp hc
  have hi : i = 1 ∨ i = 2 := by omega
  rcases hi with rfl | rfl
  · simp only [Nat.sub_self, List.getElem?_cons_zero, Option.some.injEq] at hp
    simp only [List.getElem?_cons_succ, List.getElem?_cons_zero, Option.some.injEq] at hc
    subst hp
    subst hc
    rintro ⟨a, b, ha, hb, hab, hx, hy⟩
    simp only at hx hy
    omega
  · simp only [show 2 - 1 = 1 from rfl, List.getElem?_cons_succ, List.getElem?_cons_zero,
      Option.some.injEq] at hp
    simp only [List.getElem?_cons_succ, List.getElem?_cons_zero, Option.some.injEq] at hc
    subst hp
    subst hc
    rintro ⟨a, b, ha, hb, hab, hx, hy⟩
    simp only at hx hy
    omega

/-- C37, instance: in a collection of three pieces on one ring the pieces with the indices `0`
and `2` are neighbours, as the first and the last piece of the sequence, in both orders. -/
theorem is_neighbor_symmetric_witness :
    (((example_square_piece piece_type.buffered_segment 0).index = 0 ∧
        (example_square_piece piece_type.buffered_segment 2).index
          = (example_three_pieces.m_pieces.length : Int) - 1) ∨
      ((example_square_piece piece_type.buffered_segment 0).index
          = (example_three_pieces.m_pieces.length : Int) - 1 ∧
        (example_square_piece piece_type.buffered_segment 2).index = 0)) ∧
    is_neighbor example_three_pieces (example_square_piece piece_type.buffered_segment 0)
        (example_square_piece piece_type.buffered_segment 2)
      = is_neighbor example_three_pieces (example_square_piece piece_type.buffered_segment 2)
        (example_square_piece piece_type.buffered_segment 0) :=
  ⟨(is_neighbor_symmetric example_three_pieces
      (example_square_piece piece_type.buffered_segment 0)
      (example_square_piece piece_type.buffered_segment 2)).2.2.2.1 (by decide) (by decide),
    (is_neighbor_symmetric example_three_pieces
      (example_square_piece piece_type.buffered_segment 0)
      (example_square_piece piece_type.buffered_segment 2)).1⟩

/-- One step of `move_to_next_point` from a position of the range. -/
theorem move_to_next_point_eq (range : List P) (pos : Nat) (hn : 2 ≤ range.length)
    (hpos : pos < range.length) :
    move_to_next_point range pos = 1 + pos % (range.length - 1) := by
  unfold move_to_next_point
  by_cases h : pos + 1 = range.length
  · rw [if_pos h]
    have : pos = range.length - 1 := by omega
    rw [this, Nat.mod_self]
  · rw [if_neg h, Nat.mod_eq_of_lt (by omega)]
    omega

/-- The positions `next_point` scans are the results of `move_to_next_point` applied over and
over. -/
theorem move_to_next_point_scan (range : List P) (it k : Nat) (hn : 2 ≤ range.length) :
    move_to_next_point range (scan_position range.length it k)
      = scan_position range.length it (k + 1) := by
  have hlt : scan_position range.length it k < range.length := by
    unfold scan_position
    have := Nat.mod_lt (it + k) (show 0 < range.length - 1 by omega)
    omega
  rw [move_to_next_point_eq range _ hn hlt]
  unfold scan_position
  rw [Nat.add_mod_mod, show 1 + (it + k) = it + (k + 1) by omega]

/-- The scanned positions lie between `1` and the last position of the range. -/
theorem scan_position_bounds (n it k : Nat) (hn : 2 ≤ n) :
    1 ≤ scan_position n it k ∧ scan_position n it k < n := by
  unfold scan_position
  have := Nat.mod_lt (it + k) (show 0 < n - 1 by omega)
  omega

/-- When the loop of `next_point` returns, it returns the first scanned position whose point
differs from the point at `it`. -/
theorem next_point_loop_first (equals : P → P → Bool) (range : List P) (it : Nat) (a : P)
    (ha : range[it]? = some a) (hn : 2 ≤ range.length) :
    ∀ (fuel j res : Nat),
      next_point_loop equals range it fuel (scan_position range.length it j) = some res →
      ∃ (k : Nat) (b : P), k < fuel ∧ res = scan_position range.length it (j + k) ∧
        range[res]? = some b ∧ equals a b = false ∧
        ∀ i : Nat, i < k → ∃ x, range[scan_position range.length it (j + i)]? = some x ∧
          equals a x = true := by
  intro fuel
  induction fuel with
  | zero => intro j res h; simp [next_point_loop] at h
  | succ fuel ih =>
    intro j res h
    obtain ⟨_, hlt⟩ := scan_position_bounds range.length it j hn
    obtain ⟨x, hx⟩ : ∃ x, range[scan_position range.length it j]? = some x :=
      ⟨_, List.getElem?_eq_getElem hlt⟩
    simp only [next_point_loop, ha, hx] at h
    cases hax : equals a x with
    | false =>
      simp only [hax, Bool.false_eq_true, if_false, Option.some.injEq] at h
      subst h
      exact ⟨0, x, by omega, rfl, hx, hax, fun i hi => absurd hi (by omega)⟩
    | true =>
      simp only [hax, if_true] at h
      rw [move_to_next_point_scan range it j hn] at h
      obtain ⟨k, b, hk, hres, hb, hab, hall⟩ := ih (j + 1) res h
      refine ⟨k + 1, b, by omega, by rw [hres]; congr 1; omega, hb, hab, ?_⟩
      intro i hi
      cases i with
      | zero => exact ⟨x, hx, hax⟩
      | succ i =>
        obtain ⟨y, hy, hay⟩ := hall i (by omega)
        exact ⟨y, by rw [← hy]; congr 2; omega, hay⟩

/-- The loop of `next_point` returns the first scanned position whose point differs from the
point at `it`, when the fuel exceeds the number of the positions before it. -/
theorem next_point_loop_scan (equals : P → P → Bool) (range : List P) (it : Nat) (a b : P)
    (ha : range[it]? = some a) (hn : 2 ≤ range.length) :
    ∀ (k j fuel : Nat), k < fuel →
      range[scan_position range.length it (j + k)]? = some b → equals a b = false →
      (∀ i : Nat, i < k → ∃ x, range[scan_position range.length it (j + i)]? = some x ∧
        equals a x = true) →
      next_point_loop equals range it fuel (scan_position range.length it j)
        = some (scan_position range.length it (j + k)) := by
  intro k
  induction k with
  | zero =>
    intro j fuel hfuel hb hab _
    obtain ⟨fuel, rfl⟩ : ∃ f, fuel = f + 1 := ⟨fuel - 1, by omega⟩
    simp only [Nat.add_zero] at hb ⊢
    simp [next_point_loop, ha, hb, hab]
  | succ k ih =>
    intro j fuel hfuel hb hab hall
    obtain ⟨fuel, rfl⟩ : ∃ f, fuel = f + 1 := ⟨fuel - 1, by omega⟩
    obtain ⟨x, hx, hax⟩ := hall 0 (by omega)
    simp only [Nat.add_zero] at hx
    simp only [next_point_loop, ha, hx, hax, if_true]
    rw [move_to_next_point_scan range it j hn, show j + (k + 1) = j + 1 + k by omega]
    refine ih (j + 1) fuel (by omega) (by rw [← hb]; congr 2; omega) hab ?_
    intro i hi
    obtain ⟨y, hy, hay⟩ := hall (i + 1) (by omega)
    exact ⟨y, by rw [← hy]; congr 2; omega, hay⟩

/-- C39: when some position `m` from `1` on of the range holds a point different from the point
at `it`, `next_point(range, it)` returns, for every fuel from the length of the range on: its
result is the first position, going forward from `it` and from the last position to position
`1`, whose point is not equal to the point at `it`; every position scanned before it holds a
point equal to the point at `it`, and no scanned position is position `0`. -/
theorem next_point_first (equals : P → P → Bool) (range : List P) (it m : Nat) (a b : P)
    (ha : range[it]? = some a) (hm : 1 ≤ m) (hb : range[m]? = some b)
    (hab : equals a b = false) :
    ∃ (k : Nat) (x : P), k < range.length ∧
      (∀ fuel : Nat, range.length ≤ fuel →
        next_point equals fuel range it = some (scan_position range.length it k)) ∧
      range[scan_position range.length it k]? = some x ∧ equals a x = false ∧
      (∀ i : Nat, i < k → ∃ y, range[scan_position range.length it i]? = some y ∧
        equals a y = true) ∧
      (∀ i : Nat, 1 ≤ scan_position range.length it i ∧
        scan_position range.length it i < range.length) ∧
      scan_position range.length it 0 = (if it + 1 = range.length then 1 else it + 1) ∧
      (∀ i : Nat, scan_position range.length it (i + 1)
        = if scan_position range.length it i + 1 = range.length then 1
          else scan_position range.length it i + 1) := by
  have hmn : m < range.length := (List.getElem?_eq_some_iff.mp hb).1
  have hitn : it < range.length := (List.getElem?_eq_some_iff.mp ha).1
  have hn : 2 ≤ range.length := by omega
  have hstart : move_to_next_point range it = scan_position range.length it 0 := by
    rw [move_to_next_point_eq range it hn hitn]
    rfl
  have hnext : has_next_point equals range it = true := by
    unfold has_next_point
    rw [ha]
    simp only [List.any_eq_true, Bool.not_eq_true']
    refine ⟨b, ?_, hab⟩
    have hd : (range.drop 1)[m - 1]? = some b := by
      rw [List.getElem?_drop, show 1 + (m - 1) = m by omega]
      exact hb
    exact List.getElem?_mem hd
  obtain ⟨res, _, hres, _⟩ := next_point_returns equals range it range.length hnext (Nat.le_refl _)
  rw [next_point, hstart] at hres
  obtain ⟨k, x, hk, hreseq, hx, hax, hall⟩ :=
    next_point_loop_first equals range it a ha hn range.length 0 res hres
  simp only [Nat.zero_add] at hreseq hall
  rw [hreseq] at hx
  refine ⟨k, x, hk, ?_, hx, hax, hall, fun i => scan_position_bounds _ it i hn, ?_, ?_⟩
  · intro fuel hfuel
    rw [next_point, hstart]
    have := next_point_loop_scan equals range it a x ha hn k 0 fuel (by omega)
      (by rw [Nat.zero_add]; exact hx) hax (by simpa using hall)
    simpa using this
  · rw [← hstart]
    rfl
  · intro i
    rw [← move_to_next_point_scan range it i hn]
    rfl

/-- C39, instance: in the range `(1,0) (0,0) (1,0) (1,0) (1,0)` the first point after position
`3` that differs from the point there is found after the step from the last position to
position `1`. -/
theorem next_point_first_witness :
    ∃ (k : Nat) (x : Int × Int), k < 5 ∧
      (∀ fuel : Nat, 5 ≤ fuel →
        next_point example_equals fuel [(1, 0), (0, 0), (1, 0), (1, 0), (1, 0)] 3
          = some (scan_position 5 3 k)) ∧
      [((1 : Int), (0 : Int)), (0, 0), (1, 0), (1, 0), (1, 0)][scan_position 5 3 k]? = some x ∧
      example_equals (1, 0) x = false ∧
      (∀ i : Nat, i < k →
        ∃ y, [((1 : Int), (0 : Int)), (0, 0), (1, 0), (1, 0), (1, 0)][scan_position 5 3 i]?
          = some y ∧ example_equals (1, 0) y = true) ∧
      (∀ i : Nat, 1 ≤ scan_position 5 3 i ∧ scan_position 5 3 i < 5) ∧
      scan_position 5 3 0 = (if 3 + 1 = 5 then 1 else 3 + 1) ∧
      (∀ i : Nat, scan_position 5 3 (i + 1)
        = if scan_position 5 3 i + 1 = 5 then 1 else scan_position 5 3 i + 1) :=
  next_point_first example_equals [(1, 0), (0, 0), (1, 0), (1, 0), (1, 0)] 3 1 (1, 0) (0, 0)
    rfl (by decide) rfl (by decide)

end predicates

/-! ## Ring flags and the empty collection: theorems -/

section pipeline

variable {P F A L : Type}

/-- Setting a ring flag succeeds for the index of a ring and adds that index to the flags. -/
theorem set_ring_flag_spec (count : Nat) (multi_index : Int) (flags : List Nat)
    (h0 : 0 ≤ multi_index) (hlt : multi_index.toNat < count) :
    ∃ flags1, set_ring_flag count multi_index flags = some flags1 ∧
      ∀ i : Nat, i ∈ flags1 ↔ i ∈ flags ∨ (i : Int) = multi_index := by
  have hcast : ∀ i : Nat, i = multi_index.toNat ↔ (i : Int) = multi_index := by
    intro i
    omega
  simp only [set_ring_flag, h0, hlt, and_self, if_true]
  by_cases hmem : multi_index.toNat ∈ flags
  · refine ⟨flags, by simp [hmem], fun i => ⟨fun h => Or.inl h, fun h => ?_⟩⟩
    rcases h with h | h
    · exact h
    · rw [(hcast i).mpr h]
      exact hmem
  · refine ⟨flags ++ [multi_index.toNat], by simp [hmem], fun i => ?_⟩
    simp only [List.mem_append, List.mem_singleton, hcast]

/-- What the body of the loop of `discard_rings` does for one turn whose rings exist. -/
theorem discard_rings_step_spec (both_union : buffer_turn_info P F → Bool)
    (c : buffered_piece_collection P F) (turn : buffer_turn_info P F)
    (hvalid : (turn.location ≠ intersection_location_type.location_ok ∨
        both_union turn = false) →
      (0 ≤ turn.op0.seg_id.multi_index ∧
        turn.op0.seg_id.multi_index.toNat < c.offsetted_rings.length) ∧
      (0 ≤ turn.op1.seg_id.multi_index ∧
        turn.op1.seg_id.multi_index.toNat < c.offsetted_rings.length)) :
    ∃ c1, discard_rings_step both_union c turn = some c1 ∧
      c1 = { c with has_accepted_intersections := c1.has_accepted_intersections,
                    has_discarded_intersections := c1.has_discarded_intersections } ∧
      (∀ i : Nat, i ∈ c1.has_discarded_intersections ↔
        i ∈ c.has_discarded_intersections ∨
          (turn.location ≠ intersection_location_type.location_ok ∧
            ((i : Int) = turn.op0.seg_id.multi_index ∨
              (i : Int) = turn.op1.seg_id.multi_index))) ∧
      (∀ i : Nat, i ∈ c1.has_accepted_intersections ↔
        i ∈ c.has_accepted_intersections ∨
          (turn.location = intersection_location_type.location_ok ∧ both_union turn = false ∧
            ((i : Int) = turn.op0.seg_id.multi_index ∨
              (i : Int) = turn.op1.seg_id.multi_index))) := by
  unfold discard_rings_step
  by_cases hloc : turn.location ≠ intersection_location_type.location_ok
  · obtain ⟨⟨h00, h01⟩, ⟨h10, h11⟩⟩ := hvalid (Or.inl hloc)
    obtain ⟨flags0, hf0, hm0⟩ := set_ring_flag_spec c.offsetted_rings.length _
      c.has_discarded_intersections h00 h01
    obtain ⟨flags1, hf1, hm1⟩ := set_ring_flag_spec c.offsetted_rings.length _ flags0 h10 h11
    refine ⟨{ c with has_discarded_intersections := flags1 }, by simp [hloc, hf0, hf1], rfl,
      ?_, ?_⟩
    · intro i
      simp only [hm1, hm0, hloc, not_false_eq_true, true_and, ne_eq]
      tauto
    · intro i
      simp only [ne_eq] at hloc
      simp [hloc]
  · have hok : turn.location = intersection_location_type.location_ok := by
      simpa using hloc
    by_cases hboth : both_union turn = false
    · obtain ⟨⟨h00, h01⟩, ⟨h10, h11⟩⟩ := hvalid (Or.inr hboth)
      obtain ⟨flags0, hf0, hm0⟩ := set_ring_flag_spec c.offsetted_rings.length _
        c.has_accepted_intersections h00 h01
      obtain ⟨flags1, hf1, hm1⟩ := set_ring_flag_spec c.offsetted_rings.length _ flags0 h10 h11
      refine ⟨{ c with has_accepted_intersections := flags1 },
        by simp [hok, hboth, hf0, hf1], rfl, ?_, ?_⟩
      · intro i
        simp [hok]
      · intro i
        simp only [hm1, hm0, hok, hboth, true_and]
        tauto
    · have htrue : both_union turn = true := by simpa using hboth
      refine ⟨c, by simp [hok, htrue], rfl, ?_, ?_⟩
      · intro i
        simp [hok]
      · intro i
        simp [htrue]

/-- What the loop of `discard_rings` does over turns whose rings exist. -/
theorem discard_rings_loop_spec (both_union : buffer_turn_info P F → Bool) :
    ∀ (turns : List (buffer_turn_info P F)) (c : buffered_piece_collection P F),
      (∀ turn ∈ turns, (turn.location ≠ intersection_location_type.location_ok ∨
          both_union turn = false) →
        (0 ≤ turn.op0.seg_id.multi_index ∧
          turn.op0.seg_id.multi_index.toNat < c.offsetted_rings.length) ∧
        (0 ≤ turn.op1.seg_id.multi_index ∧
          turn.op1.seg_id.multi_index.toNat < c.offsetted_rings.length)) →
      ∃ c1, discard_rings_loop both_union turns c = some c1 ∧
        c1 = { c with has_accepted_intersections := c1.has_accepted_intersections,
                      has_discarded_intersections := c1.has_discarded_intersections } ∧
        (∀ i : Nat, i ∈ c1.has_discarded_intersections ↔
          i ∈ c.has_discarded_intersections ∨
            ∃ turn ∈ turns, turn.location ≠ intersection_location_type.location_ok ∧
              ((i : Int) = turn.op0.seg_id.multi_index ∨
                (i : Int) = turn.op1.seg_id.multi_index)) ∧
        (∀ i : Nat, i ∈ c1.has_accepted_intersections ↔
          i ∈ c.has_accepted_intersections ∨
            ∃ turn ∈ turns, turn.location = intersection_location_type.location_ok ∧
              both_union turn = false ∧
              ((i : Int) = turn.op0.seg_id.multi_index ∨
                (i : Int) = turn.op1.seg_id.multi_index)) := by
  intro turns
  induction turns with
  | nil =>
    intro c _
    exact ⟨c, rfl, rfl, by simp, by simp⟩
  | cons turn rest ih =>
    intro c hvalid
    obtain ⟨c1, hstep, hc1, hd1, ha1⟩ :=
      discard_rings_step_spec both_union c turn (hvalid turn (List.mem_cons_self _ _))
    have hlen : c1.offsetted_rings.length = c.offsetted_rings.length := by rw [hc1]
    obtain ⟨c2, hloop, hc2, hd2, ha2⟩ := ih c1 (by
      intro t ht h
      rw [hlen]
      exact hvalid t (List.mem_cons_of_mem _ ht) h)
    refine ⟨c2, by simp [discard_rings_loop, hstep, hloop], ?_, ?_, ?_⟩
    · rw [hc2, hc1]
    · intro i
      rw [hd2, hd1]
      simp only [List.mem_cons, exists_eq_or_imp]
      exact or_assoc
    · intro i
      rw [ha2, ha1]
      simp only [List.mem_cons, exists_eq_or_imp]
      exact or_assoc

/-- C38: when every turn that sets a flag has its two operations on existing offsetted rings,
`discard_rings` returns and changes nothing but the ring flags: no turn and no ring point
changes, no flag that is set is cleared, and, starting from clear flags, a ring has
`has_discarded_intersections` set if and only if some turn whose location is not ok has one of
its two operations on that ring, and `has_accepted_intersections` set if and only if some turn
whose location is ok and which is not a union for both operations has an operation on that
ring; a ring with clear flags whose turns are all ok and union for both operations gets neither
flag. -/
theorem discard_rings_flags (both_union : buffer_turn_info P F → Bool)
    (c : buffered_piece_collection P F)
    (hvalid : ∀ turn ∈ c.m_turns,
      (turn.location ≠ intersection_location_type.location_ok ∨ both_union turn = false) →
      (0 ≤ turn.op0.seg_id.multi_index ∧
        turn.op0.seg_id.multi_index.toNat < c.offsetted_rings.length) ∧
      (0 ≤ turn.op1.seg_id.multi_index ∧
        turn.op1.seg_id.multi_index.toNat < c.offsetted_rings.length)) :
    ∃ c1, discard_rings both_union c = some c1 ∧
      c1.m_turns = c.m_turns ∧ c1.offsetted_rings = c.offsetted_rings ∧
      c1.m_pieces = c.m_pieces ∧ c1.traversed_rings = c.traversed_rings ∧
      c1.current_segment_id = c.current_segment_id ∧
      (∀ i ∈ c.has_discarded_intersections, i ∈ c1.has_discarded_intersections) ∧
      (∀ i ∈ c.has_accepted_intersections, i ∈ c1.has_accepted_intersections) ∧
      (c.has_discarded_intersections = [] →
        ∀ i : Nat, i ∈ c1.has_discarded_intersections ↔
          ∃ turn ∈ c.m_turns, turn.location ≠ intersection_location_type.location_ok ∧
            ((i : Int) = turn.op0.seg_id.multi_index ∨
              (i : Int) = turn.op1.seg_id.multi_index)) ∧
      (c.has_accepted_intersections = [] →
        ∀ i : Nat, i ∈ c1.has_accepted_intersections ↔
          ∃ turn ∈ c.m_turns, turn.location = intersection_location_type.location_ok ∧
            both_union turn = false ∧
            ((i : Int) = turn.op0.seg_id.multi_index ∨
              (i : Int) = turn.op1.seg_id.multi_index)) ∧
      (∀ i : Nat, i ∉ c.has_discarded_intersections → i ∉ c.has_accepted_intersections →
        (∀ turn ∈ c.m_turns,
          ((i : Int) = turn.op0.seg_id.multi_index ∨
            (i : Int) = turn.op1.seg_id.multi_index) →
          turn.location = intersection_location_type.location_ok ∧ both_union turn = true) →
        i ∉ c1.has_discarded_intersections ∧ i ∉ c1.has_accepted_intersections) := by
  obtain ⟨c1, hloop, hc1, hd, ha⟩ := discard_rings_loop_spec both_union c.m_turns c hvalid
  refine ⟨c1, hloop, by rw [hc1], by rw [hc1], by rw [hc1], by rw [hc1], by rw [hc1],
    fun i hi => (hd i).mpr (Or.inl hi), fun i hi => (ha i).mpr (Or.inl hi), ?_, ?_, ?_⟩
  · intro hclear i
    rw [hd, hclear]
    simp
  · intro hclear i
    rw [ha, hclear]
    simp
  · intro i hnd hna hall
    constructor
    · rw [hd]
      rintro (h | ⟨turn, ht, hloc, hi⟩)
      · exact hnd h
      · exact hloc (hall turn ht hi).1
    · rw [ha]
      rintro (h | ⟨turn, ht, _, hboth, hi⟩)
      · exact hna h
      · rw [(hall turn ht hi).2] at hboth
        cases hboth

/-- C38, instance: four rings with clear flags, a turn that is not ok on the rings `0` and `1`,
an ok turn that is no union on the rings `1` and `2`, and an ok turn that is a union for both
operations on the ring `3`. -/
theorem discard_rings_flags_witness :
    ∃ c1, discard_rings example_both_union example_flag_collection = some c1 ∧
      c1.m_turns = example_flag_collection.m_turns ∧
      c1.offsetted_rings = example_flag_collection.offsetted_rings ∧
      c1.m_pieces = example_flag_collection.m_pieces ∧
      c1.traversed_rings = example_flag_collection.traversed_rings ∧
      c1.current_segment_id = example_flag_collection.current_segment_id ∧
      (∀ i ∈ example_flag_collection.has_discarded_intersections,
        i ∈ c1.has_discarded_intersections) ∧
      (∀ i ∈ example_flag_collection.has_accepted_intersections,
        i ∈ c1.has_accepted_intersections) ∧
      (example_flag_collection.has_discarded_intersections = [] →
        ∀ i : Nat, i ∈ c1.has_discarded_intersections ↔
          ∃ turn ∈ example_flag_collection.m_turns,
            turn.location ≠ intersection_location_type.location_ok ∧
            ((i : Int) = turn.op0.seg_id.multi_index ∨
              (i : Int) = turn.op1.seg_id.multi_index)) ∧
      (example_flag_collection.has_accepted_intersections = [] →
        ∀ i : Nat, i ∈ c1.has_accepted_intersections ↔
          ∃ turn ∈ example_flag_collection.m_turns,
            turn.location = intersection_location_type.location_ok ∧
            example_both_union turn = false ∧
            ((i : Int) = turn.op0.seg_id.multi_index ∨
              (i : Int) = turn.op1.seg_id.multi_index)) ∧
      (∀ i : Nat, i ∉ example_flag_collection.has_discarded_intersections →
        i ∉ example_flag_collection.has_accepted_intersections →
        (∀ turn ∈ example_flag_collection.m_turns,
          ((i : Int) = turn.op0.seg_id.multi_index ∨
            (i : Int) = turn.op1.seg_id.multi_index) →
          turn.location = intersection_location_type.location_ok ∧
            example_both_union turn = true) →
        i ∉ c1.has_discarded_intersections ∧ i ∉ c1.has_accepted_intersections) :=
  discard_rings_flags example_both_union example_flag_collection (by decide)

/-- C31: for a collection without pieces, turns, offsetted rings and traversed rings, whatever
the collaborators, the input geometry and the factor of the distance strategy: `get_turns`
returns, with no assertion failed, and leaves the collection as it is, without a turn;
`discard_rings`, `discard_turns` and `reverse` leave it as it is; `assign` selects no ring and
hands the empty selection to the functions that emit the result. -/
theorem empty_input_result {G R O : Type} (k : turn_strategies P F A L G) (fuel : Nat)
    (input_geometry : G) (factor : Int) (both_union opposite : buffer_turn_info P F → Bool)
    (has_intersections : Bool → Bool → Bool) (properties : List P → R)
    (assign_parents : List (List P) → List (List P) → List (ring_identifier × R) →
      List (ring_identifier × R))
    (add_rings : List (ring_identifier × R) → List (List P) → List (List P) → O → O)
    (c : buffered_piece_collection P F) (out : O)
    (hpieces : c.m_pieces = []) (hturns : c.m_turns = []) (hrings : c.offsetted_rings = [])
    (htraversed : c.traversed_rings = []) :
    get_turns k (fuel + 1) input_geometry factor c = some c ∧
    discard_rings both_union c = some c ∧
    discard_turns opposite c = c ∧
    reverse has_intersections c = c ∧
    assign_selected has_intersections properties c = [] ∧
    assign has_intersections properties assign_parents add_rings c out
      = add_rings (assign_parents [] [] []) [] [] out := by
  obtain ⟨m_pieces, m_turns, offsetted_rings, current_segment_id, traversed_rings,
    has_accepted, has_discarded⟩ := c
  simp only at hpieces hturns hrings htraversed
  subst hpieces hturns hrings htraversed
  refine ⟨?_, rfl, rfl, rfl, rfl, rfl⟩
  simp [get_turns, get_turns_pairs, get_turns_loop1, rescale_pieces, rescale_piece_loop,
    add_robust_turns_loop, insert_robust_turns_pieces, assert_indices_in_robust_rings,
    classify_turns, get_occupation, occupation_add_turns, occupation_erase_single,
    classify_inside, check_remaining_points]

/-- C31, instance: the empty collection with the example collaborators, a polygon as input and
the factor `1`; nothing is emitted. -/
theorem empty_input_result_witness :
    get_turns example_turn_strategies 2 () 1 example_empty_collection
      = some example_empty_collection ∧
    discard_rings example_both_union example_empty_collection = some example_empty_collection ∧
    discard_turns example_both_union example_empty_collection = example_empty_collection ∧
    reverse example_has_intersections example_empty_collection = example_empty_collection ∧
    assign_selected example_has_intersections example_properties example_empty_collection
      = [] ∧
    assign example_has_intersections example_properties example_assign_parents
        example_add_rings example_empty_collection [] = [] :=
  empty_input_result example_turn_strategies 1 () 1 example_both_union example_both_union
    example_has_intersections example_properties example_assign_parents example_add_rings
    example_empty_collection [] rfl rfl rfl rfl

end pipeline

/-! ## Functions of the library outside the buffer: theorems -/

section library

variable {P F : Type}

/-- Setting every coordinate below `n` to zero makes each of them zero. -/
theorem get_foldl_set_zero {G T : Type} [Zero T] (k : coordinate_access G T)
    (hchecked : k.checked) :
    ∀ (n : Nat), n ≤ k.dimension → ∀ (g : G) (i : Nat), i < n →
      k.get i ((List.range n).foldl (fun g i => k.set i 0 g) g) = 0 := by
  intro n
  induction n with
  | zero => intro _ g i hi; omega
  | succ n ih =>
    intro hn g i hi
    rw [List.range_succ, List.foldl_append]
    simp only [List.foldl_cons, List.foldl_nil]
    rw [hchecked n i 0 _ (by omega) (by omega)]
    by_cases hin : i = n
    · rw [if_pos hin]
    · rw [if_neg hin]
      exact ih (by omega) g i (by omega)

/-- The pair of integers is a checked geometry with two coordinates. -/
theorem example_point_access_checked : example_point_access.checked := by
  intro i j v g hi hj
  simp only [example_point_access] at hi hj ⊢
  have hi2 : i = 0 ∨ i = 1 := by omega
  have hj2 : j = 0 ∨ j = 1 := by omega
  rcases hi2 with rfl | rfl <;> rcases hj2 with rfl | rfl <;> rfl

/-- The modelled `point_xyz` is a checked geometry with three coordinates. -/
theorem point_xyz_access_checked {T : Type} (origin : point_xyz T) :
    (point_xyz.access origin).checked := by
  intro i j v g hi hj
  simp only [point_xyz.access] at hi hj ⊢
  have hi3 : i = 0 ∨ i = 1 ∨ i = 2 := by omega
  have hj3 : j = 0 ∨ j = 1 ∨ j = 2 := by omega
  rcases hi3 with rfl | rfl | rfl <;> rcases hj3 with rfl | rfl | rfl <;> rfl

/-- C33: for a geometry whose `set` changes the coordinate it names and no other, with the
coordinate assignment of the library modelled as setting the coordinates in turn:
`make(c1, c2)` on a geometry with two coordinates returns a point whose coordinates `0` and
`1` are `c1` and `c2`; `make(c1, c2, c3)` on a geometry with three coordinates returns a point
whose coordinates `0`, `1` and `2` are `c1`, `c2` and `c3`; and every coordinate of
`make_zero()` is zero. -/
theorem make_coordinates {G T : Type} [Zero T] (k : coordinate_access G T)
    (hchecked : k.checked) :
    (k.dimension = 2 → ∀ c1 c2 : T,
      k.get 0 (make2 k c1 c2) = c1 ∧ k.get 1 (make2 k c1 c2) = c2) ∧
    (k.dimension = 3 → ∀ c1 c2 c3 : T,
      k.get 0 (make3 k c1 c2 c3) = c1 ∧ k.get 1 (make3 k c1 c2 c3) = c2 ∧
      k.get 2 (make3 k c1 c2 c3) = c3) ∧
    (∀ i : Nat, i < k.dimension → k.get i (make_zero k) = 0) := by
  refine ⟨?_, ?_, ?_⟩
  · intro h2 c1 c2
    simp only [make2, dispatch_assign2]
    constructor
    · rw [hchecked 1 0 _ _ (by omega) (by omega), hchecked 0 0 _ _ (by omega) (by omega)]
      simp
    · rw [hchecked 1 1 _ _ (by omega) (by omega)]
      simp
  · intro h3 c1 c2 c3
    simp only [make3, dispatch_assign3]
    refine ⟨?_, ?_, ?_⟩
    · rw [hchecked 2 0 _ _ (by omega) (by omega), hchecked 1 0 _ _ (by omega) (by omega),
        hchecked 0 0 _ _ (by omega) (by omega)]
      simp
    · rw [hchecked 2 1 _ _ (by omega) (by omega), hchecked 1 1 _ _ (by omega) (by omega)]
      simp
    · rw [hchecked 2 2 _ _ (by omega) (by omega)]
      simp
  · intro i hi
    exact get_foldl_set_zero k hchecked k.dimension (Nat.le_refl _) k.construct i hi

/-- C33, instance: `make(4, 5)` on pairs of integers, `make(4, 5, 6)` on a `point_xyz` of
integers, and `make_zero()` on both. -/
theorem make_coordinates_witness :
    (example_point_access.get 0 (make2 example_point_access 4 5) = 4 ∧
      example_point_access.get 1 (make2 example_point_access 4 5) = 5) ∧
    ((point_xyz.access (⟨7, 8, 9⟩ : point_xyz Int)).get 0
        (make3 (point_xyz.access ⟨7, 8, 9⟩) 4 5 6) = 4 ∧
      (point_xyz.access (⟨7, 8, 9⟩ : point_xyz Int)).get 1
        (make3 (point_xyz.access ⟨7, 8, 9⟩) 4 5 6) = 5 ∧
      (point_xyz.access (⟨7, 8, 9⟩ : point_xyz Int)).get 2
        (make3 (point_xyz.access ⟨7, 8, 9⟩) 4 5 6) = 6) ∧
    (point_xyz.access (⟨7, 8, 9⟩ : point_xyz Int)).get 2
      (make_zero (point_xyz.access ⟨7, 8, 9⟩)) = 0 :=
  ⟨(make_coordinates example_point_access example_point_access_checked).1 rfl 4 5,
    (make_coordinates (point_xyz.access (⟨7, 8, 9⟩ : point_xyz Int))
      (point_xyz_access_checked _)).2.1 rfl 4 5 6,
    (make_coordinates (point_xyz.access (⟨7, 8, 9⟩ : point_xyz Int))
      (point_xyz_access_checked _)).2.2 2 (by decide)⟩

/-- C34: a `point_xyz` constructed from `(x, y, z)` reports `get<0> = x() = x`,
`get<1> = y() = y` and `get<2> = z() = z`, so that the six checks of `check_point_xyz` hold;
after `set<i>(p, v)`, for `i` in `0`, `1`, `2`, `get<i>` and the matching named accessor
return `v` and the other two coordinates keep their values; and the two tests of the test
file pass. -/
theorem point_xyz_coordinates {T : Type} [DecidableEq T] [NatCast T] (x y z v : T)
    (p : point_xyz T) :
    ((point_xyz.mk x y z).get 0 = x ∧ (point_xyz.mk x y z).x = x ∧
      (point_xyz.mk x y z).get 1 = y ∧ (point_xyz.mk x y z).y = y ∧
      (point_xyz.mk x y z).get 2 = z ∧ (point_xyz.mk x y z).z = z ∧
      check_point_xyz (point_xyz.mk x y z) x y z = true) ∧
    ((p.set 0 v).get 0 = v ∧ (p.set 0 v).x = v ∧
      (p.set 0 v).get 1 = p.get 1 ∧ (p.set 0 v).get 2 = p.get 2 ∧
      (p.set 0 v).y = p.y ∧ (p.set 0 v).z = p.z) ∧
    ((p.set 1 v).get 1 = v ∧ (p.set 1 v).y = v ∧
      (p.set 1 v).get 0 = p.get 0 ∧ (p.set 1 v).get 2 = p.get 2 ∧
      (p.set 1 v).x = p.x ∧ (p.set 1 v).z = p.z) ∧
    ((p.set 2 v).get 2 = v ∧ (p.set 2 v).z = v ∧
      (p.set 2 v).get 0 = p.get 0 ∧ (p.set 2 v).get 1 = p.get 1 ∧
      (p.set 2 v).x = p.x ∧ (p.set 2 v).y = p.y) ∧
    test_construction T = true ∧ test_assignment T = true := by
  refine ⟨⟨rfl, rfl, rfl, rfl, rfl, rfl, ?_⟩, ⟨rfl, rfl, rfl, rfl, rfl, rfl⟩,
    ⟨rfl, rfl, rfl, rfl, rfl, rfl⟩, ⟨rfl, rfl, rfl, rfl, rfl, rfl⟩, ?_, ?_⟩
  · simp [check_point_xyz, point_xyz.get]
  · simp [test_construction, check_point_xyz, create_point_xyz, point_xyz.get]
  · simp [test_assignment, check_point_xyz, create_point_xyz, point_xyz.get, point_xyz.set]

/-- The recording stand-in does to the state what the analyser does. -/
theorem analyse_each_turn_loop_record {S : Type} (apply : Nat → S → S) (interrupt : S → Bool) :
    ∀ (remaining it : Nat) (res : S) (calls : List Nat),
      ((analyse_each_turn_loop (record_analyser apply) (fun r => interrupt r.1) remaining it
          (res, calls)).1.1,
        (analyse_each_turn_loop (record_analyser apply) (fun r => interrupt r.1) remaining it
          (res, calls)).2)
        = analyse_each_turn_loop apply interrupt remaining it res := by
  intro remaining
  induction remaining with
  | zero => intro it res calls; rfl
  | succ remaining ih =>
    intro it res calls
    simp only [analyse_each_turn_loop, record_analyser]
    by_cases h : interrupt (apply it res) = true
    · simp only [h, if_true]
    · simp only [h, if_false, Bool.false_eq_true]
      exact ih (it + 1) (apply it res) (calls ++ [it])

/-- The loop of `analyse_each_turn` runs to its end when no call sets the interrupt flag: the
analyser is called at every position, in order. -/
theorem analyse_each_turn_loop_all {S : Type} (apply : Nat → S → S) (interrupt : S → Bool) :
    ∀ (remaining it : Nat) (res : S) (calls : List Nat),
      (∀ j : Nat, j < remaining →
        interrupt ((List.range' it (j + 1)).foldl (fun r i => apply i r) res) = false) →
      analyse_each_turn_loop (record_analyser apply) (fun r => interrupt r.1) remaining it
          (res, calls)
        = (((List.range' it remaining).foldl (fun r i => apply i r) res,
            calls ++ List.range' it remaining), false) := by
  intro remaining
  induction remaining with
  | zero => intro it res calls _; simp [analyse_each_turn_loop]
  | succ remaining ih =>
    intro it res calls hno
    have h0 : interrupt (apply it res) = false := by
      have := hno 0 (by omega)
      simpa using this
    simp only [analyse_each_turn_loop, record_analyser, h0, Bool.false_eq_true, if_false]
    rw [ih (it + 1) (apply it res) (calls ++ [it])]
    · simp [List.range'_succ]
    · intro j hj
      have := hno (j + 1) (by omega)
      rw [List.range'_succ] at this
      simpa using this

/-- The loop of `analyse_each_turn` returns at the first call that sets the interrupt flag:
the analyser is called at the positions up to that one, in order, and at no other. -/
theorem analyse_each_turn_loop_interrupt {S : Type} (apply : Nat → S → S)
    (interrupt : S → Bool) :
    ∀ (k remaining it : Nat) (res : S) (calls : List Nat), k < remaining →
      (∀ j : Nat, j < k →
        interrupt ((List.range' it (j + 1)).foldl (fun r i => apply i r) res) = false) →
      interrupt ((List.range' it (k + 1)).foldl (fun r i => apply i r) res) = true →
      analyse_each_turn_loop (record_analyser apply) (fun r => interrupt r.1) remaining it
          (res, calls)
        = (((List.range' it (k + 1)).foldl (fun r i => apply i r) res,
            calls ++ List.range' it (k + 1)), true) := by
  intro k
  induction k with
  | zero =>
    intro remaining it res calls hk _ hint
    obtain ⟨remaining, rfl⟩ : ∃ r, remaining = r + 1 := ⟨remaining - 1, by omega⟩
    have h0 : interrupt (apply it res) = true := by simpa using hint
    simp [analyse_each_turn_loop, record_analyser, h0]
  | succ k ih =>
    intro remaining it res calls hk hno hint
    obtain ⟨remaining, rfl⟩ : ∃ r, remaining = r + 1 := ⟨remaining - 1, by omega⟩
    have h0 : interrupt (apply it res) = false := by
      have := hno 0 (by omega)
      simpa using this
    simp only [analyse_each_turn_loop, record_analyser, h0, Bool.false_eq_true, if_false]
    rw [ih remaining (it + 1) (apply it res) (calls ++ [it]) (by omega)]
    · simp [List.range'_succ]
    · intro j hj
      have := hno (j + 1) (by omega)
      rw [List.range'_succ] at this
      simpa using this
    · rw [List.range'_succ] at hint
      simpa using hint

/-- C40: with the analyser replaced by a stand-in that also records the position it is called
with: the state `analyse_each_turn` ends in is the one of the analyser alone; on an empty turn
range the analyser is not called; on a range of `last >= 1` turns, when no call on a turn sets
the interrupt flag, the analyser is called on every turn in order and once more with the
iterator equal to `last`, `last + 1` calls in all; and when the call on the turn at position
`it` is the first that sets the interrupt flag, the calls are those on the turns up to `it`
and no other, the final one included. -/
theorem analyse_each_turn_calls {S : Type} (apply : Nat → S → S) (interrupt : S → Bool)
    (last : Nat) (res : S) :
    (analyse_each_turn (record_analyser apply) (fun r => interrupt r.1) last (res, [])).1
      = analyse_each_turn apply interrupt last res ∧
    (last = 0 →
      analyse_each_turn (record_analyser apply) (fun r => interrupt r.1) last (res, [])
        = (res, [])) ∧
    (1 ≤ last → (∀ it : Nat, it < last → interrupt (analysed apply res (it + 1)) = false) →
      analyse_each_turn (record_analyser apply) (fun r => interrupt r.1) last (res, [])
        = (apply last (analysed apply res last), List.range (last + 1)) ∧
      (List.range (last + 1)).length = last + 1) ∧
    (∀ it : Nat, it < last →
      (∀ j : Nat, j < it → interrupt (analysed apply res (j + 1)) = false) →
      interrupt (analysed apply res (it + 1)) = true →
      analyse_each_turn (record_analyser apply) (fun r => interrupt r.1) last (res, [])
        = (analysed apply res (it + 1), List.range (it + 1))) := by
  refine ⟨?_, ?_, ?_, ?_⟩
  · unfold analyse_each_turn
    by_cases h0 : last = 0
    · simp [h0]
    · simp only [h0, if_false]
      have h := analyse_each_turn_loop_record apply interrupt last 0 res []
      rcases hloop : analyse_each_turn_loop (record_analyser apply) (fun r => interrupt r.1)
          last 0 (res, []) with ⟨⟨res1, calls1⟩, returned⟩
      rw [hloop] at h
      rw [← h]
      cases returned <;> rfl
  · intro h0
    simp [analyse_each_turn, h0]
  · intro h1 hno
    have hloop := analyse_each_turn_loop_all apply interrupt last 0 res [] (by
      intro j hj
      have := hno j hj
      rw [analysed, List.range_eq_range'] at this
      exact this)
    refine ⟨?_, by simp⟩
    unfold analyse_each_turn
    rw [if_neg (by omega), hloop]
    simp only [record_analyser, List.nil_append, analysed, List.range_eq_range']
    rw [List.range'_concat]
    simp
  · intro it hit hno hint
    have hloop := analyse_each_turn_loop_interrupt apply interrupt it last 0 res [] hit (by
      intro j hj
      have := hno j hj
      rw [analysed, List.range_eq_range'] at this
      exact this) (by
      rw [analysed, List.range_eq_range'] at hint
      exact hint)
    unfold analyse_each_turn
    rw [if_neg (by omega), hloop]
    simp only [List.nil_append, analysed, List.range_eq_range']

/-- C40, instance: on three turns with an analyser that never interrupts the calls are at the
positions `0, 1, 2, 3`; with an analyser that interrupts at position `1` they are at `0, 1`;
and on no turn there is no call. -/
theorem analyse_each_turn_calls_witness :
    analyse_each_turn (record_analyser example_analyser)
        (fun r => example_interrupt 7 r.1) 3 ([], [])
      = ([3, 2, 1, 0], [0, 1, 2, 3]) ∧
    analyse_each_turn (record_analyser example_analyser)
        (fun r => example_interrupt 1 r.1) 3 ([], [])
      = ([1, 0], [0, 1]) ∧
    analyse_each_turn (record_analyser example_analyser)
        (fun r => example_interrupt 1 r.1) 0 ([], [])
      = ([], []) :=
  ⟨((analyse_each_turn_calls example_analyser (example_interrupt 7) 3 []).2.2.1
      (by decide) (by decide)).1,
    (analyse_each_turn_calls example_analyser (example_interrupt 1) 3 []).2.2.2 1
      (by decide) (by decide) (by decide),
    (analyse_each_turn_calls example_analyser (example_interrupt 1) 0 []).2.1 rfl⟩

end library

end buffer
